import Mathlib

/-!
# Horizon board: connectivity propagation and ratsnest

A shallow embedding of `src/board/board.cpp` (namespace `horizon`): the
net-segment propagator `Board::propagate_net_segments`, the ratsnest builder
(`kruskalMST`, `Board::update_airwires`), the orchestrator `Board::expand`, the
editing primitives `Board::disconnect_package` and `Board::smash_package`,
`flip_package_layer` with the layer table of `Board::set_n_inner_layers`, and the
validity test for persisted tracks of the constructor `Board::Board`.

Modelling conventions.

* `UUID` is a natural number, `0` being the null id `UUID()`; `!uu` in the
  source is `uu = 0` here.
* `Net*` is `Option Net`; `nullptr` is `none`.
* A `std::map<UUID, T>` is the list of its entries in iteration order.
  `mapAt` is `map::at` (failing with `none` where the source throws),
  `mapModify` is a write through a pointer to the entry with that key.
  Maps that are only searched by key (`net_segments`, `airwires`) keep their
  entries in insertion order.
* `double` values hold integers here (pad and junction coordinates and the
  sums of squares of their differences); they are modelled by the `Int` they
  hold, and every assignment to a `double` rounds to 53 significant bits
  (`round_double`).
* Pointers to junctions, packages and pads are the keys of the entries they
  point to (`Connection`).
* `UUID::random()` is a supply of identifiers handed to the functions that
  draw from it.
* `while` loops take a `fuel` bound and return `none` when it is exhausted.
-/

namespace Horizon

/-! ## Definitions -/

/-- Identifier; `0` is the null identifier `UUID()`. -/
abbrev UUID := Nat

/-- Identity of a net of the netlist (`Net*` without the null pointer). -/
abbrev Net := Nat

/-- Integer coordinate pair `Coordi`. -/
structure Coordi where
  x : Int
  y : Int
deriving DecidableEq

/-- The squared distance of two coordinates. -/
def Coordi.dist2 (p q : Coordi) : Int :=
  (p.x - q.x) * (p.x - q.x) + (p.y - q.y) * (p.y - q.y)

/-- The fields of `Junction` that `board.cpp` reads or writes. -/
structure Junction where
  position : Coordi
  layer : Int := 10000
  net : Option Net := none
  net_segment : UUID := 0
  connection_count : Nat := 0
  has_via : Bool := false
  needs_via : Bool := false
  temp : Bool := false
deriving DecidableEq

/-- The fields of a package `Pad` that `board.cpp` reads or writes. `position`
is what `Track::Connection::get_position` returns for the pad. -/
structure Pad where
  position : Coordi
  net : Option Net := none
  net_segment : UUID := 0
deriving DecidableEq

/-- A `BoardPackage`: `pads` is `package.pads`, `pool_pads` is
`pool_package->pads`, `pad_map` is `component->part->pad_map` (pad to
gate/pin path) and `connections` is `component->connections` (gate/pin path to
net). -/
structure BoardPackage where
  pads : List (UUID × Pad)
  pool_pads : List (UUID × Pad)
  pad_map : List (UUID × (UUID × UUID))
  connections : List ((UUID × UUID) × Option Net)
deriving DecidableEq

/-- A `Track::Connection`: a junction, or a pad of a package. -/
inductive Connection where
  | junc (j : UUID)
  | pad (pkg : UUID) (pad : UUID)
deriving DecidableEq

/-- A `Track`. -/
structure Track where
  from_ : Connection
  to_ : Connection
  layer : Int := 0
  net : Option Net := none
  net_segment : UUID := 0
  is_air : Bool := false
deriving DecidableEq

/-- A `Via`: the key of its junction. -/
structure Via where
  junction : UUID
deriving DecidableEq

/-- A `Line`: the keys of its two junctions. -/
structure Line where
  from_ : UUID
  to_ : UUID
deriving DecidableEq

/-- The state of a `Board` that the embedded functions use. -/
structure Board where
  packages : List (UUID × BoardPackage) := []
  junctions : List (UUID × Junction) := []
  tracks : List (UUID × Track) := []
  airwires : List (UUID × Track) := []
  vias : List (UUID × Via) := []
  lines : List (UUID × Line) := []
  net_segments : List (UUID × Option Net) := []
  warnings : List (Coordi × String) := []
deriving DecidableEq

/-- The value stored under `k` (`map::at`, `none` when the key is absent). -/
def mapAt {α : Type} : List (UUID × α) → UUID → Option α
  | [], _ => none
  | (k', v) :: r, k => if k' = k then some v else mapAt r k

/-- Apply `f` to the value stored under `k`. -/
def mapModify {α : Type} (m : List (UUID × α)) (k : UUID) (f : α → α) : List (UUID × α) :=
  m.map fun e => (e.1, if e.1 = k then f e.2 else e.2)

/-- Insert `(k, v)` unless the key is present (`map::emplace`). -/
def mapEmplace {α : Type} (m : List (UUID × α)) (k : UUID) (v : α) : List (UUID × α) :=
  match mapAt m k with
  | some _ => m
  | none => m ++ [(k, v)]

/-- The pad a `(package, pad)` pointer pair refers to. -/
def padAt (pkgs : List (UUID × BoardPackage)) (pk pd : UUID) : Option Pad :=
  match mapAt pkgs pk with
  | some p => mapAt p.pads pd
  | none => none

/-- Write through a pad pointer. -/
def padModify (pkgs : List (UUID × BoardPackage)) (pk pd : UUID) (f : Pad → Pad) :
    List (UUID × BoardPackage) :=
  mapModify pkgs pk fun p => { p with pads := mapModify p.pads pd f }

/-- The `net_segment` of the entity a connection points to. -/
def Board.conn_segment (b : Board) : Connection → UUID
  | .junc j => match mapAt b.junctions j with
    | some ju => ju.net_segment
    | none => 0
  | .pad pk pd => match padAt b.packages pk pd with
    | some p => p.net_segment
    | none => 0

/-- Store `s` as the `net_segment` of the entity a connection points to. -/
def Board.set_conn_segment (b : Board) (c : Connection) (s : UUID) : Board :=
  match c with
  | .junc j => { b with junctions := mapModify b.junctions j fun ju => { ju with net_segment := s } }
  | .pad pk pd => { b with packages := padModify b.packages pk pd fun p => { p with net_segment := s } }

/-- The position of a connection (`Track::Connection::get_position`). -/
def Board.conn_position (b : Board) : Connection → Option Coordi
  | .junc j => (mapAt b.junctions j).map fun ju => ju.position
  | .pad pk pd => (padAt b.packages pk pd).map fun p => p.position

/-- The connection points to an entity of the board. -/
def Board.conn_live (b : Board) : Connection → Bool
  | .junc j => (mapAt b.junctions j).isSome
  | .pad pk pd => (padAt b.packages pk pd).isSome

/-- First loop of the `while(run)` body over the pads of one package: the first
pad with a net and without a net segment gets segment `s`; the result holds the
pad's net. -/
def seed_pads (s : UUID) : List (UUID × Pad) → Option (List (UUID × Pad) × Option Net)
  | [] => none
  | (k, p) :: r =>
    if p.net_segment = 0 ∧ p.net ≠ none then
      some ((k, { p with net_segment := s }) :: r, p.net)
    else
      match seed_pads s r with
      | some (r', n) => some ((k, p) :: r', n)
      | none => none

/-- The loop over the packages that finds one pad to seed. -/
def seed_packages (s : UUID) :
    List (UUID × BoardPackage) → Option (List (UUID × BoardPackage) × Option Net)
  | [] => none
  | (k, p) :: r =>
    match seed_pads s p.pads with
    | some (pads', n) => some ((k, { p with pads := pads' }) :: r, n)
    | none =>
      match seed_packages s r with
      | some (r', n) => some ((k, p) :: r', n)
      | none => none

/-- Seeding step: assign the fresh segment `s` to one pad and bind it to the
pad's net in `net_segments`; `none` when no pad needs a segment. -/
def Board.seed (b : Board) (s : UUID) : Option Board :=
  match seed_packages s b.packages with
  | some (pkgs, n) => some { b with packages := pkgs, net_segments := mapEmplace b.net_segments s n }
  | none => none

/-- A track with a net segment hands it to an endpoint that has none. -/
def propagate_to (seg : UUID) (c : Connection) (st : Board × Nat) : Board × Nat :=
  if st.1.conn_segment c = 0 then (st.1.set_conn_segment c seg, st.2 + 1) else st

/-- A track without a net segment takes the one of an endpoint that has one. -/
def propagate_from (b : Board) (c : Connection) (st : Track × Nat) : Track × Nat :=
  if b.conn_segment c ≠ 0 then ({ st.1 with net_segment := b.conn_segment c }, st.2 + 1) else st

/-- Body of the loop over the tracks in the flood. -/
def flood_track (t : Track) (st : Board × Nat) : Track × Board × Nat :=
  if t.net_segment ≠ 0 then
    let st2 := propagate_to t.net_segment t.to_ (propagate_to t.net_segment t.from_ st)
    (t, st2.1, st2.2)
  else
    let r := propagate_from st.1 t.to_ (propagate_from st.1 t.from_ (t, st.2))
    (r.1, st.1, r.2)

/-- One pass `for(auto &it: tracks)` of the flood; the board carries the
junctions and pads, the tracks are rebuilt in order. -/
def flood_tracks : List (UUID × Track) → Board × Nat → List (UUID × Track) × Board × Nat
  | [], st => ([], st.1, st.2)
  | (k, t) :: r, st =>
    let x := flood_track t st
    let y := flood_tracks r (x.2.1, x.2.2)
    ((k, x.1) :: y.1, y.2.1, y.2.2)

/-- One pass of the flood over the board: the new board and `n_assigned`. -/
def Board.flood_pass (b : Board) : Board × Nat :=
  let y := flood_tracks b.tracks (b, 0)
  ({ y.2.1 with tracks := y.1 }, y.2.2)

/-- The loop `while(n_assigned)`. -/
def Board.flood : Nat → Board → Option Board
  | 0, _ => none
  | fuel + 1, b =>
    let r := b.flood_pass
    if r.2 = 0 then some r.1 else Board.flood fuel r.1

/-- The loop `while(run)`: seed one pad with the next identifier of `rnd`, flood,
repeat until no pad needs a segment. -/
def Board.seed_loop (rnd : Nat → UUID) : Nat → Nat → Board → Option Board
  | 0, _, _ => none
  | fuel + 1, j, b =>
    match b.seed (rnd j) with
    | none => some b
    | some b1 =>
      match Board.flood (fuel + 1) b1 with
      | none => none
      | some b2 => Board.seed_loop rnd fuel (j + 1) b2

/-- The loop that assigns a net to every junction. -/
def assign_junction_nets (segs : List (UUID × Option Net)) :
    List (UUID × Junction) → Option (List (UUID × Junction))
  | [] => some []
  | (k, ju) :: r =>
    match mapAt segs ju.net_segment, assign_junction_nets segs r with
    | some n, some r' => some ((k, { ju with net := n }) :: r')
    | _, _ => none

/-- The net of a pad endpoint, `none` for a junction endpoint or a pad without net
(the condition `it_ft.is_pad() && it_ft.pad->net`). -/
def Board.conn_pad_net (b : Board) : Connection → Option Net
  | .junc _ => none
  | .pad pk pd => match padAt b.packages pk pd with
    | some p => p.net
    | none => none

/-- The track joins a pad whose net is not the track's net. -/
def Board.track_conflict (b : Board) (t : Track) : Bool :=
  (b.conn_pad_net t.from_ ≠ none ∧ t.net ≠ b.conn_pad_net t.from_) ∨
  (b.conn_pad_net t.to_ ≠ none ∧ t.net ≠ b.conn_pad_net t.to_)

/-- The loop that assigns nets to tracks and erases the tracks that connect
different nets; the flag is `done`. -/
def Board.check_tracks (b : Board) :
    List (UUID × Track) → Option (List (UUID × Track) × Bool)
  | [] => some ([], true)
  | (k, t) :: r =>
    match mapAt b.net_segments t.net_segment, b.check_tracks r with
    | some n, some (r', d) =>
      let t' := { t with net := n }
      if b.track_conflict t' then some (r', false) else some ((k, t') :: r', d)
    | _, _ => none

/-- `Board::propagate_net_segments`; the result is the board and the returned
flag. -/
def Board.propagate_net_segments (fuel : Nat) (rnd : Nat → UUID) (b : Board) :
    Option (Board × Bool) :=
  match Board.seed_loop rnd fuel 0 { b with net_segments := mapEmplace [] 0 none } with
  | none => none
  | some b1 =>
    match assign_junction_nets b1.net_segments b1.junctions with
    | none => none
    | some js =>
      let b2 := { b1 with junctions := js }
      match b2.check_tracks b2.tracks with
      | none => none
      | some (ts, d) => some ({ b2 with tracks := ts }, d)

/-- First loop of the `do` body of `expand`: clear the net segment of every pad. -/
def clear_packages (pkgs : List (UUID × BoardPackage)) : List (UUID × BoardPackage) :=
  pkgs.map fun e =>
    (e.1, { e.2 with pads := e.2.pads.map fun p => (p.1, { p.2 with net_segment := 0 }) })

/-- Second loop of the `do` body of `expand`: clear net and net segment of every
track. -/
def clear_tracks (ts : List (UUID × Track)) : List (UUID × Track) :=
  ts.map fun e => (e.1, { e.2 with net := none, net_segment := 0 })

/-- Third loop of the `do` body of `expand`: clear net and net segment of every
junction. -/
def clear_junctions (js : List (UUID × Junction)) : List (UUID × Junction) :=
  js.map fun e => (e.1, { e.2 with net := none, net_segment := 0 })

/-- Body of the `do` loop of `expand`: clear net segments and nets of pads,
tracks and junctions. -/
def Board.clear_nets (b : Board) : Board :=
  { b with
    packages := clear_packages b.packages
    tracks := clear_tracks b.tracks
    junctions := clear_junctions b.junctions }

/-- The loop `do ... while(propagate_net_segments() == false)` of `expand`; pass
`p` draws its identifiers from `rnd p`. The result holds the number of calls of
`propagate_net_segments`. -/
def Board.propagate_loop (rnd : Nat → Nat → UUID) (fuel : Nat) :
    Nat → Nat → Board → Option (Board × Nat)
  | 0, _, _ => none
  | k + 1, p, b =>
    match b.clear_nets.propagate_net_segments fuel (rnd p) with
    | none => none
    | some (b', true) => some (b', p + 1)
    | some (b', false) => Board.propagate_loop rnd fuel k (p + 1) b'

/-- The net an endpoint of a track resolves to: the `net` field of the junction
or of the pad. -/
def Board.conn_net (b : Board) : Connection → Option Net
  | .junc j => match mapAt b.junctions j with
    | some ju => ju.net
    | none => none
  | .pad pk pd => match padAt b.packages pk pd with
    | some p => p.net
    | none => none

/-- A `delaunay::Vector2<double>`: coordinates and `id`. The coordinates are
`double` in the source; they hold integers, and `x` and `y` are these integers.
The field `tag` is written by `kruskalMST` and never read, it is left out. -/
structure Vector2 where
  x : Int
  y : Int
  id : Nat
deriving DecidableEq

/-- A `delaunay::Edge<double>`; the constructor's default weight is `-1`. The
weight is a `double` in the source; it holds `-1` or an integer, and `weight` is
that integer. -/
structure Edge where
  p1 : Vector2
  p2 : Vector2
  weight : Int := -1
deriving DecidableEq

/-- The number of low bits that a `double` cannot hold of the natural number
`a`: the least `k` with `a / 2 ^ k < 2 ^ 53`. The first argument bounds the
search. -/
def drop_bits : Nat → Nat → Nat
  | 0, _ => 0
  | f + 1, a => if a < 9007199254740992 then 0 else drop_bits f (a / 2) + 1

/-- The integer that a `double` holds after it is assigned the integer `n`:
`n` rounded to 53 significant bits, to the nearest, ties to the even mantissa.
Integers below `2 ^ 53` in absolute value are kept. (For `|n| < 2 ^ 1024`; the
squares of 64-bit coordinates are far below.) -/
def round_double (n : Int) : Int :=
  let a := n.natAbs
  let k := drop_bits 1024 a
  let q := a / 2 ^ k
  let r := a % 2 ^ k
  let up := decide (2 ^ k < 2 * r) || (decide (2 * r = 2 ^ k) && decide (q % 2 = 1))
  let m := if up then q + 1 else q
  if 0 ≤ n then ((m * 2 ^ k : Nat) : Int) else -((m * 2 ^ k : Nat) : Int)

/-- Modelled from the spec: `Vector2<double>::dist2` of the triangulation library,
which is not under `src/`; "geometric edge weight = squared Euclidean distance".
The coordinates and the result are `double` in the source (`Vector2<double>`,
`double dist`), so the differences, the two squares and the sum are rounded. -/
def Vector2.dist2 (p q : Vector2) : Int :=
  let dx := round_double (p.x - q.x)
  let dy := round_double (p.y - q.y)
  round_double (round_double (dx * dx) + round_double (dy * dy))

/-- The local variables of `kruskalMST`. `tags` is the `unordered_map`, whose
`operator[]` yields `0` for a key never written. -/
structure MstState where
  tags : Nat → Nat
  cycles : List (List Nat)
  mstExpectedSize : Nat
  mstSize : Nat
  ratsnestLines : Bool
  mst : List Edge

/-- The loop `for(it in cycles[trgTag]) tags[aNodes[*it].id] = srcTag`. -/
def retag (nodes : List Vector2) (srcTag : Nat) (tags : Nat → Nat) : List Nat → Nat → Nat
  | [] => tags
  | i :: r =>
    let k := ((nodes.get? i).map fun v => v.id).getD 0
    retag nodes srcTag (fun j => if j = k then srcTag else tags j) r

/-- The statement `cycles[srcTag].splice(cycles[srcTag].end(), cycles[trgTag])`. -/
def splice (cycles : List (List Nat)) (srcTag trgTag : Nat) : List (List Nat) :=
  (cycles.set srcTag (cycles.getD srcTag [] ++ cycles.getD trgTag [])).set trgTag []

/-- Body of the `while` loop of `kruskalMST` for the front edge `dt`. -/
def kruskal_step (nodes : List Vector2) (dt : Edge) (s : MstState) : MstState :=
  let srcTag := s.tags dt.p1.id
  let trgTag := s.tags dt.p2.id
  if srcTag ≠ trgTag then
    let rl := s.ratsnestLines || decide (0 ≤ dt.weight)
    let tags' := retag nodes srcTag s.tags (s.cycles.getD trgTag [])
    let cycles' := splice s.cycles srcTag trgTag
    if rl then
      { s with tags := tags', cycles := cycles', ratsnestLines := rl,
               mst := s.mst ++ [dt], mstSize := s.mstSize + 1 }
    else
      { s with tags := tags', cycles := cycles', ratsnestLines := rl,
               mstExpectedSize := s.mstExpectedSize - 1 }
  else s

/-- The loop `while(mstSize < mstExpectedSize && !aEdges.empty())`; each round
takes the front edge and erases it. -/
def kruskal_loop (nodes : List Vector2) : List Edge → MstState → MstState
  | [], s => s
  | dt :: rest, s =>
    if s.mstSize < s.mstExpectedSize then kruskal_loop nodes rest (kruskal_step nodes dt s)
    else s

/-- The tags after the loop `for(node : aNodes) tags[node.id] = tag++`. -/
def init_tags : List Vector2 → Nat → (Nat → Nat) → Nat → Nat
  | [], _, tags => tags
  | v :: r, tag, tags => init_tags r (tag + 1) (fun j => if j = v.id then tag else tags j)

/-- The state of `kruskalMST` when its `while` loop starts. `mstExpectedSize` is
`nodeNumber - 1` in `unsigned int`. -/
def kruskal_init (aNodes : List Vector2) : MstState :=
  { tags := init_tags aNodes 0 (fun _ => 0)
    cycles := (List.range aNodes.length).map fun i => [i]
    mstExpectedSize := (aNodes.length + 4294967295) % 4294967296
    mstSize := 0
    ratsnestLines := false
    mst := [] }

/-- The call `aEdges.sort(...)`: a stable sort by ascending weight. -/
def sort_edges (aEdges : List Edge) : List Edge :=
  List.insertionSort (fun a b => a.weight ≤ b.weight) aEdges

/-- `kruskalMST`. -/
def kruskalMST (aEdges : List Edge) (aNodes : List Vector2) : List Edge :=
  let s := kruskal_loop aNodes (sort_edges aEdges) (kruskal_init aNodes)
  s.mst.take s.mstSize

/-- Insertion into a `std::set<Net*>`. -/
def net_insert (n : Net) : List Net → List Net
  | [] => [n]
  | m :: r => if n < m then n :: m :: r else if n = m then m :: r else m :: net_insert n r

/-- The order of `std::pair<int, int>`. -/
def pair_lt (a b : Nat × Nat) : Bool :=
  a.1 < b.1 || (a.1 = b.1 && a.2 < b.2)

/-- Insertion into a `std::set<std::pair<int, int>>` (`emplace`): the new set and
whether the pair was inserted. -/
def pair_emplace (e : Nat × Nat) : List (Nat × Nat) → List (Nat × Nat) × Bool
  | [] => ([e], true)
  | m :: r =>
    if pair_lt e m then (e :: m :: r, true)
    else if e = m then (m :: r, false)
    else ((pair_emplace e r).1.cons m, (pair_emplace e r).2)

/-- The pads of all packages, each with the connection that points to it, in
iteration order. -/
def Board.all_pads (b : Board) : List (Connection × Pad) :=
  b.packages.flatMap fun pk => pk.2.pads.map fun pd => (Connection.pad pk.1 pd.1, pd.2)

/-- Body of the loop that collects `nets`: insert the net of a pad that has one. -/
def insert_pad_net (acc : List Net) (cp : Connection × Pad) : List Net :=
  match cp.2.net with
  | some n => net_insert n acc
  | none => acc

/-- The set `nets` of the nets of the pads on the board. -/
def Board.collect_nets (b : Board) : List Net :=
  b.all_pads.foldl insert_pad_net []

/-- The terminals of a net: `points_ref` with the position of each, first the
junctions, then the pads. -/
def Board.terminals (b : Board) (net : Net) : List (Connection × Coordi) :=
  (b.junctions.filter fun e => e.2.net = some net).map (fun e => (Connection.junc e.1, e.2.position))
  ++ (b.all_pads.filter fun cp => cp.2.net = some net).map (fun cp => (cp.1, cp.2.position))

/-- The vector `points`: terminal `i` has `id` `i`; the 64-bit coordinates of the
position are converted to `double`. -/
def make_points (terms : List (Connection × Coordi)) : List Vector2 :=
  terms.enum.map fun it =>
    { x := round_double it.2.2.x, y := round_double it.2.2.y, id := it.1 }

/-- The lookup `connmap.at(c)`, where `connmap[points_ref[i]] = i` for each `i`
in ascending order. -/
def connmap_at (terms : List (Connection × Coordi)) (c : Connection) : Option Nat :=
  (terms.enum.reverse.find? fun it => it.2.1 = c).map fun it => it.1

/-- The loop that collects `edges_from_tracks`. -/
def collect_track_edges (terms : List (Connection × Coordi)) (net : Net) :
    List (UUID × Track) → List (Nat × Nat) → Option (List (Nat × Nat))
  | [], acc => some acc
  | (_, t) :: r, acc =>
    if t.net = some net then
      match connmap_at terms t.from_, connmap_at terms t.to_ with
      | some i_from, some i_to =>
        collect_track_edges terms net r
          (pair_emplace (if i_from > i_to then (i_from, i_to) else (i_to, i_from)) acc).1
      | _, _ => none
    else collect_track_edges terms net r acc

/-- The candidate edges `edges_from_tri`; `del` is the triangulation
(`Delaunay::triangulate` followed by `getEdges`), which is not under `src/`. -/
def tri_edges (del : List Vector2 → List Edge) (points : List Vector2) : List Edge :=
  if 3 ≤ points.length then del points
  else match points with
    | [p0, p1] => [{ p1 := p0, p2 := p1, weight := -1 }]
    | _ => []

/-- The loop over `edges_from_tracks` that fills `edges` and starts
`edges_for_mst`. -/
def add_track_edges (points : List Vector2) :
    List (Nat × Nat) → List (Nat × Nat) × List Edge → List (Nat × Nat) × List Edge
  | [], st => st
  | e :: r, st =>
    add_track_edges points r
      ((pair_emplace e st.1).1,
       st.2 ++ [{ p1 := points.getD e.1 ⟨0, 0, 0⟩, p2 := points.getD e.2 ⟨0, 0, 0⟩, weight := -1 }])

/-- The loop over `edges_from_tri` that adds the edges whose index pair is not
yet in `edges`, weighted by `double dist = e.p1.dist2(e.p2)`. -/
def add_tri_edges : List Edge → List (Nat × Nat) × List Edge → List (Nat × Nat) × List Edge
  | [], st => st
  | e :: r, st =>
    let t := if e.p1.id > e.p2.id then (e.p2.id, e.p1.id) else (e.p1.id, e.p2.id)
    let x := pair_emplace t st.1
    if x.2 then add_tri_edges r (x.1, st.2 ++ [{ p1 := e.p1, p2 := e.p2, weight := e.p1.dist2 e.p2 }])
    else add_tri_edges r (x.1, st.2)

/-- The list `edges_for_mst` handed to `kruskalMST` for one net. -/
def edges_for_mst (del : List Vector2 → List Edge) (points : List Vector2)
    (edges_from_tracks : List (Nat × Nat)) : List Edge :=
  (add_tri_edges (tri_edges del points) (add_track_edges points edges_from_tracks ([], []))).2

/-- The edges `edges_from_mst` of one net; `none` where `connmap.at` throws. -/
def Board.net_mst (del : List Vector2 → List Edge) (b : Board) (net : Net) : Option (List Edge) :=
  let terms := b.terminals net
  let points := make_points terms
  match collect_track_edges terms net b.tracks [] with
  | none => none
  | some et => some (kruskalMST (edges_for_mst del points et) points)

/-- The loop that turns the edges of the spanning tree into airwires; `j` counts
the identifiers drawn so far; `none` where `points_ref.at` throws. -/
def emit_airwires (rnd : Nat → UUID) (terms : List (Connection × Coordi)) (net : Net) :
    List Edge → List (UUID × Track) × Nat → Option (List (UUID × Track) × Nat)
  | [], st => some st
  | e :: r, st =>
    match terms.get? e.p1.id, terms.get? e.p2.id with
    | some a, some c =>
      let uu := rnd st.2
      let aws := mapModify (mapEmplace st.1 uu { from_ := .junc 0, to_ := .junc 0 }) uu
        fun aw => { aw with from_ := a.1, to_ := c.1, net := some net, is_air := true }
      emit_airwires rnd terms net r (aws, st.2 + 1)
    | _, _ => none

/-- The loop `for(auto net: nets)` of `update_airwires`. -/
def Board.airwires_loop (del : List Vector2 → List Edge) (rnd : Nat → UUID) (b : Board) :
    List Net → List (UUID × Track) × Nat → Option (List (UUID × Track) × Nat)
  | [], st => some st
  | net :: r, st =>
    match b.net_mst del net with
    | none => none
    | some mst =>
      match emit_airwires rnd (b.terminals net) net mst st with
      | none => none
      | some st' => Board.airwires_loop del rnd b r st'

/-- `Board::update_airwires`. -/
def Board.update_airwires (del : List Vector2 → List Edge) (rnd : Nat → UUID) (b : Board) :
    Option Board :=
  match b.airwires_loop del rnd b.collect_nets ([], 0) with
  | none => none
  | some st => some { b with airwires := st.1 }

/-- `Board::delete_dependants`: erase the vias whose junction is not in
`junctions`. -/
def Board.delete_dependants (b : Board) : Board :=
  { b with vias := b.vias.filter fun v => (mapAt b.junctions v.2.junction).isSome }

/-- `Board::vacuum_junctions`. -/
def Board.vacuum_junctions (b : Board) : Board :=
  { b with junctions := b.junctions.filter fun e =>
      !(e.2.connection_count = 0 ∧ e.2.has_via = false) }

/-- First loop of `expand`: reset the derived fields of every junction. -/
def Board.reset_junctions (b : Board) : Board :=
  { b with junctions := b.junctions.map fun e =>
      (e.1, { e.2 with temp := false, layer := 10000, has_via := false, needs_via := false,
                       connection_count := 0 }) }

/-- What the track loop of `expand` does to a junction endpoint of a track on
`layer`. -/
def touch_junction (layer : Int) (ju : Junction) : Junction :=
  let ju1 := { ju with connection_count := ju.connection_count + 1 }
  if ju1.layer = 10000 then { ju1 with layer := layer }
  else if ju1.layer = 10001 then ju1
  else if ju1.layer ≠ layer then { ju1 with layer := 10001, needs_via := true }
  else ju1

/-- What the track loop of `expand` does for one endpoint. -/
def Board.touch_conn (b : Board) (layer : Int) : Connection → Board
  | .junc j => { b with junctions := mapModify b.junctions j (touch_junction layer) }
  | .pad _ _ => b

/-- Body of the track loop of `expand`. -/
def Board.scan_track (b : Board) (t : Track) : Board :=
  let b2 := (b.touch_conn t.layer t.from_).touch_conn t.layer t.to_
  match b2.conn_position t.from_, b2.conn_position t.to_ with
  | some p, some q =>
    if p = q then { b2 with warnings := b2.warnings ++ [(p, "Zero length track")] } else b2
  | _, _ => b2

/-- Body of the loop of `expand` over the lines. -/
def Board.scan_line (b : Board) (l : Line) : Board :=
  let inc := fun (ju : Junction) => { ju with connection_count := ju.connection_count + 1 }
  { b with junctions := mapModify (mapModify b.junctions l.from_ inc) l.to_ inc }

/-- Body of the loop of `expand` over the vias. -/
def Board.scan_via (b : Board) (v : Via) : Board :=
  { b with junctions := mapModify b.junctions v.junction (fun ju => { ju with has_via := true }) }

/-- The loop of `expand` that warns about junctions that need a via. -/
def Board.via_warnings (b : Board) : Board :=
  let js := b.junctions.filter fun e => e.2.needs_via && !e.2.has_via
  { b with warnings := b.warnings ++ js.map fun e => (e.2.position, "Junction needs via") }

/-- The net `expand_packages` assigns to the pad with key `pad` of a package. -/
def BoardPackage.netlist_net (p : BoardPackage) (pad : UUID) : Option Net :=
  match mapAt p.pad_map pad with
  | some pin_path =>
    match p.connections.find? fun c => c.1 = pin_path with
    | some conn => conn.2
    | none => none
  | none => none

/-- `Board::expand_packages`, as far as pads and their nets go: every package is
a fresh copy of its pool package, and each pad gets its net from the netlist. -/
def Board.expand_packages (b : Board) : Board :=
  { b with packages := b.packages.map fun e =>
      (e.1, { e.2 with pads := e.2.pool_pads.map fun pd =>
                (pd.1, { pd.2 with net := e.2.netlist_net pd.1 }) }) }

/-- The part of `expand` before the propagation loop. -/
def Board.expand_prepare (b : Board) : Board :=
  let b1 := { b.delete_dependants with warnings := [] }
  let b2 := b1.reset_junctions
  let b3 := b2.tracks.foldl (fun acc e => acc.scan_track e.2) b2
  let b4 := b3.lines.foldl (fun acc e => acc.scan_line e.2) b3
  let b5 := b4.vias.foldl (fun acc e => acc.scan_via e.2) b4
  b5.via_warnings.vacuum_junctions.expand_packages

/-- `Board::expand`. Pass `p` of the propagation loop draws its segment
identifiers from `rnd p`, the airwires draw theirs from `rndAir`. -/
def Board.expand (del : List Vector2 → List Edge) (rnd : Nat → Nat → UUID) (rndAir : Nat → UUID)
    (fuel : Nat) (b : Board) : Option Board :=
  match Board.propagate_loop rnd fuel fuel 0 b.expand_prepare with
  | none => none
  | some r => r.1.update_airwires del rndAir

/-- Number of entries of a map that satisfy `p`. -/
def mapCount {α : Type} (p : α → Bool) : List (UUID × α) → Nat
  | [] => 0
  | e :: r => (if p e.2 then 1 else 0) + mapCount p r

/-- Number of pads without a net segment. -/
def pads_unlabelled : List (UUID × BoardPackage) → Nat
  | [] => 0
  | e :: r => mapCount (fun p => p.net_segment = 0) e.2.pads + pads_unlabelled r

/-- Number of junctions and pads without a net segment. -/
def Board.unlabelled (b : Board) : Nat :=
  mapCount (fun ju => ju.net_segment = 0) b.junctions + pads_unlabelled b.packages

/-- Number of tracks without a net segment. -/
def tracks_unlabelled (ts : List (UUID × Track)) : Nat :=
  mapCount (fun t => t.net_segment = 0) ts

/-- The tracks of a list with the net segment blanked. -/
def skeleton (ts : List (UUID × Track)) : List (UUID × Track) :=
  ts.map fun e => (e.1, { e.2 with net_segment := 0 })

/-- The endpoints of the tracks of `ts` point to entities of `b`. -/
def tracks_live (b : Board) (ts : List (UUID × Track)) : Prop :=
  ∀ e ∈ ts, b.conn_live e.2.from_ = true ∧ b.conn_live e.2.to_ = true

/-- One value for the number of tracks without segment of a track. -/
def track_unlabelled (t : Track) : Nat := if t.net_segment = 0 then 1 else 0

/-- Nothing is left to propagate along the track. -/
def track_closed (b : Board) (t : Track) : Prop :=
  (t.net_segment ≠ 0 → b.conn_segment t.from_ ≠ 0 ∧ b.conn_segment t.to_ ≠ 0) ∧
  (t.net_segment = 0 → b.conn_segment t.from_ = 0 ∧ b.conn_segment t.to_ = 0)

/-- Nothing is left to propagate on the board. -/
def Board.closed (b : Board) : Prop := ∀ e ∈ b.tracks, track_closed b e.2

/-- The two endpoints of the track carry the track's net segment. -/
def track_agree (b : Board) (t : Track) : Prop :=
  b.conn_segment t.from_ = t.net_segment ∧ b.conn_segment t.to_ = t.net_segment

/-- The invariant of the flood that spreads segment `S`: the other segments are
spread already. -/
def track_inv (S : UUID) (b : Board) (t : Track) : Prop :=
  (t.net_segment ≠ 0 → t.net_segment ≠ S →
    b.conn_segment t.from_ = t.net_segment ∧ b.conn_segment t.to_ = t.net_segment) ∧
  (∀ c, (c = t.from_ ∨ c = t.to_) → b.conn_segment c ≠ 0 → b.conn_segment c ≠ S →
    t.net_segment = b.conn_segment c)

/-- The invariant of the flood that spreads segment `S`, for all tracks. -/
def Board.flood_inv (S : UUID) (b : Board) : Prop := ∀ e ∈ b.tracks, track_inv S b e.2

/-- Every track carries the net segment of its two endpoints. -/
def Board.agree (b : Board) : Prop := ∀ e ∈ b.tracks, track_agree b e.2

/-- Number of tracks, junctions and pads without a net segment. -/
def Board.todo (b : Board) : Nat := tracks_unlabelled b.tracks + b.unlabelled

/-- The identifier is a key of the map. -/
def bound_in (ns : List (UUID × Option Net)) (s : UUID) : Prop := (mapAt ns s).isSome = true

/-- The segments of the junctions and pads are bound in `ns`, which is the
board's `net_segments`. -/
def store_bound (ns : List (UUID × Option Net)) (b : Board) : Prop :=
  b.net_segments = ns ∧ (∀ e ∈ b.junctions, bound_in ns e.2.net_segment) ∧
    ∀ c, bound_in ns (b.conn_segment c)

/-- Every net segment on the board is bound in `net_segments`. -/
def Board.bound (b : Board) : Prop :=
  (∀ e ∈ b.tracks, bound_in b.net_segments e.2.net_segment) ∧ store_bound b.net_segments b

/-- The track with its net looked up in `ns`. -/
def with_net (ns : List (UUID × Option Net)) (t : Track) : Track :=
  { t with net := (mapAt ns t.net_segment).getD none }

/-- The junctions and packages up to nets and net segments, and the parts of
the board that propagation does not touch. -/
def same_store (b b' : Board) : Prop :=
  clear_packages b'.packages = clear_packages b.packages ∧
  clear_junctions b'.junctions = clear_junctions b.junctions ∧
  b'.vias = b.vias ∧ b'.lines = b.lines ∧ b'.airwires = b.airwires ∧ b'.warnings = b.warnings

/-- Number of pads of a list of packages. -/
def pad_count : List (UUID × BoardPackage) → Nat
  | [] => 0
  | e :: r => e.2.pads.length + pad_count r

/-- Number of tracks, junctions and pads of the board. -/
def Board.size (b : Board) : Nat := b.tracks.length + b.junctions.length + pad_count b.packages

/-- The vertices `a` and `b` are joined by a path of edges of `E`. -/
def Conn (E : List (Nat × Nat)) : Nat → Nat → Prop :=
  Relation.EqvGen (fun a b => (a, b) ∈ E)

/-- The pairs of endpoint identifiers of a list of edges. -/
def edge_pairs (es : List Edge) : List (Nat × Nat) :=
  es.map fun e => (e.p1.id, e.p2.id)

/-- Number of distinct tags among the vertices `0 .. n-1`. -/
def ncomp (n : Nat) (tags : Nat → Nat) : Nat := ((Finset.range n).image tags).card

/-- The rounds of the loop of `kruskalMST` for the edges `pr`, without the test of
the loop condition. -/
def kruskal_run (nodes : List Vector2) (pr : List Edge) (s : MstState) : MstState :=
  pr.foldl (fun s dt => kruskal_step nodes dt s) s

/-- Node `i` of the vector carries the identifier `i`. -/
def nodes_ok (nodes : List Vector2) : Prop :=
  ∀ i, i < nodes.length → (nodes.get? i).map (fun v => v.id) = some i

/-- The endpoints of the edges are identifiers below `n`. -/
def edges_ok (n : Nat) (es : List Edge) : Prop :=
  ∀ e ∈ es, e.p1.id < n ∧ e.p2.id < n

/-- The invariant of the loop of `kruskalMST` over `n` nodes after the edges with
the endpoint pairs `P`: the tags are the components of `P`, `cycles` lists the
members of each tag, and the two counters add up. -/
structure KInv (n : Nat) (P : List (Nat × Nat)) (s : MstState) : Prop where
  tags_lt : ∀ i, i < n → s.tags i < n
  cyc_len : s.cycles.length = n
  cyc_mem : ∀ t, t < n → ∀ i, i ∈ s.cycles.getD t [] ↔ (i < n ∧ s.tags i = t)
  conn : ∀ i j, i < n → j < n → (s.tags i = s.tags j ↔ Conn P i j)
  count : ncomp n s.tags + s.mstSize = s.mstExpectedSize + 1
  len : s.mst.length = s.mstSize
  pairs_lt : ∀ x ∈ P, x.1 < n ∧ x.2 < n

/-- The edges of negative weight: the connections that exist already. -/
def hard_edges (es : List Edge) : List Edge := es.filter fun e => e.weight < 0

/-- The edges of weight at most `t`. -/
def light_edges (t : Int) (es : List Edge) : List Edge := es.filter fun e => e.weight ≤ t

/-- The function `f` tags the components of `E` among the vertices below `n`. -/
def tagging (n : Nat) (E : List (Nat × Nat)) (f : Nat → Nat) : Prop :=
  ∀ i j, i < n → j < n → (f i = f j ↔ Conn E i j)

/-- The endpoints of the pairs are below `n`. -/
def pairs_ok (n : Nat) (E : List (Nat × Nat)) : Prop := ∀ x ∈ E, x.1 < n ∧ x.2 < n

/-- The sum of the weights of the edges. -/
def total_weight (L : List Edge) : Int := (L.map fun e => e.weight).sum

/-- The sum of the weights, each capped at `W`. -/
def capped_weight (W : Nat) (L : List Edge) : Int := (L.map fun e => min e.weight (W : Int)).sum

/-- The edges heavier than `t`. -/
def heavy_edges (t : Int) (L : List Edge) : List Edge := L.filter fun e => t < e.weight

/-- The pair `edges_from_tracks` holds for a track between the terminals `i_from`
and `i_to`. -/
def track_pair (i_from i_to : Nat) : Nat × Nat :=
  if i_from > i_to then (i_from, i_to) else (i_to, i_from)

/-- The edge `edges_for_mst` gets for a pair of `edges_from_tracks`. -/
def mk_track_edge (points : List Vector2) (e : Nat × Nat) : Edge :=
  { p1 := points.getD e.1 ⟨0, 0, 0⟩, p2 := points.getD e.2 ⟨0, 0, 0⟩, weight := -1 }

/-- The edge `edges_for_mst` gets for an edge of the triangulation. -/
def reweigh (e : Edge) : Edge := { p1 := e.p1, p2 := e.p2, weight := e.p1.dist2 e.p2 }

/-- The index pair under which an edge of the triangulation is looked up in
`edges`. -/
def tri_pair (e : Edge) : Nat × Nat :=
  if e.p1.id > e.p2.id then (e.p2.id, e.p1.id) else (e.p1.id, e.p2.id)

/-- The triangulation returns edges between the points it is given. -/
def del_ok (del : List Vector2 → List Edge) (points : List Vector2) : Prop :=
  ∀ e ∈ del points, e.p1 ∈ points ∧ e.p2 ∈ points

/-- A supply of segment identifiers: pass `p` draws `1, 2, 3, ...`. -/
def rnd_example : Nat → Nat → UUID := fun _ j => j + 1

/-- A supply of airwire identifiers: `100, 101, ...`. -/
def rnd_air_example : Nat → UUID := fun j => j + 100

/-- A package with two pads at `(0,0)` and `(3,4)`; pad 1 is on net `n1`, pad 2 on
net `n2`. -/
def package_example (n1 n2 : Option Net) : BoardPackage :=
  { pads := [(1, { position := ⟨0, 0⟩ }), (2, { position := ⟨3, 4⟩ })]
    pool_pads := [(1, { position := ⟨0, 0⟩ }), (2, { position := ⟨3, 4⟩ })]
    pad_map := [(1, (1, 1)), (2, (1, 2))]
    connections := [((1, 1), n1), ((1, 2), n2)] }

/-- A board with one package whose two pads are on the nets 1 and 2, and a track
that joins the two pads. -/
def board_bridge : Board :=
  { packages := [(1, package_example (some 1) (some 2))]
    tracks := [(7, { from_ := .pad 1 1, to_ := .pad 1 2 })] }

/-- A board with one package whose two pads are on net 1, a junction, and a track
from the first pad to the junction. -/
def board_one_track : Board :=
  { packages := [(1, package_example (some 1) (some 1))]
    junctions := [(5, { position := ⟨20, 0⟩ })]
    tracks := [(7, { from_ := .pad 1 1, to_ := .junc 5 })] }

/-- A triangulation that returns every pair of points. -/
def del_complete (points : List Vector2) : List Edge :=
  points.flatMap fun p => points.filterMap fun q =>
    if p.id < q.id then some { p1 := p, p2 := q } else none

/-- The nets of all pads, by connection. -/
def Board.pad_nets (b : Board) : List (Connection × Option Net) :=
  b.all_pads.map fun cp => (cp.1, cp.2.net)

/-- The endpoints of every remaining track agree with the track's net: a junction
endpoint carries it, and so does a pad endpoint that has a net. -/
def Board.tracks_consistent (b : Board) : Prop :=
  ∀ e ∈ b.tracks, ∀ c, (c = e.2.from_ ∨ c = e.2.to_) →
    (∀ j ju, c = .junc j → mapAt b.junctions j = some ju → ju.net = e.2.net) ∧
    (∀ pk pd p, c = .pad pk pd → padAt b.packages pk pd = some p → p.net ≠ none →
      p.net = e.2.net)

/-- A board with one package whose two pads, at `(0,0)` and `(3,4)`, are on net 1,
and no track. -/
def board_two_pads : Board :=
  { packages := [(1, package_example (some 1) (some 1))] }

/-- Three nodes on a line. -/
def nodes_example : List Vector2 := [⟨0, 0, 0⟩, ⟨10, 0, 1⟩, ⟨20, 0, 2⟩]

/-- The edges of the three nodes: a track edge between the first two, and the three
candidate edges with their squared lengths. -/
def edges_example : List Edge :=
  [Edge.mk ⟨10, 0, 1⟩ ⟨0, 0, 0⟩ (-1), Edge.mk ⟨0, 0, 0⟩ ⟨10, 0, 1⟩ 100,
   Edge.mk ⟨0, 0, 0⟩ ⟨20, 0, 2⟩ 400, Edge.mk ⟨10, 0, 1⟩ ⟨20, 0, 2⟩ 100]

/-- The squared distance of two positions as `update_airwires` computes it: the
coordinates are converted to `double` and handed to `dist2`. -/
def Coordi.dist2_double (p q : Coordi) : Int :=
  Vector2.dist2 ⟨round_double p.x, round_double p.y, 0⟩ ⟨round_double q.x, round_double q.y, 0⟩

/-- A package with three pads at `(0,0)`, `(10,0)` and `(20,0)`, all on net 1. -/
def package_three : BoardPackage :=
  { pads := [(1, { position := ⟨0, 0⟩ }), (2, { position := ⟨10, 0⟩ }),
      (3, { position := ⟨20, 0⟩ })]
    pool_pads := [(1, { position := ⟨0, 0⟩ }), (2, { position := ⟨10, 0⟩ }),
      (3, { position := ⟨20, 0⟩ })]
    pad_map := [(1, (1, 1)), (2, (1, 2)), (3, (1, 3))]
    connections := [((1, 1), some 1), ((1, 2), some 1), ((1, 3), some 1)] }

/-- A board with the three pads of `package_three` and a track that joins the pads
at `(0,0)` and `(10,0)`. -/
def board_three_pads : Board :=
  { packages := [(1, package_three)]
    tracks := [(7, { from_ := .pad 1 1, to_ := .pad 1 2 })] }

/-- The board `board_three_pads` after the propagation loop of `expand`. -/
def board_three_routed : Board :=
  match board_three_pads.expand_prepare.propagate_loop rnd_example 10 10 0 with
  | some r => r.1
  | none => {}

/-- The keys of the packages, each with the keys of its pads. -/
def pad_keys (pkgs : List (UUID × BoardPackage)) : List (UUID × List UUID) :=
  pkgs.map fun e => (e.1, e.2.pads.map Prod.fst)

/-- No two packages share a key, and no two pads of one package share a key (the
maps of the source are `std::map`s). -/
def pads_unique (pkgs : List (UUID × BoardPackage)) : Prop :=
  ((pad_keys pkgs).map Prod.fst).Nodup ∧ ∀ x ∈ pad_keys pkgs, x.2.Nodup

/-- No two packages of the board share a key, and no two pads of the pool package
of one package share a key. -/
def Board.keys_unique (b : Board) : Prop :=
  (b.packages.map Prod.fst).Nodup ∧ ∀ e ∈ b.packages, (e.2.pool_pads.map Prod.fst).Nodup

/-- The nets bound to net segments are nets of pads in the list `pn`. -/
def segs_of_pads (pn : List (Connection × Option Net)) (b : Board) : Prop :=
  b.pad_nets = pn ∧ ∀ kv ∈ b.net_segments, ∀ N, kv.2 = some N → ∃ x ∈ pn, x.2 = some N

/-- A board with one package whose first pad is on net 1 and whose second pad has
no net, and a track that joins the two pads. -/
def board_unnetted_pad : Board :=
  { packages := [(1, package_example (some 1) none)]
    tracks := [(7, { from_ := .pad 1 1, to_ := .pad 1 2 })] }

/-- A board with one package whose two pads are on the nets 1 and 2, a junction, a
track that joins the two pads and a track from the second pad to the junction. -/
def board_orphan : Board :=
  { packages := [(1, package_example (some 1) (some 2))]
    junctions := [(5, { position := ⟨20, 0⟩ })]
    tracks := [(7, { from_ := .pad 1 1, to_ := .pad 1 2 }),
      (8, { from_ := .pad 1 2, to_ := .junc 5 })] }

/-- The board of `expand` after the loops over the tracks and over the lines. -/
def Board.expand_counted (b : Board) : Board :=
  let b1 := { b.delete_dependants with warnings := [] }
  let b2 := b1.reset_junctions
  let b3 := b2.tracks.foldl (fun acc e => acc.scan_track e.2) b2
  b3.lines.foldl (fun acc e => acc.scan_line e.2) b3

/-- The board of `expand` after the loop over the vias. -/
def Board.expand_marked (b : Board) : Board :=
  b.expand_counted.vias.foldl (fun acc e => acc.scan_via e.2) b.expand_counted

/-- The warning of one track: its endpoints are at the same position. -/
def zero_length_warning (b : Board) (t : Track) : Option (Coordi × String) :=
  match b.conn_position t.from_, b.conn_position t.to_ with
  | some p, some q => if p = q then some (p, "Zero length track") else none
  | _, _ => none

/-- One warning for every track whose endpoints are at the same position, in the
order of the tracks. -/
def zero_length_warnings (b : Board) : List (Coordi × String) :=
  b.tracks.filterMap fun e => zero_length_warning b e.2

/-- One warning for every junction that needs a via and has none, in the order of
the junctions. -/
def needs_via_warnings (js : List (UUID × Junction)) : List (Coordi × String) :=
  (js.filter fun e => e.2.needs_via && !e.2.has_via).map
    fun e => (e.2.position, "Junction needs via")

/-- The board `x` has the packages of `b` and its junctions are at the positions
they have in `b`. -/
def same_positions (b x : Board) : Prop :=
  x.packages = b.packages ∧
  ∀ j, (mapAt x.junctions j).map (fun ju => ju.position) =
    (mapAt b.junctions j).map (fun ju => ju.position)

/-- What the loop over the vias `vs` does to the junction with key `k`. -/
def mark_vias (vs : List (UUID × Via)) (k : UUID) (ju : Junction) : Junction :=
  if vs.any (fun v => k = v.2.junction) then { ju with has_via := true } else ju

/-- A board with old warnings, a junction at the position of the first pad, a track of
length zero from that pad to the junction on the top layer, and a track from the
junction to the second pad on the bottom layer. -/
def board_warn : Board :=
  { packages := [(1, package_example (some 1) (some 1))]
    junctions := [(5, { position := ⟨0, 0⟩ })]
    tracks := [(7, { from_ := .pad 1 1, to_ := .junc 5, layer := 0 }),
      (8, { from_ := .junc 5, to_ := .pad 1 2, layer := -100 })]
    warnings := [(⟨9, 9⟩, "Stale")] }

/-- A board with two junctions that no track or line touches; the second one has a
via. -/
def board_vacuum : Board :=
  { junctions := [(5, { position := ⟨1, 1⟩ }), (6, { position := ⟨1, 1⟩ })]
    vias := [(9, { junction := 6 })] }

/-- A board with one junction and two vias; the junction of the second via does not
exist. -/
def board_vias : Board :=
  { junctions := [(5, { position := ⟨1, 1⟩ })]
    vias := [(8, { junction := 5 }), (9, { junction := 6 })] }

/-- Look up a layer in the layer table (`std::map<int, Layer>`, of which the name
is kept). -/
def layerAt : List (Int × String) → Int → Option String
  | [], _ => none
  | (k, v) :: r, l => if k = l then some v else layerAt r l

/-- The method `emplace` of the layer table: an existing entry is kept. -/
def layerEmplace (m : List (Int × String)) (k : Int) (v : String) : List (Int × String) :=
  match layerAt m k with
  | some _ => m
  | none => m ++ [(k, v)]

/-- The initializer list of `Board::set_n_inner_layers`. -/
def base_layers : List (Int × String) :=
  [(100, "Outline"), (60, "Top Courtyard"), (50, "Top Assembly"), (40, "Top Package"),
   (30, "Top Paste"), (20, "Top Silkscreen"), (10, "Top Mask"), (0, "Top Copper"),
   (-100, "Bottom Copper"), (-110, "Bottom Mask"), (-120, "Bottom Silkscreen"),
   (-130, "Bottom Paste"), (-140, "Bottom Package"), (-150, "Bottom Assembly"),
   (-160, "Bottom Courtyard")]

/-- The layer table `Board::set_n_inner_layers` builds for `n` inner layers: the
initializer list, then the inner layers `-1, ..., -n` (the source negates the
unsigned `j` and converts to `int`). -/
def set_n_inner_layers (n : Nat) : List (Int × String) :=
  (List.range n).foldl
    (fun acc (i : Nat) => layerEmplace acc (-((i : Int) + 1)) ("Inner " ++ toString (i + 1)))
    base_layers

/-- The function `flip_package_layer`. -/
def flip_package_layer (layer : Int) : Int :=
  if layer = -1 then layer else -layer - 100

/-- The fields of a `Text` that `smash_package` writes, the placement apart. -/
structure Text where
  layer : Int
  text : String := ""
  size : Nat := 0
  width : Nat := 0
  from_smash : Bool := false
  overridden : Bool := false
deriving DecidableEq

/-- The fields of a `BoardPackage` that `smash_package` reads or writes:
`pool_texts` is `pool_package->texts`, `texts` holds the keys of the board texts
the package points to. -/
structure SmashPackage where
  smashed : Bool := false
  flip : Bool := false
  pool_texts : List (UUID × Text) := []
  texts : List UUID := []
deriving DecidableEq

/-- Body of the loop of `smash_package` for one text of the pool package; the state
is the texts of the board, the package and the number of identifiers drawn. -/
def smash_text (rnd : Nat → UUID) (st : List (UUID × Text) × SmashPackage × Nat)
    (it : UUID × Text) : List (UUID × Text) × SmashPackage × Nat :=
  if it.2.layer = 20 ∨ it.2.layer = 120 then
    let uu := rnd st.2.2
    let texts := mapModify (mapEmplace st.1 uu { layer := 0 }) uu fun _ =>
      { layer := if st.2.1.flip then flip_package_layer it.2.layer else it.2.layer
        text := it.2.text, size := it.2.size, width := it.2.width
        from_smash := true, overridden := true }
    (texts, { st.2.1 with texts := st.2.1.texts ++ [uu] }, st.2.2 + 1)
  else st

/-- The method `Board::smash_package` on the texts of the board and the package. -/
def smash_package (rnd : Nat → UUID) (texts : List (UUID × Text)) (pkg : SmashPackage) :
    List (UUID × Text) × SmashPackage :=
  if pkg.smashed then (texts, pkg)
  else
    let r := pkg.pool_texts.foldl (smash_text rnd) (texts, { pkg with smashed := true }, 0)
    (r.1, r.2.1)

/-- The validity test of the constructor `Board::Board` for a persisted track with
the endpoints `from_` and `to_` (an endpoint whose `pad` is null is a junction):
the loop over the two endpoints and its flag `valid`. -/
def track_valid (pkgs : List (UUID × BoardPackage)) (from_ to_ : Connection) : Bool :=
  [from_, to_].foldl (fun valid c =>
    match c with
    | .pad pk pd =>
      match mapAt pkgs pk with
      | some p => (mapAt p.pad_map pd).isSome
      | none => false
    | .junc _ => valid) true

/-- The loop of the constructor `Board::Board` over the persisted tracks: the tracks
that pass the test are inserted. -/
def load_tracks (pkgs : List (UUID × BoardPackage)) (ts : List (UUID × Track)) :
    List (UUID × Track) :=
  ts.filter fun e => track_valid pkgs e.2.from_ e.2.to_

/-- State of the loop of `disconnect_package`: the map `pad_junctions` (from the
key of a pad of the package to the key of its junction), the junctions of the
board, and the number of identifiers drawn. -/
structure DisconnectState where
  pad_junctions : List (UUID × UUID)
  junctions : List (UUID × Junction)
  drawn : Nat

/-- The junction of the pad `pd`: the one in `pad_junctions`, or else a junction
emplaced under a new identifier. -/
def disconnect_junction (rnd : Nat → UUID) (pd : UUID) (st : DisconnectState) :
    UUID × DisconnectState :=
  match mapAt st.pad_junctions pd with
  | some j => (j, st)
  | none =>
    (rnd st.drawn,
      { pad_junctions := st.pad_junctions ++ [(pd, rnd st.drawn)]
        junctions := mapEmplace st.junctions (rnd st.drawn) { position := ⟨0, 0⟩ }
        drawn := st.drawn + 1 })

/-- Body of the loop over the two endpoints of a track: an endpoint on a pad of the
package `pkg` is connected to the junction of the pad, which is moved to the
position of the pad. -/
def disconnect_conn (rnd : Nat → UUID) (pkgs : List (UUID × BoardPackage)) (pkg : UUID)
    (c : Connection) (st : DisconnectState) : Option (Connection × DisconnectState) :=
  match c with
  | .junc _ => some (c, st)
  | .pad pk pd =>
    if pk = pkg then
      match padAt pkgs pk pd with
      | none => none
      | some p =>
        let r := disconnect_junction rnd pd st
        some (.junc r.1, { r.2 with
          junctions := mapModify r.2.junctions r.1 fun ju => { ju with position := p.position } })
    else some (c, st)

/-- Body of the loop over the tracks: first the endpoint `to`, then `from`. -/
def disconnect_track (rnd : Nat → UUID) (pkgs : List (UUID × BoardPackage)) (pkg : UUID)
    (t : Track) (st : DisconnectState) : Option (Track × DisconnectState) :=
  match disconnect_conn rnd pkgs pkg t.to_ st with
  | none => none
  | some (c1, st1) =>
    match disconnect_conn rnd pkgs pkg t.from_ st1 with
    | none => none
    | some (c2, st2) => some ({ t with to_ := c1, from_ := c2 }, st2)

/-- The loop of `disconnect_package` over the tracks. -/
def disconnect_tracks (rnd : Nat → UUID) (pkgs : List (UUID × BoardPackage)) (pkg : UUID) :
    List (UUID × Track) → DisconnectState → Option (List (UUID × Track) × DisconnectState)
  | [], st => some ([], st)
  | (k, t) :: r, st =>
    match disconnect_track rnd pkgs pkg t st with
    | none => none
    | some (t', st1) =>
      match disconnect_tracks rnd pkgs pkg r st1 with
      | none => none
      | some (r', st2) => some ((k, t') :: r', st2)

/-- `Board::disconnect_package`; `pkg` is the key of the package, `rnd` supplies the
identifiers of the new junctions. The result is `none` when a track points to a
pad that the package does not have. -/
def Board.disconnect_package (rnd : Nat → UUID) (pkg : UUID) (b : Board) : Option Board :=
  match disconnect_tracks rnd b.packages pkg b.tracks
      { pad_junctions := [], junctions := b.junctions, drawn := 0 } with
  | none => none
  | some (ts, st) => some { b with tracks := ts, junctions := st.junctions }

/-- Where `disconnect_package` leaves an endpoint, given the map `pad_junctions`. -/
def redirect (pj : List (UUID × UUID)) (pkg : UUID) : Connection → Connection
  | .junc j => .junc j
  | .pad pk pd =>
    if pk = pkg then
      match mapAt pj pd with
      | some j => .junc j
      | none => .pad pk pd
    else .pad pk pd

/-- Invariant of the loop of `disconnect_package`. -/
structure DInv (rnd : Nat → UUID) (b : Board) (pkg : UUID) (st : DisconnectState) : Prop where
  drawn_of : ∀ pd j, mapAt st.pad_junctions pd = some j → ∃ i, i < st.drawn ∧ j = rnd i
  inj : ∀ pd pd' j, mapAt st.pad_junctions pd = some j → mapAt st.pad_junctions pd' = some j →
    pd = pd'
  pos : ∀ pd j, mapAt st.pad_junctions pd = some j →
    ∃ p ju, padAt b.packages pkg pd = some p ∧ mapAt st.junctions j = some ju ∧
      ju.position = p.position
  old : ∀ k, (∀ i, k ≠ rnd i) → mapAt st.junctions k = mapAt b.junctions k

/-- Apply `σ` to the net segment of a pad. -/
def Pad.rename (σ : UUID → UUID) (p : Pad) : Pad := { p with net_segment := σ p.net_segment }

/-- Apply `σ` to the net segment of a junction. -/
def Junction.rename (σ : UUID → UUID) (ju : Junction) : Junction :=
  { ju with net_segment := σ ju.net_segment }

/-- Apply `σ` to the net segment of a track. -/
def Track.rename (σ : UUID → UUID) (t : Track) : Track :=
  { t with net_segment := σ t.net_segment }

/-- Apply `σ` to the net segments of the pads of a package. -/
def BoardPackage.rename (σ : UUID → UUID) (p : BoardPackage) : BoardPackage :=
  { p with pads := p.pads.map fun e => (e.1, e.2.rename σ) }

/-- Apply `σ` to the net segments of the tracks of a list. -/
def rename_tracks (σ : UUID → UUID) (ts : List (UUID × Track)) : List (UUID × Track) :=
  ts.map fun e => (e.1, e.2.rename σ)

/-- Apply `σ` to every net segment identifier of the pads, junctions and tracks of
the board and to the keys of `net_segments`. -/
def Board.rename (σ : UUID → UUID) (b : Board) : Board :=
  { b with
    packages := b.packages.map fun e => (e.1, e.2.rename σ)
    junctions := b.junctions.map fun e => (e.1, e.2.rename σ)
    tracks := rename_tracks σ b.tracks
    net_segments := b.net_segments.map fun e => (σ e.1, e.2) }

/-- The board without its net segment identifiers: the net segment of every pad,
junction and track is null and `net_segments` is empty. -/
def Board.forget_segments (b : Board) : Board :=
  { b.rename (fun _ => 0) with net_segments := [] }

/-- The renaming that takes the identifiers `1, 2, 3, ...` to the identifiers of the
supply `rnd`. -/
def rename_to (rnd : Nat → UUID) (x : UUID) : UUID := if x = 0 then 0 else rnd (x - 1)

/-- Another supply of identifiers: `7, 9, 11, ...`. -/
def rnd_other : Nat → UUID := fun i => 2 * i + 7

/-- Two connections are on one copper island of the tracks `ts`: a chain of tracks
leads from one to the other. -/
def Linked (ts : List (UUID × Track)) : Connection → Connection → Prop :=
  Relation.EqvGen fun a c => ∃ e ∈ ts, e.2.from_ = a ∧ e.2.to_ = c

/-- The segment `s` is bound in `ns` to the net of a pad on the island of `c`. -/
def reach (ts : List (UUID × Track)) (pn : Connection → Option Net)
    (ns : List (UUID × Option Net)) (c : Connection) (s : UUID) : Prop :=
  ∃ P n, Linked ts c P ∧ pn P = some n ∧ mapAt ns s = some (some n)

/-- The track joins two connections that a track of `ts` joins, and its segment,
when it has one, is bound to the net of a pad on its island. -/
def track_reach (ts : List (UUID × Track)) (pn : Connection → Option Net)
    (ns : List (UUID × Option Net)) (t : Track) : Prop :=
  (∃ e0 ∈ ts, e0.2.from_ = t.from_ ∧ e0.2.to_ = t.to_) ∧
  (t.net_segment ≠ 0 → reach ts pn ns t.from_ t.net_segment)

/-- The segment of every junction and pad, when it has one, is bound to the net of
a pad on its island; `pn` gives the nets of the pads and `ns` is `net_segments`. -/
def board_reach (ts : List (UUID × Track)) (pn : Connection → Option Net)
    (ns : List (UUID × Option Net)) (b : Board) : Prop :=
  b.net_segments = ns ∧ (∀ c, b.conn_pad_net c = pn c) ∧
  ∀ c, b.conn_segment c ≠ 0 → reach ts pn ns c (b.conn_segment c)

/-- The invariant of the seeding loop on islands. -/
def island_inv (ts : List (UUID × Track)) (pn : Connection → Option Net) (b : Board) : Prop :=
  (∀ e ∈ b.tracks, track_reach ts pn b.net_segments e.2) ∧ board_reach ts pn b.net_segments b

/-- The keys of `net_segments` are null or among the first `j` identifiers drawn,
and the null segment is bound to no net. -/
def keys_drawn (rnd : Nat → UUID) (j : Nat) (b : Board) : Prop :=
  (∀ kv ∈ b.net_segments, kv.1 = 0 ∨ ∃ i, i < j ∧ kv.1 = rnd i) ∧
  mapAt b.net_segments 0 = some none

/-- The keys of `net_segments` are the null identifier or identifiers drawn from
`rnd`. -/
def keys_of (rnd : Nat → UUID) (b : Board) : Prop :=
  ∀ kv ∈ b.net_segments, kv.1 = 0 ∨ ∃ i, kv.1 = rnd i

/-- A board with one package whose two pads are on net 1, and a track that joins
the two pads. -/
def board_joined : Board :=
  { packages := [(1, package_example (some 1) (some 1))]
    tracks := [(7, { from_ := .pad 1 1, to_ := .pad 1 2 })] }

/-- The board of `expand` after the loop over the tracks. -/
def Board.expand_scanned (b : Board) : Board :=
  let b1 := { b.delete_dependants with warnings := [] }
  let b2 := b1.reset_junctions
  b2.tracks.foldl (fun acc e => acc.scan_track e.2) b2

/-- The track `t` touches the junction `j`: one of its endpoints is `j`. -/
def touches (t : Track) (j : UUID) : Prop := t.from_ = .junc j ∨ t.to_ = .junc j

instance (t : Track) (j : UUID) : Decidable (touches t j) := by
  unfold touches
  exact inferInstance

/-- The layers that one track hands to the junction `j`: one entry for each of its
endpoints that is `j`. -/
def track_touches (t : Track) (j : UUID) : List Int :=
  (if t.from_ = .junc j then [t.layer] else []) ++ (if t.to_ = .junc j then [t.layer] else [])

/-- The layers that the loop over the tracks hands to the junction `j`, in the
order of the loop. -/
def touch_layers : List (UUID × Track) → UUID → List Int
  | [], _ => []
  | e :: r, j => track_touches e.2 j ++ touch_layers r j

/-- The body of the loop over the tracks, for the junction, once for every layer of
the list. -/
def touch_all (ls : List Int) (ju : Junction) : Junction :=
  ls.foldl (fun x l => touch_junction l x) ju

/-- The junction after the loop that starts `expand`. -/
def reset_junction (ju : Junction) : Junction :=
  { ju with temp := false, layer := 10000, has_via := false, needs_via := false,
            connection_count := 0 }

/-- The junction `ju` is in the state that the layers `ls` lead to. -/
structure Resolved (ls : List Int) (ju : Junction) : Prop where
  untouched : ls = [] → ju.layer = 10000 ∧ ju.needs_via = false
  single : ∀ L, ls ≠ [] → (∀ l ∈ ls, l = L) → ju.layer = L ∧ ju.needs_via = false
  mixed : (∃ l1 ∈ ls, ∃ l2 ∈ ls, l1 ≠ l2) → ju.layer = 10001 ∧ ju.needs_via = true

/-- The connection of terminal `i` of the net. -/
def end_of (terms : List (Connection × Coordi)) (i : Nat) : Connection :=
  match terms.get? i with
  | some t => t.1
  | none => .junc 0

/-- The airwire that the last loop of `update_airwires` stores for the edge `e` of
the spanning tree. -/
def airwire_track (terms : List (Connection × Coordi)) (net : Net) (e : Edge) : Track :=
  { from_ := end_of terms e.p1.id, to_ := end_of terms e.p2.id, net := some net, is_air := true }

/-- The airwires of a net that are stored on the board. -/
def Board.airwires_of (b : Board) (net : Net) : List Track :=
  (b.airwires.filter fun e => e.2.net = some net).map Prod.snd

/-- The spanning trees of the nets, each edge as the airwire stored for it. -/
def net_airwires (del : List Vector2 → List Edge) (b : Board) (net : Net) : List Track :=
  match b.net_mst del net with
  | some mst => mst.map (airwire_track (b.terminals net) net)
  | none => []

/-- A track of the net runs from `x` to `y`. -/
def track_step (b : Board) (net : Net) (x y : Connection) : Prop :=
  ∃ t ∈ b.tracks, t.2.net = some net ∧ t.2.from_ = x ∧ t.2.to_ = y

instance (b : Board) (net : Net) (x y : Connection) : Decidable (track_step b net x y) := by
  unfold track_step
  exact inferInstance

/-- An airwire of the list runs from `x` to `y`. -/
def air_step (aws : List Track) (x y : Connection) : Prop :=
  ∃ a ∈ aws, a.from_ = x ∧ a.to_ = y

instance (aws : List Track) (x y : Connection) : Decidable (air_step aws x y) := by
  unfold air_step
  exact inferInstance

/-- A candidate edge of the net runs from the terminal `x` to the terminal `y`. -/
def cand_step (del : List Vector2 → List Edge) (terms : List (Connection × Coordi))
    (x y : Connection) : Prop :=
  ∃ e ∈ tri_edges del (make_points terms), e.p1.id < terms.length ∧ e.p2.id < terms.length ∧
    end_of terms e.p1.id = x ∧ end_of terms e.p2.id = y

instance (del : List Vector2 → List Edge) (terms : List (Connection × Coordi))
    (x y : Connection) : Decidable (cand_step del terms x y) := by
  unfold cand_step
  exact inferInstance

/-- A pair of terminal indices of the list runs from the terminal `x` to the
terminal `y`. -/
def link_of (terms : List (Connection × Coordi)) (E : List (Nat × Nat))
    (x y : Connection) : Prop :=
  ∃ p ∈ E, p.1 < terms.length ∧ p.2 < terms.length ∧
    end_of terms p.1 = x ∧ end_of terms p.2 = y

instance (terms : List (Connection × Coordi)) (E : List (Nat × Nat))
    (x y : Connection) : Decidable (link_of terms E x y) := by
  unfold link_of
  exact inferInstance

/-- The label of a pad of `board_three_routed`: the third pad is apart. -/
def label_three (c : Connection) : Nat := if c = .pad 1 3 then 1 else 0

/-- A package with two pads of net 1 at `(0,0)` and `(100000001,0)`: 100.000001 mm
apart, in nm. -/
def package_far : BoardPackage :=
  { pads := [(1, { position := ⟨0, 0⟩ }), (2, { position := ⟨100000001, 0⟩ })]
    pool_pads := [(1, { position := ⟨0, 0⟩ }), (2, { position := ⟨100000001, 0⟩ })]
    pad_map := [(1, (1, 1)), (2, (1, 2))]
    connections := [((1, 1), some 1), ((1, 2), some 1)] }

/-- A board with the two pads of `package_far` and no track. -/
def board_far : Board :=
  { packages := [(1, package_far)] }

/-- A package with three pads of net 1: pads 1 and 2 at `(200000000,1)` and
`(200000000,0)`, pad 3 at `(0,0)`. -/
def package_far_three : BoardPackage :=
  { pads := [(1, { position := ⟨200000000, 1⟩ }), (2, { position := ⟨200000000, 0⟩ }),
      (3, { position := ⟨0, 0⟩ })]
    pool_pads := [(1, { position := ⟨200000000, 1⟩ }), (2, { position := ⟨200000000, 0⟩ }),
      (3, { position := ⟨0, 0⟩ })]
    pad_map := [(1, (1, 1)), (2, (1, 2)), (3, (1, 3))]
    connections := [((1, 1), some 1), ((1, 2), some 1), ((1, 3), some 1)] }

/-- A board with the three pads of `package_far_three` and a track that joins
pads 1 and 2. -/
def board_far_three : Board :=
  { packages := [(1, package_far_three)]
    tracks := [(7, { from_ := .pad 1 1, to_ := .pad 1 2 })] }

/-! ## Theorems -/

theorem mapAt_mapModify {α : Type} (m : List (UUID × α)) (k k' : UUID) (f : α → α) :
    mapAt (mapModify m k f) k' = (mapAt m k').map (fun v => if k' = k then f v else v) := by
  induction m with
  | nil => rfl
  | cons e r ih =>
    obtain ⟨a, v⟩ := e
    unfold mapModify at ih ⊢
    simp only [List.map_cons, mapAt]
    by_cases h2 : a = k'
    · subst h2; simp
    · simp only [h2, if_false]; exact ih

theorem padAt_padModify (pkgs : List (UUID × BoardPackage)) (pk pd pk' pd' : UUID) (f : Pad → Pad) :
    padAt (padModify pkgs pk pd f) pk' pd' =
      (padAt pkgs pk' pd').map (fun v => if pk' = pk ∧ pd' = pd then f v else v) := by
  unfold padAt padModify
  rw [mapAt_mapModify]
  cases h : mapAt pkgs pk' with
  | none => rfl
  | some p =>
    by_cases h1 : pk' = pk
    · simp only [Option.map_some', h1, if_true, true_and]
      rw [mapAt_mapModify]
    · simp [h1]

theorem conn_live_set (b : Board) (c c' : Connection) (s : UUID) :
    (b.set_conn_segment c s).conn_live c' = b.conn_live c' := by
  cases c with
  | junc j =>
    cases c' with
    | junc j' => simp [Board.set_conn_segment, Board.conn_live, mapAt_mapModify]
    | pad pk' pd' => rfl
  | pad pk pd =>
    cases c' with
    | junc j' => rfl
    | pad pk' pd' => simp [Board.set_conn_segment, Board.conn_live, padAt_padModify]

theorem conn_segment_set (b : Board) (c c' : Connection) (s : UUID) :
    (b.set_conn_segment c s).conn_segment c' =
      if c' = c ∧ b.conn_live c = true then s else b.conn_segment c' := by
  cases c with
  | junc j =>
    cases c' with
    | junc j' =>
      simp only [Board.set_conn_segment, Board.conn_segment, Board.conn_live, mapAt_mapModify,
        Connection.junc.injEq]
      cases h : mapAt b.junctions j' with
      | none =>
        by_cases h1 : j' = j
        · subst h1; simp [h]
        · simp [h1]
      | some v =>
        by_cases h1 : j' = j
        · subst h1; simp [h]
        · simp [h1]
    | pad pk' pd' => simp [Board.set_conn_segment, Board.conn_segment]
  | pad pk pd =>
    cases c' with
    | junc j' => simp [Board.set_conn_segment, Board.conn_segment]
    | pad pk' pd' =>
      simp only [Board.set_conn_segment, Board.conn_segment, Board.conn_live, padAt_padModify,
        Connection.pad.injEq]
      cases h : padAt b.packages pk' pd' with
      | none =>
        by_cases h1 : pk' = pk ∧ pd' = pd
        · obtain ⟨h2, h3⟩ := h1; subst h2; subst h3; simp [h]
        · simp [h1]
      | some v =>
        by_cases h1 : pk' = pk ∧ pd' = pd
        · obtain ⟨h2, h3⟩ := h1; subst h2; subst h3; simp [h]
        · simp [h1]

theorem conn_pad_net_set (b : Board) (c c' : Connection) (s : UUID) :
    (b.set_conn_segment c s).conn_pad_net c' = b.conn_pad_net c' := by
  cases c with
  | junc j =>
    cases c' with
    | junc j' => rfl
    | pad pk' pd' => rfl
  | pad pk pd =>
    cases c' with
    | junc j' => rfl
    | pad pk' pd' =>
      simp only [Board.set_conn_segment, Board.conn_pad_net, padAt_padModify]
      cases h : padAt b.packages pk' pd' with
      | none => rfl
      | some v =>
        by_cases h1 : pk' = pk ∧ pd' = pd
        · simp [h1]
        · simp [h1]

theorem conn_segment_of_not_live (b : Board) (c : Connection) (h : b.conn_live c = false) :
    b.conn_segment c = 0 := by
  cases c with
  | junc j =>
    simp only [Board.conn_live] at h
    simp only [Board.conn_segment]
    cases h1 : mapAt b.junctions j with
    | none => rfl
    | some v => simp [h1] at h
  | pad pk pd =>
    simp only [Board.conn_live] at h
    simp only [Board.conn_segment]
    cases h1 : padAt b.packages pk pd with
    | none => rfl
    | some v => simp [h1] at h

theorem mapModify_cons {α : Type} (e : UUID × α) (r : List (UUID × α)) (k : UUID) (f : α → α) :
    mapModify (e :: r) k f = (e.1, if e.1 = k then f e.2 else e.2) :: mapModify r k f := rfl

theorem padModify_cons (e : UUID × BoardPackage) (r : List (UUID × BoardPackage))
    (pk pd : UUID) (f : Pad → Pad) :
    padModify (e :: r) pk pd f =
      (e.1, if e.1 = pk then { e.2 with pads := mapModify e.2.pads pd f } else e.2) ::
        padModify r pk pd f := rfl

theorem mapCount_mapModify_le {α : Type} (p : α → Bool) (f : α → α) (hf : ∀ v, p (f v) = false)
    (m : List (UUID × α)) (k : UUID) : mapCount p (mapModify m k f) ≤ mapCount p m := by
  induction m with
  | nil => exact Nat.le_refl _
  | cons e r ih =>
    rw [mapModify_cons]
    simp only [mapCount]
    by_cases h : e.1 = k
    · simp only [h, if_true, hf, Bool.false_eq_true, if_false]
      omega
    · simp only [h, if_false]
      omega

theorem mapCount_mapModify_lt {α : Type} (p : α → Bool) (f : α → α) (hf : ∀ v, p (f v) = false)
    (m : List (UUID × α)) (k : UUID) (v : α) (hv : mapAt m k = some v) (hp : p v = true) :
    mapCount p (mapModify m k f) < mapCount p m := by
  induction m with
  | nil => simp [mapAt] at hv
  | cons e r ih =>
    have hle := mapCount_mapModify_le p f hf r k
    rw [mapModify_cons]
    simp only [mapCount]
    by_cases h : e.1 = k
    · simp only [mapAt, h, if_true, Option.some.injEq] at hv
      simp only [h, if_true, hf, hv, hp]
      simp only [Bool.false_eq_true, if_false]
      omega
    · simp only [mapAt, h, if_false] at hv
      have := ih hv
      simp only [h, if_false]
      omega

theorem pads_unlabelled_padModify_le (pkgs : List (UUID × BoardPackage)) (pk pd s : UUID)
    (hs : s ≠ 0) :
    pads_unlabelled (padModify pkgs pk pd fun p => { p with net_segment := s }) ≤
      pads_unlabelled pkgs := by
  induction pkgs with
  | nil => exact Nat.le_refl _
  | cons e r ih =>
    rw [padModify_cons]
    simp only [pads_unlabelled]
    by_cases h : e.1 = pk
    · simp only [h, if_true]
      have := mapCount_mapModify_le (fun p : Pad => decide (p.net_segment = 0))
        (fun p => { p with net_segment := s }) (by intro v; simp [hs]) e.2.pads pd
      omega
    · simp only [h, if_false]
      omega

theorem pads_unlabelled_padModify_lt (pkgs : List (UUID × BoardPackage)) (pk pd s : UUID)
    (hs : s ≠ 0) (v : Pad) (hv : padAt pkgs pk pd = some v) (h0 : v.net_segment = 0) :
    pads_unlabelled (padModify pkgs pk pd fun p => { p with net_segment := s }) <
      pads_unlabelled pkgs := by
  induction pkgs with
  | nil => simp [padAt, mapAt] at hv
  | cons e r ih =>
    have hle := pads_unlabelled_padModify_le r pk pd s hs
    rw [padModify_cons]
    simp only [pads_unlabelled]
    by_cases h : e.1 = pk
    · simp only [padAt, mapAt, h, if_true] at hv
      simp only [h, if_true]
      have := mapCount_mapModify_lt (fun p : Pad => decide (p.net_segment = 0))
        (fun p => { p with net_segment := s }) (by intro v; simp [hs]) e.2.pads pd v hv
        (by simp [h0])
      omega
    · have hv' : padAt r pk pd = some v := by
        simpa [padAt, mapAt, h] using hv
      have := ih hv'
      simp only [h, if_false]
      omega

theorem unlabelled_set_le (b : Board) (c : Connection) (s : UUID) (hs : s ≠ 0) :
    (b.set_conn_segment c s).unlabelled ≤ b.unlabelled := by
  cases c with
  | junc j =>
    have := mapCount_mapModify_le (fun ju : Junction => decide (ju.net_segment = 0))
        (fun ju => { ju with net_segment := s }) (by intro v; simp [hs]) b.junctions j
    simp only [Board.set_conn_segment, Board.unlabelled]
    omega
  | pad pk pd =>
    have := pads_unlabelled_padModify_le b.packages pk pd s hs
    simp only [Board.set_conn_segment, Board.unlabelled]
    omega

theorem unlabelled_set_lt (b : Board) (c : Connection) (s : UUID) (hs : s ≠ 0)
    (hl : b.conn_live c = true) (h0 : b.conn_segment c = 0) :
    (b.set_conn_segment c s).unlabelled < b.unlabelled := by
  cases c with
  | junc j =>
    simp only [Board.conn_live] at hl
    simp only [Board.conn_segment] at h0
    cases hv : mapAt b.junctions j with
    | none => simp [hv] at hl
    | some v =>
      simp only [hv] at h0
      have := mapCount_mapModify_lt (fun ju : Junction => decide (ju.net_segment = 0))
        (fun ju => { ju with net_segment := s }) (by intro v; simp [hs]) b.junctions j v hv
        (by simp [h0])
      simp only [Board.set_conn_segment, Board.unlabelled]
      omega
  | pad pk pd =>
    simp only [Board.conn_live] at hl
    simp only [Board.conn_segment] at h0
    cases hv : padAt b.packages pk pd with
    | none => simp [hv] at hl
    | some v =>
      simp only [hv] at h0
      have := pads_unlabelled_padModify_lt b.packages pk pd s hs v hv h0
      simp only [Board.set_conn_segment, Board.unlabelled]
      omega

theorem propagate_to_prog (seg : UUID) (hs : seg ≠ 0) (c : Connection) (st : Board × Nat)
    (hl : st.1.conn_live c = true) :
    (propagate_to seg c st).1.unlabelled ≤ st.1.unlabelled ∧
    st.2 ≤ (propagate_to seg c st).2 ∧
    (st.2 < (propagate_to seg c st).2 → (propagate_to seg c st).1.unlabelled < st.1.unlabelled) := by
  unfold propagate_to
  by_cases h : st.1.conn_segment c = 0
  · simp only [h, if_true]
    have := unlabelled_set_lt st.1 c seg hs hl h
    omega
  · simp [h]

theorem propagate_to_live (seg : UUID) (c : Connection) (st : Board × Nat) (c' : Connection) :
    (propagate_to seg c st).1.conn_live c' = st.1.conn_live c' := by
  unfold propagate_to
  split
  · exact conn_live_set _ _ _ _
  · rfl

theorem propagate_from_fields (b : Board) (c : Connection) (st : Track × Nat) :
    (propagate_from b c st).1.from_ = st.1.from_ ∧ (propagate_from b c st).1.to_ = st.1.to_ ∧
    (propagate_from b c st).1.layer = st.1.layer ∧ (propagate_from b c st).1.net = st.1.net ∧
    (propagate_from b c st).1.is_air = st.1.is_air := by
  unfold propagate_from
  split <;> simp

theorem propagate_from_prog (b : Board) (c : Connection) (st : Track × Nat) :
    st.2 ≤ (propagate_from b c st).2 ∧
    (st.1.net_segment ≠ 0 → (propagate_from b c st).1.net_segment ≠ 0) ∧
    (st.2 < (propagate_from b c st).2 → (propagate_from b c st).1.net_segment ≠ 0) := by
  unfold propagate_from
  by_cases h : b.conn_segment c ≠ 0
  · rw [if_pos h]
    exact ⟨by simp, fun _ => h, fun _ => h⟩
  · rw [if_neg h]
    simp

theorem flood_track_skel (t : Track) (st : Board × Nat) :
    { (flood_track t st).1 with net_segment := 0 } = { t with net_segment := 0 } := by
  unfold flood_track
  split
  · rfl
  · have h1 := propagate_from_fields st.1 t.from_ (t, st.2)
    have h2 := propagate_from_fields st.1 t.to_ (propagate_from st.1 t.from_ (t, st.2))
    simp only [Track.mk.injEq, and_true]
    refine ⟨?_, ?_, ?_, ?_, ?_⟩
    · rw [h2.1, h1.1]
    · rw [h2.2.1, h1.2.1]
    · rw [h2.2.2.1, h1.2.2.1]
    · rw [h2.2.2.2.1, h1.2.2.2.1]
    · simp only [true_and]; rw [h2.2.2.2.2, h1.2.2.2.2]

theorem flood_track_live (t : Track) (st : Board × Nat) (c : Connection) :
    (flood_track t st).2.1.conn_live c = st.1.conn_live c := by
  unfold flood_track
  split
  · simp only
    rw [propagate_to_live, propagate_to_live]
  · rfl

theorem flood_track_prog (t : Track) (st : Board × Nat)
    (hl : st.1.conn_live t.from_ = true ∧ st.1.conn_live t.to_ = true) :
    track_unlabelled (flood_track t st).1 + (flood_track t st).2.1.unlabelled ≤
      track_unlabelled t + st.1.unlabelled ∧
    st.2 ≤ (flood_track t st).2.2 ∧
    (st.2 < (flood_track t st).2.2 →
      track_unlabelled (flood_track t st).1 + (flood_track t st).2.1.unlabelled <
        track_unlabelled t + st.1.unlabelled) := by
  unfold flood_track
  by_cases h : t.net_segment ≠ 0
  · rw [if_pos h]
    simp only
    have h1 := propagate_to_prog t.net_segment h t.from_ st hl.1
    have h2 := propagate_to_prog t.net_segment h t.to_ (propagate_to t.net_segment t.from_ st)
      (by rw [propagate_to_live]; exact hl.2)
    omega
  · rw [if_neg h]
    simp only
    have h0 : t.net_segment = 0 := by simpa using h
    have h1 := propagate_from_prog st.1 t.from_ (t, st.2)
    have h2 := propagate_from_prog st.1 t.to_ (propagate_from st.1 t.from_ (t, st.2))
    simp only at h1
    refine ⟨?_, by omega, ?_⟩
    · unfold track_unlabelled
      simp only [h0, if_true]
      split <;> omega
    · intro hlt
      have : (propagate_from st.1 t.to_ (propagate_from st.1 t.from_ (t, st.2))).1.net_segment ≠ 0 := by
        by_cases h3 : st.2 < (propagate_from st.1 t.from_ (t, st.2)).2
        · exact h2.2.1 (h1.2.2 h3)
        · exact h2.2.2 (by omega)
      unfold track_unlabelled
      simp only [h0, if_true, this, if_false]
      omega

theorem flood_tracks_skel (ts : List (UUID × Track)) (st : Board × Nat) :
    skeleton (flood_tracks ts st).1 = skeleton ts := by
  induction ts generalizing st with
  | nil => rfl
  | cons e r ih =>
    obtain ⟨k, t⟩ := e
    simp only [flood_tracks, skeleton, List.map_cons, List.cons.injEq, Prod.mk.injEq, true_and]
    exact ⟨flood_track_skel t st, ih _⟩

theorem flood_tracks_live (ts : List (UUID × Track)) (st : Board × Nat) (c : Connection) :
    (flood_tracks ts st).2.1.conn_live c = st.1.conn_live c := by
  induction ts generalizing st with
  | nil => rfl
  | cons e r ih =>
    obtain ⟨k, t⟩ := e
    simp only [flood_tracks]
    rw [ih, flood_track_live]

theorem tracks_unlabelled_cons (e : UUID × Track) (r : List (UUID × Track)) :
    tracks_unlabelled (e :: r) = track_unlabelled e.2 + tracks_unlabelled r := by
  simp [tracks_unlabelled, mapCount, track_unlabelled]

theorem flood_tracks_prog (ts : List (UUID × Track)) (st : Board × Nat)
    (hl : tracks_live st.1 ts) :
    tracks_unlabelled (flood_tracks ts st).1 + (flood_tracks ts st).2.1.unlabelled ≤
      tracks_unlabelled ts + st.1.unlabelled ∧
    st.2 ≤ (flood_tracks ts st).2.2 ∧
    (st.2 < (flood_tracks ts st).2.2 →
      tracks_unlabelled (flood_tracks ts st).1 + (flood_tracks ts st).2.1.unlabelled <
        tracks_unlabelled ts + st.1.unlabelled) := by
  induction ts generalizing st with
  | nil => simp [flood_tracks]
  | cons e r ih =>
    obtain ⟨k, t⟩ := e
    have h1 := flood_track_prog t st (hl (k, t) (List.mem_cons_self _ _))
    have hl' : tracks_live ((flood_track t st).2.1, (flood_track t st).2.2).1 r := by
      intro e he
      simp only [flood_track_live]
      exact hl e (List.mem_cons_of_mem _ he)
    have h2 := ih ((flood_track t st).2.1, (flood_track t st).2.2) hl'
    simp only [flood_tracks, tracks_unlabelled_cons]
    simp only at h2
    omega

theorem propagate_to_mono (seg : UUID) (c : Connection) (st : Board × Nat) :
    st.2 ≤ (propagate_to seg c st).2 := by
  unfold propagate_to
  split <;> simp

theorem propagate_to_same (seg : UUID) (c : Connection) (st : Board × Nat)
    (h : (propagate_to seg c st).2 = st.2) :
    propagate_to seg c st = st ∧ st.1.conn_segment c ≠ 0 := by
  unfold propagate_to at h ⊢
  by_cases h1 : st.1.conn_segment c = 0
  · rw [if_pos h1] at h
    simp at h
  · rw [if_neg h1]
    exact ⟨rfl, h1⟩

theorem propagate_from_same (b : Board) (c : Connection) (st : Track × Nat)
    (h : (propagate_from b c st).2 = st.2) :
    propagate_from b c st = st ∧ b.conn_segment c = 0 := by
  unfold propagate_from at h ⊢
  by_cases h1 : b.conn_segment c ≠ 0
  · rw [if_pos h1] at h
    simp at h
  · rw [if_neg h1]
    exact ⟨rfl, by simpa using h1⟩

theorem flood_track_mono (t : Track) (st : Board × Nat) : st.2 ≤ (flood_track t st).2.2 := by
  unfold flood_track
  split
  · exact Nat.le_trans (propagate_to_mono _ _ _) (propagate_to_mono _ _ _)
  · exact Nat.le_trans (propagate_from_prog st.1 t.from_ (t, st.2)).1
      (propagate_from_prog st.1 t.to_ (propagate_from st.1 t.from_ (t, st.2))).1

theorem flood_tracks_mono (ts : List (UUID × Track)) (st : Board × Nat) :
    st.2 ≤ (flood_tracks ts st).2.2 := by
  induction ts generalizing st with
  | nil => exact Nat.le_refl _
  | cons e r ih =>
    obtain ⟨k, t⟩ := e
    simp only [flood_tracks]
    exact Nat.le_trans (flood_track_mono t st) (ih _)

theorem flood_track_same (t : Track) (st : Board × Nat) (h : (flood_track t st).2.2 = st.2) :
    (flood_track t st).1 = t ∧ (flood_track t st).2.1 = st.1 ∧ track_closed st.1 t := by
  unfold flood_track at h ⊢
  by_cases h0 : t.net_segment ≠ 0
  · rw [if_pos h0] at h ⊢
    simp only at h ⊢
    have m1 := propagate_to_mono t.net_segment t.from_ st
    have m2 := propagate_to_mono t.net_segment t.to_ (propagate_to t.net_segment t.from_ st)
    have e1 := propagate_to_same t.net_segment t.from_ st (by omega)
    have e2 := propagate_to_same t.net_segment t.to_ (propagate_to t.net_segment t.from_ st)
      (by omega)
    rw [e1.1] at e2
    refine ⟨trivial, ?_, ?_⟩
    · rw [e1.1, e2.1]
    · exact ⟨fun _ => ⟨e1.2, e2.2⟩, fun h => absurd h h0⟩
  · rw [if_neg h0] at h ⊢
    simp only at h ⊢
    have m1 := (propagate_from_prog st.1 t.from_ (t, st.2)).1
    have m2 := (propagate_from_prog st.1 t.to_ (propagate_from st.1 t.from_ (t, st.2))).1
    simp only at m1
    have e1 := propagate_from_same st.1 t.from_ (t, st.2) (by simp only; omega)
    have e2 := propagate_from_same st.1 t.to_ (propagate_from st.1 t.from_ (t, st.2)) (by omega)
    rw [e1.1] at e2
    refine ⟨?_, trivial, ?_⟩
    · rw [e1.1, e2.1]
    · exact ⟨fun h => absurd h h0, fun _ => ⟨e1.2, e2.2⟩⟩

theorem flood_tracks_same (ts : List (UUID × Track)) (st : Board × Nat)
    (h : (flood_tracks ts st).2.2 = st.2) :
    (flood_tracks ts st).1 = ts ∧ (flood_tracks ts st).2.1 = st.1 ∧
      ∀ e ∈ ts, track_closed st.1 e.2 := by
  induction ts generalizing st with
  | nil => simp [flood_tracks]
  | cons e r ih =>
    obtain ⟨k, t⟩ := e
    simp only [flood_tracks] at h ⊢
    have m1 := flood_track_mono t st
    have m2 := flood_tracks_mono r ((flood_track t st).2.1, (flood_track t st).2.2)
    simp only at m2
    have e1 := flood_track_same t st (by omega)
    have e2 := ih ((flood_track t st).2.1, (flood_track t st).2.2) (by simp only; omega)
    simp only at e2
    refine ⟨?_, ?_, ?_⟩
    · rw [e1.1, e2.1]
    · rw [e2.2.1]; exact e1.2.1
    · intro e he
      rcases List.mem_cons.1 he with h1 | h1
      · rw [h1]; exact e1.2.2
      · have := e2.2.2 e h1
        rw [e1.2.1] at this
        exact this

theorem flood_pass_same (b : Board) (h : b.flood_pass.2 = 0) :
    b.flood_pass.1 = b ∧ b.closed := by
  unfold Board.flood_pass at h ⊢
  simp only at h ⊢
  have e := flood_tracks_same b.tracks (b, 0) h
  simp only at e
  refine ⟨?_, e.2.2⟩
  rw [e.1, e.2.1]

theorem flood_result (fuel : Nat) (b b' : Board) (h : Board.flood fuel b = some b') :
    b'.closed := by
  induction fuel generalizing b with
  | zero => simp [Board.flood] at h
  | succ n ih =>
    simp only [Board.flood] at h
    by_cases h0 : b.flood_pass.2 = 0
    · rw [if_pos h0] at h
      have e := flood_pass_same b h0
      simp only [Option.some.injEq] at h
      rw [← h, e.1]
      exact e.2
    · rw [if_neg h0] at h
      exact ih _ h

/-- An invariant of the passes is an invariant of the flood. -/
theorem flood_induct (I : Board → Prop) (hI : ∀ b, I b → I b.flood_pass.1)
    (fuel : Nat) (b b' : Board) (hb : I b) (h : Board.flood fuel b = some b') : I b' := by
  induction fuel generalizing b with
  | zero => simp [Board.flood] at h
  | succ n ih =>
    simp only [Board.flood] at h
    by_cases h0 : b.flood_pass.2 = 0
    · rw [if_pos h0] at h
      simp only [Option.some.injEq] at h
      rw [← h]
      exact hI b hb
    · rw [if_neg h0] at h
      exact ih _ (hI b hb) h

/-- An invariant scheme for the seeding loop: `I` holds between rounds, `J`
during the flood of a round. -/
theorem seed_loop_induct (rnd : Nat → UUID) (I J : Nat → Board → Prop)
    (h1 : ∀ j b b1, I j b → b.seed (rnd j) = some b1 → J j b1)
    (h2 : ∀ j b, J j b → J j b.flood_pass.1)
    (h3 : ∀ j b, J j b → b.closed → I (j + 1) b)
    (fuel j : Nat) (b b' : Board) (hb : I j b)
    (h : Board.seed_loop rnd fuel j b = some b') :
    ∃ j', I j' b' ∧ b'.seed (rnd j') = none := by
  induction fuel generalizing j b with
  | zero => simp [Board.seed_loop] at h
  | succ n ih =>
    simp only [Board.seed_loop] at h
    cases hs : b.seed (rnd j) with
    | none =>
      rw [hs] at h
      simp only [Option.some.injEq] at h
      rw [← h]
      exact ⟨j, hb, hs⟩
    | some b1 =>
      rw [hs] at h
      simp only at h
      cases hf : Board.flood (n + 1) b1 with
      | none => rw [hf] at h; simp at h
      | some b2 =>
        rw [hf] at h
        simp only at h
        have hJ : J j b2 := flood_induct (J j) (h2 j) (n + 1) b1 b2 (h1 j b b1 hb hs) hf
        exact ih (j + 1) b2 (h3 j b2 hJ (flood_result _ _ _ hf)) h

theorem seed_pads_at (s : UUID) (pads pads' : List (UUID × Pad)) (n : Option Net)
    (h : seed_pads s pads = some (pads', n)) (k : UUID) :
    mapAt pads' k = mapAt pads k ∨
      ∃ p, mapAt pads k = some p ∧ p.net_segment = 0 ∧
        mapAt pads' k = some { p with net_segment := s } := by
  induction pads generalizing pads' with
  | nil => simp [seed_pads] at h
  | cons e r ih =>
    obtain ⟨a, p⟩ := e
    simp only [seed_pads] at h
    by_cases hc : p.net_segment = 0 ∧ p.net ≠ none
    · rw [if_pos hc] at h
      simp only [Option.some.injEq, Prod.mk.injEq] at h
      rw [← h.1]
      by_cases hk : a = k
      · right
        exact ⟨p, by simp [mapAt, hk], hc.1, by simp [mapAt, hk]⟩
      · left
        simp [mapAt, hk]
    · rw [if_neg hc] at h
      cases hr : seed_pads s r with
      | none => rw [hr] at h; simp at h
      | some x =>
        obtain ⟨r', n'⟩ := x
        rw [hr] at h
        simp only [Option.some.injEq, Prod.mk.injEq] at h
        rw [← h.1]
        by_cases hk : a = k
        · left
          simp [mapAt, hk]
        · simp only [mapAt, hk, if_false]
          exact ih r' (by rw [hr, h.2])

theorem seed_packages_at (s : UUID) (pkgs pkgs' : List (UUID × BoardPackage)) (n : Option Net)
    (h : seed_packages s pkgs = some (pkgs', n)) (pk pd : UUID) :
    padAt pkgs' pk pd = padAt pkgs pk pd ∨
      ∃ p, padAt pkgs pk pd = some p ∧ p.net_segment = 0 ∧
        padAt pkgs' pk pd = some { p with net_segment := s } := by
  induction pkgs generalizing pkgs' with
  | nil => simp [seed_packages] at h
  | cons e r ih =>
    obtain ⟨a, p⟩ := e
    simp only [seed_packages] at h
    cases hp : seed_pads s p.pads with
    | some x =>
      obtain ⟨pads', n'⟩ := x
      rw [hp] at h
      simp only [Option.some.injEq, Prod.mk.injEq] at h
      rw [← h.1]
      by_cases hk : a = pk
      · simp only [padAt, mapAt, hk, if_true]
        exact seed_pads_at s p.pads pads' n' hp pd
      · left
        simp [padAt, mapAt, hk]
    | none =>
      rw [hp] at h
      simp only at h
      cases hr : seed_packages s r with
      | none => rw [hr] at h; simp at h
      | some x =>
        obtain ⟨r', n'⟩ := x
        rw [hr] at h
        simp only [Option.some.injEq, Prod.mk.injEq] at h
        rw [← h.1]
        by_cases hk : a = pk
        · left
          simp [padAt, mapAt, hk]
        · have := ih r' (by rw [hr, h.2])
          simpa [padAt, mapAt, hk] using this

theorem seed_fields (b b1 : Board) (s : UUID) (h : b.seed s = some b1) :
    b1.tracks = b.tracks ∧ b1.junctions = b.junctions ∧ b1.vias = b.vias ∧ b1.lines = b.lines ∧
      b1.airwires = b.airwires ∧ b1.warnings = b.warnings := by
  unfold Board.seed at h
  cases hp : seed_packages s b.packages with
  | none => rw [hp] at h; simp at h
  | some x =>
    rw [hp] at h
    simp only [Option.some.injEq] at h
    rw [← h]
    simp

theorem seed_conn_segment (b b1 : Board) (s : UUID) (h : b.seed s = some b1) (c : Connection) :
    b1.conn_segment c = b.conn_segment c ∨ (b.conn_segment c = 0 ∧ b1.conn_segment c = s) := by
  unfold Board.seed at h
  cases hp : seed_packages s b.packages with
  | none => rw [hp] at h; simp at h
  | some x =>
    obtain ⟨pkgs', n⟩ := x
    rw [hp] at h
    simp only [Option.some.injEq] at h
    rw [← h]
    cases c with
    | junc j => left; rfl
    | pad pk pd =>
      simp only [Board.conn_segment]
      rcases seed_packages_at s b.packages pkgs' n hp pk pd with h1 | ⟨p, h1, h2, h3⟩
      · left; rw [h1]
      · right; rw [h1, h3]; exact ⟨h2, rfl⟩

theorem track_inv_set (S : UUID) (b : Board) (c : Connection) (h0 : b.conn_segment c = 0)
    (t : Track) (h : track_inv S b t) : track_inv S (b.set_conn_segment c S) t := by
  refine ⟨?_, ?_⟩
  · intro h1 h2
    have := h.1 h1 h2
    rw [conn_segment_set, conn_segment_set]
    have hf : ¬ (t.from_ = c ∧ b.conn_live c = true) := by
      rintro ⟨e, -⟩
      rw [e, h0] at this
      exact h1 this.1.symm
    have ht : ¬ (t.to_ = c ∧ b.conn_live c = true) := by
      rintro ⟨e, -⟩
      rw [e, h0] at this
      exact h1 this.2.symm
    rw [if_neg hf, if_neg ht]
    exact this
  · intro c0 hc0 h1 h2
    rw [conn_segment_set] at h1 h2 ⊢
    by_cases hx : c0 = c ∧ b.conn_live c = true
    · rw [if_pos hx] at h2
      exact absurd rfl h2
    · rw [if_neg hx] at h1 h2 ⊢
      exact h.2 c0 hc0 h1 h2

theorem propagate_to_inv (S : UUID) (t0 : Track) (c : Connection)
    (hc : c = t0.from_ ∨ c = t0.to_) (st : Board × Nat) (h0 : track_inv S st.1 t0)
    (hs : t0.net_segment ≠ 0) (t : Track) (h : track_inv S st.1 t) :
    track_inv S (propagate_to t0.net_segment c st).1 t := by
  unfold propagate_to
  by_cases hz : st.1.conn_segment c = 0
  · rw [if_pos hz]
    simp only
    have hS : t0.net_segment = S := by
      by_contra hne
      have := h0.1 hs hne
      rcases hc with e | e
      · rw [e] at hz; rw [hz] at this; exact hs this.1.symm
      · rw [e] at hz; rw [hz] at this; exact hs this.2.symm
    rw [hS]
    exact track_inv_set S st.1 c hz t h
  · rw [if_neg hz]
    exact h

theorem propagate_from_inv (S : UUID) (b : Board) (c : Connection) (st : Track × Nat)
    (hc : c = st.1.from_ ∨ c = st.1.to_) (h : track_inv S b st.1)
    (hs : st.1.net_segment = 0 ∨ st.1.net_segment = S) :
    track_inv S b (propagate_from b c st).1 ∧
      ((propagate_from b c st).1.net_segment = 0 ∨ (propagate_from b c st).1.net_segment = S) := by
  unfold propagate_from
  by_cases hz : b.conn_segment c ≠ 0
  · rw [if_pos hz]
    simp only
    have hS : b.conn_segment c = S := by
      by_contra hne
      have := h.2 c hc hz hne
      rcases hs with e | e
      · rw [e] at this; exact hz this.symm
      · rw [e] at this; exact hne this.symm
    refine ⟨⟨?_, ?_⟩, Or.inr hS⟩
    · intro _ h2
      exact absurd hS h2
    · intro c0 hc0 h1 h2
      have := h.2 c0 hc0 h1 h2
      rcases hs with e | e
      · rw [e] at this; exact absurd this.symm h1
      · rw [e] at this; exact absurd this.symm h2
  · rw [if_neg hz]
    exact ⟨h, hs⟩

theorem flood_track_inv (S : UUID) (t0 : Track) (st : Board × Nat) (h0 : track_inv S st.1 t0) :
    track_inv S (flood_track t0 st).2.1 (flood_track t0 st).1 ∧
      ∀ t, track_inv S st.1 t → track_inv S (flood_track t0 st).2.1 t := by
  unfold flood_track
  by_cases hs : t0.net_segment ≠ 0
  · rw [if_pos hs]
    simp only
    have key : ∀ t, track_inv S st.1 t →
        track_inv S (propagate_to t0.net_segment t0.to_
          (propagate_to t0.net_segment t0.from_ st)).1 t := by
      intro t ht
      apply propagate_to_inv S t0 t0.to_ (Or.inr rfl) _ _ hs
      · exact propagate_to_inv S t0 t0.from_ (Or.inl rfl) st h0 hs t ht
      · exact propagate_to_inv S t0 t0.from_ (Or.inl rfl) st h0 hs t0 h0
    exact ⟨key t0 h0, key⟩
  · rw [if_neg hs]
    simp only
    have hz : t0.net_segment = 0 := by simpa using hs
    have a1 := propagate_from_inv S st.1 t0.from_ (t0, st.2) (Or.inl rfl) h0 (Or.inl hz)
    have f1 := propagate_from_fields st.1 t0.from_ (t0, st.2)
    have a2 := propagate_from_inv S st.1 t0.to_ (propagate_from st.1 t0.from_ (t0, st.2))
      (Or.inr f1.2.1.symm) a1.1 a1.2
    exact ⟨a2.1, fun t ht => ht⟩

theorem flood_tracks_inv (S : UUID) (ts : List (UUID × Track)) (st : Board × Nat)
    (h : ∀ e ∈ ts, track_inv S st.1 e.2) :
    (∀ e ∈ (flood_tracks ts st).1, track_inv S (flood_tracks ts st).2.1 e.2) ∧
      ∀ t, track_inv S st.1 t → track_inv S (flood_tracks ts st).2.1 t := by
  induction ts generalizing st with
  | nil => exact ⟨by simp [flood_tracks], fun t ht => ht⟩
  | cons e r ih =>
    obtain ⟨k, t0⟩ := e
    have a1 := flood_track_inv S t0 st (h (k, t0) (List.mem_cons_self _ _))
    have a2 := ih ((flood_track t0 st).2.1, (flood_track t0 st).2.2)
      (fun e he => a1.2 e.2 (h e (List.mem_cons_of_mem _ he)))
    simp only at a2
    simp only [flood_tracks]
    refine ⟨?_, fun t ht => a2.2 t (a1.2 t ht)⟩
    intro e he
    rcases List.mem_cons.1 he with h1 | h1
    · rw [h1]; exact a2.2 _ a1.1
    · exact a2.1 e h1

theorem flood_pass_inv (S : UUID) (b : Board) (h : b.flood_inv S) : b.flood_pass.1.flood_inv S :=
  (flood_tracks_inv S b.tracks (b, 0) h).1

theorem agree_of_closed (S : UUID) (b : Board) (h : b.flood_inv S) (hc : b.closed) : b.agree := by
  intro e he
  have hi := h e he
  have hcl := hc e he
  by_cases hz : e.2.net_segment = 0
  · have := hcl.2 hz
    exact ⟨by rw [this.1, hz], by rw [this.2, hz]⟩
  · by_cases hS : e.2.net_segment = S
    · have hn := hcl.1 hz
      constructor
      · by_cases hx : b.conn_segment e.2.from_ = S
        · rw [hx, hS]
        · exact (hi.2 _ (Or.inl rfl) hn.1 hx).symm
      · by_cases hx : b.conn_segment e.2.to_ = S
        · rw [hx, hS]
        · exact (hi.2 _ (Or.inr rfl) hn.2 hx).symm
    · exact hi.1 hz hS

theorem seed_inv (b b1 : Board) (S : UUID) (h : b.seed S = some b1) (ha : b.agree) :
    b1.flood_inv S := by
  intro e he
  rw [(seed_fields b b1 S h).1] at he
  have hag := ha e he
  refine ⟨?_, ?_⟩
  · intro h1 h2
    constructor
    · rcases seed_conn_segment b b1 S h e.2.from_ with x | ⟨x, _⟩
      · rw [x]; exact hag.1
      · rw [hag.1] at x; exact absurd x h1
    · rcases seed_conn_segment b b1 S h e.2.to_ with x | ⟨x, _⟩
      · rw [x]; exact hag.2
      · rw [hag.2] at x; exact absurd x h1
  · intro c hc h1 h2
    rcases seed_conn_segment b b1 S h c with x | ⟨_, x⟩
    · rw [x]
      rcases hc with e1 | e1
      · rw [e1]; exact hag.1.symm
      · rw [e1]; exact hag.2.symm
    · exact absurd x h2

/-- After the seeding loop every track carries the net segment of its two
endpoints, and no pad is left to seed. -/
theorem seed_loop_agree (rnd : Nat → UUID) (fuel j : Nat) (b b' : Board) (hb : b.agree)
    (h : Board.seed_loop rnd fuel j b = some b') :
    b'.agree ∧ ∃ j', b'.seed (rnd j') = none := by
  have := seed_loop_induct rnd (fun _ b => b.agree) (fun j b => b.flood_inv (rnd j))
    (fun j b b1 hI hs => seed_inv b b1 (rnd j) hs hI)
    (fun j b hJ => flood_pass_inv (rnd j) b hJ)
    (fun j b hJ hc => agree_of_closed (rnd j) b hJ hc) fuel j b b' hb h
  obtain ⟨j', h1, h2⟩ := this
  exact ⟨h1, j', h2⟩

theorem tracks_live_skel (b : Board) (ts ts' : List (UUID × Track))
    (h : skeleton ts' = skeleton ts) (hl : tracks_live b ts) : tracks_live b ts' := by
  intro e he
  have h1 : (e.1, { e.2 with net_segment := 0 }) ∈ skeleton ts' :=
    List.mem_map.2 ⟨e, he, rfl⟩
  rw [h] at h1
  obtain ⟨e0, he0, heq⟩ := List.mem_map.1 h1
  have h2 := hl e0 he0
  simp only [Prod.mk.injEq, Track.mk.injEq] at heq
  rw [← heq.2.1, ← heq.2.2.1]
  exact h2

theorem flood_pass_prog (b : Board) (hl : tracks_live b b.tracks) :
    b.flood_pass.1.todo ≤ b.todo ∧ (b.flood_pass.2 ≠ 0 → b.flood_pass.1.todo < b.todo) ∧
      tracks_live b.flood_pass.1 b.flood_pass.1.tracks := by
  have h := flood_tracks_prog b.tracks (b, 0) hl
  refine ⟨h.1, fun hn => h.2.2 (Nat.pos_of_ne_zero hn), ?_⟩
  have h1 : tracks_live b (flood_tracks b.tracks (b, 0)).1 :=
    tracks_live_skel b _ _ (flood_tracks_skel b.tracks (b, 0)) hl
  intro e he
  have h2 := h1 e he
  have l1 := flood_tracks_live b.tracks (b, 0) e.2.from_
  have l2 := flood_tracks_live b.tracks (b, 0) e.2.to_
  exact ⟨l1.trans h2.1, l2.trans h2.2⟩

theorem flood_total (fuel : Nat) (b : Board) (hl : tracks_live b b.tracks) (hf : b.todo < fuel) :
    ∃ b', Board.flood fuel b = some b' ∧ b'.todo ≤ b.todo ∧ tracks_live b' b'.tracks := by
  induction fuel generalizing b with
  | zero => omega
  | succ n ih =>
    have hp := flood_pass_prog b hl
    simp only [Board.flood]
    by_cases h0 : b.flood_pass.2 = 0
    · rw [if_pos h0]
      exact ⟨_, rfl, hp.1, hp.2.2⟩
    · rw [if_neg h0]
      have hlt := hp.2.1 h0
      obtain ⟨b', e1, e2, e3⟩ := ih b.flood_pass.1 hp.2.2 (by omega)
      exact ⟨b', e1, by omega, e3⟩

theorem seed_pads_count (s : UUID) (hs : s ≠ 0) (pads pads' : List (UUID × Pad)) (n : Option Net)
    (h : seed_pads s pads = some (pads', n)) :
    mapCount (fun p => decide (p.net_segment = 0)) pads' + 1 =
      mapCount (fun p => decide (p.net_segment = 0)) pads := by
  induction pads generalizing pads' with
  | nil => simp [seed_pads] at h
  | cons e r ih =>
    obtain ⟨a, p⟩ := e
    simp only [seed_pads] at h
    by_cases hc : p.net_segment = 0 ∧ p.net ≠ none
    · rw [if_pos hc] at h
      simp only [Option.some.injEq, Prod.mk.injEq] at h
      rw [← h.1]
      simp only [mapCount, hs, hc.1, decide_True, decide_False, if_true, Bool.false_eq_true,
        if_false]
      omega
    · rw [if_neg hc] at h
      cases hr : seed_pads s r with
      | none => rw [hr] at h; simp at h
      | some x =>
        obtain ⟨r', n'⟩ := x
        rw [hr] at h
        simp only [Option.some.injEq, Prod.mk.injEq] at h
        rw [← h.1]
        have := ih r' (by rw [hr, h.2])
        simp only [mapCount]
        omega

theorem seed_packages_count (s : UUID) (hs : s ≠ 0) (pkgs pkgs' : List (UUID × BoardPackage))
    (n : Option Net) (h : seed_packages s pkgs = some (pkgs', n)) :
    pads_unlabelled pkgs' + 1 = pads_unlabelled pkgs := by
  induction pkgs generalizing pkgs' with
  | nil => simp [seed_packages] at h
  | cons e r ih =>
    obtain ⟨a, p⟩ := e
    simp only [seed_packages] at h
    cases hp : seed_pads s p.pads with
    | some x =>
      obtain ⟨pads', n'⟩ := x
      rw [hp] at h
      simp only [Option.some.injEq, Prod.mk.injEq] at h
      rw [← h.1]
      have := seed_pads_count s hs p.pads pads' n' hp
      simp only [pads_unlabelled]
      omega
    | none =>
      rw [hp] at h
      simp only at h
      cases hr : seed_packages s r with
      | none => rw [hr] at h; simp at h
      | some x =>
        obtain ⟨r', n'⟩ := x
        rw [hr] at h
        simp only [Option.some.injEq, Prod.mk.injEq] at h
        rw [← h.1]
        have := ih r' (by rw [hr, h.2])
        simp only [pads_unlabelled]
        omega

theorem seed_conn_live (b b1 : Board) (s : UUID) (h : b.seed s = some b1) (c : Connection) :
    b1.conn_live c = b.conn_live c := by
  unfold Board.seed at h
  cases hp : seed_packages s b.packages with
  | none => rw [hp] at h; simp at h
  | some x =>
    obtain ⟨pkgs', n⟩ := x
    rw [hp] at h
    simp only [Option.some.injEq] at h
    rw [← h]
    cases c with
    | junc j => rfl
    | pad pk pd =>
      simp only [Board.conn_live]
      rcases seed_packages_at s b.packages pkgs' n hp pk pd with h1 | ⟨p, h1, _, h3⟩
      · rw [h1]
      · rw [h1, h3]; rfl

theorem seed_todo (b b1 : Board) (s : UUID) (hs : s ≠ 0) (h : b.seed s = some b1) :
    b1.todo + 1 = b.todo := by
  have hf := seed_fields b b1 s h
  unfold Board.seed at h
  cases hp : seed_packages s b.packages with
  | none => rw [hp] at h; simp at h
  | some x =>
    obtain ⟨pkgs', n⟩ := x
    rw [hp] at h
    simp only [Option.some.injEq] at h
    have hc := seed_packages_count s hs b.packages pkgs' n hp
    have hpk : b1.packages = pkgs' := by rw [← h]
    simp only [Board.todo, Board.unlabelled, hf.1, hf.2.1, hpk]
    omega

theorem seed_loop_total (rnd : Nat → UUID) (hr : ∀ i, rnd i ≠ 0) (fuel j : Nat) (b : Board)
    (hl : tracks_live b b.tracks) (hf : b.todo < fuel) :
    ∃ b', Board.seed_loop rnd fuel j b = some b' := by
  induction fuel generalizing j b with
  | zero => omega
  | succ n ih =>
    simp only [Board.seed_loop]
    cases hs : b.seed (rnd j) with
    | none => exact ⟨b, rfl⟩
    | some b1 =>
      simp only
      have h1 := seed_todo b b1 (rnd j) (hr j) hs
      have hl1 : tracks_live b1 b1.tracks := by
        rw [(seed_fields b b1 _ hs).1]
        intro e he
        rw [seed_conn_live b b1 _ hs, seed_conn_live b b1 _ hs]
        exact hl e he
      obtain ⟨b2, e1, e2, e3⟩ := flood_total (n + 1) b1 hl1 (by omega)
      rw [e1]
      simp only
      exact ih (j + 1) b2 e3 (by omega)

theorem flood_tracks_pres (P : Track → Prop) (Q : Board → Prop)
    (hstep : ∀ t st, P t → Q st.1 → P (flood_track t st).1 ∧ Q (flood_track t st).2.1)
    (ts : List (UUID × Track)) (st : Board × Nat) (hP : ∀ e ∈ ts, P e.2) (hQ : Q st.1) :
    (∀ e ∈ (flood_tracks ts st).1, P e.2) ∧ Q (flood_tracks ts st).2.1 := by
  induction ts generalizing st with
  | nil => exact ⟨by simp [flood_tracks], hQ⟩
  | cons e r ih =>
    obtain ⟨k, t⟩ := e
    have a1 := hstep t st (hP (k, t) (List.mem_cons_self _ _)) hQ
    have a2 := ih ((flood_track t st).2.1, (flood_track t st).2.2)
      (fun e he => hP e (List.mem_cons_of_mem _ he)) a1.2
    simp only at a2
    simp only [flood_tracks]
    refine ⟨?_, a2.2⟩
    intro e he
    rcases List.mem_cons.1 he with h1 | h1
    · rw [h1]; exact a1.1
    · exact a2.1 e h1

theorem flood_pass_pres (P : Track → Prop) (Q : Board → Prop)
    (hstep : ∀ t st, P t → Q st.1 → P (flood_track t st).1 ∧ Q (flood_track t st).2.1)
    (hQ : ∀ b ts, Q b → Q { b with tracks := ts })
    (b : Board) (h : (∀ e ∈ b.tracks, P e.2) ∧ Q b) :
    (∀ e ∈ b.flood_pass.1.tracks, P e.2) ∧ Q b.flood_pass.1 := by
  have := flood_tracks_pres P Q hstep b.tracks (b, 0) h.1 h.2
  exact ⟨this.1, hQ _ _ this.2⟩

theorem mem_mapModify {α : Type} (m : List (UUID × α)) (k : UUID) (f : α → α) (e : UUID × α)
    (h : e ∈ mapModify m k f) : ∃ e0 ∈ m, e.1 = e0.1 ∧ (e.2 = e0.2 ∨ e.2 = f e0.2) := by
  unfold mapModify at h
  obtain ⟨e0, h0, h1⟩ := List.mem_map.1 h
  refine ⟨e0, h0, ?_⟩
  rw [← h1]
  by_cases hk : e0.1 = k
  · simp [hk]
  · simp [hk]

theorem store_bound_set (ns : List (UUID × Option Net)) (b : Board) (c : Connection) (s : UUID)
    (hs : bound_in ns s) (h : store_bound ns b) : store_bound ns (b.set_conn_segment c s) := by
  refine ⟨?_, ?_, ?_⟩
  · cases c <;> exact h.1
  · intro e he
    cases c with
    | junc j =>
      simp only [Board.set_conn_segment] at he
      obtain ⟨e0, h0, _, h2⟩ := mem_mapModify _ _ _ _ he
      rcases h2 with h2 | h2
      · rw [h2]; exact h.2.1 e0 h0
      · rw [h2]; exact hs
    | pad pk pd => exact h.2.1 e he
  · intro c'
    rw [conn_segment_set]
    split
    · exact hs
    · exact h.2.2 c'

theorem flood_track_bound (ns : List (UUID × Option Net)) (t : Track) (st : Board × Nat)
    (hP : bound_in ns t.net_segment) (hQ : store_bound ns st.1) :
    bound_in ns (flood_track t st).1.net_segment ∧ store_bound ns (flood_track t st).2.1 := by
  unfold flood_track
  by_cases hs : t.net_segment ≠ 0
  · rw [if_pos hs]
    simp only
    refine ⟨hP, ?_⟩
    have key : ∀ c (st : Board × Nat), store_bound ns st.1 →
        store_bound ns (propagate_to t.net_segment c st).1 := by
      intro c st h
      unfold propagate_to
      split
      · exact store_bound_set ns _ _ _ hP h
      · exact h
    exact key _ _ (key _ _ hQ)
  · rw [if_neg hs]
    simp only
    refine ⟨?_, hQ⟩
    have key : ∀ c (x : Track × Nat), bound_in ns x.1.net_segment →
        bound_in ns (propagate_from st.1 c x).1.net_segment := by
      intro c x h
      unfold propagate_from
      split
      · exact hQ.2.2 c
      · exact h
    exact key _ _ (key _ _ hP)

theorem flood_pass_net_segments (b : Board) : b.flood_pass.1.net_segments = b.net_segments := by
  have := flood_tracks_pres (fun _ => True) (fun x => x.net_segments = b.net_segments)
    (fun t st _ h => by
      refine ⟨trivial, ?_⟩
      unfold flood_track
      split
      · simp only
        unfold propagate_to
        split <;> split <;> first | exact h | skip
        all_goals
          first
          | exact h
          | (simp only [Board.set_conn_segment]; split <;> split <;> exact h)
          | (simp only [Board.set_conn_segment]; split <;> exact h)
      · exact h) b.tracks (b, 0) (fun _ _ => trivial) rfl
  exact this.2

theorem flood_pass_bound (b : Board) (h : b.bound) : b.flood_pass.1.bound := by
  have := flood_pass_pres (fun t => bound_in b.net_segments t.net_segment)
    (store_bound b.net_segments) (fun t st => flood_track_bound b.net_segments t st)
    (fun _ _ h => h) b h
  unfold Board.bound
  rw [flood_pass_net_segments]
  exact this

theorem mapAt_append {α : Type} (m : List (UUID × α)) (k : UUID) (v : α) (x : UUID) :
    mapAt (m ++ [(k, v)]) x =
      match mapAt m x with
      | some w => some w
      | none => if k = x then some v else none := by
  induction m with
  | nil => simp [mapAt]
  | cons e r ih =>
    obtain ⟨a, w⟩ := e
    simp only [List.cons_append, mapAt]
    by_cases h : a = x
    · simp [h]
    · simp only [h, if_false]; exact ih

theorem bound_in_emplace (ns : List (UUID × Option Net)) (s x : UUID) (n : Option Net)
    (h : bound_in ns x ∨ x = s) : bound_in (mapEmplace ns s n) x := by
  unfold mapEmplace bound_in
  cases hs : mapAt ns s with
  | some w =>
    simp only
    rcases h with h | h
    · exact h
    · rw [h, hs]; rfl
  | none =>
    simp only
    rw [mapAt_append]
    cases hx : mapAt ns x with
    | some w => rfl
    | none =>
      rcases h with h | h
      · unfold bound_in at h; rw [hx] at h; simp at h
      · simp [h]

theorem seed_net_segments (b b1 : Board) (s : UUID) (h : b.seed s = some b1) :
    ∃ n, b1.net_segments = mapEmplace b.net_segments s n := by
  unfold Board.seed at h
  cases hp : seed_packages s b.packages with
  | none => rw [hp] at h; simp at h
  | some x =>
    obtain ⟨pkgs', n⟩ := x
    rw [hp] at h
    simp only [Option.some.injEq] at h
    exact ⟨n, by rw [← h]⟩

theorem seed_bound (b b1 : Board) (s : UUID) (h : b.seed s = some b1) (hb : b.bound) :
    b1.bound := by
  obtain ⟨n, hn⟩ := seed_net_segments b b1 s h
  have hf := seed_fields b b1 s h
  unfold Board.bound store_bound
  rw [hn, hf.1, hf.2.1]
  refine ⟨?_, rfl, ?_, ?_⟩
  · intro e he
    exact bound_in_emplace _ _ _ _ (Or.inl (hb.1 e he))
  · intro e he
    exact bound_in_emplace _ _ _ _ (Or.inl (hb.2.2.1 e he))
  · intro c
    rcases seed_conn_segment b b1 s h c with x | ⟨_, x⟩
    · rw [x]; exact bound_in_emplace _ _ _ _ (Or.inl (hb.2.2.2 c))
    · rw [x]; exact bound_in_emplace _ _ _ _ (Or.inr rfl)

theorem seed_loop_bound (rnd : Nat → UUID) (fuel j : Nat) (b b' : Board) (hb : b.bound)
    (h : Board.seed_loop rnd fuel j b = some b') : b'.bound := by
  have := seed_loop_induct rnd (fun _ b => b.bound) (fun _ b => b.bound)
    (fun j b b1 hI hs => seed_bound b b1 (rnd j) hs hI)
    (fun j b hJ => flood_pass_bound b hJ)
    (fun j b hJ _ => hJ) fuel j b b' hb h
  obtain ⟨j', h1, _⟩ := this
  exact h1

theorem assign_junction_nets_total (ns : List (UUID × Option Net)) (js : List (UUID × Junction))
    (h : ∀ e ∈ js, bound_in ns e.2.net_segment) :
    ∃ js', assign_junction_nets ns js = some js' := by
  induction js with
  | nil => exact ⟨[], rfl⟩
  | cons e r ih =>
    obtain ⟨k, ju⟩ := e
    obtain ⟨r', hr⟩ := ih (fun e he => h e (List.mem_cons_of_mem _ he))
    have hb := h (k, ju) (List.mem_cons_self _ _)
    unfold bound_in at hb
    cases hn : mapAt ns ju.net_segment with
    | none => rw [hn] at hb; simp at hb
    | some n =>
      simp only [assign_junction_nets, hn, hr]
      exact ⟨_, rfl⟩

theorem assign_junction_nets_at (ns : List (UUID × Option Net)) (js js' : List (UUID × Junction))
    (h : assign_junction_nets ns js = some js') (j : UUID) :
    (mapAt js j = none ∧ mapAt js' j = none) ∨
      ∃ ju n, mapAt js j = some ju ∧ mapAt ns ju.net_segment = some n ∧
        mapAt js' j = some { ju with net := n } := by
  induction js generalizing js' with
  | nil =>
    simp only [assign_junction_nets, Option.some.injEq] at h
    rw [← h]
    left
    exact ⟨rfl, rfl⟩
  | cons e r ih =>
    obtain ⟨k, ju⟩ := e
    simp only [assign_junction_nets] at h
    cases hn : mapAt ns ju.net_segment with
    | none => rw [hn] at h; simp at h
    | some n =>
      cases hr : assign_junction_nets ns r with
      | none => rw [hn, hr] at h; simp at h
      | some r' =>
        rw [hn, hr] at h
        simp only [Option.some.injEq] at h
        rw [← h]
        by_cases hk : k = j
        · right
          exact ⟨ju, n, by simp [mapAt, hk], hn, by simp [mapAt, hk]⟩
        · simp only [mapAt, hk, if_false]
          exact ih r' hr

theorem check_tracks_total (b : Board) (ts : List (UUID × Track))
    (h : ∀ e ∈ ts, bound_in b.net_segments e.2.net_segment) :
    ∃ r, b.check_tracks ts = some r := by
  induction ts with
  | nil => exact ⟨_, rfl⟩
  | cons e r ih =>
    obtain ⟨k, t⟩ := e
    obtain ⟨r', hr⟩ := ih (fun e he => h e (List.mem_cons_of_mem _ he))
    have hb := h (k, t) (List.mem_cons_self _ _)
    unfold bound_in at hb
    cases hn : mapAt b.net_segments t.net_segment with
    | none => rw [hn] at hb; simp at hb
    | some n =>
      simp only [Board.check_tracks, hn, hr]
      split
      · exact ⟨_, rfl⟩
      · exact ⟨_, rfl⟩

theorem check_tracks_eq (b : Board) (ts ts' : List (UUID × Track)) (d : Bool)
    (h : b.check_tracks ts = some (ts', d)) :
    ts' = (ts.map fun e => (e.1, with_net b.net_segments e.2)).filter
        (fun e => !b.track_conflict e.2) ∧
      d = (ts.map fun e => (e.1, with_net b.net_segments e.2)).all
        (fun e => !b.track_conflict e.2) := by
  induction ts generalizing ts' d with
  | nil =>
    simp only [Board.check_tracks, Option.some.injEq, Prod.mk.injEq] at h
    simp [← h.1, ← h.2]
  | cons e r ih =>
    obtain ⟨k, t⟩ := e
    simp only [Board.check_tracks] at h
    cases hn : mapAt b.net_segments t.net_segment with
    | none => rw [hn] at h; simp at h
    | some n =>
      cases hr : b.check_tracks r with
      | none => rw [hn, hr] at h; simp at h
      | some x =>
        obtain ⟨r', d'⟩ := x
        rw [hn, hr] at h
        simp only at h
        have hw : with_net b.net_segments t = { t with net := n } := by
          simp [with_net, hn]
        have := ih r' d' hr
        by_cases hc : b.track_conflict { t with net := n } = true
        · rw [if_pos hc] at h
          simp only [Option.some.injEq, Prod.mk.injEq] at h
          simp only [List.map_cons, hw, List.filter_cons, hc, Bool.not_true, List.all_cons,
            Bool.false_and, Bool.false_eq_true, if_false]
          exact ⟨by rw [← h.1]; exact this.1, h.2.symm⟩
        · rw [if_neg hc] at h
          simp only [Option.some.injEq, Prod.mk.injEq] at h
          have hc' : b.track_conflict { t with net := n } = false := by simpa using hc
          simp only [List.map_cons, hw, List.filter_cons, hc', Bool.not_false, List.all_cons,
            Bool.true_and, if_true]
          exact ⟨by rw [← h.1, this.1], by rw [← h.2]; exact this.2⟩

theorem mapAt_map {α β : Type} (m : List (UUID × α)) (g : α → β) (k : UUID) :
    mapAt (m.map fun e => (e.1, g e.2)) k = (mapAt m k).map g := by
  induction m with
  | nil => rfl
  | cons e r ih =>
    simp only [List.map_cons, mapAt]
    by_cases h : e.1 = k
    · simp [h]
    · simp only [h, if_false]; exact ih

theorem clear_junctions_modify (js : List (UUID × Junction)) (j s : UUID) :
    clear_junctions (mapModify js j fun ju => { ju with net_segment := s }) =
      clear_junctions js := by
  unfold clear_junctions mapModify
  rw [List.map_map]
  apply List.map_congr_left
  intro e _
  simp only [Function.comp]
  split <;> rfl

theorem clear_pads_modify (pads : List (UUID × Pad)) (pd s : UUID) :
    (mapModify pads pd fun p => { p with net_segment := s }).map
        (fun p => (p.1, { p.2 with net_segment := 0 })) =
      pads.map (fun p => (p.1, { p.2 with net_segment := 0 })) := by
  unfold mapModify
  rw [List.map_map]
  apply List.map_congr_left
  intro e _
  simp only [Function.comp]
  split <;> rfl

theorem clear_packages_modify (pkgs : List (UUID × BoardPackage)) (pk pd s : UUID) :
    clear_packages (padModify pkgs pk pd fun p => { p with net_segment := s }) =
      clear_packages pkgs := by
  unfold clear_packages padModify mapModify
  rw [List.map_map]
  apply List.map_congr_left
  intro e _
  simp only [Function.comp]
  split
  · simp only [Prod.mk.injEq, true_and, BoardPackage.mk.injEq, and_true]
    exact clear_pads_modify e.2.pads pd s
  · rfl

theorem clear_pads_seed (s : UUID) (pads pads' : List (UUID × Pad)) (n : Option Net)
    (h : seed_pads s pads = some (pads', n)) :
    pads'.map (fun p => (p.1, { p.2 with net_segment := 0 })) =
      pads.map (fun p => (p.1, { p.2 with net_segment := 0 })) := by
  induction pads generalizing pads' with
  | nil => simp [seed_pads] at h
  | cons e r ih =>
    obtain ⟨a, p⟩ := e
    simp only [seed_pads] at h
    by_cases hc : p.net_segment = 0 ∧ p.net ≠ none
    · rw [if_pos hc] at h
      simp only [Option.some.injEq, Prod.mk.injEq] at h
      rw [← h.1]
      rfl
    · rw [if_neg hc] at h
      cases hr : seed_pads s r with
      | none => rw [hr] at h; simp at h
      | some x =>
        obtain ⟨r', n'⟩ := x
        rw [hr] at h
        simp only [Option.some.injEq, Prod.mk.injEq] at h
        rw [← h.1]
        simp only [List.map_cons, List.cons.injEq, true_and]
        exact ih r' (by rw [hr, h.2])

theorem clear_packages_seed (s : UUID) (pkgs pkgs' : List (UUID × BoardPackage)) (n : Option Net)
    (h : seed_packages s pkgs = some (pkgs', n)) : clear_packages pkgs' = clear_packages pkgs := by
  induction pkgs generalizing pkgs' with
  | nil => simp [seed_packages] at h
  | cons e r ih =>
    obtain ⟨a, p⟩ := e
    simp only [seed_packages] at h
    cases hp : seed_pads s p.pads with
    | some x =>
      obtain ⟨pads', n'⟩ := x
      rw [hp] at h
      simp only [Option.some.injEq, Prod.mk.injEq] at h
      rw [← h.1]
      simp only [clear_packages, List.map_cons, List.cons.injEq, Prod.mk.injEq, true_and,
        BoardPackage.mk.injEq, and_true]
      exact clear_pads_seed s p.pads pads' n' hp
    | none =>
      rw [hp] at h
      simp only at h
      cases hr : seed_packages s r with
      | none => rw [hr] at h; simp at h
      | some x =>
        obtain ⟨r', n'⟩ := x
        rw [hr] at h
        simp only [Option.some.injEq, Prod.mk.injEq] at h
        rw [← h.1]
        have := ih r' (by rw [hr, h.2])
        simp only [clear_packages, List.map_cons, List.cons.injEq, true_and] at this ⊢
        exact this

theorem same_store_refl (b : Board) : same_store b b := ⟨rfl, rfl, rfl, rfl, rfl, rfl⟩

theorem same_store_trans (a b c : Board) (h1 : same_store a b) (h2 : same_store b c) :
    same_store a c :=
  ⟨h2.1.trans h1.1, h2.2.1.trans h1.2.1, h2.2.2.1.trans h1.2.2.1,
    h2.2.2.2.1.trans h1.2.2.2.1, h2.2.2.2.2.1.trans h1.2.2.2.2.1,
    h2.2.2.2.2.2.trans h1.2.2.2.2.2⟩

theorem same_store_set (b : Board) (c : Connection) (s : UUID) :
    same_store b (b.set_conn_segment c s) := by
  cases c with
  | junc j => exact ⟨rfl, clear_junctions_modify _ _ _, rfl, rfl, rfl, rfl⟩
  | pad pk pd => exact ⟨clear_packages_modify _ _ _ _, rfl, rfl, rfl, rfl, rfl⟩

theorem same_store_flood_track (b0 : Board) (t : Track) (st : Board × Nat)
    (h : same_store b0 st.1) : same_store b0 (flood_track t st).2.1 := by
  unfold flood_track
  have key : ∀ seg c (st : Board × Nat), same_store b0 st.1 →
      same_store b0 (propagate_to seg c st).1 := by
    intro seg c st h
    unfold propagate_to
    split
    · exact same_store_trans _ _ _ h (same_store_set _ _ _)
    · exact h
  split
  · exact key _ _ _ (key _ _ _ h)
  · exact h

theorem same_store_flood_pass (b : Board) : same_store b b.flood_pass.1 := by
  have := flood_tracks_pres (fun _ => True) (same_store b)
    (fun t st _ h => ⟨trivial, same_store_flood_track b t st h⟩) b.tracks (b, 0)
    (fun _ _ => trivial) (same_store_refl b)
  exact this.2

theorem clear_tracks_skel (ts ts' : List (UUID × Track)) (h : skeleton ts' = skeleton ts) :
    clear_tracks ts' = clear_tracks ts := by
  have e : ∀ l : List (UUID × Track), clear_tracks l =
      (skeleton l).map (fun e => (e.1, { e.2 with net := none })) := by
    intro l
    unfold clear_tracks skeleton
    rw [List.map_map]
    rfl
  rw [e, e, h]

theorem clear_tracks_flood_pass (b : Board) :
    clear_tracks b.flood_pass.1.tracks = clear_tracks b.tracks :=
  clear_tracks_skel _ _ (flood_tracks_skel b.tracks (b, 0))

theorem same_store_seed (b b1 : Board) (s : UUID) (h : b.seed s = some b1) : same_store b b1 := by
  have hf := seed_fields b b1 s h
  unfold Board.seed at h
  cases hp : seed_packages s b.packages with
  | none => rw [hp] at h; simp at h
  | some x =>
    obtain ⟨pkgs', n⟩ := x
    rw [hp] at h
    simp only [Option.some.injEq] at h
    have hpk : b1.packages = pkgs' := by rw [← h]
    refine ⟨?_, by rw [hf.2.1], hf.2.2.1, hf.2.2.2.1, hf.2.2.2.2.1, hf.2.2.2.2.2⟩
    rw [hpk]
    exact clear_packages_seed s b.packages pkgs' n hp

theorem seed_loop_same (rnd : Nat → UUID) (fuel j : Nat) (b b' : Board)
    (h : Board.seed_loop rnd fuel j b = some b') :
    same_store b b' ∧ clear_tracks b'.tracks = clear_tracks b.tracks := by
  have := seed_loop_induct rnd
    (fun _ x => same_store b x ∧ clear_tracks x.tracks = clear_tracks b.tracks)
    (fun _ x => same_store b x ∧ clear_tracks x.tracks = clear_tracks b.tracks)
    (fun j x x1 hI hs => ⟨same_store_trans _ _ _ hI.1 (same_store_seed x x1 _ hs),
      by rw [(seed_fields x x1 _ hs).1]; exact hI.2⟩)
    (fun j x hJ => ⟨same_store_trans _ _ _ hJ.1 (same_store_flood_pass x),
      (clear_tracks_flood_pass x).trans hJ.2⟩)
    (fun j x hJ _ => hJ) fuel j b b' ⟨same_store_refl b, rfl⟩ h
  obtain ⟨j', h1, _⟩ := this
  exact h1

theorem clear_junctions_assign (ns : List (UUID × Option Net)) (js js' : List (UUID × Junction))
    (h : assign_junction_nets ns js = some js') : clear_junctions js' = clear_junctions js := by
  induction js generalizing js' with
  | nil =>
    simp only [assign_junction_nets, Option.some.injEq] at h
    rw [← h]
  | cons e r ih =>
    obtain ⟨k, ju⟩ := e
    simp only [assign_junction_nets] at h
    cases hn : mapAt ns ju.net_segment with
    | none => rw [hn] at h; simp at h
    | some n =>
      cases hr : assign_junction_nets ns r with
      | none => rw [hn, hr] at h; simp at h
      | some r' =>
        rw [hn, hr] at h
        simp only [Option.some.injEq] at h
        rw [← h]
        have := ih r' hr
        simp only [clear_junctions, List.map_cons, List.cons.injEq, true_and] at this ⊢
        exact this

theorem mapAt_clear_junctions (js : List (UUID × Junction)) (j : UUID) :
    mapAt (clear_junctions js) j =
      (mapAt js j).map (fun ju => { ju with net := none, net_segment := 0 }) := by
  unfold clear_junctions
  exact mapAt_map js (fun ju : Junction => { ju with net := none, net_segment := 0 }) j

theorem padAt_clear_packages (pkgs : List (UUID × BoardPackage)) (pk pd : UUID) :
    padAt (clear_packages pkgs) pk pd =
      (padAt pkgs pk pd).map (fun p => { p with net_segment := 0 }) := by
  unfold padAt
  have h1 := mapAt_map pkgs (fun p : BoardPackage =>
      { p with pads := p.pads.map fun (q : UUID × Pad) => (q.1, { q.2 with net_segment := 0 }) }) pk
  have h2 : mapAt (clear_packages pkgs) pk = Option.map (fun p : BoardPackage =>
      { p with pads := p.pads.map fun (q : UUID × Pad) => (q.1, { q.2 with net_segment := 0 }) })
      (mapAt pkgs pk) := h1
  rw [h2]
  cases mapAt pkgs pk with
  | none => rfl
  | some p =>
    simp only [Option.map_some']
    exact mapAt_map p.pads (fun p : Pad => { p with net_segment := 0 }) pd

theorem conn_segment_clear (b : Board) (c : Connection) : b.clear_nets.conn_segment c = 0 := by
  cases c with
  | junc j =>
    simp only [Board.conn_segment, Board.clear_nets]
    rw [mapAt_clear_junctions]
    cases mapAt b.junctions j <;> rfl
  | pad pk pd =>
    simp only [Board.conn_segment, Board.clear_nets]
    rw [padAt_clear_packages]
    cases padAt b.packages pk pd <;> rfl

theorem clear_agree (b : Board) (ns : List (UUID × Option Net)) :
    Board.agree { b.clear_nets with net_segments := ns } := by
  intro e he
  have he' : e ∈ clear_tracks b.tracks := he
  unfold clear_tracks at he'
  obtain ⟨e0, _, h0⟩ := List.mem_map.1 he'
  have hz : e.2.net_segment = 0 := by rw [← h0]
  exact ⟨(conn_segment_clear b _).trans hz.symm, (conn_segment_clear b _).trans hz.symm⟩

theorem clear_bound (b : Board) :
    Board.bound { b.clear_nets with net_segments := mapEmplace [] 0 none } := by
  have hz : bound_in (mapEmplace [] 0 none) 0 := rfl
  refine ⟨?_, rfl, ?_, ?_⟩
  · intro e he
    have he' : e ∈ clear_tracks b.tracks := he
    unfold clear_tracks at he'
    obtain ⟨e0, _, h0⟩ := List.mem_map.1 he'
    have : e.2.net_segment = 0 := by rw [← h0]
    rw [this]; exact hz
  · intro e he
    have he' : e ∈ clear_junctions b.junctions := he
    unfold clear_junctions at he'
    obtain ⟨e0, _, h0⟩ := List.mem_map.1 he'
    have : e.2.net_segment = 0 := by rw [← h0]
    rw [this]; exact hz
  · intro c
    have : Board.conn_segment { b.clear_nets with net_segments := mapEmplace [] 0 none } c = 0 :=
      conn_segment_clear b c
    rw [this]; exact hz

/-- What a call of `propagate_net_segments` that returns is made of. -/
theorem propagate_spec (fuel : Nat) (rnd : Nat → UUID) (b b' : Board) (d : Bool)
    (h : b.propagate_net_segments fuel rnd = some (b', d)) :
    ∃ b1, Board.seed_loop rnd fuel 0 { b with net_segments := mapEmplace [] 0 none } = some b1 ∧
      assign_junction_nets b1.net_segments b1.junctions = some b'.junctions ∧
      b'.packages = b1.packages ∧ b'.net_segments = b1.net_segments ∧ b'.vias = b1.vias ∧
      b'.lines = b1.lines ∧ b'.airwires = b1.airwires ∧ b'.warnings = b1.warnings ∧
      b'.tracks = (b1.tracks.map fun e => (e.1, with_net b1.net_segments e.2)).filter
        (fun e => !b'.track_conflict e.2) ∧
      d = (b1.tracks.map fun e => (e.1, with_net b1.net_segments e.2)).all
        (fun e => !b'.track_conflict e.2) := by
  unfold Board.propagate_net_segments at h
  cases h1 : Board.seed_loop rnd fuel 0 { b with net_segments := mapEmplace [] 0 none } with
  | none => rw [h1] at h; simp at h
  | some b1 =>
    rw [h1] at h
    simp only at h
    cases h2 : assign_junction_nets b1.net_segments b1.junctions with
    | none => rw [h2] at h; simp at h
    | some js =>
      rw [h2] at h
      simp only at h
      cases h3 : Board.check_tracks { b1 with junctions := js } b1.tracks with
      | none => rw [h3] at h; simp at h
      | some x =>
        obtain ⟨ts, d'⟩ := x
        rw [h3] at h
        simp only [Option.some.injEq, Prod.mk.injEq] at h
        have hc := check_tracks_eq _ _ _ _ h3
        refine ⟨b1, rfl, ?_⟩
        rw [← h.1, ← h.2]
        exact ⟨h2, rfl, rfl, rfl, rfl, rfl, rfl, hc.1, hc.2⟩

theorem track_conflict_false (b : Board) (t : Track) (h : b.track_conflict t = false)
    (c : Connection) (hc : c = t.from_ ∨ c = t.to_) (hn : b.conn_pad_net c ≠ none) :
    b.conn_pad_net c = t.net := by
  unfold Board.track_conflict at h
  simp only [decide_eq_false_iff_not, not_or, not_and, not_not] at h
  rcases hc with e | e
  · rw [e] at hn ⊢
    exact (h.1 hn).symm
  · rw [e] at hn ⊢
    exact (h.2 hn).symm

/-- After a call of `propagate_net_segments` on a board without net segments,
every junction endpoint of a remaining track carries the track's net, and so does
every pad endpoint that has a net. -/
theorem propagate_tracks_nets (fuel : Nat) (rnd : Nat → UUID) (b b' : Board) (d : Bool)
    (h : b.clear_nets.propagate_net_segments fuel rnd = some (b', d))
    (e : UUID × Track) (he : e ∈ b'.tracks) (c : Connection)
    (hc : c = e.2.from_ ∨ c = e.2.to_) :
    (∀ j ju, c = .junc j → mapAt b'.junctions j = some ju → ju.net = e.2.net) ∧
    (∀ pk pd p, c = .pad pk pd → padAt b'.packages pk pd = some p → p.net ≠ none →
      p.net = e.2.net) := by
  obtain ⟨b1, h1, h2, h3, h4, _, _, _, _, h5, _⟩ := propagate_spec fuel rnd _ b' d h
  have hag := (seed_loop_agree rnd fuel 0 _ b1 (clear_agree b _) h1).1
  rw [h5] at he
  obtain ⟨he1, he2⟩ := List.mem_filter.1 he
  obtain ⟨e0, he0, heq⟩ := List.mem_map.1 he1
  have hfrom : e.2.from_ = e0.2.from_ := by rw [← heq]; rfl
  have hto : e.2.to_ = e0.2.to_ := by rw [← heq]; rfl
  have hnet : e.2.net = (mapAt b1.net_segments e0.2.net_segment).getD none := by rw [← heq]; rfl
  have hseg : b1.conn_segment c = e0.2.net_segment := by
    rcases hc with x | x
    · rw [x, hfrom]; exact (hag e0 he0).1
    · rw [x, hto]; exact (hag e0 he0).2
  refine ⟨?_, ?_⟩
  · intro j ju hj hju
    rcases assign_junction_nets_at _ _ _ h2 j with ⟨_, x⟩ | ⟨ju0, n, x1, x2, x3⟩
    · rw [x] at hju; simp at hju
    · rw [x3] at hju
      simp only [Option.some.injEq] at hju
      rw [hj] at hseg
      simp only [Board.conn_segment, x1] at hseg
      rw [hnet, ← hseg, x2, ← hju]
      rfl
  · intro pk pd p hp hpad hne
    have hcf : b'.track_conflict e.2 = false := by simpa using he2
    have hpn : b'.conn_pad_net c = p.net := by
      rw [hp]; simp only [Board.conn_pad_net, hpad]
    have := track_conflict_false b' e.2 hcf c hc (by rw [hpn]; exact hne)
    rw [← hpn]; exact this

theorem mapCount_le {α : Type} (p : α → Bool) (m : List (UUID × α)) : mapCount p m ≤ m.length := by
  induction m with
  | nil => exact Nat.le_refl _
  | cons e r ih =>
    simp only [mapCount, List.length_cons]
    split <;> omega

theorem pads_unlabelled_le (pkgs : List (UUID × BoardPackage)) :
    pads_unlabelled pkgs ≤ pad_count pkgs := by
  induction pkgs with
  | nil => exact Nat.le_refl _
  | cons e r ih =>
    simp only [pads_unlabelled, pad_count]
    have := mapCount_le (fun p : Pad => decide (p.net_segment = 0)) e.2.pads
    omega

theorem todo_le_size (b : Board) : b.todo ≤ b.size := by
  unfold Board.todo Board.size tracks_unlabelled Board.unlabelled
  have h1 := mapCount_le (fun t : Track => decide (t.net_segment = 0)) b.tracks
  have h2 := mapCount_le (fun ju : Junction => decide (ju.net_segment = 0)) b.junctions
  have h3 := pads_unlabelled_le b.packages
  omega

theorem pad_count_clear (pkgs : List (UUID × BoardPackage)) :
    pad_count (clear_packages pkgs) = pad_count pkgs := by
  induction pkgs with
  | nil => rfl
  | cons e r ih =>
    unfold clear_packages at ih ⊢
    simp only [List.map_cons, pad_count, List.length_map, ih]

theorem size_of_same (b b' : Board) (h : same_store b b')
    (ht : b'.tracks.length ≤ b.tracks.length) : b'.size ≤ b.size := by
  unfold Board.size
  have h1 : b'.junctions.length = b.junctions.length := by
    have := congrArg List.length h.2.1
    simpa [clear_junctions] using this
  have h2 : pad_count b'.packages = pad_count b.packages := by
    rw [← pad_count_clear b'.packages, ← pad_count_clear b.packages, h.1]
  omega

theorem conn_live_same (b b' : Board) (h : same_store b b') (c : Connection) :
    b'.conn_live c = b.conn_live c := by
  cases c with
  | junc j =>
    have h1 := mapAt_clear_junctions b'.junctions j
    have h2 := mapAt_clear_junctions b.junctions j
    rw [h.2.1, h2] at h1
    simp only [Board.conn_live]
    cases hx : mapAt b.junctions j <;> cases hy : mapAt b'.junctions j <;>
      rw [hx, hy] at h1 <;> simp at h1 <;> rfl
  | pad pk pd =>
    have h1 := padAt_clear_packages b'.packages pk pd
    have h2 := padAt_clear_packages b.packages pk pd
    rw [h.1, h2] at h1
    simp only [Board.conn_live]
    cases hx : padAt b.packages pk pd <;> cases hy : padAt b'.packages pk pd <;>
      rw [hx, hy] at h1 <;> simp at h1 <;> rfl

theorem conn_pad_net_same (b b' : Board) (h : same_store b b') (c : Connection) :
    b'.conn_pad_net c = b.conn_pad_net c := by
  cases c with
  | junc j => rfl
  | pad pk pd =>
    have h1 := padAt_clear_packages b'.packages pk pd
    have h2 := padAt_clear_packages b.packages pk pd
    rw [h.1, h2] at h1
    simp only [Board.conn_pad_net]
    cases hx : padAt b.packages pk pd <;> cases hy : padAt b'.packages pk pd <;>
      rw [hx, hy] at h1 <;> simp at h1
    exact h1.2.symm

theorem same_store_clear (b : Board) (ns : List (UUID × Option Net)) :
    same_store b { b.clear_nets with net_segments := ns } := by
  refine ⟨?_, ?_, rfl, rfl, rfl, rfl⟩
  · show clear_packages (clear_packages b.packages) = clear_packages b.packages
    unfold clear_packages
    rw [List.map_map]
    apply List.map_congr_left
    intro e _
    simp only [Function.comp, List.map_map]
    rfl
  · show clear_junctions (clear_junctions b.junctions) = clear_junctions b.junctions
    unfold clear_junctions
    rw [List.map_map]
    rfl

theorem clear_tracks_idem (ts : List (UUID × Track)) :
    clear_tracks (clear_tracks ts) = clear_tracks ts := by
  unfold clear_tracks
  rw [List.map_map]
  rfl

theorem tracks_live_clear (b : Board) (ts : List (UUID × Track)) (h : clear_tracks ts = clear_tracks b.tracks)
    (b' : Board) (hs : same_store b b') (hl : tracks_live b b.tracks) : tracks_live b' ts := by
  intro e he
  have h1 : (e.1, { e.2 with net := none, net_segment := 0 }) ∈ clear_tracks ts :=
    List.mem_map.2 ⟨e, he, rfl⟩
  rw [h] at h1
  obtain ⟨e0, he0, heq⟩ := List.mem_map.1 h1
  have h2 := hl e0 he0
  simp only [Prod.mk.injEq, Track.mk.injEq] at heq
  rw [conn_live_same b b' hs, conn_live_same b b' hs, ← heq.2.1, ← heq.2.2.1]
  exact h2

theorem clear_tracks_with_net (ns : List (UUID × Option Net)) (ts : List (UUID × Track)) :
    clear_tracks (ts.map fun e => (e.1, with_net ns e.2)) = clear_tracks ts := by
  unfold clear_tracks
  rw [List.map_map]
  rfl

/-- What a call of `propagate_net_segments` on the cleared board changes. -/
theorem propagate_effect (fuel : Nat) (rnd : Nat → UUID) (b b' : Board) (d : Bool)
    (h : b.clear_nets.propagate_net_segments fuel rnd = some (b', d)) :
    same_store b b' ∧ (clear_tracks b'.tracks).Sublist (clear_tracks b.tracks) ∧
      b'.tracks.length ≤ b.tracks.length ∧
      (d = false → b'.tracks.length < b.tracks.length) ∧
      (d = true → clear_tracks b'.tracks = clear_tracks b.tracks) ∧
      ∀ e ∈ b'.tracks, b'.track_conflict e.2 = false := by
  obtain ⟨b1, h1, h2, h3, h4, h5, h6, h7, h8, h9, h10⟩ := propagate_spec fuel rnd _ b' d h
  have hs := seed_loop_same rnd fuel 0 _ b1 h1
  have hs1 : same_store b b1 := same_store_trans _ _ _ (same_store_clear b _) hs.1
  have hs2 : same_store b1 b' :=
    ⟨by rw [h3], clear_junctions_assign _ _ _ h2, h5, h6, h7, h8⟩
  have ht : clear_tracks b1.tracks = clear_tracks b.tracks :=
    hs.2.trans (clear_tracks_idem b.tracks)
  have hlen : b1.tracks.length = b.tracks.length := by
    have := congrArg List.length ht
    simpa [clear_tracks] using this
  refine ⟨same_store_trans _ _ _ hs1 hs2, ?_, ?_, ?_, ?_, ?_⟩
  · rw [h9, ← ht, ← clear_tracks_with_net b1.net_segments b1.tracks]
    exact List.Sublist.map _ (List.filter_sublist _)
  · rw [h9, ← hlen]
    have := List.length_filter_le (fun e : UUID × Track => !b'.track_conflict e.2)
      (b1.tracks.map fun e => (e.1, with_net b1.net_segments e.2))
    simpa using this
  · intro hd
    rw [hd] at h10
    have hx := List.all_eq_false.1 h10.symm
    have := List.length_filter_lt_length_iff_exists.2 hx
    rw [h9, ← hlen]
    simpa using this
  · intro hd
    rw [hd] at h10
    have hx := List.all_eq_true.1 h10.symm
    have := List.filter_eq_self.2 (fun a ha => hx a ha)
    rw [h9, this, clear_tracks_with_net, ht]
  · intro e he
    rw [h9] at he
    have := (List.mem_filter.1 he).2
    simpa using this

/-- A call of `propagate_net_segments` from `expand` returns when the endpoints of
the tracks exist, the identifiers drawn are not null and the fuel exceeds the size
of the board. -/
theorem propagate_total (fuel : Nat) (rnd : Nat → UUID) (hr : ∀ i, rnd i ≠ 0) (b : Board)
    (hl : tracks_live b b.tracks) (hf : b.size < fuel) :
    ∃ b' d, b.clear_nets.propagate_net_segments fuel rnd = some (b', d) := by
  have hs0 := same_store_clear b (mapEmplace [] 0 none)
  have hl0 : tracks_live { b.clear_nets with net_segments := mapEmplace [] 0 none }
      (clear_tracks b.tracks) :=
    tracks_live_clear b _ (clear_tracks_idem _) _ hs0 hl
  have hsz : Board.todo { b.clear_nets with net_segments := mapEmplace [] 0 none } < fuel := by
    have h1 := todo_le_size { b.clear_nets with net_segments := mapEmplace [] 0 none }
    have h2 := size_of_same b _ hs0 (by
      show (clear_tracks b.tracks).length ≤ b.tracks.length
      simp [clear_tracks])
    omega
  obtain ⟨b1, h1⟩ := seed_loop_total rnd hr fuel 0 _ hl0 hsz
  have hb := seed_loop_bound rnd fuel 0 _ b1 (clear_bound b) h1
  obtain ⟨js, h2⟩ := assign_junction_nets_total b1.net_segments b1.junctions hb.2.2.1
  obtain ⟨r, h3⟩ := check_tracks_total { b1 with junctions := js } b1.tracks hb.1
  refine ⟨{ b1 with junctions := js, tracks := r.1 }, r.2, ?_⟩
  unfold Board.propagate_net_segments
  have e1 : Board.seed_loop rnd fuel 0
      { b.clear_nets with net_segments := mapEmplace [] 0 none } = some b1 := h1
  rw [e1]
  simp only
  rw [h2]
  simp only
  rw [h3]

/-- An invariant of the calls of `propagate_net_segments` holds for the result of
the loop, and the last call has returned `true`. -/
theorem propagate_loop_induct (rnd : Nat → Nat → UUID) (fuel : Nat) (I : Board → Prop)
    (hI : ∀ x x' d q, I x → x.clear_nets.propagate_net_segments fuel (rnd q) = some (x', d) →
      I x')
    (k p : Nat) (b b' : Board) (n : Nat) (hb : I b)
    (h : Board.propagate_loop rnd fuel k p b = some (b', n)) :
    I b' ∧ ∃ x q, I x ∧ x.clear_nets.propagate_net_segments fuel (rnd q) = some (b', true) := by
  induction k generalizing p b with
  | zero => simp [Board.propagate_loop] at h
  | succ k ih =>
    simp only [Board.propagate_loop] at h
    cases hp : b.clear_nets.propagate_net_segments fuel (rnd p) with
    | none => rw [hp] at h; simp at h
    | some r =>
      obtain ⟨x', d⟩ := r
      rw [hp] at h
      cases d with
      | true =>
        simp only [Option.some.injEq, Prod.mk.injEq] at h
        rw [← h.1]
        exact ⟨hI b x' true p hb hp, b, p, hb, hp⟩
      | false =>
        simp only at h
        exact ih (p + 1) x' (hI b x' false p hb hp) h

/-- The loop of `expand` returns after at most `|tracks| + 1` calls of
`propagate_net_segments`. -/
theorem propagate_loop_total (rnd : Nat → Nat → UUID) (hr : ∀ p i, rnd p i ≠ 0) (fuel : Nat)
    (k p : Nat) (b : Board) (hl : tracks_live b b.tracks) (hf : b.size < fuel)
    (hk : b.tracks.length < k) :
    ∃ b' n, Board.propagate_loop rnd fuel k p b = some (b', n) ∧
      n + b'.tracks.length ≤ p + b.tracks.length + 1 ∧ p < n := by
  induction k generalizing p b with
  | zero => omega
  | succ k ih =>
    obtain ⟨x', d, hp⟩ := propagate_total fuel (rnd p) (hr p) b hl hf
    have he := propagate_effect fuel (rnd p) b x' d hp
    simp only [Board.propagate_loop, hp]
    cases d with
    | true =>
      refine ⟨x', p + 1, rfl, ?_, by omega⟩
      have := he.2.2.1
      omega
    | false =>
      simp only
      have hlt := he.2.2.2.1 rfl
      have hl' : tracks_live x' x'.tracks := by
        intro e he'
        have h1 : (e.1, { e.2 with net := none, net_segment := 0 }) ∈ clear_tracks x'.tracks :=
          List.mem_map.2 ⟨e, he', rfl⟩
        have h2 := he.2.1.subset h1
        obtain ⟨e0, he0, heq⟩ := List.mem_map.1 h2
        have h3 := hl e0 he0
        simp only [Prod.mk.injEq, Track.mk.injEq] at heq
        rw [conn_live_same b x' he.1, conn_live_same b x' he.1, ← heq.2.1, ← heq.2.2.1]
        exact h3
      have hsz := size_of_same b x' he.1 he.2.2.1
      obtain ⟨b', n, e1, e2, e3⟩ := ih (p + 1) x' hl' (by omega) (by omega)
      exact ⟨b', n, e1, by omega, by omega⟩

theorem Conn.refl (E : List (Nat × Nat)) (a : Nat) : Conn E a a := Relation.EqvGen.refl a

theorem Conn.symm {E : List (Nat × Nat)} {a b : Nat} (h : Conn E a b) : Conn E b a :=
  Relation.EqvGen.symm _ _ h

theorem Conn.trans {E : List (Nat × Nat)} {a b c : Nat} (h1 : Conn E a b) (h2 : Conn E b c) :
    Conn E a c := Relation.EqvGen.trans _ _ _ h1 h2

theorem Conn.edge {E : List (Nat × Nat)} {a b : Nat} (h : (a, b) ∈ E) : Conn E a b :=
  Relation.EqvGen.rel _ _ h

/-- To show that connected vertices are related by an equivalence it suffices to
look at the edges. -/
theorem Conn.induct {E : List (Nat × Nat)} (R : Nat → Nat → Prop) (hr : ∀ a, R a a)
    (hs : ∀ a b, R a b → R b a) (ht : ∀ a b c, R a b → R b c → R a c)
    (he : ∀ a b, (a, b) ∈ E → R a b) {a b : Nat} (h : Conn E a b) : R a b := by
  induction h with
  | rel x y hxy => exact he x y hxy
  | refl x => exact hr x
  | symm x y _ ih => exact hs x y ih
  | trans x y z _ _ ih1 ih2 => exact ht x y z ih1 ih2

theorem Conn.mono {E E' : List (Nat × Nat)} (h : ∀ a b, (a, b) ∈ E → Conn E' a b) {a b : Nat}
    (hc : Conn E a b) : Conn E' a b :=
  Conn.induct (Conn E') (Conn.refl E') (fun _ _ => Conn.symm) (fun _ _ _ => Conn.trans) h hc

theorem Conn.subset {E E' : List (Nat × Nat)} (h : ∀ x, x ∈ E → x ∈ E') {a b : Nat}
    (hc : Conn E a b) : Conn E' a b :=
  Conn.mono (fun a b hab => Conn.edge (h (a, b) hab)) hc

theorem kruskal_loop_run (nodes : List Vector2) (es : List Edge) (s : MstState) :
    ∃ pr rest, es = pr ++ rest ∧ kruskal_loop nodes es s = kruskal_run nodes pr s ∧
      (rest = [] ∨ ¬ ((kruskal_run nodes pr s).mstSize < (kruskal_run nodes pr s).mstExpectedSize)) := by
  induction es generalizing s with
  | nil => exact ⟨[], [], rfl, rfl, Or.inl rfl⟩
  | cons dt r ih =>
    simp only [kruskal_loop]
    by_cases h : s.mstSize < s.mstExpectedSize
    · rw [if_pos h]
      obtain ⟨pr, rest, h1, h2, h3⟩ := ih (kruskal_step nodes dt s)
      exact ⟨dt :: pr, rest, by rw [h1]; rfl, h2, h3⟩
    · rw [if_neg h]
      exact ⟨[], dt :: r, rfl, rfl, Or.inr h⟩

theorem kruskal_run_append (nodes : List Vector2) (p q : List Edge) (s : MstState) :
    kruskal_run nodes (p ++ q) s = kruskal_run nodes q (kruskal_run nodes p s) := by
  unfold kruskal_run
  rw [List.foldl_append]

theorem retag_eq (nodes : List Vector2) (hn : nodes_ok nodes) (src : Nat) (l : List Nat)
    (hl : ∀ i ∈ l, i < nodes.length) (tags : Nat → Nat) (j : Nat) :
    retag nodes src tags l j = if j ∈ l then src else tags j := by
  induction l generalizing tags with
  | nil => simp [retag]
  | cons i r ih =>
    have hi := hn i (hl i (List.mem_cons_self _ _))
    simp only [retag]
    rw [ih (fun i hi => hl i (List.mem_cons_of_mem _ hi))]
    have hk : ((nodes.get? i).map fun v => v.id).getD 0 = i := by rw [hi]; rfl
    rw [hk]
    by_cases h1 : j ∈ r
    · simp [h1]
    · by_cases h2 : j = i
      · simp [h2]
      · simp [h1, h2]

theorem init_tags_eq (r : List Vector2) (tag : Nat) (tags : Nat → Nat)
    (hr : ∀ k, k < r.length → (r.get? k).map (fun v => v.id) = some (tag + k)) (j : Nat) :
    init_tags r tag tags j = if tag ≤ j ∧ j < tag + r.length then j else tags j := by
  induction r generalizing tag tags with
  | nil =>
    simp only [init_tags, List.length_nil, Nat.add_zero]
    have : ¬ (tag ≤ j ∧ j < tag) := by omega
    rw [if_neg this]
  | cons v r ih =>
    simp only [init_tags]
    have h0 := hr 0 (by simp)
    simp only [List.get?_cons_zero, Option.map_some', Option.some.injEq, Nat.add_zero] at h0
    rw [ih (tag + 1) _ (fun k hk => by
      have := hr (k + 1) (by simp; omega)
      simp only [List.get?_cons_succ] at this
      rw [this]; congr 1; omega)]
    simp only [List.length_cons, h0]
    by_cases h1 : tag + 1 ≤ j ∧ j < tag + 1 + r.length
    · rw [if_pos h1, if_pos (by omega)]
    · rw [if_neg h1]
      by_cases h2 : j = tag
      · rw [if_pos h2, if_pos (by omega)]; exact h2.symm
      · rw [if_neg h2, if_neg (by omega)]

theorem ncomp_id (n : Nat) (tags : Nat → Nat) (h : ∀ i, i < n → tags i = i) : ncomp n tags = n := by
  unfold ncomp
  have : (Finset.range n).image tags = Finset.range n := by
    ext x
    simp only [Finset.mem_image, Finset.mem_range]
    constructor
    · rintro ⟨i, hi, rfl⟩
      rw [h i hi]; exact hi
    · intro hx
      exact ⟨x, hx, h x hx⟩
  rw [this, Finset.card_range]

theorem ncomp_merge (n : Nat) (tags tags' : Nat → Nat) (src trg : Nat) (hne : src ≠ trg)
    (ha : ∃ a, a < n ∧ tags a = src) (hb : ∃ b, b < n ∧ tags b = trg)
    (h : ∀ i, i < n → tags' i = if tags i = trg then src else tags i) :
    ncomp n tags' + 1 = ncomp n tags := by
  unfold ncomp
  have : (Finset.range n).image tags' = ((Finset.range n).image tags).erase trg := by
    ext x
    simp only [Finset.mem_image, Finset.mem_range, Finset.mem_erase]
    constructor
    · rintro ⟨i, hi, rfl⟩
      rw [h i hi]
      by_cases hx : tags i = trg
      · rw [if_pos hx]
        obtain ⟨a, ha1, ha2⟩ := ha
        exact ⟨hne, a, ha1, ha2⟩
      · rw [if_neg hx]
        exact ⟨hx, i, hi, rfl⟩
    · rintro ⟨hx, i, hi, rfl⟩
      exact ⟨i, hi, by rw [h i hi, if_neg hx]⟩
  rw [this]
  obtain ⟨b, hb1, hb2⟩ := hb
  have hmem : trg ∈ (Finset.range n).image tags :=
    Finset.mem_image.2 ⟨b, Finset.mem_range.2 hb1, hb2⟩
  rw [Finset.card_erase_of_mem hmem]
  have := Finset.card_pos.2 ⟨trg, hmem⟩
  omega

theorem ncomp_le_one (n : Nat) (tags : Nat → Nat) (h : ncomp n tags ≤ 1) (i j : Nat)
    (hi : i < n) (hj : j < n) : tags i = tags j := by
  unfold ncomp at h
  have h1 : tags i ∈ (Finset.range n).image tags :=
    Finset.mem_image.2 ⟨i, Finset.mem_range.2 hi, rfl⟩
  have h2 : tags j ∈ (Finset.range n).image tags :=
    Finset.mem_image.2 ⟨j, Finset.mem_range.2 hj, rfl⟩
  exact Finset.card_le_one.1 h _ h1 _ h2

theorem ncomp_eq_one (n : Nat) (hn : 0 < n) (tags : Nat → Nat)
    (h : ∀ i j, i < n → j < n → tags i = tags j) : ncomp n tags = 1 := by
  unfold ncomp
  have h1 : ((Finset.range n).image tags).card ≤ 1 := by
    apply Finset.card_le_one.2
    intro x hx y hy
    obtain ⟨i, hi, rfl⟩ := Finset.mem_image.1 hx
    obtain ⟨j, hj, rfl⟩ := Finset.mem_image.1 hy
    exact h i j (Finset.mem_range.1 hi) (Finset.mem_range.1 hj)
  have h2 : 0 < ((Finset.range n).image tags).card :=
    Finset.card_pos.2 ⟨tags 0, Finset.mem_image.2 ⟨0, Finset.mem_range.2 hn, rfl⟩⟩
  omega

/-- Two taggings that induce the same partition have the same number of tags. -/
theorem ncomp_congr (n : Nat) (f g : Nat → Nat)
    (h : ∀ i j, i < n → j < n → (f i = f j ↔ g i = g j)) : ncomp n f = ncomp n g := by
  unfold ncomp
  apply Finset.card_bij' (fun x _ => if hx : ∃ i, i < n ∧ f i = x then g hx.choose else 0)
    (fun y _ => if hy : ∃ i, i < n ∧ g i = y then f hy.choose else 0)
  · intro x hx
    obtain ⟨i, hi, rfl⟩ := Finset.mem_image.1 hx
    have hex : ∃ k, k < n ∧ f k = f i := ⟨i, Finset.mem_range.1 hi, rfl⟩
    rw [dif_pos hex]
    exact Finset.mem_image.2 ⟨hex.choose, Finset.mem_range.2 hex.choose_spec.1, rfl⟩
  · intro y hy
    obtain ⟨i, hi, rfl⟩ := Finset.mem_image.1 hy
    have hex : ∃ k, k < n ∧ g k = g i := ⟨i, Finset.mem_range.1 hi, rfl⟩
    rw [dif_pos hex]
    exact Finset.mem_image.2 ⟨hex.choose, Finset.mem_range.2 hex.choose_spec.1, rfl⟩
  · intro x hx
    obtain ⟨i, hi, rfl⟩ := Finset.mem_image.1 hx
    have hex : ∃ k, k < n ∧ f k = f i := ⟨i, Finset.mem_range.1 hi, rfl⟩
    simp only [dif_pos hex]
    have hey : ∃ k, k < n ∧ g k = g hex.choose := ⟨hex.choose, hex.choose_spec.1, rfl⟩
    rw [dif_pos hey]
    have h1 := (h hey.choose hex.choose hey.choose_spec.1 hex.choose_spec.1).2 hey.choose_spec.2
    rw [h1]
    exact hex.choose_spec.2
  · intro y hy
    obtain ⟨i, hi, rfl⟩ := Finset.mem_image.1 hy
    have hex : ∃ k, k < n ∧ g k = g i := ⟨i, Finset.mem_range.1 hi, rfl⟩
    simp only [dif_pos hex]
    have hey : ∃ k, k < n ∧ f k = f hex.choose := ⟨hex.choose, hex.choose_spec.1, rfl⟩
    rw [dif_pos hey]
    have h1 := (h hey.choose hex.choose hey.choose_spec.1 hex.choose_spec.1).1 hey.choose_spec.2
    rw [h1]
    exact hex.choose_spec.2

theorem splice_getD (cycles : List (List Nat)) (src trg t : Nat) (hs : src < cycles.length)
    (ht : trg < cycles.length) (hne : src ≠ trg) :
    (splice cycles src trg).getD t [] =
      if t = trg then [] else if t = src then cycles.getD src [] ++ cycles.getD trg []
      else cycles.getD t [] := by
  unfold splice
  simp only [List.getD_eq_getElem?_getD, List.getElem?_set, List.length_set]
  by_cases h1 : t = trg
  · subst h1
    simp [ht]
  · by_cases h2 : t = src
    · subst h2
      have : ¬ trg = t := fun h => h1 h.symm
      simp [hs, h1, this]
    · have e1 : ¬ trg = t := fun h => h1 h.symm
      have e2 : ¬ src = t := fun h => h2 h.symm
      simp [h1, h2, e1, e2]

theorem kruskal_init_inv (nodes : List Vector2) (hn : nodes_ok nodes) (h0 : 0 < nodes.length)
    (h32 : nodes.length < 4294967296) : KInv nodes.length [] (kruskal_init nodes) := by
  have htag : ∀ i, i < nodes.length → (kruskal_init nodes).tags i = i := by
    intro i hi
    show init_tags nodes 0 (fun _ => 0) i = i
    rw [init_tags_eq nodes 0 _ (fun k hk => by rw [hn k hk]; simp)]
    rw [if_pos (by omega)]
  refine ⟨?_, ?_, ?_, ?_, ?_, rfl, by simp⟩
  · intro i hi
    rw [htag i hi]; exact hi
  · simp [kruskal_init]
  · intro t ht i
    have : (kruskal_init nodes).cycles.getD t [] = [t] := by
      simp [kruskal_init, ht]
    rw [this]
    constructor
    · intro h
      have : i = t := by simpa using h
      rw [this]
      exact ⟨ht, htag t ht⟩
    · rintro ⟨hi, h⟩
      rw [htag i hi] at h
      simp [h]
  · intro i j hi hj
    rw [htag i hi, htag j hj]
    constructor
    · intro h; rw [h]; exact Conn.refl _ _
    · intro h
      exact Conn.induct (fun a b => a = b) (fun _ => rfl) (fun _ _ h => h.symm)
        (fun _ _ _ h1 h2 => h1.trans h2) (fun a b hab => by simp at hab) h
  · rw [ncomp_id _ _ htag]
    show nodes.length + 0 = (nodes.length + 4294967295) % 4294967296 + 1
    omega

/-- Adding an edge between connected vertices does not change connectivity. -/
theorem Conn.append_redundant (P : List (Nat × Nat)) (a b : Nat) (h : Conn P a b) (i j : Nat) :
    Conn (P ++ [(a, b)]) i j ↔ Conn P i j := by
  constructor
  · intro hc
    refine Conn.mono ?_ hc
    intro x y hxy
    rcases List.mem_append.1 hxy with h1 | h1
    · exact Conn.edge h1
    · simp only [List.mem_singleton, Prod.mk.injEq] at h1
      rw [h1.1, h1.2]; exact h
  · intro hc
    exact Conn.subset (fun x hx => List.mem_append_left _ hx) hc

theorem kruskal_step_inv (nodes : List Vector2) (hn : nodes_ok nodes) (P : List (Nat × Nat))
    (dt : Edge) (ha : dt.p1.id < nodes.length) (hb : dt.p2.id < nodes.length) (s : MstState)
    (h : KInv nodes.length P s) :
    KInv nodes.length (P ++ [(dt.p1.id, dt.p2.id)]) (kruskal_step nodes dt s) := by
  have hpl : ∀ x ∈ P ++ [(dt.p1.id, dt.p2.id)], x.1 < nodes.length ∧ x.2 < nodes.length := by
    intro x hx
    rcases List.mem_append.1 hx with h1 | h1
    · exact h.pairs_lt x h1
    · rw [List.mem_singleton.1 h1]; exact ⟨ha, hb⟩
  unfold kruskal_step
  by_cases hne : s.tags dt.p1.id ≠ s.tags dt.p2.id
  · simp only
    rw [if_pos hne]
    have hsrc := h.tags_lt _ ha
    have htrg := h.tags_lt _ hb
    have hl : ∀ i ∈ s.cycles.getD (s.tags dt.p2.id) [], i < nodes.length :=
      fun i hi => ((h.cyc_mem _ htrg i).1 hi).1
    have htags : ∀ j, j < nodes.length →
        retag nodes (s.tags dt.p1.id) s.tags (s.cycles.getD (s.tags dt.p2.id) []) j =
          if s.tags j = s.tags dt.p2.id then s.tags dt.p1.id else s.tags j := by
      intro j hj
      rw [retag_eq nodes hn _ _ hl]
      by_cases hx : s.tags j = s.tags dt.p2.id
      · rw [if_pos hx, if_pos ((h.cyc_mem _ htrg j).2 ⟨hj, hx⟩)]
      · rw [if_neg hx, if_neg (fun hm => hx ((h.cyc_mem _ htrg j).1 hm).2)]
    have hcount := ncomp_merge nodes.length s.tags
      (retag nodes (s.tags dt.p1.id) s.tags (s.cycles.getD (s.tags dt.p2.id) []))
      (s.tags dt.p1.id) (s.tags dt.p2.id) hne ⟨_, ha, rfl⟩ ⟨_, hb, rfl⟩ htags
    have hcyc_len : (splice s.cycles (s.tags dt.p1.id) (s.tags dt.p2.id)).length =
        nodes.length := by
      simp [splice, h.cyc_len]
    have htl : ∀ i, i < nodes.length →
        retag nodes (s.tags dt.p1.id) s.tags (s.cycles.getD (s.tags dt.p2.id) []) i <
          nodes.length := by
      intro i hi
      rw [htags i hi]
      split
      · exact hsrc
      · exact h.tags_lt i hi
    have hmem : ∀ t, t < nodes.length → ∀ i,
        i ∈ (splice s.cycles (s.tags dt.p1.id) (s.tags dt.p2.id)).getD t [] ↔
          (i < nodes.length ∧
            retag nodes (s.tags dt.p1.id) s.tags (s.cycles.getD (s.tags dt.p2.id) []) i = t) := by
      intro t ht i
      rw [splice_getD _ _ _ _ (by rw [h.cyc_len]; exact hsrc) (by rw [h.cyc_len]; exact htrg) hne]
      by_cases h1 : t = s.tags dt.p2.id
      · rw [if_pos h1]
        constructor
        · intro hx; simp at hx
        · rintro ⟨hi, hx⟩
          rw [htags i hi] at hx
          exfalso
          by_cases h2 : s.tags i = s.tags dt.p2.id
          · rw [if_pos h2] at hx
            exact hne (hx.trans h1)
          · rw [if_neg h2] at hx
            exact h2 (hx.trans h1)
      · rw [if_neg h1]
        by_cases h2 : t = s.tags dt.p1.id
        · rw [if_pos h2, List.mem_append, h.cyc_mem _ hsrc, h.cyc_mem _ htrg]
          constructor
          · rintro (⟨hi, hx⟩ | ⟨hi, hx⟩)
            · refine ⟨hi, ?_⟩
              rw [htags i hi, hx, if_neg hne, h2]
            · refine ⟨hi, ?_⟩
              rw [htags i hi, if_pos hx, h2]
          · rintro ⟨hi, hx⟩
            rw [htags i hi] at hx
            by_cases h3 : s.tags i = s.tags dt.p2.id
            · exact Or.inr ⟨hi, h3⟩
            · rw [if_neg h3] at hx
              exact Or.inl ⟨hi, hx.trans h2⟩
        · rw [if_neg h2, h.cyc_mem _ ht]
          constructor
          · rintro ⟨hi, hx⟩
            refine ⟨hi, ?_⟩
            rw [htags i hi, if_neg (fun h3 => h1 (hx.symm.trans h3)), hx]
          · rintro ⟨hi, hx⟩
            refine ⟨hi, ?_⟩
            rw [htags i hi] at hx
            by_cases h3 : s.tags i = s.tags dt.p2.id
            · rw [if_pos h3] at hx
              exact absurd hx.symm h2
            · rw [if_neg h3] at hx
              exact hx
    have hconn : ∀ i j, i < nodes.length → j < nodes.length →
        (retag nodes (s.tags dt.p1.id) s.tags (s.cycles.getD (s.tags dt.p2.id) []) i =
          retag nodes (s.tags dt.p1.id) s.tags (s.cycles.getD (s.tags dt.p2.id) []) j ↔
          Conn (P ++ [(dt.p1.id, dt.p2.id)]) i j) := by
      intro i j hi hj
      have hP : ∀ x y, Conn P x y → Conn (P ++ [(dt.p1.id, dt.p2.id)]) x y :=
        fun x y hc => Conn.subset (fun z hz => List.mem_append_left _ hz) hc
      have hedge : Conn (P ++ [(dt.p1.id, dt.p2.id)]) dt.p1.id dt.p2.id :=
        Conn.edge (List.mem_append_right _ (List.mem_singleton.2 rfl))
      constructor
      · intro hx
        rw [htags i hi, htags j hj] at hx
        by_cases h1 : s.tags i = s.tags dt.p2.id
        · by_cases h2 : s.tags j = s.tags dt.p2.id
          · exact hP _ _ ((h.conn i j hi hj).1 (h1.trans h2.symm))
          · rw [if_pos h1, if_neg h2] at hx
            have c1 := hP _ _ ((h.conn i _ hi hb).1 h1)
            have c2 := hP _ _ ((h.conn _ j ha hj).1 hx)
            exact c1.trans (hedge.symm.trans c2)
        · by_cases h2 : s.tags j = s.tags dt.p2.id
          · rw [if_neg h1, if_pos h2] at hx
            have c1 := hP _ _ ((h.conn i _ hi ha).1 hx)
            have c2 := hP _ _ ((h.conn _ j hb hj).1 h2.symm)
            exact c1.trans (hedge.trans c2)
          · rw [if_neg h1, if_neg h2] at hx
            exact hP _ _ ((h.conn i j hi hj).1 hx)
      · intro hc
        have key : ∀ x y, Conn (P ++ [(dt.p1.id, dt.p2.id)]) x y →
            x = y ∨ (x < nodes.length ∧ y < nodes.length ∧
              retag nodes (s.tags dt.p1.id) s.tags (s.cycles.getD (s.tags dt.p2.id) []) x =
              retag nodes (s.tags dt.p1.id) s.tags (s.cycles.getD (s.tags dt.p2.id) []) y) := by
          intro x y hxy
          refine Conn.induct (fun x y => x = y ∨ (x < nodes.length ∧ y < nodes.length ∧
              retag nodes (s.tags dt.p1.id) s.tags (s.cycles.getD (s.tags dt.p2.id) []) x =
              retag nodes (s.tags dt.p1.id) s.tags (s.cycles.getD (s.tags dt.p2.id) []) y))
            (fun a => Or.inl rfl) ?_ ?_ ?_ hxy
          · rintro a b (hab | ⟨h1, h2, h3⟩)
            · exact Or.inl hab.symm
            · exact Or.inr ⟨h2, h1, h3.symm⟩
          · rintro a b c (hab | ⟨h1, h2, h3⟩) (hbc | ⟨h4, h5, h6⟩)
            · exact Or.inl (hab.trans hbc)
            · rw [hab]; exact Or.inr ⟨h4, h5, h6⟩
            · rw [← hbc]; exact Or.inr ⟨h1, h2, h3⟩
            · exact Or.inr ⟨h1, h5, h3.trans h6⟩
          · intro a b hab
            right
            rcases List.mem_append.1 hab with h1 | h1
            · have hcab : Conn P a b := Conn.edge h1
              have hlt := h.pairs_lt (a, b) h1
              refine ⟨hlt.1, hlt.2, ?_⟩
              have ht := (h.conn a b hlt.1 hlt.2).2 hcab
              rw [htags _ hlt.1, htags _ hlt.2, ht]
            · simp only [List.mem_singleton, Prod.mk.injEq] at h1
              rw [h1.1, h1.2]
              refine ⟨ha, hb, ?_⟩
              rw [htags _ ha, htags _ hb, if_neg hne, if_pos rfl]
        rcases key i j hc with hij | ⟨_, _, hx⟩
        · rw [hij]
        · exact hx
    by_cases hrl : (s.ratsnestLines || decide (0 ≤ dt.weight)) = true
    · rw [if_pos hrl]
      exact ⟨htl, hcyc_len, hmem, hconn,
        by have := h.count; dsimp only; omega,
        by simp [h.len], hpl⟩
    · rw [if_neg hrl]
      refine ⟨htl, hcyc_len, hmem, hconn, ?_, h.len, hpl⟩
      have := h.count
      dsimp only
      have hpos : 0 < ncomp nodes.length (retag nodes (s.tags dt.p1.id) s.tags
          (s.cycles.getD (s.tags dt.p2.id) [])) := by
        unfold ncomp
        exact Finset.card_pos.2 ⟨_, Finset.mem_image.2 ⟨dt.p1.id, Finset.mem_range.2 ha, rfl⟩⟩
      omega
  · simp only
    rw [if_neg hne]
    have heq : s.tags dt.p1.id = s.tags dt.p2.id := by
      by_contra hx; exact hne hx
    have hc : Conn P dt.p1.id dt.p2.id := (h.conn _ _ ha hb).1 heq
    exact ⟨h.tags_lt, h.cyc_len, h.cyc_mem,
      fun i j hi hj => (h.conn i j hi hj).trans (Conn.append_redundant P _ _ hc i j).symm,
      h.count, h.len, hpl⟩

theorem edge_pairs_cons (e : Edge) (r : List Edge) :
    edge_pairs (e :: r) = (e.p1.id, e.p2.id) :: edge_pairs r := rfl

theorem kruskal_run_cons (nodes : List Vector2) (dt : Edge) (r : List Edge) (s : MstState) :
    kruskal_run nodes (dt :: r) s = kruskal_run nodes r (kruskal_step nodes dt s) := rfl

theorem kruskal_run_inv (nodes : List Vector2) (hn : nodes_ok nodes) (pr : List Edge)
    (hp : edges_ok nodes.length pr) (P : List (Nat × Nat)) (s : MstState)
    (h : KInv nodes.length P s) :
    KInv nodes.length (P ++ edge_pairs pr) (kruskal_run nodes pr s) := by
  induction pr generalizing P s with
  | nil => simpa [edge_pairs, kruskal_run] using h
  | cons dt r ih =>
    have hdt := hp dt (List.mem_cons_self _ _)
    have h1 := kruskal_step_inv nodes hn P dt hdt.1 hdt.2 s h
    have h2 := ih (fun e he => hp e (List.mem_cons_of_mem _ he)) _ _ h1
    rw [kruskal_run_cons, edge_pairs_cons]
    simpa [List.append_assoc] using h2

/-- While the edges have negative weight the loop emits nothing. -/
theorem kruskal_run_neg (nodes : List Vector2) (pr : List Edge) (hw : ∀ e ∈ pr, e.weight < 0)
    (s : MstState) (h1 : s.ratsnestLines = false) (h2 : s.mst = []) (h3 : s.mstSize = 0) :
    (kruskal_run nodes pr s).ratsnestLines = false ∧ (kruskal_run nodes pr s).mst = [] ∧
      (kruskal_run nodes pr s).mstSize = 0 := by
  induction pr generalizing s with
  | nil => exact ⟨h1, h2, h3⟩
  | cons dt r ih =>
    rw [kruskal_run_cons]
    have hdt := hw dt (List.mem_cons_self _ _)
    have hrl : (s.ratsnestLines || decide (0 ≤ dt.weight)) = false := by
      rw [h1]
      simp only [Bool.false_or, decide_eq_false_iff_not]
      omega
    apply ih (fun e he => hw e (List.mem_cons_of_mem _ he))
    · unfold kruskal_step
      simp only
      split
      · rw [hrl]; simp only [Bool.false_eq_true, if_false]
      · exact h1
    · unfold kruskal_step
      simp only
      split
      · rw [hrl]; simp only [Bool.false_eq_true, if_false]; exact h2
      · exact h2
    · unfold kruskal_step
      simp only
      split
      · rw [hrl]; simp only [Bool.false_eq_true, if_false]; exact h3
      · exact h3

/-- What the loop emits over edges of non-negative weight: the edges that join two
components of what came before, and they keep the connectivity of all the edges. -/
theorem kruskal_run_nonneg (nodes : List Vector2) (hn : nodes_ok nodes) (pr : List Edge)
    (hp : edges_ok nodes.length pr) (hw : ∀ e ∈ pr, 0 ≤ e.weight) (P : List (Nat × Nat))
    (s : MstState) (h : KInv nodes.length P s) :
    ∃ K, (kruskal_run nodes pr s).mst = s.mst ++ K ∧ K.Sublist pr ∧
      (kruskal_run nodes pr s).mstExpectedSize = s.mstExpectedSize ∧
      (kruskal_run nodes pr s).mstSize = s.mstSize + K.length ∧
      (∀ K1 e K2, K = K1 ++ e :: K2 → ¬ Conn (P ++ edge_pairs K1) e.p1.id e.p2.id) ∧
      (∀ i j, Conn (P ++ edge_pairs pr) i j → Conn (P ++ edge_pairs K) i j) := by
  induction pr generalizing P s with
  | nil =>
    refine ⟨[], by simp [kruskal_run], List.Sublist.refl _, rfl, rfl, ?_, fun i j h => h⟩
    intro K1 e K2 hK
    simp at hK
  | cons dt r ih =>
    have hdt := hp dt (List.mem_cons_self _ _)
    have hwdt := hw dt (List.mem_cons_self _ _)
    have hI := kruskal_step_inv nodes hn P dt hdt.1 hdt.2 s h
    obtain ⟨K', e1, e2, e3, e4, e5, e6⟩ := ih (fun e he => hp e (List.mem_cons_of_mem _ he))
      (fun e he => hw e (List.mem_cons_of_mem _ he)) _ _ hI
    rw [kruskal_run_cons]
    by_cases hne : s.tags dt.p1.id ≠ s.tags dt.p2.id
    · have hrl : (s.ratsnestLines || decide (0 ≤ dt.weight)) = true := by
        simp [hwdt]
      have hs1 : (kruskal_step nodes dt s).mst = s.mst ++ [dt] ∧
          (kruskal_step nodes dt s).mstExpectedSize = s.mstExpectedSize ∧
          (kruskal_step nodes dt s).mstSize = s.mstSize + 1 := by
        unfold kruskal_step
        simp only
        rw [if_pos hne, if_pos hrl]
        exact ⟨rfl, rfl, rfl⟩
      refine ⟨dt :: K', ?_, List.Sublist.cons₂ _ e2, ?_, ?_, ?_, ?_⟩
      · rw [e1, hs1.1]; simp
      · rw [e3, hs1.2.1]
      · rw [e4, hs1.2.2]; simp; omega
      · intro K1 e K2 hK
        cases K1 with
        | nil =>
          simp only [List.nil_append, List.cons.injEq] at hK
          rw [← hK.1]
          simp only [edge_pairs, List.map_nil, List.append_nil]
          intro hc
          exact hne ((h.conn _ _ hdt.1 hdt.2).2 hc)
        | cons x K1' =>
          simp only [List.cons_append, List.cons.injEq] at hK
          have := e5 K1' e K2 hK.2
          rw [← hK.1, edge_pairs_cons]
          simpa [List.append_assoc] using this
      · intro i j hc
        have := e6 i j (by rw [edge_pairs_cons] at hc; simpa [List.append_assoc] using hc)
        rw [edge_pairs_cons]
        simpa [List.append_assoc] using this
    · have heq : s.tags dt.p1.id = s.tags dt.p2.id := by
        by_contra hx; exact hne hx
      have hs1 : kruskal_step nodes dt s = s := by
        unfold kruskal_step
        simp only
        rw [if_neg hne]
      have hcab : Conn P dt.p1.id dt.p2.id := (h.conn _ _ hdt.1 hdt.2).1 heq
      rw [hs1] at e1 e3 e4 ⊢
      refine ⟨K', e1, List.Sublist.cons _ e2, e3, e4, ?_, ?_⟩
      · intro K1 e K2 hK hc
        refine e5 K1 e K2 hK (Conn.subset ?_ hc)
        intro x hx
        rcases List.mem_append.1 hx with h1 | h1
        · exact List.mem_append_left _ (List.mem_append_left _ h1)
        · exact List.mem_append_right _ h1
      · intro i j hc
        have := e6 i j (by rw [edge_pairs_cons] at hc; simpa [List.append_assoc] using hc)
        refine Conn.mono ?_ this
        intro x y hxy
        rcases List.mem_append.1 hxy with h1 | h1
        · rcases List.mem_append.1 h1 with h2 | h2
          · exact Conn.edge (List.mem_append_left _ h2)
          · simp only [List.mem_singleton, Prod.mk.injEq] at h2
            rw [h2.1, h2.2]
            exact Conn.subset (fun z hz => List.mem_append_left _ hz) hcab
        · exact Conn.edge (List.mem_append_right _ h1)

theorem sort_edges_mem (es : List Edge) (e : Edge) : e ∈ sort_edges es ↔ e ∈ es := by
  unfold sort_edges
  exact List.mem_insertionSort _

theorem sort_edges_perm (es : List Edge) : (sort_edges es).Perm es := by
  unfold sort_edges
  exact List.perm_insertionSort _ _

theorem sort_edges_sorted (es : List Edge) :
    (sort_edges es).Pairwise (fun a b => a.weight ≤ b.weight) := by
  unfold sort_edges
  haveI : IsTotal Edge (fun a b => a.weight ≤ b.weight) := ⟨fun a b => le_total _ _⟩
  haveI : IsTrans Edge (fun a b => a.weight ≤ b.weight) := ⟨fun a b c h1 h2 => le_trans h1 h2⟩
  exact List.sorted_insertionSort _ es

/-- A list sorted by weight splits at every threshold. -/
theorem sorted_split (t : Int) (l : List Edge) (h : l.Pairwise (fun a b => a.weight ≤ b.weight)) :
    ∃ A B, l = A ++ B ∧ (∀ e ∈ A, e.weight ≤ t) ∧ (∀ e ∈ B, t < e.weight) := by
  induction l with
  | nil => exact ⟨[], [], rfl, by simp, by simp⟩
  | cons x r ih =>
    rw [List.pairwise_cons] at h
    by_cases hx : x.weight ≤ t
    · obtain ⟨A, B, h1, h2, h3⟩ := ih h.2
      refine ⟨x :: A, B, by rw [h1]; rfl, ?_, h3⟩
      intro e he
      rcases List.mem_cons.1 he with h4 | h4
      · rw [h4]; exact hx
      · exact h2 e h4
    · refine ⟨[], x :: r, rfl, by simp, ?_⟩
      intro e he
      rcases List.mem_cons.1 he with h4 | h4
      · rw [h4]; omega
      · have := h.1 e h4
        omega

/-- What the loop appends to `mst` is a sublist of the edges it has taken. -/
theorem kruskal_run_mst (nodes : List Vector2) (pr : List Edge) (s : MstState) :
    ∃ K, (kruskal_run nodes pr s).mst = s.mst ++ K ∧ K.Sublist pr := by
  induction pr generalizing s with
  | nil => exact ⟨[], by simp [kruskal_run], List.Sublist.refl _⟩
  | cons dt r ih =>
    obtain ⟨K', e1, e2⟩ := ih (kruskal_step nodes dt s)
    rw [kruskal_run_cons]
    have hs : (kruskal_step nodes dt s).mst = s.mst ∨
        (kruskal_step nodes dt s).mst = s.mst ++ [dt] := by
      unfold kruskal_step
      simp only
      split
      · split
        · right; rfl
        · left; rfl
      · left; rfl
    rcases hs with hs | hs
    · exact ⟨K', by rw [e1, hs], List.Sublist.cons _ e2⟩
    · exact ⟨dt :: K', by rw [e1, hs]; simp, List.Sublist.cons₂ _ e2⟩

/-- The decomposition of a call of `kruskalMST` at the threshold `t`: the sorted
edges split into the edges up to weight `t` and the heavier ones, the loop runs
over a prefix of them, and it ends in a state whose tags are the components of all
the edges. -/
theorem kruskal_decomp (t : Int) (es : List Edge) (nodes : List Vector2) (hn : nodes_ok nodes)
    (h0 : 0 < nodes.length) (h32 : nodes.length < 4294967296)
    (he : edges_ok nodes.length es) :
    ∃ A B pr rest, sort_edges es = A ++ B ∧ sort_edges es = pr ++ rest ∧
      (∀ e ∈ A, e.weight ≤ t) ∧ (∀ e ∈ B, t < e.weight) ∧
      kruskal_loop nodes (sort_edges es) (kruskal_init nodes) =
        kruskal_run nodes pr (kruskal_init nodes) ∧
      KInv nodes.length (edge_pairs pr) (kruskal_run nodes pr (kruskal_init nodes)) ∧
      (∀ i j, i < nodes.length → j < nodes.length → Conn (edge_pairs es) i j →
        (kruskal_run nodes pr (kruskal_init nodes)).tags i =
          (kruskal_run nodes pr (kruskal_init nodes)).tags j) ∧
      ((∃ a', A = pr ++ a' ∧ rest = a' ++ B) ∨ (∃ c', pr = A ++ c' ∧ B = c' ++ rest)) := by
  obtain ⟨A, B, h1, h2, h3⟩ := sorted_split t _ (sort_edges_sorted es)
  obtain ⟨pr, rest, h4, h5, h6⟩ := kruskal_loop_run nodes (sort_edges es) (kruskal_init nodes)
  have hpr : edges_ok nodes.length pr := by
    intro e hx
    exact he e ((sort_edges_mem es e).1 (by rw [h4]; exact List.mem_append_left _ hx))
  have hI := kruskal_run_inv nodes hn pr hpr [] _ (kruskal_init_inv nodes hn h0 h32)
  simp only [List.nil_append] at hI
  refine ⟨A, B, pr, rest, h1, h4, h2, h3, h5, hI, ?_, ?_⟩
  · intro i j hi hj hc
    rcases h6 with h6 | h6
    · rw [h6, List.append_nil] at h4
      apply (hI.conn i j hi hj).2
      refine Conn.subset ?_ hc
      intro x hx
      obtain ⟨e, he1, he2⟩ := List.mem_map.1 hx
      exact List.mem_map.2 ⟨e, by rw [← h4]; exact (sort_edges_mem es e).2 he1, he2⟩
    · have hc := hI.count
      exact ncomp_le_one _ _ (by omega) i j hi hj
  · have := h1.symm.trans h4
    rcases List.append_eq_append_iff.1 this with ⟨a', x1, x2⟩ | ⟨c', x1, x2⟩
    · right; exact ⟨a', x1, x2⟩
    · left; exact ⟨c', x1, x2⟩

theorem kruskalMST_eq (es : List Edge) (nodes : List Vector2)
    (h : (kruskal_loop nodes (sort_edges es) (kruskal_init nodes)).mst.length =
      (kruskal_loop nodes (sort_edges es) (kruskal_init nodes)).mstSize) :
    kruskalMST es nodes = (kruskal_loop nodes (sort_edges es) (kruskal_init nodes)).mst := by
  unfold kruskalMST
  simp only
  rw [← h, List.take_length]

theorem mem_edge_pairs_of_mem {es es' : List Edge} (h : ∀ e, e ∈ es → e ∈ es') (x : Nat × Nat)
    (hx : x ∈ edge_pairs es) : x ∈ edge_pairs es' := by
  obtain ⟨e, he1, he2⟩ := List.mem_map.1 hx
  exact List.mem_map.2 ⟨e, h e he1, he2⟩

theorem edge_pairs_append (a b : List Edge) :
    edge_pairs (a ++ b) = edge_pairs a ++ edge_pairs b := by
  simp [edge_pairs]

/-- The edges `kruskalMST` returns are edges of non-negative weight of its input;
each joins two components of the hard edges and the edges returned before it; and
together with the hard edges they connect what all the edges connect. -/
theorem kruskalMST_spec (es : List Edge) (nodes : List Vector2) (hn : nodes_ok nodes)
    (h0 : 0 < nodes.length) (h32 : nodes.length < 4294967296)
    (he : edges_ok nodes.length es) :
    (∀ e ∈ kruskalMST es nodes, e ∈ es ∧ 0 ≤ e.weight) ∧
    (∀ K1 e K2, kruskalMST es nodes = K1 ++ e :: K2 →
      ¬ Conn (edge_pairs (hard_edges es) ++ edge_pairs K1) e.p1.id e.p2.id) ∧
    (∀ i j, i < nodes.length → j < nodes.length → Conn (edge_pairs es) i j →
      Conn (edge_pairs (hard_edges es) ++ edge_pairs (kruskalMST es nodes)) i j) := by
  obtain ⟨A, B, pr, rest, h1, h2, h3, h4, h5, hI, h6, h7⟩ :=
    kruskal_decomp (-1) es nodes hn h0 h32 he
  have hK : kruskalMST es nodes = (kruskal_run nodes pr (kruskal_init nodes)).mst := by
    rw [kruskalMST_eq es nodes (by rw [h5]; exact hI.len), h5]
  have hAmem : ∀ e, e ∈ A → e ∈ hard_edges es := by
    intro e hx
    unfold hard_edges
    refine List.mem_filter.2 ⟨(sort_edges_mem es e).1 (by rw [h1]; exact List.mem_append_left _ hx), ?_⟩
    have := h3 e hx
    simp only [decide_eq_true_eq]
    omega
  have hAmem' : ∀ e, e ∈ hard_edges es → e ∈ A := by
    intro e hx
    unfold hard_edges at hx
    obtain ⟨x1, x2⟩ := List.mem_filter.1 hx
    have x3 := (sort_edges_mem es e).2 x1
    rw [h1] at x3
    rcases List.mem_append.1 x3 with x4 | x4
    · exact x4
    · have := h4 e x4
      simp only [decide_eq_true_eq] at x2
      omega
  rw [hK]
  rcases h7 with ⟨a', x1, x2⟩ | ⟨c', x1, x2⟩
  · have hneg : ∀ e ∈ pr, e.weight < 0 := by
      intro e hx
      have := h3 e (by rw [x1]; exact List.mem_append_left _ hx)
      omega
    have hr := kruskal_run_neg nodes pr hneg (kruskal_init nodes) rfl rfl rfl
    rw [hr.2.1]
    refine ⟨by simp, ?_, ?_⟩
    · intro K1 e K2 hx
      simp at hx
    · intro i j hi hj hc
      have ht := h6 i j hi hj hc
      have hc2 := (hI.conn i j hi hj).1 ht
      refine Conn.subset ?_ hc2
      intro x hx
      refine List.mem_append_left _ (mem_edge_pairs_of_mem ?_ x hx)
      intro e hx
      exact hAmem e (by rw [x1]; exact List.mem_append_left _ hx)
  · have hnegA : ∀ e ∈ A, e.weight < 0 := by
      intro e hx
      have := h3 e hx
      omega
    have hAok : edges_ok nodes.length A := by
      intro e hx
      exact he e ((sort_edges_mem es e).1 (by rw [h1]; exact List.mem_append_left _ hx))
    have hcok : edges_ok nodes.length c' := by
      intro e hx
      exact he e ((sort_edges_mem es e).1
        (by rw [h1, x2]; exact List.mem_append_right _ (List.mem_append_left _ hx)))
    have hcw : ∀ e ∈ c', 0 ≤ e.weight := by
      intro e hx
      have := h4 e (by rw [x2]; exact List.mem_append_left _ hx)
      omega
    have hrA := kruskal_run_neg nodes A hnegA (kruskal_init nodes) rfl rfl rfl
    have hIA := kruskal_run_inv nodes hn A hAok [] _ (kruskal_init_inv nodes hn h0 h32)
    simp only [List.nil_append] at hIA
    obtain ⟨K, e1, e2, _, _, e5, e6⟩ :=
      kruskal_run_nonneg nodes hn c' hcok hcw (edge_pairs A) _ hIA
    rw [x1, kruskal_run_append, e1, hrA.2.1, List.nil_append]
    refine ⟨?_, ?_, ?_⟩
    · intro e hx
      have hx2 := e2.subset hx
      exact ⟨(sort_edges_mem es e).1
        (by rw [h1, x2]; exact List.mem_append_right _ (List.mem_append_left _ hx2)),
        hcw e hx2⟩
    · intro K1 e K2 hx hc
      refine e5 K1 e K2 hx (Conn.subset ?_ hc)
      intro x hx
      rcases List.mem_append.1 hx with y | y
      · exact List.mem_append_left _ (mem_edge_pairs_of_mem hAmem' x y)
      · exact List.mem_append_right _ y
    · intro i j hi hj hc
      have ht := h6 i j hi hj hc
      have hc2 := (hI.conn i j hi hj).1 ht
      rw [x1, edge_pairs_append] at hc2
      have hc3 := e6 i j hc2
      refine Conn.subset ?_ hc3
      intro x hx
      rcases List.mem_append.1 hx with y | y
      · exact List.mem_append_left _ (mem_edge_pairs_of_mem hAmem x y)
      · exact List.mem_append_right _ y

/-- The number of returned edges heavier than `t` is the number of components of
the edges up to weight `t` minus the number of components of all the edges. -/
theorem kruskalMST_count (t : Int) (ht : -1 ≤ t) (es : List Edge) (nodes : List Vector2)
    (hn : nodes_ok nodes) (h0 : 0 < nodes.length) (h32 : nodes.length < 4294967296)
    (he : edges_ok nodes.length es) (f g : Nat → Nat)
    (hf : ∀ i j, i < nodes.length → j < nodes.length →
      (f i = f j ↔ Conn (edge_pairs (light_edges t es)) i j))
    (hg : ∀ i j, i < nodes.length → j < nodes.length →
      (g i = g j ↔ Conn (edge_pairs es) i j)) :
    ((kruskalMST es nodes).filter fun e => t < e.weight).length + ncomp nodes.length g =
      ncomp nodes.length f := by
  obtain ⟨A, B, pr, rest, h1, h2, h3, h4, h5, hI, h6, h7⟩ :=
    kruskal_decomp t es nodes hn h0 h32 he
  have hK : kruskalMST es nodes = (kruskal_run nodes pr (kruskal_init nodes)).mst := by
    rw [kruskalMST_eq es nodes (by rw [h5]; exact hI.len), h5]
  have hprmem : ∀ e, e ∈ pr → e ∈ es := fun e hx =>
    (sort_edges_mem es e).1 (by rw [h2]; exact List.mem_append_left _ hx)
  have hfinal : ncomp nodes.length (kruskal_run nodes pr (kruskal_init nodes)).tags =
      ncomp nodes.length g := by
    apply ncomp_congr
    intro i j hi hj
    constructor
    · intro hx
      exact (hg i j hi hj).2 (Conn.subset (mem_edge_pairs_of_mem hprmem) ((hI.conn i j hi hj).1 hx))
    · intro hx
      exact h6 i j hi hj ((hg i j hi hj).1 hx)
  have hlight : ∀ e, e ∈ light_edges t es → e ∈ es := fun e hx => (List.mem_filter.1 hx).1
  rw [hK]
  rcases h7 with ⟨a', x1, x2⟩ | ⟨c', x1, x2⟩
  · obtain ⟨K, e1, e2⟩ := kruskal_run_mst nodes pr (kruskal_init nodes)
    have e1' : (kruskal_run nodes pr (kruskal_init nodes)).mst = K := by
      rw [e1]; rfl
    have hnil : K.filter (fun e => t < e.weight) = [] := by
      apply List.filter_eq_nil_iff.2
      intro e hx
      have := h3 e (by rw [x1]; exact List.mem_append_left _ (e2.subset hx))
      simp only [decide_eq_true_eq]
      omega
    rw [e1', hnil]
    simp only [List.length_nil, Nat.zero_add]
    apply ncomp_congr
    intro i j hi hj
    constructor
    · intro hx
      have hc := (hI.conn i j hi hj).1 (h6 i j hi hj ((hg i j hi hj).1 hx))
      refine (hf i j hi hj).2 (Conn.subset (mem_edge_pairs_of_mem ?_) hc)
      intro e hx
      unfold light_edges
      refine List.mem_filter.2 ⟨hprmem e hx, ?_⟩
      have := h3 e (by rw [x1]; exact List.mem_append_left _ hx)
      simpa using this
    · intro hx
      exact (hg i j hi hj).2 (Conn.subset (mem_edge_pairs_of_mem hlight) ((hf i j hi hj).1 hx))
  · have hAok : edges_ok nodes.length A := by
      intro e hx
      exact he e ((sort_edges_mem es e).1 (by rw [h1]; exact List.mem_append_left _ hx))
    have hcok : edges_ok nodes.length c' := by
      intro e hx
      exact he e ((sort_edges_mem es e).1
        (by rw [h1, x2]; exact List.mem_append_right _ (List.mem_append_left _ hx)))
    have hcw : ∀ e ∈ c', t < e.weight := by
      intro e hx
      exact h4 e (by rw [x2]; exact List.mem_append_left _ hx)
    have hIA := kruskal_run_inv nodes hn A hAok [] _ (kruskal_init_inv nodes hn h0 h32)
    simp only [List.nil_append] at hIA
    obtain ⟨KA, a1, a2⟩ := kruskal_run_mst nodes A (kruskal_init nodes)
    have a1' : (kruskal_run nodes A (kruskal_init nodes)).mst = KA := by
      rw [a1]; rfl
    obtain ⟨K, e1, e2, e3, e4, _, _⟩ :=
      kruskal_run_nonneg nodes hn c' hcok (fun e hx => by have := hcw e hx; omega)
        (edge_pairs A) _ hIA
    have hA : ncomp nodes.length (kruskal_run nodes A (kruskal_init nodes)).tags =
        ncomp nodes.length f := by
      apply ncomp_congr
      intro i j hi hj
      rw [hIA.conn i j hi hj, hf i j hi hj]
      constructor
      · intro hc
        refine Conn.subset (mem_edge_pairs_of_mem ?_) hc
        intro e hx
        unfold light_edges
        refine List.mem_filter.2 ⟨(sort_edges_mem es e).1
          (by rw [h1]; exact List.mem_append_left _ hx), ?_⟩
        simpa using h3 e hx
      · intro hc
        refine Conn.subset (mem_edge_pairs_of_mem ?_) hc
        intro e hx
        unfold light_edges at hx
        obtain ⟨y1, y2⟩ := List.mem_filter.1 hx
        have y3 := (sort_edges_mem es e).2 y1
        rw [h1] at y3
        rcases List.mem_append.1 y3 with y4 | y4
        · exact y4
        · have := h4 e y4
          simp only [decide_eq_true_eq] at y2
          omega
    have hKA : KA.filter (fun e => t < e.weight) = [] := by
      apply List.filter_eq_nil_iff.2
      intro e hx
      have := h3 e (a2.subset hx)
      simp only [decide_eq_true_eq]
      omega
    have hKB : K.filter (fun e => t < e.weight) = K := by
      apply List.filter_eq_self.2
      intro e hx
      simpa using hcw e (e2.subset hx)
    have c1 := hIA.count
    have c2 := hI.count
    rw [x1, kruskal_run_append] at c2 hfinal ⊢
    rw [e3, e4] at c2
    rw [e1, a1', List.filter_append, hKA, hKB, List.nil_append, ← hfinal, ← hA]
    omega

/-- A coarser tagging has at most as many tags. -/
theorem ncomp_mono (n : Nat) (f g : Nat → Nat)
    (h : ∀ i j, i < n → j < n → f i = f j → g i = g j) : ncomp n g ≤ ncomp n f := by
  unfold ncomp
  apply Finset.card_le_card_of_surjOn
    (fun x => if hx : ∃ i, i < n ∧ f i = x then g hx.choose else 0)
  intro y hy
  obtain ⟨i, hi, rfl⟩ := Finset.mem_image.1 (Finset.mem_coe.1 hy)
  have hi' := Finset.mem_range.1 hi
  refine ⟨f i, Finset.mem_coe.2 (Finset.mem_image.2 ⟨i, hi, rfl⟩), ?_⟩
  have hex : ∃ k, k < n ∧ f k = f i := ⟨i, hi', rfl⟩
  simp only [dif_pos hex]
  exact h _ _ hex.choose_spec.1 hi' hex.choose_spec.2

theorem tagging_id (n : Nat) : tagging n [] (fun i => i) := by
  intro i j _ _
  constructor
  · intro h
    have h' : i = j := h
    rw [h']; exact Conn.refl _ _
  · intro h
    exact Conn.induct (fun a b => a = b) (fun _ => rfl) (fun _ _ h => h.symm)
      (fun _ _ _ h1 h2 => h1.trans h2) (fun a b hab => by simp at hab) h

/-- Adding one edge merges at most two components. -/
theorem tagging_merge (n : Nat) (E : List (Nat × Nat)) (hE : pairs_ok n E) (f : Nat → Nat)
    (hf : tagging n E f) (a b : Nat) (ha : a < n) (hb : b < n) :
    ∃ f', tagging n (E ++ [(a, b)]) f' ∧ ncomp n f ≤ ncomp n f' + 1 := by
  by_cases hne : f a = f b
  · refine ⟨f, ?_, by omega⟩
    intro i j hi hj
    rw [hf i j hi hj]
    exact (Conn.append_redundant E a b ((hf a b ha hb).1 hne) i j).symm
  · refine ⟨fun i => if f i = f b then f a else f i, ?_, ?_⟩
    · intro i j hi hj
      have hP : ∀ x y, Conn E x y → Conn (E ++ [(a, b)]) x y :=
        fun x y hc => Conn.subset (fun z hz => List.mem_append_left _ hz) hc
      have hedge : Conn (E ++ [(a, b)]) a b :=
        Conn.edge (List.mem_append_right _ (List.mem_singleton.2 rfl))
      constructor
      · intro hx
        simp only at hx
        by_cases h1 : f i = f b
        · by_cases h2 : f j = f b
          · exact hP _ _ ((hf i j hi hj).1 (h1.trans h2.symm))
          · rw [if_pos h1, if_neg h2] at hx
            exact (hP _ _ ((hf i b hi hb).1 h1)).trans
              (hedge.symm.trans (hP _ _ ((hf a j ha hj).1 hx)))
        · by_cases h2 : f j = f b
          · rw [if_neg h1, if_pos h2] at hx
            exact (hP _ _ ((hf i a hi ha).1 hx)).trans
              (hedge.trans (hP _ _ ((hf b j hb hj).1 h2.symm)))
          · rw [if_neg h1, if_neg h2] at hx
            exact hP _ _ ((hf i j hi hj).1 hx)
      · intro hc
        have key : i = j ∨ (i < n ∧ j < n ∧
            (if f i = f b then f a else f i) = (if f j = f b then f a else f j)) := by
          refine Conn.induct (fun x y => x = y ∨ (x < n ∧ y < n ∧
              (if f x = f b then f a else f x) = (if f y = f b then f a else f y)))
            (fun _ => Or.inl rfl) ?_ ?_ ?_ hc
          · rintro x y (hxy | ⟨h1, h2, h3⟩)
            · exact Or.inl hxy.symm
            · exact Or.inr ⟨h2, h1, h3.symm⟩
          · rintro x y z (hxy | ⟨h1, h2, h3⟩) (hyz | ⟨h4, h5, h6⟩)
            · exact Or.inl (hxy.trans hyz)
            · rw [hxy]; exact Or.inr ⟨h4, h5, h6⟩
            · rw [← hyz]; exact Or.inr ⟨h1, h2, h3⟩
            · exact Or.inr ⟨h1, h5, h3.trans h6⟩
          · intro x y hxy
            right
            rcases List.mem_append.1 hxy with h1 | h1
            · have hlt := hE (x, y) h1
              refine ⟨hlt.1, hlt.2, ?_⟩
              have ht := (hf x y hlt.1 hlt.2).2 (Conn.edge h1)
              rw [ht]
            · simp only [List.mem_singleton, Prod.mk.injEq] at h1
              rw [h1.1, h1.2]
              refine ⟨ha, hb, ?_⟩
              rw [if_neg hne, if_pos rfl]
        rcases key with hij | ⟨_, _, hx⟩
        · rw [hij]
        · exact hx
    · have := ncomp_merge n f (fun i => if f i = f b then f a else f i) (f a) (f b) hne
        ⟨a, ha, rfl⟩ ⟨b, hb, rfl⟩ (fun i _ => rfl)
      omega

/-- Adding the edges `B` merges at most `|B|` pairs of components. -/
theorem tagging_extend (n : Nat) (B : List (Nat × Nat)) (hB : pairs_ok n B) (E : List (Nat × Nat))
    (hE : pairs_ok n E) (f : Nat → Nat) (hf : tagging n E f) :
    ∃ f', tagging n (E ++ B) f' ∧ ncomp n f ≤ ncomp n f' + B.length := by
  induction B generalizing E f with
  | nil => exact ⟨f, by simpa using hf, by simp⟩
  | cons x r ih =>
    have hx := hB x (List.mem_cons_self _ _)
    obtain ⟨f1, h1, h2⟩ := tagging_merge n E hE f hf x.1 x.2 hx.1 hx.2
    have hE1 : pairs_ok n (E ++ [(x.1, x.2)]) := by
      intro y hy
      rcases List.mem_append.1 hy with h3 | h3
      · exact hE y h3
      · rw [List.mem_singleton.1 h3]; exact hx
    obtain ⟨f2, h3, h4⟩ := ih (fun y hy => hB y (List.mem_cons_of_mem _ hy)) _ hE1 f1 h1
    refine ⟨f2, ?_, ?_⟩
    · have : E ++ x :: r = (E ++ [(x.1, x.2)]) ++ r := by simp
      rw [this]; exact h3
    · simp only [List.length_cons]; omega

theorem tagging_exists (n : Nat) (E : List (Nat × Nat)) (hE : pairs_ok n E) :
    ∃ f, tagging n E f := by
  obtain ⟨f, h, _⟩ := tagging_extend n E hE [] (by intro x hx; simp at hx) _ (tagging_id n)
  exact ⟨f, by simpa using h⟩

theorem capped_weight_zero (L : List Edge) (h : ∀ e ∈ L, 0 ≤ e.weight) :
    capped_weight 0 L = 0 := by
  induction L with
  | nil => rfl
  | cons x r ih =>
    have hx := h x (List.mem_cons_self _ _)
    have := ih (fun e he => h e (List.mem_cons_of_mem _ he))
    unfold capped_weight at this ⊢
    simp only [List.map_cons, List.sum_cons, this]
    simp only [Nat.cast_zero, add_zero]
    exact min_eq_right hx

theorem capped_weight_succ (W : Nat) (L : List Edge) :
    capped_weight (W + 1) L = capped_weight W L + ((heavy_edges W L).length : Int) := by
  induction L with
  | nil => rfl
  | cons x r ih =>
    unfold capped_weight heavy_edges at ih ⊢
    simp only [List.map_cons, List.sum_cons, List.filter_cons, ih]
    by_cases hx : (W : Int) < x.weight
    · have h1 : min x.weight ((W + 1 : Nat) : Int) = (W : Int) + 1 := by
        rw [min_eq_right (by push_cast; omega)]; push_cast; rfl
      have h2 : min x.weight (W : Int) = (W : Int) := min_eq_right (by omega)
      simp only [hx, decide_True, if_true, List.length_cons, h1, h2]
      push_cast
      ring
    · have h1 : min x.weight ((W + 1 : Nat) : Int) = x.weight := by
        rw [min_eq_left (by push_cast; omega)]
      have h2 : min x.weight (W : Int) = x.weight := min_eq_left (by omega)
      simp only [hx, decide_False, Bool.false_eq_true, if_false, h1, h2]
      ring

theorem capped_weight_large (W : Nat) (L : List Edge) (h : ∀ e ∈ L, e.weight ≤ (W : Int)) :
    capped_weight W L = total_weight L := by
  induction L with
  | nil => rfl
  | cons x r ih =>
    have hx := h x (List.mem_cons_self _ _)
    have := ih (fun e he => h e (List.mem_cons_of_mem _ he))
    unfold capped_weight total_weight at this ⊢
    simp only [List.map_cons, List.sum_cons, this, min_eq_left hx]

theorem weight_bound (L : List Edge) : ∃ W : Nat, ∀ e ∈ L, e.weight ≤ (W : Int) := by
  induction L with
  | nil => exact ⟨0, by simp⟩
  | cons x r ih =>
    obtain ⟨W, hW⟩ := ih
    refine ⟨W + x.weight.toNat, ?_⟩
    intro e he
    rcases List.mem_cons.1 he with h1 | h1
    · rw [h1]; push_cast; have := Int.self_le_toNat x.weight; omega
    · have := hW e h1; push_cast; omega

/-- Lists are compared by total weight through the numbers of their edges heavier
than each threshold. -/
theorem total_weight_le (K S : List Edge) (hK : ∀ e ∈ K, 0 ≤ e.weight)
    (hS : ∀ e ∈ S, 0 ≤ e.weight)
    (h : ∀ W : Nat, (heavy_edges W K).length ≤ (heavy_edges W S).length) :
    total_weight K ≤ total_weight S := by
  have key : ∀ W : Nat, capped_weight W K ≤ capped_weight W S := by
    intro W
    induction W with
    | zero => rw [capped_weight_zero K hK, capped_weight_zero S hS]
    | succ W ih =>
      rw [capped_weight_succ, capped_weight_succ]
      have := h W
      omega
  obtain ⟨W1, h1⟩ := weight_bound K
  obtain ⟨W2, h2⟩ := weight_bound S
  have := key (W1 + W2)
  rw [capped_weight_large _ K (fun e he => by have := h1 e he; push_cast; omega),
    capped_weight_large _ S (fun e he => by have := h2 e he; push_cast; omega)] at this
  exact this

theorem pairs_ok_of_edges_ok (n : Nat) (es : List Edge) (h : edges_ok n es) :
    pairs_ok n (edge_pairs es) := by
  intro x hx
  obtain ⟨e, he1, he2⟩ := List.mem_map.1 hx
  rw [← he2]
  exact h e he1

theorem pairs_ok_append (n : Nat) (a b : List (Nat × Nat)) (ha : pairs_ok n a) (hb : pairs_ok n b) :
    pairs_ok n (a ++ b) := by
  intro x hx
  rcases List.mem_append.1 hx with h | h
  · exact ha x h
  · exact hb x h

/-- The edges `kruskalMST` returns have the least total weight among the lists of
edges of non-negative weight of the input that, with the hard edges, connect what
all the edges connect. -/
theorem kruskalMST_min (es : List Edge) (nodes : List Vector2) (hn : nodes_ok nodes)
    (h0 : 0 < nodes.length) (h32 : nodes.length < 4294967296)
    (he : edges_ok nodes.length es) (S : List Edge)
    (hS1 : ∀ e ∈ S, e ∈ es ∧ 0 ≤ e.weight)
    (hS2 : ∀ i j, i < nodes.length → j < nodes.length → Conn (edge_pairs es) i j →
      Conn (edge_pairs (hard_edges es) ++ edge_pairs S) i j) :
    total_weight (kruskalMST es nodes) ≤ total_weight S := by
  have hspec := kruskalMST_spec es nodes hn h0 h32 he
  apply total_weight_le _ _ (fun e hx => (hspec.1 e hx).2) (fun e hx => (hS1 e hx).2)
  intro W
  have hlight_ok : edges_ok nodes.length (light_edges W es) :=
    fun e hx => he e (List.mem_filter.1 hx).1
  have hhard_ok : edges_ok nodes.length (hard_edges es) :=
    fun e hx => he e (List.mem_filter.1 hx).1
  have hSl_ok : edges_ok nodes.length (light_edges W S) :=
    fun e hx => he e (hS1 e (List.mem_filter.1 hx).1).1
  have hSh_ok : edges_ok nodes.length (heavy_edges W S) :=
    fun e hx => he e (hS1 e (List.mem_filter.1 hx).1).1
  obtain ⟨f, hf⟩ := tagging_exists _ _ (pairs_ok_of_edges_ok _ _ hlight_ok)
  obtain ⟨g, hg⟩ := tagging_exists _ _ (pairs_ok_of_edges_ok _ _ he)
  have hcount := kruskalMST_count W (by omega) es nodes hn h0 h32 he f g hf hg
  have hXok : pairs_ok nodes.length
      (edge_pairs (hard_edges es) ++ edge_pairs (light_edges W S)) :=
    pairs_ok_append _ _ _ (pairs_ok_of_edges_ok _ _ hhard_ok) (pairs_ok_of_edges_ok _ _ hSl_ok)
  obtain ⟨x, hx⟩ := tagging_exists _ _ hXok
  obtain ⟨y, hy, hxy⟩ := tagging_extend nodes.length (edge_pairs (heavy_edges W S))
    (pairs_ok_of_edges_ok _ _ hSh_ok) _ hXok x hx
  have h1 : ncomp nodes.length f ≤ ncomp nodes.length x := by
    apply ncomp_mono
    intro i j hi hj hij
    refine (hf i j hi hj).2 (Conn.subset ?_ ((hx i j hi hj).1 hij))
    intro z hz
    rcases List.mem_append.1 hz with h | h
    · refine mem_edge_pairs_of_mem ?_ z h
      intro e hx
      unfold hard_edges at hx
      unfold light_edges
      obtain ⟨a1, a2⟩ := List.mem_filter.1 hx
      refine List.mem_filter.2 ⟨a1, ?_⟩
      simp only [decide_eq_true_eq] at a2 ⊢
      omega
    · refine mem_edge_pairs_of_mem ?_ z h
      intro e hx
      unfold light_edges at hx ⊢
      obtain ⟨a1, a2⟩ := List.mem_filter.1 hx
      exact List.mem_filter.2 ⟨(hS1 e a1).1, a2⟩
  have h2 : ncomp nodes.length y = ncomp nodes.length g := by
    apply ncomp_congr
    intro i j hi hj
    rw [hy i j hi hj, hg i j hi hj]
    constructor
    · intro hc
      refine Conn.subset ?_ hc
      intro z hz
      rcases List.mem_append.1 hz with h | h
      · rcases List.mem_append.1 h with h | h
        · exact mem_edge_pairs_of_mem (fun e hx => (List.mem_filter.1 hx).1) z h
        · exact mem_edge_pairs_of_mem (fun e hx => (hS1 e (List.mem_filter.1 hx).1).1) z h
      · exact mem_edge_pairs_of_mem (fun e hx => (hS1 e (List.mem_filter.1 hx).1).1) z h
    · intro hc
      refine Conn.subset ?_ (hS2 i j hi hj hc)
      intro z hz
      rcases List.mem_append.1 hz with h | h
      · exact List.mem_append_left _ (List.mem_append_left _ h)
      · obtain ⟨e, e1, e2⟩ := List.mem_map.1 h
        by_cases hw : e.weight ≤ (W : Int)
        · refine List.mem_append_left _ (List.mem_append_right _ (List.mem_map.2 ⟨e, ?_, e2⟩))
          exact List.mem_filter.2 ⟨e1, by simpa using hw⟩
        · refine List.mem_append_right _ (List.mem_map.2 ⟨e, ?_, e2⟩)
          exact List.mem_filter.2 ⟨e1, by simp only [decide_eq_true_eq]; omega⟩
  have h3 : (heavy_edges (W : Int) (kruskalMST es nodes)).length =
      ((kruskalMST es nodes).filter fun e => (W : Int) < e.weight).length := rfl
  have h4 : (edge_pairs (heavy_edges (W : Int) S)).length = (heavy_edges (W : Int) S).length := by
    simp [edge_pairs]
  omega

theorem make_points_length (terms : List (Connection × Coordi)) :
    (make_points terms).length = terms.length := by
  simp [make_points]

theorem enum_get? {α : Type} (l : List α) (i : Nat) :
    l.enum.get? i = (l.get? i).map fun a => (i, a) := by
  simp [List.enum, List.enumFrom_eq_zip_range', List.getElem?_zip_eq_some]
  cases h : l[i]? with
  | none =>
    simp only [Option.map_none']
    rw [List.getElem?_eq_none_iff] at h ⊢
    simp only [List.length_zip, List.length_range']
    omega
  | some a =>
    simp only [Option.map_some']
    rw [List.getElem?_eq_some_iff] at h ⊢
    obtain ⟨h1, h2⟩ := h
    refine ⟨by simp only [List.length_zip, List.length_range']; omega, ?_⟩
    simp [h2, List.getElem_range']

theorem make_points_get? (terms : List (Connection × Coordi)) (i : Nat) :
    (make_points terms).get? i =
      (terms.get? i).map fun t =>
        { x := round_double t.2.x, y := round_double t.2.y, id := i } := by
  unfold make_points
  rw [List.get?_eq_getElem?, List.getElem?_map, ← List.get?_eq_getElem?, enum_get?]
  cases terms.get? i <;> rfl

theorem make_points_ok (terms : List (Connection × Coordi)) : nodes_ok (make_points terms) := by
  intro i hi
  rw [make_points_get?]
  rw [make_points_length] at hi
  have : ∃ t, terms.get? i = some t := by
    rw [List.get?_eq_get hi]; exact ⟨_, rfl⟩
  obtain ⟨t, ht⟩ := this
  rw [ht]; rfl

theorem connmap_at_some (terms : List (Connection × Coordi)) (c : Connection) (i : Nat)
    (h : connmap_at terms c = some i) :
    i < terms.length ∧ ∃ t, terms.get? i = some t ∧ t.1 = c := by
  unfold connmap_at at h
  cases hf : terms.enum.reverse.find? (fun it => it.2.1 = c) with
  | none => rw [hf] at h; simp at h
  | some it =>
    rw [hf] at h
    simp only [Option.map_some', Option.some.injEq] at h
    have h1 := List.find?_some hf
    have h2 := List.mem_of_find?_eq_some hf
    rw [List.mem_reverse] at h2
    obtain ⟨k, hk⟩ := List.get?_of_mem h2
    rw [enum_get?] at hk
    cases ht : terms.get? k with
    | none => rw [ht] at hk; simp at hk
    | some t =>
      rw [ht] at hk
      simp only [Option.map_some', Option.some.injEq] at hk
      have hik : i = k := by rw [← h, ← hk]
      rw [hik]
      refine ⟨?_, t, ht, ?_⟩
      · by_contra hlt
        rw [List.get?_eq_none.2 (by omega)] at ht
        simp at ht
      · have : it.2 = t := by rw [← hk]
        rw [← this]
        simpa using h1

theorem connmap_at_of_mem (terms : List (Connection × Coordi)) (c : Connection)
    (h : ∃ t ∈ terms, t.1 = c) : ∃ i, connmap_at terms c = some i := by
  unfold connmap_at
  obtain ⟨t, ht, hc⟩ := h
  obtain ⟨k, hk⟩ := List.get?_of_mem ht
  have hm : (k, t) ∈ terms.enum.reverse := by
    rw [List.mem_reverse]
    apply List.mem_iff_get?.2
    exact ⟨k, by rw [enum_get?, hk]; rfl⟩
  cases hf : terms.enum.reverse.find? (fun it => it.2.1 = c) with
  | none =>
    have := List.find?_eq_none.1 hf (k, t) hm
    simp [hc] at this
  | some it => exact ⟨it.1, rfl⟩

theorem pair_emplace_mem (e : Nat × Nat) (s : List (Nat × Nat)) (x : Nat × Nat) :
    x ∈ (pair_emplace e s).1 ↔ x = e ∨ x ∈ s := by
  induction s with
  | nil => simp [pair_emplace]
  | cons m r ih =>
    simp only [pair_emplace]
    by_cases h1 : pair_lt e m = true
    · rw [if_pos h1]; simp
    · rw [if_neg h1]
      by_cases h2 : e = m
      · rw [if_pos h2]
        simp only [List.mem_cons]
        constructor
        · intro h; exact Or.inr h
        · rintro (h | h)
          · left; rw [h, h2]
          · exact h
      · rw [if_neg h2]
        simp only [List.cons_eq_cons, List.mem_cons, ih]
        tauto

theorem pair_emplace_false (e : Nat × Nat) (s : List (Nat × Nat))
    (h : (pair_emplace e s).2 = false) : e ∈ s := by
  induction s with
  | nil => simp [pair_emplace] at h
  | cons m r ih =>
    simp only [pair_emplace] at h
    by_cases h1 : pair_lt e m = true
    · rw [if_pos h1] at h; simp at h
    · rw [if_neg h1] at h
      by_cases h2 : e = m
      · rw [h2]; exact List.mem_cons_self _ _
      · rw [if_neg h2] at h
        exact List.mem_cons_of_mem _ (ih h)

/-- What the loop over the tracks collects: the pairs of the tracks of the net, whose
endpoints are all terminals. -/
theorem collect_track_edges_spec (terms : List (Connection × Coordi)) (net : Net)
    (ts : List (UUID × Track)) (acc et : List (Nat × Nat))
    (h : collect_track_edges terms net ts acc = some et) :
    (∀ x, x ∈ et ↔ x ∈ acc ∨ ∃ e ∈ ts, e.2.net = some net ∧ ∃ i j,
      connmap_at terms e.2.from_ = some i ∧ connmap_at terms e.2.to_ = some j ∧
        x = track_pair i j) ∧
    (∀ e ∈ ts, e.2.net = some net → ∃ i j,
      connmap_at terms e.2.from_ = some i ∧ connmap_at terms e.2.to_ = some j) := by
  induction ts generalizing acc with
  | nil =>
    simp only [collect_track_edges, Option.some.injEq] at h
    rw [← h]
    simp
  | cons e r ih =>
    obtain ⟨k, t⟩ := e
    simp only [collect_track_edges] at h
    by_cases hn : t.net = some net
    · rw [if_pos hn] at h
      cases h1 : connmap_at terms t.from_ with
      | none => rw [h1] at h; simp at h
      | some i =>
        cases h2 : connmap_at terms t.to_ with
        | none => rw [h1, h2] at h; simp at h
        | some j =>
          rw [h1, h2] at h
          simp only at h
          have := ih _ h
          constructor
          · intro x
            rw [this.1 x, pair_emplace_mem]
            constructor
            · rintro ((hx | hx) | ⟨e, he, hx⟩)
              · right
                exact ⟨(k, t), List.mem_cons_self _ _, hn, i, j, h1, h2, hx⟩
              · exact Or.inl hx
              · right
                exact ⟨e, List.mem_cons_of_mem _ he, hx⟩
            · rintro (hx | ⟨e, he, hx1, i', j', hx2, hx3, hx4⟩)
              · exact Or.inl (Or.inr hx)
              · rcases List.mem_cons.1 he with he | he
                · left; left
                  rw [he] at hx2 hx3
                  simp only at hx2 hx3
                  rw [h1] at hx2
                  rw [h2] at hx3
                  simp only [Option.some.injEq] at hx2 hx3
                  rw [hx4, ← hx2, ← hx3]
                  rfl
                · right
                  exact ⟨e, he, hx1, i', j', hx2, hx3, hx4⟩
          · intro e he hx
            rcases List.mem_cons.1 he with he | he
            · rw [he]; exact ⟨i, j, h1, h2⟩
            · exact this.2 e he hx
    · rw [if_neg hn] at h
      have := ih _ h
      constructor
      · intro x
        rw [this.1 x]
        constructor
        · rintro (hx | ⟨e, he, hx⟩)
          · exact Or.inl hx
          · right; exact ⟨e, List.mem_cons_of_mem _ he, hx⟩
        · rintro (hx | ⟨e, he, hx1, hx⟩)
          · exact Or.inl hx
          · rcases List.mem_cons.1 he with he | he
            · rw [he] at hx1; exact absurd hx1 hn
            · right; exact ⟨e, he, hx1, hx⟩
      · intro e he hx
        rcases List.mem_cons.1 he with he | he
        · rw [he] at hx; exact absurd hx hn
        · exact this.2 e he hx

theorem round_double_nonneg (n : Int) (h : 0 ≤ n) : 0 ≤ round_double n := by
  unfold round_double
  simp only
  rw [if_pos h]
  exact Int.natCast_nonneg _

theorem round_double_small (n : Int) (h : n.natAbs < 9007199254740992) :
    round_double n = n := by
  have hk : drop_bits 1024 n.natAbs = 0 := by
    show (if n.natAbs < 9007199254740992 then 0 else _) = 0
    rw [if_pos h]
  unfold round_double
  simp only [hk, pow_zero, Nat.div_one, Nat.mod_one, Nat.mul_zero, Nat.mul_one]
  have hup : (decide (1 < 0) || (decide (0 = 1) && decide (n.natAbs % 2 = 1))) = false := by
    simp
  rw [hup]
  simp only [Bool.false_eq_true, if_false]
  split
  · rename_i h0
    exact Int.natAbs_of_nonneg h0
  · rename_i h0
    have := Int.natAbs_neg n
    have h1 : 0 ≤ -n := by omega
    have h2 := Int.natAbs_of_nonneg h1
    rw [Int.natAbs_neg] at h2
    omega

theorem round_double_neg (n : Int) : round_double (-n) = -round_double n := by
  unfold round_double
  simp only [Int.natAbs_neg]
  by_cases h0 : n = 0
  · subst h0
    simp [drop_bits]
  · by_cases h1 : 0 ≤ n
    · have h2 : ¬ 0 ≤ -n := by omega
      rw [if_pos h1, if_neg h2]
    · have h2 : 0 ≤ -n := by omega
      rw [if_neg h1, if_pos h2, neg_neg]

theorem dist2_nonneg (p q : Vector2) : 0 ≤ p.dist2 q := by
  unfold Vector2.dist2
  simp only
  apply round_double_nonneg
  exact add_nonneg (round_double_nonneg _ (mul_self_nonneg _))
    (round_double_nonneg _ (mul_self_nonneg _))

theorem add_track_edges_spec (points : List Vector2) (et : List (Nat × Nat))
    (st : List (Nat × Nat) × List Edge) :
    (add_track_edges points et st).2 = st.2 ++ et.map (mk_track_edge points) ∧
      ∀ x, x ∈ (add_track_edges points et st).1 ↔ x ∈ st.1 ∨ x ∈ et := by
  induction et generalizing st with
  | nil => simp [add_track_edges]
  | cons e r ih =>
    simp only [add_track_edges]
    have := ih ((pair_emplace e st.1).1,
      st.2 ++ [{ p1 := points.getD e.1 ⟨0, 0, 0⟩, p2 := points.getD e.2 ⟨0, 0, 0⟩, weight := -1 }])
    constructor
    · rw [this.1]
      simp [mk_track_edge]
    · intro x
      rw [this.2 x]
      simp only [pair_emplace_mem, List.mem_cons]
      tauto

theorem add_tri_edges_spec (tri : List Edge) (st : List (Nat × Nat) × List Edge) :
    ∃ T, (add_tri_edges tri st).2 = st.2 ++ T ∧ T.Sublist (tri.map reweigh) ∧
      ∀ e ∈ tri, tri_pair e ∈ st.1 ∨ ∃ e' ∈ T, tri_pair e' = tri_pair e := by
  induction tri generalizing st with
  | nil => exact ⟨[], by simp [add_tri_edges], List.Sublist.refl _, by simp⟩
  | cons e r ih =>
    simp only [add_tri_edges]
    have ht : (if e.p1.id > e.p2.id then (e.p2.id, e.p1.id) else (e.p1.id, e.p2.id)) =
        tri_pair e := rfl
    rw [ht]
    by_cases hx : (pair_emplace (tri_pair e) st.1).2 = true
    · rw [if_pos hx]
      obtain ⟨T, h1, h2, h3⟩ := ih ((pair_emplace (tri_pair e) st.1).1,
        st.2 ++ [{ p1 := e.p1, p2 := e.p2, weight := e.p1.dist2 e.p2 }])
      refine ⟨reweigh e :: T, ?_, ?_, ?_⟩
      · rw [h1]; simp [reweigh]
      · exact List.Sublist.cons₂ _ h2
      · intro e2 he2
        rcases List.mem_cons.1 he2 with h4 | h4
        · right
          exact ⟨reweigh e, List.mem_cons_self _ _, by rw [h4]; rfl⟩
        · rcases h3 e2 h4 with h5 | ⟨e', h5, h6⟩
          · rcases (pair_emplace_mem _ _ _).1 h5 with h7 | h7
            · right
              exact ⟨reweigh e, List.mem_cons_self _ _, by rw [h7]; rfl⟩
            · exact Or.inl h7
          · right
            exact ⟨e', List.mem_cons_of_mem _ h5, h6⟩
    · rw [if_neg hx]
      have hmem := pair_emplace_false _ _ (by simpa using hx)
      obtain ⟨T, h1, h2, h3⟩ := ih ((pair_emplace (tri_pair e) st.1).1, st.2)
      refine ⟨T, h1, List.Sublist.cons _ h2, ?_⟩
      intro e2 he2
      rcases List.mem_cons.1 he2 with h4 | h4
      · left; rw [h4]; exact hmem
      · rcases h3 e2 h4 with h5 | h5
        · rcases (pair_emplace_mem _ _ _).1 h5 with h7 | h7
          · left; rw [h7]; exact hmem
          · exact Or.inl h7
        · exact Or.inr h5

/-- The list `edges_for_mst`: one edge of weight `-1` for each pair of
`edges_from_tracks`, then edges of the triangulation with their squared length as
weight. -/
theorem edges_for_mst_spec (del : List Vector2 → List Edge) (points : List Vector2)
    (et : List (Nat × Nat)) :
    ∃ T, edges_for_mst del points et = et.map (mk_track_edge points) ++ T ∧
      T.Sublist ((tri_edges del points).map reweigh) ∧
      ∀ e ∈ tri_edges del points, tri_pair e ∈ et ∨ ∃ e' ∈ T, tri_pair e' = tri_pair e := by
  unfold edges_for_mst
  have h1 := add_track_edges_spec points et ([], [])
  obtain ⟨T, h2, h3, h4⟩ := add_tri_edges_spec (tri_edges del points)
    (add_track_edges points et ([], []))
  refine ⟨T, ?_, h3, ?_⟩
  · rw [h2, h1.1]; simp
  · intro e he
    rcases h4 e he with h5 | h5
    · left
      simpa using (h1.2 _).1 h5
    · exact Or.inr h5

theorem tri_edges_mem (del : List Vector2 → List Edge) (points : List Vector2)
    (hd : del_ok del points) : ∀ e ∈ tri_edges del points, e.p1 ∈ points ∧ e.p2 ∈ points := by
  intro e he
  unfold tri_edges at he
  by_cases h3 : 3 ≤ points.length
  · rw [if_pos h3] at he
    exact hd e he
  · rw [if_neg h3] at he
    match points, he with
    | [p0, p1], he =>
      simp only [List.mem_singleton] at he
      rw [he]
      simp

theorem mem_points (points : List Vector2) (hn : nodes_ok points) (p : Vector2) (hp : p ∈ points) :
    p.id < points.length ∧ points.get? p.id = some p := by
  obtain ⟨i, hi⟩ := List.get?_of_mem hp
  have hlt : i < points.length := by
    by_contra h
    rw [List.get?_eq_none.2 (by omega)] at hi
    simp at hi
  have := hn i hlt
  rw [hi] at this
  simp only [Option.map_some', Option.some.injEq] at this
  rw [this]
  exact ⟨hlt, hi⟩

theorem mk_track_edge_pair (points : List Vector2) (hn : nodes_ok points) (e : Nat × Nat)
    (h1 : e.1 < points.length) (h2 : e.2 < points.length) :
    ((mk_track_edge points e).p1.id, (mk_track_edge points e).p2.id) = e := by
  have a1 := hn e.1 h1
  have a2 := hn e.2 h2
  unfold mk_track_edge
  simp only [List.getD_eq_getElem?_getD]
  rw [← List.get?_eq_getElem?, ← List.get?_eq_getElem?]
  cases h3 : points.get? e.1 with
  | none => rw [h3] at a1; simp at a1
  | some v1 =>
    cases h4 : points.get? e.2 with
    | none => rw [h4] at a2; simp at a2
    | some v2 =>
      rw [h3] at a1
      rw [h4] at a2
      simp only [Option.map_some', Option.some.injEq] at a1 a2
      simp only [Option.getD_some, a1, a2]

theorem tri_pair_conn (E : List (Nat × Nat)) (e e' : Edge) (h : tri_pair e' = tri_pair e)
    (hc : Conn E e'.p1.id e'.p2.id) : Conn E e.p1.id e.p2.id := by
  unfold tri_pair at h
  by_cases h1 : e'.p1.id > e'.p2.id
  · by_cases h2 : e.p1.id > e.p2.id
    · rw [if_pos h1, if_pos h2] at h
      simp only [Prod.mk.injEq] at h
      rw [← h.1, ← h.2]; exact hc
    · rw [if_pos h1, if_neg h2] at h
      simp only [Prod.mk.injEq] at h
      rw [← h.1, ← h.2]; exact hc.symm
  · by_cases h2 : e.p1.id > e.p2.id
    · rw [if_neg h1, if_pos h2] at h
      simp only [Prod.mk.injEq] at h
      rw [← h.1, ← h.2]; exact hc.symm
    · rw [if_neg h1, if_neg h2] at h
      simp only [Prod.mk.injEq] at h
      rw [← h.1, ← h.2]; exact hc

/-- The edges handed to `kruskalMST` for a net: the hard edges are those of the
tracks, the others are edges of the triangulation weighted by their squared
length, and no connection offered by the tracks or the triangulation is lost. -/
theorem edges_for_mst_ok (del : List Vector2 → List Edge) (points : List Vector2)
    (hn : nodes_ok points) (hd : del_ok del points) (et : List (Nat × Nat))
    (het : ∀ x ∈ et, x.1 < points.length ∧ x.2 < points.length) :
    edges_ok points.length (edges_for_mst del points et) ∧
    edge_pairs (hard_edges (edges_for_mst del points et)) = et ∧
    (∀ e ∈ edges_for_mst del points et, 0 ≤ e.weight →
      e.weight = e.p1.dist2 e.p2 ∧ e.p1 ∈ points ∧ e.p2 ∈ points ∧
        ∃ e0 ∈ tri_edges del points, e = reweigh e0) ∧
    (∀ e0 ∈ tri_edges del points, tri_pair e0 ∈ et ∨
      ∃ e ∈ edges_for_mst del points et, 0 ≤ e.weight ∧ tri_pair e = tri_pair e0) ∧
    (∀ i j, Conn (et ++ edge_pairs (tri_edges del points)) i j →
      Conn (edge_pairs (edges_for_mst del points et)) i j) := by
  obtain ⟨T, h1, h2, h3⟩ := edges_for_mst_spec del points et
  have htri := tri_edges_mem del points hd
  have hT : ∀ e ∈ T, ∃ e0 ∈ tri_edges del points, e = reweigh e0 := by
    intro e he
    obtain ⟨e0, a1, a2⟩ := List.mem_map.1 (h2.subset he)
    exact ⟨e0, a1, a2.symm⟩
  have hTw : ∀ e ∈ T, 0 ≤ e.weight := by
    intro e he
    obtain ⟨e0, _, a2⟩ := hT e he
    rw [a2]; exact dist2_nonneg _ _
  have hpairs : edge_pairs (et.map (mk_track_edge points)) = et := by
    unfold edge_pairs
    rw [List.map_map]
    conv => rhs; rw [← List.map_id et]
    apply List.map_congr_left
    intro x hx
    exact mk_track_edge_pair points hn x (het x hx).1 (het x hx).2
  rw [h1]
  refine ⟨?_, ?_, ?_, ?_, ?_⟩
  · intro e he
    rcases List.mem_append.1 he with a | a
    · obtain ⟨x, a1, a2⟩ := List.mem_map.1 a
      have := mk_track_edge_pair points hn x (het x a1).1 (het x a1).2
      simp only [Prod.ext_iff] at this
      rw [← a2, this.1, this.2]
      exact het x a1
    · obtain ⟨e0, a1, a2⟩ := hT e a
      rw [a2]
      exact ⟨(mem_points points hn _ (htri e0 a1).1).1, (mem_points points hn _ (htri e0 a1).2).1⟩
  · have : hard_edges (et.map (mk_track_edge points) ++ T) = et.map (mk_track_edge points) := by
      unfold hard_edges
      rw [List.filter_append]
      have a1 : (et.map (mk_track_edge points)).filter (fun e => decide (e.weight < 0)) =
          et.map (mk_track_edge points) := by
        apply List.filter_eq_self.2
        intro e he
        obtain ⟨x, _, a2⟩ := List.mem_map.1 he
        rw [← a2]; rfl
      have a2 : T.filter (fun e => decide (e.weight < 0)) = [] := by
        apply List.filter_eq_nil_iff.2
        intro e he
        have := hTw e he
        simp only [decide_eq_true_eq]
        omega
      rw [a1, a2, List.append_nil]
    rw [this, hpairs]
  · intro e he hw
    rcases List.mem_append.1 he with a | a
    · obtain ⟨x, _, a2⟩ := List.mem_map.1 a
      rw [← a2] at hw
      have : (mk_track_edge points x).weight = -1 := rfl
      omega
    · obtain ⟨e0, a1, a2⟩ := hT e a
      rw [a2]
      exact ⟨rfl, (htri e0 a1).1, (htri e0 a1).2, e0, a1, rfl⟩
  · intro e0 he0
    rcases h3 e0 he0 with a | ⟨e', a1, a2⟩
    · exact Or.inl a
    · exact Or.inr ⟨e', List.mem_append_right _ a1, hTw e' a1, a2⟩
  · intro i j hc
    refine Conn.mono ?_ hc
    intro a b hab
    rw [edge_pairs_append, hpairs]
    rcases List.mem_append.1 hab with x | x
    · exact Conn.edge (List.mem_append_left _ x)
    · obtain ⟨e0, a1, a2⟩ := List.mem_map.1 x
      simp only [Prod.mk.injEq] at a2
      rw [← a2.1, ← a2.2]
      rcases h3 e0 a1 with y | ⟨e', y1, y2⟩
      · have hc2 : Conn (et ++ edge_pairs T) (tri_pair e0).1 (tri_pair e0).2 :=
          Conn.edge (List.mem_append_left _ y)
        unfold tri_pair at hc2
        by_cases hgt : e0.p1.id > e0.p2.id
        · rw [if_pos hgt] at hc2; exact hc2.symm
        · rw [if_neg hgt] at hc2; exact hc2
      · apply tri_pair_conn _ e0 e' y2
        exact Conn.edge (List.mem_append_right _ (List.mem_map.2 ⟨e', y1, rfl⟩))

theorem net_mst_eq (del : List Vector2 → List Edge) (b : Board) (net : Net)
    (et : List (Nat × Nat))
    (hct : collect_track_edges (b.terminals net) net b.tracks [] = some et) :
    b.net_mst del net =
      some (kruskalMST (edges_for_mst del (make_points (b.terminals net)) et)
        (make_points (b.terminals net))) := by
  unfold Board.net_mst
  simp only [hct]

theorem collect_track_edges_lt (terms : List (Connection × Coordi)) (net : Net)
    (ts : List (UUID × Track)) (et : List (Nat × Nat))
    (hct : collect_track_edges terms net ts [] = some et) :
    ∀ x ∈ et, x.1 < terms.length ∧ x.2 < terms.length := by
  intro x hx
  have := (collect_track_edges_spec terms net ts [] et hct).1 x
  rcases this.1 hx with h | ⟨e, _, _, i, j, h1, h2, h3⟩
  · simp at h
  · have a1 := (connmap_at_some terms _ i h1).1
    have a2 := (connmap_at_some terms _ j h2).1
    rw [h3]
    unfold track_pair
    split
    · exact ⟨a1, a2⟩
    · exact ⟨a2, a1⟩

theorem emit_airwires_count (rnd : Nat → UUID) (terms : List (Connection × Coordi)) (net : Net)
    (mst : List Edge) (hm : ∀ e ∈ mst, e.p1.id < terms.length ∧ e.p2.id < terms.length)
    (st : List (UUID × Track) × Nat) :
    ∃ st', emit_airwires rnd terms net mst st = some st' ∧ st'.2 = st.2 + mst.length := by
  induction mst generalizing st with
  | nil => exact ⟨st, rfl, rfl⟩
  | cons e r ih =>
    have he := hm e (List.mem_cons_self _ _)
    have h1 : ∃ a, terms.get? e.p1.id = some a := by
      rw [List.get?_eq_get he.1]; exact ⟨_, rfl⟩
    have h2 : ∃ c, terms.get? e.p2.id = some c := by
      rw [List.get?_eq_get he.2]; exact ⟨_, rfl⟩
    obtain ⟨a, ha⟩ := h1
    obtain ⟨c, hc⟩ := h2
    simp only [emit_airwires, ha, hc]
    obtain ⟨st', e1, e2⟩ := ih (fun e he => hm e (List.mem_cons_of_mem _ he))
      (mapModify (mapEmplace st.1 (rnd st.2) { from_ := .junc 0, to_ := .junc 0 }) (rnd st.2)
        (fun aw => { aw with from_ := a.1, to_ := c.1, net := some net, is_air := true }),
        st.2 + 1)
    refine ⟨st', e1, ?_⟩
    rw [e2]
    simp only [List.length_cons]
    omega

/-- The facts about the spanning tree of one net from which the claims on the
ratsnest follow. -/
theorem net_mst_facts (del : List Vector2 → List Edge) (b : Board) (net : Net)
    (h0 : 0 < (b.terminals net).length) (h32 : (b.terminals net).length < 4294967296)
    (hd : del_ok del (make_points (b.terminals net))) (et : List (Nat × Nat))
    (hct : collect_track_edges (b.terminals net) net b.tracks [] = some et) :
    ∃ mst, b.net_mst del net = some mst ∧
      mst = kruskalMST (edges_for_mst del (make_points (b.terminals net)) et)
        (make_points (b.terminals net)) ∧
      (∀ e ∈ mst, e.p1.id < (b.terminals net).length ∧ e.p2.id < (b.terminals net).length) ∧
      (∀ e ∈ mst, e.weight = e.p1.dist2 e.p2 ∧ e.p1 ∈ make_points (b.terminals net) ∧
        e.p2 ∈ make_points (b.terminals net) ∧
        ∃ e0 ∈ tri_edges del (make_points (b.terminals net)), e = reweigh e0) ∧
      (∀ K1 e K2, mst = K1 ++ e :: K2 → ¬ Conn (et ++ edge_pairs K1) e.p1.id e.p2.id) ∧
      (∀ i j, i < (b.terminals net).length → j < (b.terminals net).length →
        Conn (et ++ edge_pairs (tri_edges del (make_points (b.terminals net)))) i j →
        Conn (et ++ edge_pairs mst) i j) ∧
      (∀ comp, tagging (b.terminals net).length et comp →
        (∀ i j, i < (b.terminals net).length → j < (b.terminals net).length →
          Conn (et ++ edge_pairs (tri_edges del (make_points (b.terminals net)))) i j) →
        mst.length + 1 = ncomp (b.terminals net).length comp) := by
  have hn := make_points_ok (b.terminals net)
  have hlen := make_points_length (b.terminals net)
  have het := collect_track_edges_lt _ _ _ _ hct
  have hok := edges_for_mst_ok del (make_points (b.terminals net)) hn hd et
    (by rw [hlen]; exact het)
  obtain ⟨k1, k2, k3, _, k5⟩ := hok
  have hspec := kruskalMST_spec (edges_for_mst del (make_points (b.terminals net)) et)
    (make_points (b.terminals net)) hn (by rw [hlen]; exact h0) (by rw [hlen]; exact h32) k1
  rw [k2, hlen] at hspec
  refine ⟨_, net_mst_eq del b net et hct, rfl, ?_, ?_, hspec.2.1, ?_, ?_⟩
  · intro e he
    have := k1 e (hspec.1 e he).1
    rw [hlen] at this
    exact this
  · intro e he
    exact k3 e (hspec.1 e he).1 (hspec.1 e he).2
  · intro i j hi hj hc
    exact hspec.2.2 i j hi hj (k5 i j hc)
  · intro comp hcomp hconn
    have hg : ∀ i j, i < (make_points (b.terminals net)).length →
        j < (make_points (b.terminals net)).length →
        ((fun _ : Nat => 0) i = (fun _ : Nat => 0) j ↔
          Conn (edge_pairs (edges_for_mst del (make_points (b.terminals net)) et)) i j) := by
      intro i j hi hj
      rw [hlen] at hi hj
      exact ⟨fun _ => k5 i j (hconn i j hi hj), fun _ => rfl⟩
    have hlight : light_edges (-1) (edges_for_mst del (make_points (b.terminals net)) et) =
        hard_edges (edges_for_mst del (make_points (b.terminals net)) et) := by
      unfold light_edges hard_edges
      apply List.filter_congr
      intro e _
      have : (e.weight ≤ -1) = (e.weight < 0) := by
        apply propext; constructor <;> intro h <;> omega
      simp only [this]
    have hf : ∀ i j, i < (make_points (b.terminals net)).length →
        j < (make_points (b.terminals net)).length →
        (comp i = comp j ↔ Conn (edge_pairs (light_edges (-1)
          (edges_for_mst del (make_points (b.terminals net)) et))) i j) := by
      intro i j hi hj
      rw [hlen] at hi hj
      rw [hlight, k2]
      exact hcomp i j hi hj
    have hcount := kruskalMST_count (-1) (by omega) _ _ hn (by rw [hlen]; exact h0)
      (by rw [hlen]; exact h32) k1 comp (fun _ => 0) hf hg
    have hall : (kruskalMST (edges_for_mst del (make_points (b.terminals net)) et)
        (make_points (b.terminals net))).filter (fun e => (-1 : Int) < e.weight) =
        kruskalMST (edges_for_mst del (make_points (b.terminals net)) et)
          (make_points (b.terminals net)) := by
      apply List.filter_eq_self.2
      intro e he
      have := (kruskalMST_spec (edges_for_mst del (make_points (b.terminals net)) et)
        (make_points (b.terminals net)) hn (by rw [hlen]; exact h0)
        (by rw [hlen]; exact h32) k1).1 e he
      simp only [decide_eq_true_eq]
      omega
    rw [hall, hlen] at hcount
    have h1 : ncomp (b.terminals net).length (fun _ => 0) = 1 :=
      ncomp_eq_one _ h0 _ (fun _ _ _ _ => rfl)
    omega

theorem net_insert_mem (n x : Net) (l : List Net) : x ∈ net_insert n l ↔ x = n ∨ x ∈ l := by
  induction l with
  | nil => simp [net_insert]
  | cons m r ih =>
    simp only [net_insert]
    split
    · simp
    · split
      · rename_i h
        simp only [List.mem_cons]
        constructor
        · intro hx; exact Or.inr hx
        · rintro (hx | hx)
          · left; rw [hx, h]
          · exact hx
      · simp only [List.mem_cons, ih]
        tauto

theorem collect_nets_mem (b : Board) (net : Net) :
    net ∈ b.collect_nets ↔ ∃ cp ∈ b.all_pads, cp.2.net = some net := by
  unfold Board.collect_nets
  have key : ∀ (l : List (Connection × Pad)) (acc : List Net),
      net ∈ l.foldl insert_pad_net acc ↔ net ∈ acc ∨ ∃ cp ∈ l, cp.2.net = some net := by
    intro l
    induction l with
    | nil => intro acc; simp
    | cons x r ih =>
      intro acc
      simp only [List.foldl_cons]
      rw [ih]
      unfold insert_pad_net
      cases hx : x.2.net with
      | none =>
        simp only [List.mem_cons, exists_eq_or_imp, hx]
        simp
      | some n =>
        simp only [List.mem_cons, exists_eq_or_imp, hx, net_insert_mem, Option.some.injEq]
        constructor
        · rintro ((h | h) | h)
          · exact Or.inr (Or.inl h.symm)
          · exact Or.inl h
          · exact Or.inr (Or.inr h)
        · rintro (h | h | h)
          · exact Or.inl (Or.inr h)
          · exact Or.inl (Or.inl h.symm)
          · exact Or.inr h
  rw [key]
  simp

theorem terminals_pos (b : Board) (net : Net) (h : net ∈ b.collect_nets) :
    0 < (b.terminals net).length := by
  obtain ⟨cp, h1, h2⟩ := (collect_nets_mem b net).1 h
  unfold Board.terminals
  rw [List.length_append, List.length_map, List.length_map]
  have : cp ∈ b.all_pads.filter (fun cp => cp.2.net = some net) :=
    List.mem_filter.2 ⟨h1, by simpa using h2⟩
  have := List.length_pos_of_mem this
  omega

theorem conn_net_of_consistent (b : Board) (h : b.tracks_consistent) (e : UUID × Track)
    (he : e ∈ b.tracks) (c : Connection) (hc : c = e.2.from_ ∨ c = e.2.to_) (n : Net)
    (hn : b.conn_net c = some n) : e.2.net = some n := by
  have := h e he c hc
  cases c with
  | junc j =>
    simp only [Board.conn_net] at hn
    cases hj : mapAt b.junctions j with
    | none => rw [hj] at hn; simp at hn
    | some ju =>
      rw [hj] at hn
      rw [← this.1 j ju rfl hj]; exact hn
  | pad pk pd =>
    simp only [Board.conn_net] at hn
    cases hp : padAt b.packages pk pd with
    | none => rw [hp] at hn; simp at hn
    | some pad =>
      rw [hp] at hn
      simp only at hn
      rw [← this.2 pk pd pad rfl hp (by rw [hn]; simp)]; exact hn

theorem update_airwires_fields (del : List Vector2 → List Edge) (rnd : Nat → UUID)
    (b b' : Board) (h : b.update_airwires del rnd = some b') :
    b'.tracks = b.tracks ∧ b'.junctions = b.junctions ∧ b'.packages = b.packages ∧
      b'.vias = b.vias := by
  unfold Board.update_airwires at h
  cases hx : b.airwires_loop del rnd b.collect_nets ([], 0) with
  | none => rw [hx] at h; simp at h
  | some st =>
    rw [hx] at h
    simp only [Option.some.injEq] at h
    rw [← h]
    exact ⟨rfl, rfl, rfl, rfl⟩

theorem propagate_loop_consistent (rnd : Nat → Nat → UUID) (fuel k p : Nat) (b b' : Board)
    (n : Nat) (h : Board.propagate_loop rnd fuel k p b = some (b', n)) :
    b'.tracks_consistent := by
  obtain ⟨_, x, q, _, hx⟩ := propagate_loop_induct rnd fuel (fun _ => True)
    (fun _ _ _ _ _ _ => trivial) k p b b' n trivial h
  intro e he c hc
  exact propagate_tracks_nets fuel (rnd q) x b' true hx e he c hc

/-- C3. Once the propagation loop of `expand` has ended (the last call of
`propagate_net_segments` on the cleared board has returned `true`), every junction
endpoint of a remaining track carries the track's net, every pad endpoint that
has a net carries the track's net, and so no remaining track has endpoints that
resolve to two different nets; this holds after `expand` as well. -/
theorem no_track_joins_two_nets (del : List Vector2 → List Edge) (rnd : Nat → Nat → UUID)
    (rndAir : Nat → UUID) (fuel : Nat) (b : Board) :
    (∀ k p b' n, Board.propagate_loop rnd fuel k p b = some (b', n) →
      b'.tracks_consistent ∧
      ∀ e ∈ b'.tracks, ∀ n1 n2, b'.conn_net e.2.from_ = some n1 →
        b'.conn_net e.2.to_ = some n2 → n1 = n2) ∧
    (∀ b', b.expand del rnd rndAir fuel = some b' →
      b'.tracks_consistent ∧
      ∀ e ∈ b'.tracks, ∀ n1 n2, b'.conn_net e.2.from_ = some n1 →
        b'.conn_net e.2.to_ = some n2 → n1 = n2) := by
  have key : ∀ x : Board, x.tracks_consistent →
      ∀ e ∈ x.tracks, ∀ n1 n2, x.conn_net e.2.from_ = some n1 →
        x.conn_net e.2.to_ = some n2 → n1 = n2 := by
    intro x hx e he n1 n2 h1 h2
    have a1 := conn_net_of_consistent x hx e he _ (Or.inl rfl) n1 h1
    have a2 := conn_net_of_consistent x hx e he _ (Or.inr rfl) n2 h2
    rw [a1] at a2
    exact Option.some.inj a2
  constructor
  · intro k p b' n h
    have hc := propagate_loop_consistent rnd fuel k p b b' n h
    exact ⟨hc, key b' hc⟩
  · intro b' h
    unfold Board.expand at h
    cases hl : Board.propagate_loop rnd fuel fuel 0 b.expand_prepare with
    | none => rw [hl] at h; simp at h
    | some r =>
      rw [hl] at h
      simp only at h
      have hc := propagate_loop_consistent rnd fuel fuel 0 _ r.1 r.2 hl
      have hf := update_airwires_fields del rndAir r.1 b' h
      have hc' : b'.tracks_consistent := by
        intro e he c hcc
        rw [hf.1] at he
        rw [hf.2.1, hf.2.2.1]
        exact hc e he c hcc
      exact ⟨hc', key b' hc'⟩

theorem no_track_joins_two_nets_witness :
    (board_one_track.expand del_complete rnd_example rnd_air_example 10).isSome = true ∧
    ∀ b', board_one_track.expand del_complete rnd_example rnd_air_example 10 = some b' →
      b'.tracks_consistent :=
  ⟨by decide, fun b' h =>
    ((no_track_joins_two_nets del_complete rnd_example rnd_air_example 10 board_one_track).2
      b' h).1⟩

/-- C4, as stated, fails: on a board with one track that joins two pads of
different nets the loop of `expand` calls `propagate_net_segments` twice, which is
more than the number of tracks present when the loop starts. -/
theorem propagate_loop_two_calls_one_track :
    ∃ b' n, Board.propagate_loop rnd_example 10 10 0 board_bridge.expand_prepare = some (b', n) ∧
      board_bridge.expand_prepare.tracks.length = 1 ∧ ¬ (n ≤ 1) :=
  ⟨_, _, rfl, rfl, by decide⟩

/-- C4, amended. A call of `propagate_net_segments` from the loop of `expand` never
increases the number of tracks and decreases it when it returns `false`; and when
the endpoints of the tracks exist, the identifiers drawn are not null and the fuel
exceeds the size of the board, the loop returns after at most `|tracks| + 1` calls,
each call but the last having erased a track. -/
theorem propagate_loop_bound (rnd : Nat → Nat → UUID) (hr : ∀ p i, rnd p i ≠ 0) (fuel k : Nat)
    (b : Board) (hl : tracks_live b b.tracks) (hf : b.size < fuel) (hk : b.tracks.length < k) :
    (∀ (x x' : Board) (d : Bool) (q : Nat),
      x.clear_nets.propagate_net_segments fuel (rnd q) = some (x', d) →
      x'.tracks.length ≤ x.tracks.length ∧ (d = false → x'.tracks.length < x.tracks.length)) ∧
    ∃ b' n, Board.propagate_loop rnd fuel k 0 b = some (b', n) ∧
      n ≤ b.tracks.length + 1 ∧ n + b'.tracks.length ≤ b.tracks.length + 1 := by
  constructor
  · intro x x' d q h
    have := propagate_effect fuel (rnd q) x x' d h
    exact ⟨this.2.2.1, this.2.2.2.1⟩
  · obtain ⟨b', n, h1, h2, _⟩ := propagate_loop_total rnd hr fuel k 0 b hl hf hk
    exact ⟨b', n, h1, by omega, by omega⟩

theorem propagate_loop_bound_witness :
    ∃ b' n, Board.propagate_loop rnd_example 10 10 0 board_bridge.expand_prepare = some (b', n) ∧
      n ≤ board_bridge.expand_prepare.tracks.length + 1 ∧
      n + b'.tracks.length ≤ board_bridge.expand_prepare.tracks.length + 1 :=
  (propagate_loop_bound rnd_example (fun _ i => Nat.succ_ne_zero i) 10 10
    board_bridge.expand_prepare (by unfold tracks_live; decide) (by decide) (by decide)).2

theorem all_pads_clear (pkgs : List (UUID × BoardPackage)) :
    ((clear_packages pkgs).flatMap fun pk =>
        pk.2.pads.map fun pd => (Connection.pad pk.1 pd.1, pd.2.net)) =
      pkgs.flatMap fun pk => pk.2.pads.map fun pd => (Connection.pad pk.1 pd.1, pd.2.net) := by
  induction pkgs with
  | nil => rfl
  | cons e r ih =>
    unfold clear_packages at ih ⊢
    simp only [List.map_cons, List.flatMap_cons, ih, List.map_map]
    rfl

theorem pad_nets_eq (b : Board) :
    b.pad_nets = b.packages.flatMap fun pk =>
      pk.2.pads.map fun pd => (Connection.pad pk.1 pd.1, pd.2.net) := by
  unfold Board.pad_nets Board.all_pads
  rw [List.map_flatMap]
  simp only [List.map_map]
  rfl

theorem pad_nets_same (b b' : Board) (h : same_store b b') : b'.pad_nets = b.pad_nets := by
  rw [pad_nets_eq, pad_nets_eq, ← all_pads_clear b'.packages, ← all_pads_clear b.packages, h.1]

/-- C10. When the loop of `expand` has ended, no track is left that joins a pad on
net `A` to a pad on a different net `B` (so a track of the board that did is
gone), and every pad carries the net it had before the loop; the loop ends when
the endpoints of the tracks exist, the identifiers drawn are not null and the fuel
exceeds the size of the board. -/
theorem bridging_track_removed (rnd : Nat → Nat → UUID) (fuel k : Nat) (b : Board)
    (t : Track) (A B : Net) (hAB : A ≠ B)
    (hA : b.conn_pad_net t.from_ = some A) (hB : b.conn_pad_net t.to_ = some B) :
    (∀ b' n, Board.propagate_loop rnd fuel k 0 b = some (b', n) →
      (∀ e ∈ b'.tracks, ¬ (e.2.from_ = t.from_ ∧ e.2.to_ = t.to_)) ∧
      b'.pad_nets = b.pad_nets ∧ b'.conn_pad_net t.from_ = some A ∧
      b'.conn_pad_net t.to_ = some B) ∧
    ((∀ p i, rnd p i ≠ 0) → tracks_live b b.tracks → b.size < fuel → b.tracks.length < k →
      ∃ b' n, Board.propagate_loop rnd fuel k 0 b = some (b', n)) := by
  constructor
  · intro b' n h
    obtain ⟨hs, x, q, _, hx⟩ := propagate_loop_induct rnd fuel (fun x => same_store b x)
      (fun x x' d q hI hp => same_store_trans _ _ _ hI (propagate_effect fuel (rnd q) x x' d hp).1)
      k 0 b b' n (same_store_refl b) h
    have he := propagate_effect fuel (rnd q) x b' true hx
    refine ⟨?_, pad_nets_same b b' hs, ?_, ?_⟩
    · rintro e he' ⟨h1, h2⟩
      have hcf := he.2.2.2.2.2 e he'
      have a1 := track_conflict_false b' e.2 hcf e.2.from_ (Or.inl rfl)
        (by rw [conn_pad_net_same b b' hs, h1, hA]; simp)
      have a2 := track_conflict_false b' e.2 hcf e.2.to_ (Or.inr rfl)
        (by rw [conn_pad_net_same b b' hs, h2, hB]; simp)
      rw [conn_pad_net_same b b' hs, h1, hA] at a1
      rw [conn_pad_net_same b b' hs, h2, hB, ← a1] at a2
      exact hAB (Option.some.inj a2).symm
    · rw [conn_pad_net_same b b' hs]; exact hA
    · rw [conn_pad_net_same b b' hs]; exact hB
  · intro hr hl hf hk
    obtain ⟨b', n, h1, _, _⟩ := propagate_loop_total rnd hr fuel k 0 b hl hf hk
    exact ⟨b', n, h1⟩

theorem bridging_track_removed_witness :
    (∃ b' n, Board.propagate_loop rnd_example 10 10 0 board_bridge.expand_prepare =
      some (b', n)) ∧
    ∀ b' n, Board.propagate_loop rnd_example 10 10 0 board_bridge.expand_prepare = some (b', n) →
      (∀ e ∈ b'.tracks, ¬ (e.2.from_ = .pad 1 1 ∧ e.2.to_ = .pad 1 2)) ∧
      b'.pad_nets = board_bridge.expand_prepare.pad_nets ∧
      b'.conn_pad_net (.pad 1 1) = some 1 ∧ b'.conn_pad_net (.pad 1 2) = some 2 :=
  ⟨(bridging_track_removed rnd_example 10 10 board_bridge.expand_prepare
      { from_ := .pad 1 1, to_ := .pad 1 2 } 1 2 (by decide) (by decide)
      (by decide)).2 (fun _ i => Nat.succ_ne_zero i) (by unfold tracks_live; decide) (by decide)
      (by decide),
   (bridging_track_removed rnd_example 10 10 board_bridge.expand_prepare
      { from_ := .pad 1 1, to_ := .pad 1 2 } 1 2 (by decide) (by decide)
      (by decide)).1⟩

/-- C5, as stated, fails: two pads of one net without a track are `k = 2` terminals
in `c = 2` components, and `expand` leaves one airwire, not `k - c = 0`. -/
theorem two_pads_one_airwire :
    ∃ b', board_two_pads.expand del_complete rnd_example rnd_air_example 10 = some b' ∧
      (b'.terminals 1).length = 2 ∧
      collect_track_edges (b'.terminals 1) 1 b'.tracks [] = some [] ∧
      tagging 2 [] (fun i => i) ∧ ncomp 2 (fun i => i) = 2 ∧
      (b'.net_mst del_complete 1).map List.length = some 1 ∧
      b'.airwires.length = 1 ∧ ¬ (b'.airwires.length = 2 - 2) :=
  ⟨_, rfl, rfl, rfl, tagging_id 2, by decide, rfl, rfl, by decide⟩

theorem conn_two_of_edge (E : List (Nat × Nat)) (h : (0, 1) ∈ E) (i j : Nat) (hi : i < 2)
    (hj : j < 2) : Conn E i j := by
  have h01 : Conn E 0 1 := Conn.edge h
  interval_cases i <;> interval_cases j
  · exact Conn.refl _ _
  · exact h01
  · exact h01.symm
  · exact Conn.refl _ _

/-- For a net whose track edges and candidate edges together connect all its
terminals, the edges of `kruskalMST` connect all terminals together with the track
edges, none of them joins two terminals that the track edges connect, and each
joins two terminals that the track edges and the other returned edges do not
connect. -/
theorem net_mst_tree (del : List Vector2 → List Edge) (b : Board) (net : Net)
    (hnet : net ∈ b.collect_nets) (h32 : (b.terminals net).length < 4294967296)
    (hd : del_ok del (make_points (b.terminals net))) (et : List (Nat × Nat))
    (hct : collect_track_edges (b.terminals net) net b.tracks [] = some et)
    (hconn : ∀ i j, i < (b.terminals net).length → j < (b.terminals net).length →
      Conn (et ++ edge_pairs (tri_edges del (make_points (b.terminals net)))) i j) :
    ∃ mst, b.net_mst del net = some mst ∧
      (∀ i j, i < (b.terminals net).length → j < (b.terminals net).length →
        Conn (et ++ edge_pairs mst) i j) ∧
      (∀ e ∈ mst, ¬ Conn et e.p1.id e.p2.id) ∧
      (∀ K1 e K2, mst = K1 ++ e :: K2 →
        ¬ Conn (et ++ edge_pairs (K1 ++ K2)) e.p1.id e.p2.id) := by
  have h0 := terminals_pos b net hnet
  obtain ⟨mst, h1, _, h3, _, h5, h6, h7⟩ := net_mst_facts del b net h0 h32 hd et hct
  have hall : ∀ i j, i < (b.terminals net).length → j < (b.terminals net).length →
      Conn (et ++ edge_pairs mst) i j := fun i j hi hj => h6 i j hi hj (hconn i j hi hj)
  have hcut : ∀ K1 e K2, mst = K1 ++ e :: K2 →
      ¬ Conn (et ++ edge_pairs (K1 ++ K2)) e.p1.id e.p2.id := by
    intro K1 e K2 hK hc
    have het : pairs_ok (b.terminals net).length et := collect_track_edges_lt _ _ _ _ hct
    obtain ⟨comp, hcomp⟩ := tagging_exists _ _ het
    have hcount := h7 comp hcomp hconn
    have hK12 : pairs_ok (b.terminals net).length (edge_pairs (K1 ++ K2)) := by
      apply pairs_ok_of_edges_ok
      intro x hx
      apply h3 x
      rw [hK]
      rcases List.mem_append.1 hx with y | y
      · exact List.mem_append_left _ y
      · exact List.mem_append_right _ (List.mem_cons_of_mem _ y)
    obtain ⟨y, hy, hle⟩ := tagging_extend _ _ hK12 et het comp hcomp
    have hy1 : ncomp (b.terminals net).length y = 1 := by
      apply ncomp_eq_one _ h0
      intro i j hi hj
      apply (hy i j hi hj).2
      refine Conn.mono ?_ (hall i j hi hj)
      intro u v huv
      rcases List.mem_append.1 huv with z | z
      · exact Conn.edge (List.mem_append_left _ z)
      · obtain ⟨x, x1, x2⟩ := List.mem_map.1 z
        rw [hK] at x1
        simp only [Prod.mk.injEq] at x2
        rw [← x2.1, ← x2.2]
        rcases List.mem_append.1 x1 with w | w
        · exact Conn.edge (List.mem_append_right _
            (List.mem_map.2 ⟨x, List.mem_append_left _ w, rfl⟩))
        · rcases List.mem_cons.1 w with w | w
          · rw [w]; exact hc
          · exact Conn.edge (List.mem_append_right _
              (List.mem_map.2 ⟨x, List.mem_append_right _ w, rfl⟩))
    have hlen : mst.length = (edge_pairs (K1 ++ K2)).length + 1 := by
      rw [hK]
      simp [edge_pairs]
      omega
    omega
  refine ⟨mst, h1, hall, ?_, hcut⟩
  intro e he hc
  obtain ⟨K1, K2, hK⟩ := List.append_of_mem he
  exact h5 K1 e K2 hK (Conn.subset (fun x hx => List.mem_append_left _ hx) hc)

theorem conn_three_of_edges (E : List (Nat × Nat)) (h01 : Conn E 0 1) (h02 : Conn E 0 2)
    (i j : Nat) (hi : i < 3) (hj : j < 3) : Conn E i j := by
  interval_cases i <;> interval_cases j
  · exact Conn.refl _ _
  · exact h01
  · exact h02
  · exact h01.symm
  · exact Conn.refl _ _
  · exact h01.symm.trans h02
  · exact h02.symm
  · exact h02.symm.trans h01
  · exact Conn.refl _ _

/-- C7. For nodes that carry their index as identifier and edges between them, the
edges `kruskalMST` returns are edges of non-negative weight of the input that,
with the hard edges, connect what all the edges connect, and their total weight is
the least among all lists of such edges. -/
theorem kruskalMST_minimum_weight (es : List Edge) (nodes : List Vector2) (hn : nodes_ok nodes)
    (h0 : 0 < nodes.length) (h32 : nodes.length < 4294967296) (he : edges_ok nodes.length es) :
    (∀ e ∈ kruskalMST es nodes, e ∈ es ∧ 0 ≤ e.weight) ∧
    (∀ i j, i < nodes.length → j < nodes.length → Conn (edge_pairs es) i j →
      Conn (edge_pairs (hard_edges es) ++ edge_pairs (kruskalMST es nodes)) i j) ∧
    ∀ S : List Edge, (∀ e ∈ S, e ∈ es ∧ 0 ≤ e.weight) →
      (∀ i j, i < nodes.length → j < nodes.length → Conn (edge_pairs es) i j →
        Conn (edge_pairs (hard_edges es) ++ edge_pairs S) i j) →
      total_weight (kruskalMST es nodes) ≤ total_weight S := by
  have hspec := kruskalMST_spec es nodes hn h0 h32 he
  exact ⟨hspec.1, hspec.2.2, fun S h1 h2 => kruskalMST_min es nodes hn h0 h32 he S h1 h2⟩

theorem kruskalMST_minimum_weight_witness :
    total_weight (kruskalMST edges_example nodes_example) ≤
      total_weight [Edge.mk ⟨0, 0, 0⟩ ⟨20, 0, 2⟩ 400] :=
  (kruskalMST_minimum_weight edges_example nodes_example (by unfold nodes_ok; decide)
    (by decide) (by decide) (by unfold edges_ok; decide)).2.2
    [Edge.mk ⟨0, 0, 0⟩ ⟨20, 0, 2⟩ 400] (by decide)
    (fun i j hi hj _ => conn_three_of_edges _ (Conn.symm (Conn.edge (by decide)))
      (Conn.edge (by decide)) i j hi hj)

theorem collect_track_edges_none (terms : List (Connection × Coordi)) (net : Net)
    (ts : List (UUID × Track)) (acc : List (Nat × Nat))
    (h : ∀ e ∈ ts, e.2.net ≠ some net) : collect_track_edges terms net ts acc = some acc := by
  induction ts with
  | nil => rfl
  | cons e r ih =>
    obtain ⟨k, t⟩ := e
    simp only [collect_track_edges]
    rw [if_neg (h (k, t) (List.mem_cons_self _ _))]
    exact ih (fun e he => h e (List.mem_cons_of_mem _ he))

theorem kruskal_single (x0 y0 x1 y1 w : Int) (hw : 0 ≤ w) :
    kruskalMST [Edge.mk ⟨x0, y0, 0⟩ ⟨x1, y1, 1⟩ w] [⟨x0, y0, 0⟩, ⟨x1, y1, 1⟩] =
      [Edge.mk ⟨x0, y0, 0⟩ ⟨x1, y1, 1⟩ w] := by
  have hs : sort_edges [Edge.mk ⟨x0, y0, 0⟩ ⟨x1, y1, 1⟩ w] =
      [Edge.mk ⟨x0, y0, 0⟩ ⟨x1, y1, 1⟩ w] := rfl
  have hc : (kruskal_init [⟨x0, y0, 0⟩, ⟨x1, y1, 1⟩]).mstSize <
      (kruskal_init [⟨x0, y0, 0⟩, ⟨x1, y1, 1⟩]).mstExpectedSize := by
    show (0 : Nat) < (2 + 4294967295) % 4294967296
    decide
  have ht : (kruskal_init [⟨x0, y0, 0⟩, ⟨x1, y1, 1⟩]).tags 0 ≠
      (kruskal_init [⟨x0, y0, 0⟩, ⟨x1, y1, 1⟩]).tags 1 := by
    simp [kruskal_init, init_tags]
  have hrl : ((kruskal_init [⟨x0, y0, 0⟩, ⟨x1, y1, 1⟩]).ratsnestLines ||
      decide (0 ≤ w)) = true := by
    simp [hw]
  unfold kruskalMST
  simp only [hs, kruskal_loop]
  rw [if_pos hc]
  unfold kruskal_step
  simp only
  rw [if_pos ht, if_pos hrl]
  rfl

theorem connmap_at_get (terms : List (Connection × Coordi))
    (hnd : (terms.map Prod.fst).Nodup) (i : Nat) (t : Connection × Coordi)
    (h : terms.get? i = some t) : connmap_at terms t.1 = some i := by
  have hmem : t ∈ terms := List.get?_mem h
  obtain ⟨i', hi'⟩ := connmap_at_of_mem terms t.1 ⟨t, hmem, rfl⟩
  obtain ⟨hlt, t', ht', heq⟩ := connmap_at_some terms t.1 i' hi'
  have hi : i < terms.length := by
    by_contra hx
    rw [List.get?_eq_none.2 (by omega)] at h
    simp at h
  have e1 : (terms.map Prod.fst).get? i = some t.1 := by
    rw [List.get?_eq_getElem?, List.getElem?_map, ← List.get?_eq_getElem?, h]; rfl
  have e2 : (terms.map Prod.fst).get? i' = some t.1 := by
    rw [List.get?_eq_getElem?, List.getElem?_map, ← List.get?_eq_getElem?, ht']; simp [heq]
  have : i = i' := by
    have h1 : i < (terms.map Prod.fst).length := by simpa using hi
    have h2 : i' < (terms.map Prod.fst).length := by simpa using hlt
    rw [List.get?_eq_get h1] at e1
    rw [List.get?_eq_get h2] at e2
    have h3 : (terms.map Prod.fst).get ⟨i, h1⟩ = (terms.map Prod.fst).get ⟨i', h2⟩ := by
      rw [Option.some.inj e1, Option.some.inj e2]
    have := (List.Nodup.get_inj_iff hnd).1 h3
    simpa using this
  rw [this]; exact hi'

theorem collect_track_edges_total (terms : List (Connection × Coordi)) (net : Net)
    (ts : List (UUID × Track)) (acc : List (Nat × Nat))
    (h : ∀ e ∈ ts, e.2.net = some net →
      (∃ t ∈ terms, t.1 = e.2.from_) ∧ (∃ t ∈ terms, t.1 = e.2.to_)) :
    ∃ et, collect_track_edges terms net ts acc = some et := by
  induction ts generalizing acc with
  | nil => exact ⟨acc, rfl⟩
  | cons e r ih =>
    obtain ⟨k, t⟩ := e
    simp only [collect_track_edges]
    by_cases hn : t.net = some net
    · rw [if_pos hn]
      have := h (k, t) (List.mem_cons_self _ _) hn
      obtain ⟨i, hi⟩ := connmap_at_of_mem terms t.from_ this.1
      obtain ⟨j, hj⟩ := connmap_at_of_mem terms t.to_ this.2
      rw [hi, hj]
      exact ih _ (fun e he => h e (List.mem_cons_of_mem _ he))
    · rw [if_neg hn]
      exact ih _ (fun e he => h e (List.mem_cons_of_mem _ he))

theorem point_of_mem (terms : List (Connection × Coordi)) (p : Vector2)
    (hp : p ∈ make_points terms) :
    ∃ t, terms.get? p.id = some t ∧ p.x = round_double t.2.x ∧ p.y = round_double t.2.y := by
  have := (mem_points _ (make_points_ok terms) p hp).2
  rw [make_points_get?] at this
  cases ht : terms.get? p.id with
  | none => rw [ht] at this; simp at this
  | some t =>
    rw [ht] at this
    simp only [Option.map_some', Option.some.injEq] at this
    refine ⟨t, rfl, ?_, ?_⟩
    · rw [← this]
    · rw [← this]

theorem dist2_of_points (terms : List (Connection × Coordi)) (p q : Vector2)
    (t u : Connection × Coordi) (hp : p ∈ make_points terms) (hq : q ∈ make_points terms)
    (ht : terms.get? p.id = some t) (hu : terms.get? q.id = some u) :
    p.dist2 q = t.2.dist2_double u.2 := by
  obtain ⟨t', h1, h2, h3⟩ := point_of_mem terms p hp
  obtain ⟨u', h4, h5, h6⟩ := point_of_mem terms q hq
  rw [ht] at h1
  rw [hu] at h4
  have e1 : t = t' := Option.some.inj h1
  have e2 : u = u' := Option.some.inj h4
  unfold Coordi.dist2_double Vector2.dist2
  simp only
  rw [h2, h3, h5, h6, e1, e2]

theorem coordi_dist2_comm (p q : Coordi) : p.dist2_double q = q.dist2_double p := by
  unfold Coordi.dist2_double Vector2.dist2
  simp only
  have hx : round_double q.x - round_double p.x = -(round_double p.x - round_double q.x) := by
    ring
  have hy : round_double q.y - round_double p.y = -(round_double p.y - round_double q.y) := by
    ring
  rw [hx, hy, round_double_neg, round_double_neg, neg_mul_neg, neg_mul_neg]

theorem tri_pair_ids (e : Edge) (i j : Nat) (h : tri_pair e = (i, j)) :
    (e.p1.id = i ∧ e.p2.id = j) ∨ (e.p1.id = j ∧ e.p2.id = i) := by
  unfold tri_pair at h
  split at h
  · simp only [Prod.mk.injEq] at h
    exact Or.inr ⟨h.2, h.1⟩
  · simp only [Prod.mk.injEq] at h
    exact Or.inl h

theorem track_edges_among (terms : List (Connection × Coordi)) (net : Net)
    (ts : List (UUID × Track)) (et : List (Nat × Nat))
    (hct : collect_track_edges terms net ts [] = some et)
    (hnd : (terms.map Prod.fst).Nodup) (ia ib : Nat) (ta tb : Connection × Coordi)
    (ha : terms.get? ia = some ta) (hb : terms.get? ib = some tb)
    (htracks : ∀ e ∈ ts, e.2.net = some net →
      (e.2.from_ = ta.1 ∨ e.2.from_ = tb.1) ∧ (e.2.to_ = ta.1 ∨ e.2.to_ = tb.1)) :
    ∀ x ∈ et, (x.1 = ia ∨ x.1 = ib) ∧ (x.2 = ia ∨ x.2 = ib) := by
  intro x hx
  have ca := connmap_at_get terms hnd ia ta ha
  have cb := connmap_at_get terms hnd ib tb hb
  rcases ((collect_track_edges_spec terms net ts [] et hct).1 x).1 hx with h | h
  · simp at h
  · obtain ⟨e, he, hn, i, j, h1, h2, h3⟩ := h
    have hh := htracks e he hn
    have hi : i = ia ∨ i = ib := by
      rcases hh.1 with q | q
      · rw [q, ca] at h1; exact Or.inl (Option.some.inj h1).symm
      · rw [q, cb] at h1; exact Or.inr (Option.some.inj h1).symm
    have hj : j = ia ∨ j = ib := by
      rcases hh.2 with q | q
      · rw [q, ca] at h2; exact Or.inl (Option.some.inj h2).symm
      · rw [q, cb] at h2; exact Or.inr (Option.some.inj h2).symm
    rw [h3]
    unfold track_pair
    split
    · exact ⟨hi, hj⟩
    · exact ⟨hj, hi⟩

theorem track_edges_join (terms : List (Connection × Coordi)) (net : Net)
    (ts : List (UUID × Track)) (et : List (Nat × Nat))
    (hct : collect_track_edges terms net ts [] = some et)
    (hnd : (terms.map Prod.fst).Nodup) (ia ib : Nat) (ta tb : Connection × Coordi)
    (ha : terms.get? ia = some ta) (hb : terms.get? ib = some tb)
    (hjoin : ∃ e ∈ ts, e.2.net = some net ∧
      ((e.2.from_ = ta.1 ∧ e.2.to_ = tb.1) ∨ (e.2.from_ = tb.1 ∧ e.2.to_ = ta.1))) :
    Conn et ia ib := by
  have ca := connmap_at_get terms hnd ia ta ha
  have cb := connmap_at_get terms hnd ib tb hb
  obtain ⟨e, he, hn, hft⟩ := hjoin
  have key : ∀ i j, connmap_at terms e.2.from_ = some i → connmap_at terms e.2.to_ = some j →
      Conn et i j := by
    intro i j hi hj
    have hm : track_pair i j ∈ et :=
      ((collect_track_edges_spec terms net ts [] et hct).1 _).2
        (Or.inr ⟨e, he, hn, i, j, hi, hj, rfl⟩)
    unfold track_pair at hm
    split at hm
    · exact Conn.edge hm
    · exact (Conn.edge hm).symm
  rcases hft with ⟨h1, h2⟩ | ⟨h1, h2⟩
  · exact key ia ib (by rw [h1]; exact ca) (by rw [h2]; exact cb)
  · exact (key ib ia (by rw [h1]; exact cb) (by rw [h2]; exact ca)).symm

theorem conn_among (E : List (Nat × Nat)) (ia ib : Nat)
    (h : ∀ x ∈ E, (x.1 = ia ∨ x.1 = ib) ∧ (x.2 = ia ∨ x.2 = ib)) (i j : Nat)
    (hc : Conn E i j) : i = j ∨ ((i = ia ∨ i = ib) ∧ (j = ia ∨ j = ib)) := by
  refine Conn.induct (fun i j => i = j ∨ ((i = ia ∨ i = ib) ∧ (j = ia ∨ j = ib)))
    (fun a => Or.inl rfl) ?_ ?_ ?_ hc
  · intro a c hac
    rcases hac with q | q
    · exact Or.inl q.symm
    · exact Or.inr ⟨q.2, q.1⟩
  · intro a c d h1 h2
    rcases h1 with q | q
    · rw [q]; exact h2
    · rcases h2 with r | r
      · rw [← r]; exact Or.inr q
      · exact Or.inr ⟨q.1, r.2⟩
  · intro a c hm
    exact Or.inr (h (a, c) hm)

theorem ncomp_third (ic : Nat) (hc : ic < 3) :
    ncomp 3 (fun i => if i = ic then 1 else 0) = 2 := by
  interval_cases ic <;> decide

theorem conn_of_three (E : List (Nat × Nat)) (ia ib ic : Nat) (ha : ia < 3) (hb : ib < 3)
    (hc : ic < 3) (hab : ia ≠ ib) (hac : ia ≠ ic) (hbc : ib ≠ ic)
    (h1 : Conn E ia ib) (h2 : Conn E ic ia ∨ Conn E ic ib) (i j : Nat) (hi : i < 3)
    (hj : j < 3) : Conn E i j := by
  have h3 : Conn E ic ia := by
    rcases h2 with q | q
    · exact q
    · exact q.trans h1.symm
  have key : ∀ k, k < 3 → Conn E ia k := by
    intro k hk
    have : k = ia ∨ k = ib ∨ k = ic := by omega
    rcases this with q | q | q
    · rw [q]; exact Conn.refl _ _
    · rw [q]; exact h1
    · rw [q]; exact h3.symm
  exact (key i hi).symm.trans (key j hj)

/-- For a net with exactly three terminals `a`, `b`, `c` (three different
connections), where every track of the net runs between `a` and `b`, at least one
of them joins `a` to `b`, and the candidate edges of the triangulation contain all
three pairs of terminals, the spanning tree of the net is one edge: it joins `c`
to `a` or to `b`, its weight is the computed squared distance of the two, and that
is not greater than the computed squared distance from `c` to `a` and to `b`. -/
theorem third_terminal_mst (del : List Vector2 → List Edge) (b : Board) (net : Net)
    (ta tb tc : Connection × Coordi) (ia ib ic : Nat)
    (hlen : (b.terminals net).length = 3)
    (hnd : ((b.terminals net).map Prod.fst).Nodup)
    (ha : (b.terminals net).get? ia = some ta)
    (hb : (b.terminals net).get? ib = some tb)
    (hc : (b.terminals net).get? ic = some tc)
    (hab : ia ≠ ib) (hac : ia ≠ ic) (hbc : ib ≠ ic)
    (htracks : ∀ e ∈ b.tracks, e.2.net = some net →
      (e.2.from_ = ta.1 ∨ e.2.from_ = tb.1) ∧ (e.2.to_ = ta.1 ∨ e.2.to_ = tb.1))
    (hjoin : ∃ e ∈ b.tracks, e.2.net = some net ∧
      ((e.2.from_ = ta.1 ∧ e.2.to_ = tb.1) ∨ (e.2.from_ = tb.1 ∧ e.2.to_ = ta.1)))
    (hd : del_ok del (make_points (b.terminals net)))
    (hall : ∀ i j, i < j → j < 3 →
      ∃ e ∈ del (make_points (b.terminals net)), tri_pair e = (i, j)) :
    ∃ e tx, b.net_mst del net = some [e] ∧ (tx = ta ∨ tx = tb) ∧
      (((b.terminals net).get? e.p1.id = some tc ∧ (b.terminals net).get? e.p2.id = some tx) ∨
        ((b.terminals net).get? e.p1.id = some tx ∧
          (b.terminals net).get? e.p2.id = some tc)) ∧
      e.weight = tc.2.dist2_double tx.2 ∧
      tc.2.dist2_double tx.2 ≤ tc.2.dist2_double ta.2 ∧ tc.2.dist2_double tx.2 ≤ tc.2.dist2_double tb.2 ∧
      ∀ (rnd : Nat → UUID) (st : List (UUID × Track) × Nat),
        ∃ st', emit_airwires rnd (b.terminals net) net [e] st = some st' ∧
          st'.2 = st.2 + 1 := by
  have lt_of : ∀ (i : Nat) (t : Connection × Coordi), (b.terminals net).get? i = some t →
      i < 3 := by
    intro i t h
    by_contra hx
    rw [List.get?_eq_none.2 (by omega)] at h
    simp at h
  have ha3 := lt_of ia ta ha
  have hb3 := lt_of ib tb hb
  have hc3 := lt_of ic tc hc
  have hplen := make_points_length (b.terminals net)
  have hpok := make_points_ok (b.terminals net)
  obtain ⟨et, hct⟩ := collect_track_edges_total (b.terminals net) net b.tracks [] (by
    intro e he hn
    have hh := htracks e he hn
    constructor
    · rcases hh.1 with q | q
      · exact ⟨ta, List.get?_mem ha, q.symm⟩
      · exact ⟨tb, List.get?_mem hb, q.symm⟩
    · rcases hh.2 with q | q
      · exact ⟨ta, List.get?_mem ha, q.symm⟩
      · exact ⟨tb, List.get?_mem hb, q.symm⟩)
  have hamong := track_edges_among _ net b.tracks et hct hnd ia ib ta tb ha hb htracks
  have hjoined := track_edges_join _ net b.tracks et hct hnd ia ib ta tb ha hb hjoin
  have htri : tri_edges del (make_points (b.terminals net)) =
      del (make_points (b.terminals net)) := by
    unfold tri_edges
    rw [if_pos (by rw [hplen, hlen])]
  -- every pair of terminals is a candidate edge
  have hpair : ∀ i j, i < 3 → j < 3 → i ≠ j →
      ∃ e ∈ tri_edges del (make_points (b.terminals net)),
        (e.p1.id = i ∧ e.p2.id = j) ∨ (e.p1.id = j ∧ e.p2.id = i) := by
    intro i j hi hj hij
    rw [htri]
    rcases Nat.lt_or_gt_of_ne hij with q | q
    · obtain ⟨e, he, hp⟩ := hall i j q hj
      exact ⟨e, he, tri_pair_ids e i j hp⟩
    · obtain ⟨e, he, hp⟩ := hall j i q hi
      exact ⟨e, he, (tri_pair_ids e j i hp).symm⟩
  have hedge : ∀ i j, i < 3 → j < 3 → i ≠ j →
      Conn (et ++ edge_pairs (tri_edges del (make_points (b.terminals net)))) i j := by
    intro i j hi hj hij
    obtain ⟨e, he, hp⟩ := hpair i j hi hj hij
    have hm : (e.p1.id, e.p2.id) ∈
        et ++ edge_pairs (tri_edges del (make_points (b.terminals net))) :=
      List.mem_append_right _ (List.mem_map.2 ⟨e, he, rfl⟩)
    rcases hp with ⟨p1, p2⟩ | ⟨p1, p2⟩
    · rw [p1, p2] at hm; exact Conn.edge hm
    · rw [p1, p2] at hm; exact (Conn.edge hm).symm
  have hconn : ∀ i j, i < (b.terminals net).length → j < (b.terminals net).length →
      Conn (et ++ edge_pairs (tri_edges del (make_points (b.terminals net)))) i j := by
    intro i j hi hj
    rw [hlen] at hi hj
    by_cases hij : i = j
    · rw [hij]; exact Conn.refl _ _
    · exact hedge i j hi hj hij
  have htag : tagging (b.terminals net).length et (fun i => if i = ic then 1 else 0) := by
    intro i j hi hj
    rw [hlen] at hi hj
    constructor
    · intro h
      dsimp only at h
      by_cases qi : i = ic
      · by_cases qj : j = ic
        · rw [qi, qj]; exact Conn.refl _ _
        · rw [if_pos qi, if_neg qj] at h; omega
      · by_cases qj : j = ic
        · rw [if_neg qi, if_pos qj] at h; omega
        · have h1 : i = ia ∨ i = ib := by omega
          have h2 : j = ia ∨ j = ib := by omega
          rcases h1 with r | r <;> rcases h2 with t | t <;> rw [r, t]
          · exact Conn.refl _ _
          · exact hjoined
          · exact hjoined.symm
          · exact Conn.refl _ _
    · intro h
      rcases conn_among et ia ib hamong i j h with q | q
      · rw [q]
      · have qi : i ≠ ic := by omega
        have qj : j ≠ ic := by omega
        dsimp only
        rw [if_neg qi, if_neg qj]
  obtain ⟨mst, f1, f2, f3, f4, f5, f6, f7⟩ := net_mst_facts del b net (by omega) (by omega)
    hd et hct
  have hcount := f7 _ htag hconn
  rw [hlen, ncomp_third ic hc3] at hcount
  obtain ⟨e, hmst⟩ : ∃ e, mst = [e] := by
    match mst, hcount with
    | [e], _ => exact ⟨e, rfl⟩
    | [], h => simp at h
    | _ :: _ :: _, h => simp at h
  have hem : e ∈ mst := by rw [hmst]; exact List.mem_singleton_self e
  have hid := f3 e hem
  rw [hlen] at hid
  obtain ⟨hw, hp1, hp2, _⟩ := f4 e hem
  have hnot : ¬ Conn et e.p1.id e.p2.id := by
    have := f5 [] e [] (by rw [hmst]; rfl)
    simpa [edge_pairs] using this
  have hne : e.p1.id ≠ e.p2.id := fun q => hnot (by rw [q]; exact Conn.refl _ _)
  -- minimality against the candidate edge between c and another terminal
  have hmin : ∀ (ix : Nat) (tx : Connection × Coordi), (b.terminals net).get? ix = some tx →
      (ix = ia ∨ ix = ib) → e.weight ≤ tc.2.dist2_double tx.2 := by
    intro ix tx hx hix
    have hx3 := lt_of ix tx hx
    have hxc : ic ≠ ix := by omega
    obtain ⟨e0, he0, hp0⟩ := hpair ic ix hc3 hx3 hxc
    obtain ⟨k1, k2, k3, k4, k5⟩ := edges_for_mst_ok del (make_points (b.terminals net)) hpok
      hd et (by rw [hplen]; exact collect_track_edges_lt _ _ _ _ hct)
    have hnot0 : tri_pair e0 ∉ et := by
      intro hm
      have := hamong _ hm
      unfold tri_pair at this
      split at this <;> dsimp only at this <;> omega
    rcases k4 e0 he0 with q | ⟨f, hf, hfw, hfp⟩
    · exact absurd q hnot0
    · obtain ⟨g1, g2, g3, _⟩ := k3 f hf hfw
      have hfid : (f.p1.id = ic ∧ f.p2.id = ix) ∨ (f.p1.id = ix ∧ f.p2.id = ic) := by
        unfold tri_pair at hfp
        split at hfp <;> split at hfp <;> simp only [Prod.mk.injEq] at hfp <;> omega
      have hfd : f.weight = tc.2.dist2_double tx.2 := by
        rw [g1]
        rcases hfid with ⟨q1, q2⟩ | ⟨q1, q2⟩
        · exact dist2_of_points _ _ _ _ _ g2 g3 (by rw [q1]; exact hc) (by rw [q2]; exact hx)
        · rw [coordi_dist2_comm]
          exact dist2_of_points _ _ _ _ _ g2 g3 (by rw [q1]; exact hx) (by rw [q2]; exact hc)
      have hS := kruskalMST_min (edges_for_mst del (make_points (b.terminals net)) et)
        (make_points (b.terminals net)) hpok (by rw [hplen]; omega) (by rw [hplen]; omega)
        k1 [f] (by
          intro g hg
          rw [List.mem_singleton.1 hg]
          exact ⟨hf, hfw⟩) (by
          intro i j hi hj _
          rw [hplen, hlen] at hi hj
          rw [k2]
          have hcx : Conn (et ++ edge_pairs [f]) ic ix := by
            have hm : (f.p1.id, f.p2.id) ∈ et ++ edge_pairs [f] :=
              List.mem_append_right _ (List.mem_map.2 ⟨f, List.mem_singleton_self f, rfl⟩)
            rcases hfid with ⟨q1, q2⟩ | ⟨q1, q2⟩
            · rw [q1, q2] at hm; exact Conn.edge hm
            · rw [q1, q2] at hm; exact (Conn.edge hm).symm
          have hab2 : Conn (et ++ edge_pairs [f]) ia ib :=
            Conn.subset (fun x hx => List.mem_append_left _ hx) hjoined
          refine conn_of_three _ ia ib ic ha3 hb3 hc3 hab hac hbc hab2 ?_ i j hi hj
          rcases hix with q | q
          · rw [q] at hcx; exact Or.inl hcx
          · rw [q] at hcx; exact Or.inr hcx)
      rw [← f2, hmst] at hS
      simp only [total_weight, List.map_cons, List.map_nil, List.sum_cons, List.sum_nil,
        add_zero] at hS
      rw [← hfd]
      exact hS
  have hma := hmin ia ta ha (Or.inl rfl)
  have hmb := hmin ib tb hb (Or.inr rfl)
  -- the two ends of the edge
  have hends : (e.p1.id = ic ∧ (e.p2.id = ia ∨ e.p2.id = ib)) ∨
      ((e.p1.id = ia ∨ e.p1.id = ib) ∧ e.p2.id = ic) := by
    by_cases q1 : e.p1.id = ic
    · left
      refine ⟨q1, ?_⟩
      omega
    · by_cases q2 : e.p2.id = ic
      · right
        refine ⟨?_, q2⟩
        omega
      · exfalso
        have h1 : e.p1.id = ia ∨ e.p1.id = ib := by omega
        have h2 : e.p2.id = ia ∨ e.p2.id = ib := by omega
        rcases h1 with r | r <;> rcases h2 with t | t
        · exact hne (by rw [r, t])
        · exact hnot (by rw [r, t]; exact hjoined)
        · exact hnot (by rw [r, t]; exact hjoined.symm)
        · exact hne (by rw [r, t])
  have hemit : ∀ (rnd : Nat → UUID) (st : List (UUID × Track) × Nat),
      ∃ st', emit_airwires rnd (b.terminals net) net [e] st = some st' ∧
        st'.2 = st.2 + 1 := by
    intro rnd st
    have := emit_airwires_count rnd (b.terminals net) net [e] (by
      intro g hg
      rw [List.mem_singleton.1 hg, hlen]
      exact hid) st
    simpa using this
  have fin : ∀ (ix : Nat) (tx : Connection × Coordi), (b.terminals net).get? ix = some tx →
      (tx = ta ∨ tx = tb) →
      ((e.p1.id = ic ∧ e.p2.id = ix) ∨ (e.p1.id = ix ∧ e.p2.id = ic)) →
      ∃ e tx, b.net_mst del net = some [e] ∧ (tx = ta ∨ tx = tb) ∧
      (((b.terminals net).get? e.p1.id = some tc ∧ (b.terminals net).get? e.p2.id = some tx) ∨
        ((b.terminals net).get? e.p1.id = some tx ∧
          (b.terminals net).get? e.p2.id = some tc)) ∧
      e.weight = tc.2.dist2_double tx.2 ∧
      tc.2.dist2_double tx.2 ≤ tc.2.dist2_double ta.2 ∧ tc.2.dist2_double tx.2 ≤ tc.2.dist2_double tb.2 ∧
      ∀ (rnd : Nat → UUID) (st : List (UUID × Track) × Nat),
        ∃ st', emit_airwires rnd (b.terminals net) net [e] st = some st' ∧
          st'.2 = st.2 + 1 := by
    intro ix tx hx htx hid2
    have hwd : e.weight = tc.2.dist2_double tx.2 := by
      rw [hw]
      rcases hid2 with ⟨q1, q2⟩ | ⟨q1, q2⟩
      · exact dist2_of_points _ _ _ _ _ hp1 hp2 (by rw [q1]; exact hc) (by rw [q2]; exact hx)
      · rw [coordi_dist2_comm]
        exact dist2_of_points _ _ _ _ _ hp1 hp2 (by rw [q1]; exact hx) (by rw [q2]; exact hc)
    refine ⟨e, tx, by rw [f1, hmst], htx, ?_, hwd, by rw [← hwd]; exact hma,
      by rw [← hwd]; exact hmb, hemit⟩
    rcases hid2 with ⟨q1, q2⟩ | ⟨q1, q2⟩
    · left; rw [q1, q2]; exact ⟨hc, hx⟩
    · right; rw [q1, q2]; exact ⟨hx, hc⟩
  rcases hends with ⟨q1, q2 | q2⟩ | ⟨q1 | q1, q2⟩
  · exact fin ia ta ha (Or.inl rfl) (Or.inl ⟨q1, q2⟩)
  · exact fin ib tb hb (Or.inr rfl) (Or.inl ⟨q1, q2⟩)
  · exact fin ia ta ha (Or.inl rfl) (Or.inr ⟨q1, q2⟩)
  · exact fin ib tb hb (Or.inr rfl) (Or.inr ⟨q1, q2⟩)

theorem mapAt_mem {α : Type} (m : List (UUID × α)) (k : UUID) (v : α)
    (h : mapAt m k = some v) : (k, v) ∈ m := by
  induction m with
  | nil => simp [mapAt] at h
  | cons e r ih =>
    obtain ⟨k', v'⟩ := e
    simp only [mapAt] at h
    split at h
    · rename_i hk
      simp only [Option.some.injEq] at h
      rw [hk, h]
      exact List.mem_cons_self _ _
    · exact List.mem_cons_of_mem _ (ih h)

theorem mapAt_of_nodup {α : Type} (m : List (UUID × α)) (hn : (m.map Prod.fst).Nodup)
    (k : UUID) (v : α) (h : (k, v) ∈ m) : mapAt m k = some v := by
  induction m with
  | nil => simp at h
  | cons e r ih =>
    obtain ⟨k', v'⟩ := e
    simp only [List.map_cons, List.nodup_cons] at hn
    simp only [mapAt]
    rcases List.mem_cons.1 h with q | q
    · simp only [Prod.mk.injEq] at q
      rw [if_pos q.1.symm, q.2]
    · have : k' ≠ k := by
        intro hk
        apply hn.1
        rw [hk]
        exact List.mem_map.2 ⟨(k, v), q, rfl⟩
      rw [if_neg this]
      exact ih hn.2 q

theorem mem_mapEmplace {α : Type} (m : List (UUID × α)) (k : UUID) (v : α) (x : UUID × α)
    (h : x ∈ mapEmplace m k v) : x ∈ m ∨ x = (k, v) := by
  unfold mapEmplace at h
  split at h
  · exact Or.inl h
  · rcases List.mem_append.1 h with q | q
    · exact Or.inl q
    · exact Or.inr (List.mem_singleton.1 q)

theorem seed_pads_net (s : UUID) (pads pads' : List (UUID × Pad)) (n : Option Net)
    (h : seed_pads s pads = some (pads', n)) : ∃ pd ∈ pads, pd.2.net = n := by
  induction pads generalizing pads' with
  | nil => simp [seed_pads] at h
  | cons e r ih =>
    obtain ⟨k, p⟩ := e
    simp only [seed_pads] at h
    split at h
    · simp only [Option.some.injEq, Prod.mk.injEq] at h
      exact ⟨(k, p), List.mem_cons_self _ _, h.2⟩
    · cases hr : seed_pads s r with
      | none => rw [hr] at h; simp at h
      | some x =>
        obtain ⟨r', n'⟩ := x
        rw [hr] at h
        simp only [Option.some.injEq, Prod.mk.injEq] at h
        obtain ⟨pd, hpd, hn⟩ := ih r' (by rw [hr, h.2])
        exact ⟨pd, List.mem_cons_of_mem _ hpd, hn⟩

theorem seed_packages_net (s : UUID) (pkgs pkgs' : List (UUID × BoardPackage)) (n : Option Net)
    (h : seed_packages s pkgs = some (pkgs', n)) :
    ∃ pk ∈ pkgs, ∃ pd ∈ pk.2.pads, pd.2.net = n := by
  induction pkgs generalizing pkgs' with
  | nil => simp [seed_packages] at h
  | cons e r ih =>
    obtain ⟨k, p⟩ := e
    simp only [seed_packages] at h
    cases hp : seed_pads s p.pads with
    | some x =>
      obtain ⟨pads', n'⟩ := x
      rw [hp] at h
      simp only [Option.some.injEq, Prod.mk.injEq] at h
      obtain ⟨pd, hpd, hn⟩ := seed_pads_net s p.pads pads' n' hp
      exact ⟨(k, p), List.mem_cons_self _ _, pd, hpd, by rw [hn, h.2]⟩
    | none =>
      rw [hp] at h
      simp only at h
      cases hr : seed_packages s r with
      | none => rw [hr] at h; simp at h
      | some x =>
        obtain ⟨r', n'⟩ := x
        rw [hr] at h
        simp only [Option.some.injEq, Prod.mk.injEq] at h
        obtain ⟨pk, hpk, pd, hpd, hn⟩ := ih r' (by rw [hr, h.2])
        exact ⟨pk, List.mem_cons_of_mem _ hpk, pd, hpd, hn⟩

theorem mem_all_pads (b : Board) (c : Connection) (p : Pad) :
    (c, p) ∈ b.all_pads ↔ ∃ pk ∈ b.packages, ∃ pd ∈ pk.2.pads, c = .pad pk.1 pd.1 ∧ p = pd.2 := by
  unfold Board.all_pads
  simp only [List.mem_flatMap, List.mem_map, Prod.mk.injEq]
  constructor
  · rintro ⟨pk, hpk, pd, hpd, h1, h2⟩
    exact ⟨pk, hpk, pd, hpd, h1.symm, h2.symm⟩
  · rintro ⟨pk, hpk, pd, hpd, h1, h2⟩
    exact ⟨pk, hpk, pd, hpd, h1.symm, h2.symm⟩

theorem mem_pad_nets (b : Board) (n : Option Net) :
    (∃ x ∈ b.pad_nets, x.2 = n) ↔ ∃ cp ∈ b.all_pads, cp.2.net = n := by
  unfold Board.pad_nets
  constructor
  · rintro ⟨x, hx, h⟩
    obtain ⟨cp, hcp, e⟩ := List.mem_map.1 hx
    exact ⟨cp, hcp, by rw [← h, ← e]⟩
  · rintro ⟨cp, hcp, h⟩
    exact ⟨(cp.1, cp.2.net), List.mem_map.2 ⟨cp, hcp, rfl⟩, h⟩

theorem seed_net_pad (b b1 : Board) (s : UUID) (h : b.seed s = some b1) :
    ∃ n, b1.net_segments = mapEmplace b.net_segments s n ∧ ∃ x ∈ b.pad_nets, x.2 = n := by
  unfold Board.seed at h
  cases hp : seed_packages s b.packages with
  | none => rw [hp] at h; simp at h
  | some x =>
    obtain ⟨pkgs', n⟩ := x
    rw [hp] at h
    simp only [Option.some.injEq] at h
    refine ⟨n, by rw [← h], ?_⟩
    obtain ⟨pk, hpk, pd, hpd, hn⟩ := seed_packages_net s b.packages pkgs' n hp
    exact (mem_pad_nets b n).2 ⟨(.pad pk.1 pd.1, pd.2),
      (mem_all_pads b _ _).2 ⟨pk, hpk, pd, hpd, rfl, rfl⟩, hn⟩

theorem seed_loop_segs (rnd : Nat → UUID) (pn : List (Connection × Option Net)) (fuel j : Nat)
    (b b' : Board) (hb : segs_of_pads pn b) (h : Board.seed_loop rnd fuel j b = some b') :
    segs_of_pads pn b' := by
  have h1 : ∀ (j : Nat) (x x1 : Board), segs_of_pads pn x → x.seed (rnd j) = some x1 →
      segs_of_pads pn x1 := by
    intro j x x1 hx hs
    obtain ⟨n, hn, hpad⟩ := seed_net_pad x x1 _ hs
    refine ⟨by rw [pad_nets_same x x1 (same_store_seed x x1 _ hs)]; exact hx.1, ?_⟩
    intro kv hkv N hN
    rw [hn] at hkv
    rcases mem_mapEmplace _ _ _ _ hkv with q | q
    · exact hx.2 kv q N hN
    · rw [q] at hN
      dsimp only at hN
      rw [hx.1, hN] at hpad
      exact hpad
  have h2 : ∀ (j : Nat) (x : Board), segs_of_pads pn x → segs_of_pads pn x.flood_pass.1 := by
    intro j x hx
    refine ⟨by rw [pad_nets_same x _ (same_store_flood_pass x)]; exact hx.1, ?_⟩
    rw [flood_pass_net_segments]
    exact hx.2
  obtain ⟨_, hI, _⟩ := seed_loop_induct rnd (fun _ x => segs_of_pads pn x)
    (fun _ x => segs_of_pads pn x) h1 h2 (fun _ _ hx _ => hx) fuel j b b' hb h
  exact hI

theorem propagate_track_nets_of_pads (fuel : Nat) (rnd : Nat → UUID) (b b' : Board) (d : Bool)
    (h : b.propagate_net_segments fuel rnd = some (b', d)) (e : UUID × Track)
    (he : e ∈ b'.tracks) (N : Net) (hN : e.2.net = some N) : N ∈ b'.collect_nets := by
  obtain ⟨b1, h1, _, hpk, _, _, _, _, _, ht, _⟩ := propagate_spec fuel rnd b b' d h
  have hs := seed_loop_segs rnd b.pad_nets fuel 0 _ b1 (by
    refine ⟨rfl, ?_⟩
    intro kv hkv N hN
    have : kv = (0, none) := by
      simpa [mapEmplace, mapAt] using hkv
    rw [this] at hN
    simp at hN) h1
  rw [ht] at he
  obtain ⟨e0, _, he0⟩ := List.mem_map.1 (List.mem_filter.1 he).1
  rw [← he0] at hN
  simp only [with_net] at hN
  cases hm : mapAt b1.net_segments e0.2.net_segment with
  | none => rw [hm] at hN; simp at hN
  | some v =>
    rw [hm] at hN
    simp only [Option.getD_some] at hN
    have hmem := mapAt_mem _ _ _ hm
    obtain ⟨x, hx, hxn⟩ := hs.2 _ hmem N hN
    rw [← hs.1] at hx
    have : ∃ cp ∈ b1.all_pads, cp.2.net = some N := (mem_pad_nets b1 _).1 ⟨x, hx, hxn⟩
    rw [collect_nets_mem]
    unfold Board.all_pads at this ⊢
    rw [hpk]
    exact this

theorem airwires_loop_some (del : List Vector2 → List Edge) (rnd : Nat → UUID) (b : Board)
    (nets : List Net) (st st' : List (UUID × Track) × Nat)
    (h : b.airwires_loop del rnd nets st = some st') :
    ∀ net ∈ nets, ∃ et, collect_track_edges (b.terminals net) net b.tracks [] = some et := by
  induction nets generalizing st with
  | nil => intro net hn; simp at hn
  | cons n r ih =>
    simp only [Board.airwires_loop] at h
    cases hm : b.net_mst del n with
    | none => rw [hm] at h; simp at h
    | some mst =>
      rw [hm] at h
      simp only at h
      cases he : emit_airwires rnd (b.terminals n) n mst st with
      | none => rw [he] at h; simp at h
      | some st2 =>
        rw [he] at h
        simp only at h
        intro net hn
        rcases List.mem_cons.1 hn with q | q
        · rw [q]
          unfold Board.net_mst at hm
          cases hc : collect_track_edges (b.terminals n) n b.tracks [] with
          | none => exfalso; dsimp only at hm; rw [hc] at hm; simp at hm
          | some et => exact ⟨et, rfl⟩
        · exact ih st2 h net q

theorem mem_terminals (b : Board) (net : Net) (t : Connection × Coordi)
    (h : t ∈ b.terminals net) :
    (∃ e ∈ b.junctions, t.1 = .junc e.1 ∧ e.2.net = some net) ∨
      (∃ cp ∈ b.all_pads, t.1 = cp.1 ∧ cp.2.net = some net) := by
  unfold Board.terminals at h
  rcases List.mem_append.1 h with q | q
  · obtain ⟨e, he, ht⟩ := List.mem_map.1 q
    have := List.mem_filter.1 he
    exact Or.inl ⟨e, this.1, by rw [← ht], by simpa using this.2⟩
  · obtain ⟨cp, hcp, ht⟩ := List.mem_map.1 q
    have := List.mem_filter.1 hcp
    exact Or.inr ⟨cp, this.1, by rw [← ht], by simpa using this.2⟩

theorem mapAt_isSome_of_mem {α : Type} (m : List (UUID × α)) (k : UUID) (v : α)
    (h : (k, v) ∈ m) : ∃ v', mapAt m k = some v' := by
  induction m with
  | nil => simp at h
  | cons e r ih =>
    obtain ⟨k', v'⟩ := e
    simp only [mapAt]
    by_cases hk : k' = k
    · rw [if_pos hk]; exact ⟨v', rfl⟩
    · rw [if_neg hk]
      rcases List.mem_cons.1 h with q | q
      · simp only [Prod.mk.injEq] at q
        exact absurd q.1.symm hk
      · exact ih q

theorem padAt_of_mem (pkgs : List (UUID × BoardPackage)) (hu : pads_unique pkgs)
    (pk : UUID × BoardPackage) (hpk : pk ∈ pkgs) (pd : UUID × Pad) (hpd : pd ∈ pk.2.pads) :
    padAt pkgs pk.1 pd.1 = some pd.2 := by
  unfold padAt
  have h1 : mapAt pkgs pk.1 = some pk.2 := by
    apply mapAt_of_nodup
    · have := hu.1
      unfold pad_keys at this
      rw [List.map_map] at this
      exact this
    · exact hpk
  rw [h1]
  apply mapAt_of_nodup
  · exact hu.2 (pk.1, pk.2.pads.map Prod.fst) (List.mem_map.2 ⟨pk, hpk, rfl⟩)
  · exact hpd

/-- When the ratsnest can be built for a board whose tracks agree with their
endpoints as far as the propagation loop checks, both endpoints of every track
resolve to the net of the track. -/
theorem update_airwires_endpoints (del : List Vector2 → List Edge) (rnd : Nat → UUID)
    (b b' : Board) (hc : b.tracks_consistent) (hu : pads_unique b.packages)
    (hn : ∀ e ∈ b.tracks, ∀ N, e.2.net = some N → N ∈ b.collect_nets)
    (h : b.update_airwires del rnd = some b') :
    ∀ e ∈ b.tracks, ∀ c, (c = e.2.from_ ∨ c = e.2.to_) → b.conn_net c = e.2.net := by
  intro e he c hce
  have hcons := hc e he c hce
  cases hnet : e.2.net with
  | none =>
    rw [hnet] at hcons
    cases c with
    | junc j =>
      simp only [Board.conn_net]
      cases hj : mapAt b.junctions j with
      | none => rfl
      | some ju => exact hcons.1 j ju rfl hj
    | pad pk pd =>
      simp only [Board.conn_net]
      cases hp : padAt b.packages pk pd with
      | none => rfl
      | some p =>
        by_contra hx
        exact hx (hcons.2 pk pd p rfl hp hx)
  | some N =>
    rw [hnet] at hcons
    have hN := hn e he N hnet
    unfold Board.update_airwires at h
    cases hl : b.airwires_loop del rnd b.collect_nets ([], 0) with
    | none => rw [hl] at h; simp at h
    | some st =>
      obtain ⟨et, het⟩ := airwires_loop_some del rnd b _ _ _ hl N hN
      obtain ⟨i, j, hi, hj⟩ := (collect_track_edges_spec _ _ _ _ _ het).2 e he hnet
      have hterm : ∃ t ∈ b.terminals N, t.1 = c := by
        rcases hce with q | q
        · obtain ⟨_, t, ht, htc⟩ := connmap_at_some _ _ _ hi
          exact ⟨t, List.get?_mem ht, by rw [q]; exact htc⟩
        · obtain ⟨_, t, ht, htc⟩ := connmap_at_some _ _ _ hj
          exact ⟨t, List.get?_mem ht, by rw [q]; exact htc⟩
      obtain ⟨t, ht, htc⟩ := hterm
      rcases mem_terminals b N t ht with ⟨x, hx, hx1, _⟩ | ⟨cp, hcp, hcp1, hcp2⟩
      · rw [← htc, hx1]
        obtain ⟨ju, hju⟩ := mapAt_isSome_of_mem b.junctions x.1 x.2 hx
        simp only [Board.conn_net, hju]
        rw [← htc, hx1] at hcons
        exact hcons.1 x.1 ju rfl hju
      · obtain ⟨pk, hpk, pd, hpd, e1, e2⟩ := (mem_all_pads b cp.1 cp.2).1 hcp
        have hp := padAt_of_mem b.packages hu pk hpk pd hpd
        rw [← htc, hcp1, e1]
        simp only [Board.conn_net, hp]
        rw [← e2]
        exact hcp2

theorem foldl_packages {α : Type} (f : Board → α → Board)
    (hf : ∀ x a, (f x a).packages = x.packages) (l : List α) (b : Board) :
    (l.foldl f b).packages = b.packages := by
  induction l generalizing b with
  | nil => rfl
  | cons a r ih => rw [List.foldl_cons, ih, hf]

theorem touch_conn_packages (b : Board) (layer : Int) (c : Connection) :
    (b.touch_conn layer c).packages = b.packages := by
  cases c <;> rfl

theorem scan_track_packages (b : Board) (t : Track) : (b.scan_track t).packages = b.packages := by
  unfold Board.scan_track
  simp only
  split
  · split
    · simp only [touch_conn_packages]
    · simp only [touch_conn_packages]
  · simp only [touch_conn_packages]

theorem expand_prepare_packages (b : Board) :
    b.expand_prepare.packages = b.packages.map fun e =>
      (e.1, { e.2 with pads := e.2.pool_pads.map fun pd =>
                (pd.1, { pd.2 with net := e.2.netlist_net pd.1 }) }) := by
  unfold Board.expand_prepare
  simp only [Board.expand_packages, Board.vacuum_junctions, Board.via_warnings]
  rw [foldl_packages (fun acc (e : UUID × Via) => acc.scan_via e.2) (fun _ _ => rfl),
    foldl_packages (fun acc (e : UUID × Line) => acc.scan_line e.2) (fun _ _ => rfl),
    foldl_packages (fun acc (e : UUID × Track) => acc.scan_track e.2)
      (fun x a => scan_track_packages x a.2)]
  rfl

theorem expand_prepare_unique (b : Board) (h : b.keys_unique) :
    pads_unique b.expand_prepare.packages := by
  rw [expand_prepare_packages]
  unfold pads_unique pad_keys
  simp only [List.map_map]
  constructor
  · exact h.1
  · intro x hx
    obtain ⟨e, he, hxe⟩ := List.mem_map.1 hx
    rw [← hxe]
    simp only [Function.comp, List.map_map]
    exact h.2 e he

theorem pad_keys_clear (pkgs : List (UUID × BoardPackage)) :
    pad_keys (clear_packages pkgs) = pad_keys pkgs := by
  unfold pad_keys clear_packages
  rw [List.map_map]
  apply List.map_congr_left
  intro e _
  simp only [Function.comp, List.map_map]
  rfl

theorem pads_unique_same (b b' : Board) (h : same_store b b') (hu : pads_unique b.packages) :
    pads_unique b'.packages := by
  unfold pads_unique at hu ⊢
  rw [← pad_keys_clear, h.1, pad_keys_clear]
  exact hu

theorem propagate_loop_unique (rnd : Nat → Nat → UUID) (fuel k p : Nat) (b b' : Board)
    (n : Nat) (hu : pads_unique b.packages)
    (h : Board.propagate_loop rnd fuel k p b = some (b', n)) : pads_unique b'.packages :=
  (propagate_loop_induct rnd fuel (fun x => pads_unique x.packages)
    (fun (x x' : Board) (d : Bool) (q : Nat) hx hp =>
      pads_unique_same x x' (propagate_effect fuel (rnd q) x x' d hp).1 hx)
    k p b b' n hu h).1

/-- C2. When `expand` returns on a board whose package and pad keys are unique,
both endpoints of every remaining track resolve to the net of the track (the `net`
field of the junction or of the pad), so they resolve to the same net; a track
without net has both endpoints without net. -/
theorem expand_track_endpoints_same_net (del : List Vector2 → List Edge)
    (rnd : Nat → Nat → UUID) (rndAir : Nat → UUID) (fuel : Nat) (b b' : Board)
    (hu : b.keys_unique) (h : b.expand del rnd rndAir fuel = some b') :
    ∀ e ∈ b'.tracks, b'.conn_net e.2.from_ = e.2.net ∧ b'.conn_net e.2.to_ = e.2.net ∧
      b'.conn_net e.2.from_ = b'.conn_net e.2.to_ := by
  unfold Board.expand at h
  cases hl : Board.propagate_loop rnd fuel fuel 0 b.expand_prepare with
  | none => rw [hl] at h; simp at h
  | some r =>
    rw [hl] at h
    simp only at h
    have hc := propagate_loop_consistent rnd fuel fuel 0 _ r.1 r.2 hl
    have hu1 := propagate_loop_unique rnd fuel fuel 0 _ r.1 r.2 (expand_prepare_unique b hu) hl
    obtain ⟨_, x, q, _, hx⟩ := propagate_loop_induct rnd fuel (fun _ => True)
      (fun _ _ _ _ _ _ => trivial) fuel 0 b.expand_prepare r.1 r.2 trivial hl
    have hn : ∀ e ∈ r.1.tracks, ∀ N, e.2.net = some N → N ∈ r.1.collect_nets :=
      fun e he N hN => propagate_track_nets_of_pads fuel (rnd q) _ r.1 true hx e he N hN
    have key := update_airwires_endpoints del rndAir r.1 b' hc hu1 hn h
    have hf := update_airwires_fields del rndAir r.1 b' h
    have hcn : ∀ c, b'.conn_net c = r.1.conn_net c := by
      intro c
      cases c <;> simp only [Board.conn_net, hf.2.1, hf.2.2.1]
    intro e he
    rw [hf.1] at he
    have h1 := key e he _ (Or.inl rfl)
    have h2 := key e he _ (Or.inr rfl)
    rw [hcn, hcn, h1, h2]
    exact ⟨rfl, rfl, rfl⟩

theorem expand_track_endpoints_same_net_witness :
    (board_one_track.expand del_complete rnd_example rnd_air_example 10).isSome = true ∧
    ∀ b', board_one_track.expand del_complete rnd_example rnd_air_example 10 = some b' →
      ∀ e ∈ b'.tracks, b'.conn_net e.2.from_ = e.2.net ∧ b'.conn_net e.2.to_ = e.2.net ∧
        b'.conn_net e.2.from_ = b'.conn_net e.2.to_ :=
  ⟨by decide, fun b' h =>
    expand_track_endpoints_same_net del_complete rnd_example rnd_air_example 10
      board_one_track b' (by unfold Board.keys_unique; decide) h⟩

/-- A track from a pad on a net to a pad without net passes the propagation loop
with endpoints that resolve to different nets; the ratsnest builder then looks up
the pad without net among the terminals of the net and fails, so `expand` does not
return. -/
theorem expand_unnetted_pad :
    (∃ b1 n, board_unnetted_pad.expand_prepare.propagate_loop rnd_example 10 10 0 =
        some (b1, n) ∧
      ∃ e ∈ b1.tracks, b1.conn_net e.2.from_ = some 1 ∧ b1.conn_net e.2.to_ = none) ∧
    board_unnetted_pad.expand del_complete rnd_example rnd_air_example 10 = none := by
  constructor
  · exact ⟨_, _, rfl, by decide⟩
  · decide

/-- C1, on the board `board_orphan`: the first call of `expand` counts the track
that ends at junction 5, so `vacuum_junctions` keeps the junction; the propagation
loop then deletes both tracks (they carry net 1 and touch the pad on net 2). The
result has junction 5 and no track. The second call finds no connection at
junction 5 and erases it: the junctions after two calls are not the junctions
after one call. -/
theorem expand_twice_orphan_junction :
    ∃ b1 b2, board_orphan.expand del_complete rnd_example rnd_air_example 10 = some b1 ∧
      b1.expand del_complete rnd_example rnd_air_example 10 = some b2 ∧
      b1.junctions.map Prod.fst = [5] ∧ b1.tracks = [] ∧ b1.vias = [] ∧ b1.airwires = [] ∧
      b2.junctions = [] ∧ b2.tracks = [] ∧ b2.vias = [] ∧ b2.airwires = [] ∧
      b2.junctions.map Prod.fst ≠ b1.junctions.map Prod.fst :=
  ⟨(board_orphan.expand del_complete rnd_example rnd_air_example 10).get (by decide),
    (((board_orphan.expand del_complete rnd_example rnd_air_example 10).get (by decide)).expand
      del_complete rnd_example rnd_air_example 10).get (by decide),
    by simp, by simp, by decide, by decide, by decide, by decide, by decide, by decide,
    by decide, by decide, by decide⟩

theorem expand_prepare_eq (b : Board) :
    b.expand_prepare = b.expand_marked.via_warnings.vacuum_junctions.expand_packages := rfl

theorem expand_prepare_warnings_indep (b : Board) (w : List (Coordi × String)) :
    ({ b with warnings := w } : Board).expand_prepare = b.expand_prepare := rfl

theorem conn_position_same (b x : Board) (h : same_positions b x) (c : Connection) :
    x.conn_position c = b.conn_position c := by
  cases c with
  | junc j => exact h.2 j
  | pad pk pd => simp only [Board.conn_position, h.1]

theorem touch_junction_position (layer : Int) (ju : Junction) :
    (touch_junction layer ju).position = ju.position := by
  unfold touch_junction
  simp only
  split
  · rfl
  · split
    · rfl
    · split <;> rfl

theorem same_positions_modify (b x : Board) (h : same_positions b x) (j : UUID)
    (f : Junction → Junction) (hf : ∀ ju, (f ju).position = ju.position) :
    same_positions b { x with junctions := mapModify x.junctions j f } := by
  refine ⟨h.1, ?_⟩
  intro k
  rw [← h.2 k]
  simp only [mapAt_mapModify, Option.map_map]
  congr 1
  funext ju
  simp only [Function.comp]
  split
  · exact hf ju
  · rfl

theorem touch_conn_positions (b x : Board) (h : same_positions b x) (layer : Int)
    (c : Connection) : same_positions b (x.touch_conn layer c) := by
  cases c with
  | junc j => exact same_positions_modify b x h j _ (touch_junction_position layer)
  | pad pk pd => exact h

theorem touch_conn_warnings (x : Board) (layer : Int) (c : Connection) :
    (x.touch_conn layer c).warnings = x.warnings := by
  cases c <;> rfl

theorem scan_track_warnings (b x : Board) (h : same_positions b x) (t : Track) :
    same_positions b (x.scan_track t) ∧
      (x.scan_track t).warnings = x.warnings ++ (zero_length_warning b t).toList := by
  have h2 := touch_conn_positions b _ (touch_conn_positions b x h t.layer t.from_) t.layer t.to_
  have hw : ((x.touch_conn t.layer t.from_).touch_conn t.layer t.to_).warnings = x.warnings := by
    rw [touch_conn_warnings, touch_conn_warnings]
  unfold Board.scan_track zero_length_warning
  simp only
  rw [conn_position_same b _ h2, conn_position_same b _ h2]
  cases hp : b.conn_position t.from_ with
  | none => exact ⟨h2, by simp [hw]⟩
  | some p =>
    cases hq : b.conn_position t.to_ with
    | none => exact ⟨h2, by simp [hw]⟩
    | some q =>
      simp only
      by_cases hpq : p = q
      · rw [if_pos hpq, if_pos hpq]
        exact ⟨⟨h2.1, h2.2⟩, by simp [hw]⟩
      · rw [if_neg hpq, if_neg hpq]
        exact ⟨h2, by simp [hw]⟩

theorem scan_tracks_warnings (b : Board) (ts : List (UUID × Track)) (x : Board)
    (h : same_positions b x) :
    same_positions b (ts.foldl (fun acc e => acc.scan_track e.2) x) ∧
      (ts.foldl (fun acc e => acc.scan_track e.2) x).warnings =
        x.warnings ++ ts.filterMap fun e => zero_length_warning b e.2 := by
  induction ts generalizing x with
  | nil => exact ⟨h, by simp⟩
  | cons e r ih =>
    have h1 := scan_track_warnings b x h e.2
    have h2 := ih (x.scan_track e.2) h1.1
    rw [List.foldl_cons]
    refine ⟨h2.1, ?_⟩
    rw [h2.2, h1.2, List.append_assoc]
    congr 1
    cases hz : zero_length_warning b e.2 <;> simp [List.filterMap_cons, hz]

theorem foldl_warnings {α : Type} (f : Board → α → Board)
    (hf : ∀ x a, (f x a).warnings = x.warnings) (l : List α) (b : Board) :
    (l.foldl f b).warnings = b.warnings := by
  induction l generalizing b with
  | nil => rfl
  | cons a r ih => rw [List.foldl_cons, ih, hf]

theorem foldl_tracks {α : Type} (f : Board → α → Board)
    (hf : ∀ x a, (f x a).tracks = x.tracks) (l : List α) (b : Board) :
    (l.foldl f b).tracks = b.tracks := by
  induction l generalizing b with
  | nil => rfl
  | cons a r ih => rw [List.foldl_cons, ih, hf]

theorem expand_marked_warnings (b : Board) :
    b.expand_marked.warnings = zero_length_warnings b := by
  unfold Board.expand_marked Board.expand_counted
  simp only
  rw [foldl_warnings (fun acc (e : UUID × Via) => acc.scan_via e.2) (fun _ _ => rfl),
    foldl_warnings (fun acc (e : UUID × Line) => acc.scan_line e.2) (fun _ _ => rfl)]
  have hpos : same_positions b ({ b.delete_dependants with warnings := [] } : Board).reset_junctions := by
    refine ⟨rfl, ?_⟩
    intro j
    simp only [Board.reset_junctions, Board.delete_dependants]
    have h1 := mapAt_map b.junctions (fun ju : Junction =>
      ({ ju with temp := false, layer := 10000, has_via := false, needs_via := false,
                 connection_count := 0 } : Junction)) j
    refine Eq.trans (congrArg (Option.map fun ju : Junction => ju.position) h1) ?_
    cases mapAt b.junctions j <;> rfl
  have := (scan_tracks_warnings b
    ({ b.delete_dependants with warnings := [] } : Board).reset_junctions.tracks _ hpos).2
  rw [this]
  rfl

theorem mapAt_map_key {α β : Type} (m : List (UUID × α)) (g : UUID → α → β) (k : UUID) :
    mapAt (m.map fun e => (e.1, g e.1 e.2)) k = (mapAt m k).map (g k) := by
  induction m with
  | nil => rfl
  | cons e r ih =>
    simp only [List.map_cons, mapAt]
    split
    · rename_i h
      rw [h]; rfl
    · exact ih

theorem mapAt_filter {α : Type} (m : List (UUID × α)) (p : UUID × α → Bool) (k : UUID) (v : α)
    (h : mapAt m k = some v) (hp : p (k, v) = true) : mapAt (m.filter p) k = some v := by
  induction m with
  | nil => simp [mapAt] at h
  | cons e r ih =>
    obtain ⟨k', v'⟩ := e
    simp only [mapAt] at h
    by_cases hk : k' = k
    · rw [if_pos hk] at h
      simp only [Option.some.injEq] at h
      rw [hk, h, List.filter_cons_of_pos hp]
      simp [mapAt]
    · rw [if_neg hk] at h
      by_cases hq : p (k', v') = true
      · rw [List.filter_cons_of_pos hq]
        simp only [mapAt]
        rw [if_neg hk]
        exact ih h
      · rw [List.filter_cons_of_neg hq]
        exact ih h

theorem mark_vias_cons (v : UUID × Via) (r : List (UUID × Via)) (k : UUID) (ju : Junction) :
    mark_vias (v :: r) k ju =
      mark_vias r k (if k = v.2.junction then { ju with has_via := true } else ju) := by
  unfold mark_vias
  rw [List.any_cons]
  by_cases hk : k = v.2.junction
  · rw [if_pos hk, decide_eq_true hk, Bool.true_or, if_pos rfl]
    split <;> rfl
  · rw [if_neg hk, decide_eq_false hk, Bool.false_or]

theorem scan_vias_junctions (vs : List (UUID × Via)) (x : Board) :
    (vs.foldl (fun acc e => acc.scan_via e.2) x).junctions =
      x.junctions.map fun e => (e.1, mark_vias vs e.1 e.2) := by
  induction vs generalizing x with
  | nil =>
    simp only [List.foldl_nil, mark_vias, List.any_nil]
    exact (List.map_id _).symm
  | cons v r ih =>
    rw [List.foldl_cons, ih]
    simp only [Board.scan_via, mapModify, List.map_map]
    apply List.map_congr_left
    intro e _
    show (e.1, mark_vias r e.1 (if e.1 = v.2.junction then _ else e.2)) = _
    rw [mark_vias_cons]

theorem foldl_vias {α : Type} (f : Board → α → Board)
    (hf : ∀ x a, (f x a).vias = x.vias) (l : List α) (b : Board) :
    (l.foldl f b).vias = b.vias := by
  induction l generalizing b with
  | nil => rfl
  | cons a r ih => rw [List.foldl_cons, ih, hf]

theorem touch_conn_vias (x : Board) (layer : Int) (c : Connection) :
    (x.touch_conn layer c).vias = x.vias := by
  cases c <;> rfl

theorem scan_track_vias (x : Board) (t : Track) : (x.scan_track t).vias = x.vias := by
  unfold Board.scan_track
  simp only
  split
  · split
    · simp only [touch_conn_vias]
    · simp only [touch_conn_vias]
  · simp only [touch_conn_vias]

theorem expand_counted_vias (b : Board) :
    b.expand_counted.vias = b.vias.filter fun v => (mapAt b.junctions v.2.junction).isSome := by
  unfold Board.expand_counted
  simp only
  rw [foldl_vias (fun acc (e : UUID × Line) => acc.scan_line e.2) (fun _ _ => rfl),
    foldl_vias (fun acc (e : UUID × Track) => acc.scan_track e.2)
      (fun x a => scan_track_vias x a.2)]
  rfl

theorem scan_lines_positions (b : Board) (ls : List (UUID × Line)) (x : Board)
    (h : same_positions b x) :
    same_positions b (ls.foldl (fun acc e => acc.scan_line e.2) x) := by
  induction ls generalizing x with
  | nil => exact h
  | cons e r ih =>
    rw [List.foldl_cons]
    apply ih
    have h1 := same_positions_modify b x h e.2.from_
      (fun ju => { ju with connection_count := ju.connection_count + 1 }) (fun _ => rfl)
    exact same_positions_modify b _ h1 e.2.to_
      (fun ju => { ju with connection_count := ju.connection_count + 1 }) (fun _ => rfl)

theorem expand_counted_positions (b : Board) : same_positions b b.expand_counted := by
  unfold Board.expand_counted
  simp only
  apply scan_lines_positions
  have hpos : same_positions b
      ({ b.delete_dependants with warnings := [] } : Board).reset_junctions := by
    refine ⟨rfl, ?_⟩
    intro j
    simp only [Board.reset_junctions, Board.delete_dependants]
    have h1 := mapAt_map b.junctions (fun ju : Junction =>
      ({ ju with temp := false, layer := 10000, has_via := false, needs_via := false,
                 connection_count := 0 } : Junction)) j
    refine Eq.trans (congrArg (Option.map fun ju : Junction => ju.position) h1) ?_
    cases mapAt b.junctions j <;> rfl
  exact (scan_tracks_warnings b _ _ hpos).1

theorem live_of_positions (b x : Board) (h : same_positions b x) (j : UUID) :
    (mapAt x.junctions j).isSome = (mapAt b.junctions j).isSome := by
  have := h.2 j
  cases h1 : mapAt x.junctions j <;> cases h2 : mapAt b.junctions j <;>
    rw [h1, h2] at this <;> simp at this <;> rfl

theorem expand_store (del : List Vector2 → List Edge) (rnd : Nat → Nat → UUID)
    (rndAir : Nat → UUID) (fuel : Nat) (b b' : Board)
    (h : b.expand del rnd rndAir fuel = some b') :
    clear_junctions b'.junctions = clear_junctions b.expand_prepare.junctions ∧
      b'.vias = b.expand_prepare.vias ∧ b'.warnings = b.expand_prepare.warnings := by
  unfold Board.expand at h
  cases hl : Board.propagate_loop rnd fuel fuel 0 b.expand_prepare with
  | none => rw [hl] at h; simp at h
  | some r =>
    rw [hl] at h
    simp only at h
    have hs := (propagate_loop_induct rnd fuel (fun x => same_store b.expand_prepare x)
      (fun (x x' : Board) (d : Bool) (q : Nat) hI hp =>
        same_store_trans _ _ _ hI (propagate_effect fuel (rnd q) x x' d hp).1)
      fuel 0 b.expand_prepare r.1 r.2 (same_store_refl _) hl).1
    unfold Board.update_airwires at h
    cases hx : r.1.airwires_loop del rndAir r.1.collect_nets ([], 0) with
    | none => rw [hx] at h; simp at h
    | some st =>
      rw [hx] at h
      simp only [Option.some.injEq] at h
      rw [← h]
      exact ⟨hs.2.1, hs.2.2.1, hs.2.2.2.2.2⟩

theorem needs_via_warnings_clear (js : List (UUID × Junction)) :
    needs_via_warnings (clear_junctions js) = needs_via_warnings js := by
  unfold needs_via_warnings clear_junctions
  rw [List.filter_map, List.map_map]
  rfl

theorem needs_via_warnings_of_clear (js js' : List (UUID × Junction))
    (h : clear_junctions js' = clear_junctions js) :
    needs_via_warnings js' = needs_via_warnings js := by
  rw [← needs_via_warnings_clear js', h, needs_via_warnings_clear]

theorem forall_mapModify (Q : Junction → Prop) (m : List (UUID × Junction)) (k : UUID)
    (f : Junction → Junction) (h : ∀ e ∈ m, Q e.2) (hf : ∀ v, Q v → Q (f v)) :
    ∀ e ∈ mapModify m k f, Q e.2 := by
  intro e he
  obtain ⟨e0, h0, _, h2⟩ := mem_mapModify m k f e he
  rcases h2 with q | q
  · rw [q]; exact h e0 h0
  · rw [q]; exact hf _ (h e0 h0)

theorem touch_junction_count (layer : Int) (ju : Junction) :
    0 < (touch_junction layer ju).connection_count := by
  unfold touch_junction
  simp only
  split
  · exact Nat.succ_pos _
  · split
    · exact Nat.succ_pos _
    · split <;> exact Nat.succ_pos _

theorem touch_conn_needs (x : Board) (layer : Int) (c : Connection)
    (h : ∀ e ∈ x.junctions, e.2.needs_via = true → 0 < e.2.connection_count) :
    ∀ e ∈ (x.touch_conn layer c).junctions, e.2.needs_via = true → 0 < e.2.connection_count := by
  cases c with
  | junc j =>
    exact forall_mapModify (fun ju => ju.needs_via = true → 0 < ju.connection_count) _ j _ h
      (fun v _ _ => touch_junction_count layer v)
  | pad pk pd => exact h

theorem scan_track_junctions (x : Board) (t : Track) :
    (x.scan_track t).junctions =
      ((x.touch_conn t.layer t.from_).touch_conn t.layer t.to_).junctions := by
  unfold Board.scan_track
  simp only
  split
  · split <;> rfl
  · rfl

theorem foldl_junctions_inv {α : Type} (Q : List (UUID × Junction) → Prop) (f : Board → α → Board)
    (hf : ∀ x a, Q x.junctions → Q (f x a).junctions) (l : List α) (b : Board)
    (h : Q b.junctions) : Q (l.foldl f b).junctions := by
  induction l generalizing b with
  | nil => exact h
  | cons a r ih =>
    rw [List.foldl_cons]
    exact ih _ (hf b a h)

theorem expand_marked_needs (b : Board) :
    ∀ e ∈ b.expand_marked.junctions, e.2.needs_via = true → 0 < e.2.connection_count := by
  have hc : ∀ e ∈ b.expand_counted.junctions,
      e.2.needs_via = true → 0 < e.2.connection_count := by
    unfold Board.expand_counted
    simp only
    apply foldl_junctions_inv
      (fun js => ∀ e ∈ js, e.2.needs_via = true → 0 < e.2.connection_count)
      (fun acc (e : UUID × Line) => acc.scan_line e.2)
    · intro x a hx
      simp only [Board.scan_line]
      apply forall_mapModify (fun ju => ju.needs_via = true → 0 < ju.connection_count)
      · apply forall_mapModify (fun ju => ju.needs_via = true → 0 < ju.connection_count)
        · exact hx
        · intro v hv hn
          exact Nat.succ_pos _
      · intro v hv hn
        exact Nat.succ_pos _
    · apply foldl_junctions_inv
        (fun js => ∀ e ∈ js, e.2.needs_via = true → 0 < e.2.connection_count)
        (fun acc (e : UUID × Track) => acc.scan_track e.2)
      · intro x a hx
        rw [scan_track_junctions]
        exact touch_conn_needs _ _ _ (touch_conn_needs _ _ _ hx)
      · intro e he hn
        simp only [Board.reset_junctions, List.mem_map] at he
        obtain ⟨e0, _, h0⟩ := he
        rw [← h0] at hn
        simp at hn
  unfold Board.expand_marked
  rw [scan_vias_junctions]
  intro e he hn
  obtain ⟨e0, h0, h1⟩ := List.mem_map.1 he
  rw [← h1] at hn ⊢
  have := hc e0 h0
  unfold mark_vias at hn ⊢
  split at hn
  · rw [if_pos (by assumption)]
    exact this hn
  · rw [if_neg (by assumption)]
    exact this hn

theorem needs_via_warnings_vacuum (b : Board)
    (h : ∀ e ∈ b.junctions, e.2.needs_via = true → 0 < e.2.connection_count) :
    needs_via_warnings b.vacuum_junctions.junctions = needs_via_warnings b.junctions := by
  unfold needs_via_warnings Board.vacuum_junctions
  simp only
  rw [List.filter_filter]
  congr 1
  apply List.filter_congr
  intro e he
  by_cases hn : e.2.needs_via = true
  · have := h e he hn
    have hc : e.2.connection_count ≠ 0 := by omega
    simp [hn, hc]
  · simp [hn]

theorem expand_prepare_warnings (b : Board) :
    b.expand_prepare.warnings =
      zero_length_warnings b ++ needs_via_warnings b.expand_prepare.junctions := by
  rw [expand_prepare_eq]
  have h1 : b.expand_marked.via_warnings.vacuum_junctions.expand_packages.warnings =
      b.expand_marked.warnings ++ needs_via_warnings b.expand_marked.junctions := rfl
  have h2 : b.expand_marked.via_warnings.vacuum_junctions.expand_packages.junctions =
      b.expand_marked.vacuum_junctions.junctions := rfl
  rw [h1, h2, needs_via_warnings_vacuum _ (expand_marked_needs b), expand_marked_warnings]

/-- C11. The warnings after `expand` do not depend on the warnings before the call
(a board that differs in its warnings only gives the same result): they are one
"Zero length track" entry for every track whose endpoints are at one position,
followed by one "Junction needs via" entry for every junction that needs a via and
has none, and nothing else. -/
theorem expand_warnings (del : List Vector2 → List Edge) (rnd : Nat → Nat → UUID)
    (rndAir : Nat → UUID) (fuel : Nat) (b b' : Board)
    (h : b.expand del rnd rndAir fuel = some b') :
    b'.warnings = zero_length_warnings b ++ needs_via_warnings b'.junctions ∧
    ∀ w, ({ b with warnings := w } : Board).expand del rnd rndAir fuel = some b' := by
  have hs := expand_store del rnd rndAir fuel b b' h
  refine ⟨?_, fun w => h⟩
  rw [hs.2.2, expand_prepare_warnings, needs_via_warnings_of_clear _ _ hs.1]

theorem expand_warnings_witness :
    (board_warn.expand del_complete rnd_example rnd_air_example 10).map (fun x => x.warnings) =
      some [(⟨0, 0⟩, "Zero length track"), (⟨0, 0⟩, "Junction needs via")] ∧
    ∀ b', board_warn.expand del_complete rnd_example rnd_air_example 10 = some b' →
      b'.warnings = zero_length_warnings board_warn ++ needs_via_warnings b'.junctions ∧
      ∀ w, ({ board_warn with warnings := w } : Board).expand del_complete rnd_example
        rnd_air_example 10 = some b' :=
  ⟨by decide, fun b' h =>
    expand_warnings del_complete rnd_example rnd_air_example 10 board_warn b' h⟩

theorem not_decide_iff (p : Prop) [Decidable p] : (!decide p) = true ↔ ¬ p := by simp

/-- C12. After `expand` no junction has `connection_count = 0` and `has_via = false`;
and `vacuum_junctions` keeps exactly the junctions that are not of that kind, in
their order and unchanged, and changes nothing else on the board. -/
theorem expand_no_unconnected_junction (del : List Vector2 → List Edge)
    (rnd : Nat → Nat → UUID) (rndAir : Nat → UUID) (fuel : Nat) (b b' : Board)
    (h : b.expand del rnd rndAir fuel = some b') :
    (∀ e ∈ b'.junctions, ¬ (e.2.connection_count = 0 ∧ e.2.has_via = false)) ∧
    ∀ x : Board,
      (∀ e, e ∈ x.vacuum_junctions.junctions ↔
        e ∈ x.junctions ∧ ¬ (e.2.connection_count = 0 ∧ e.2.has_via = false)) ∧
      x.vacuum_junctions.junctions.Sublist x.junctions ∧
      { x.vacuum_junctions with junctions := x.junctions } = x := by
  have hs := expand_store del rnd rndAir fuel b b' h
  constructor
  · intro e he
    have h1 : (e.1, ({ e.2 with net := none, net_segment := 0 } : Junction)) ∈
        clear_junctions b'.junctions := List.mem_map.2 ⟨e, he, rfl⟩
    rw [hs.1] at h1
    obtain ⟨e0, h0, h2⟩ := List.mem_map.1 h1
    have hcc : e0.2.connection_count = e.2.connection_count := by
      have := congrArg (fun x : UUID × Junction => x.2.connection_count) h2
      exact this
    have hv : e0.2.has_via = e.2.has_via := by
      have := congrArg (fun x : UUID × Junction => x.2.has_via) h2
      exact this
    rw [expand_prepare_eq] at h0
    have h3 : e0 ∈ b.expand_marked.via_warnings.junctions.filter
        (fun e => !(e.2.connection_count = 0 ∧ e.2.has_via = false)) := h0
    have h4 := (List.mem_filter.1 h3).2
    rw [← hcc, ← hv]
    exact (not_decide_iff _).1 h4
  · intro x
    refine ⟨?_, ?_, rfl⟩
    · intro e
      unfold Board.vacuum_junctions
      simp only [List.mem_filter]
      constructor
      · rintro ⟨h1, h2⟩
        exact ⟨h1, (not_decide_iff _).1 h2⟩
      · rintro ⟨h1, h2⟩
        exact ⟨h1, (not_decide_iff _).2 h2⟩
    · exact List.filter_sublist _

theorem expand_no_unconnected_junction_witness :
    (board_vacuum.expand del_complete rnd_example rnd_air_example 10).map
        (fun x => x.junctions.map Prod.fst) = some [6] ∧
    ∀ b', board_vacuum.expand del_complete rnd_example rnd_air_example 10 = some b' →
      ∀ e ∈ b'.junctions, ¬ (e.2.connection_count = 0 ∧ e.2.has_via = false) :=
  ⟨by decide, fun b' h =>
    (expand_no_unconnected_junction del_complete rnd_example rnd_air_example 10
      board_vacuum b' h).1⟩

/-- C18. After `expand` the vias are exactly the vias of the board whose junction
was among the junctions when `expand` started, in their order; the junction of
every such via is on the board after `expand` and has `has_via = true`; and when
the loop over the vias marks the junction of a via, that junction exists. -/
theorem expand_vias (del : List Vector2 → List Edge) (rnd : Nat → Nat → UUID)
    (rndAir : Nat → UUID) (fuel : Nat) (b b' : Board)
    (h : b.expand del rnd rndAir fuel = some b') :
    b'.vias = b.vias.filter (fun v => (mapAt b.junctions v.2.junction).isSome) ∧
    (∀ v ∈ b'.vias, ∃ ju, mapAt b'.junctions v.2.junction = some ju ∧ ju.has_via = true) ∧
    ∀ vs1 v vs2, b.expand_counted.vias = vs1 ++ v :: vs2 →
      (mapAt (vs1.foldl (fun acc e => acc.scan_via e.2) b.expand_counted).junctions
        v.2.junction).isSome = true := by
  have hs := expand_store del rnd rndAir fuel b b' h
  have hv1 : b.expand_prepare.vias = b.expand_counted.vias := by
    rw [expand_prepare_eq]
    show b.expand_marked.vias = _
    unfold Board.expand_marked
    rw [foldl_vias (fun acc (e : UUID × Via) => acc.scan_via e.2) (fun _ _ => rfl)]
  have hlive : ∀ v ∈ b.expand_counted.vias,
      (mapAt b.expand_counted.junctions v.2.junction).isSome = true := by
    intro v hv
    rw [expand_counted_vias] at hv
    rw [live_of_positions b _ (expand_counted_positions b)]
    exact (List.mem_filter.1 hv).2
  refine ⟨by rw [hs.2.1, hv1, expand_counted_vias], ?_, ?_⟩
  · intro v hv
    rw [hs.2.1, hv1] at hv
    have hl := hlive v hv
    obtain ⟨ju0, hju0⟩ := Option.isSome_iff_exists.1 hl
    have hm : mapAt b.expand_marked.junctions v.2.junction =
        some (mark_vias b.expand_counted.vias v.2.junction ju0) := by
      unfold Board.expand_marked
      rw [scan_vias_junctions, mapAt_map_key, hju0]
      rfl
    have hmv : (mark_vias b.expand_counted.vias v.2.junction ju0).has_via = true := by
      unfold mark_vias
      rw [if_pos (List.any_eq_true.2 ⟨v, hv, by simp⟩)]
    have hp : mapAt b.expand_prepare.junctions v.2.junction =
        some (mark_vias b.expand_counted.vias v.2.junction ju0) := by
      rw [expand_prepare_eq]
      show mapAt (b.expand_marked.junctions.filter _) _ = _
      apply mapAt_filter _ _ _ _ hm
      simp [hmv]
    have hc := mapAt_clear_junctions b'.junctions v.2.junction
    rw [hs.1, mapAt_clear_junctions, hp] at hc
    cases hb : mapAt b'.junctions v.2.junction with
    | none => rw [hb] at hc; simp at hc
    | some ju =>
      rw [hb] at hc
      simp only [Option.map_some', Option.some.injEq] at hc
      refine ⟨ju, rfl, ?_⟩
      have := congrArg (fun x : Junction => x.has_via) hc
      simp only at this
      rw [← this]
      exact hmv
  · intro vs1 v vs2 hvs
    rw [scan_vias_junctions, mapAt_map_key]
    have := hlive v (by rw [hvs]; simp)
    obtain ⟨ju0, hju0⟩ := Option.isSome_iff_exists.1 this
    rw [hju0]
    rfl

theorem expand_vias_witness :
    (board_vias.expand del_complete rnd_example rnd_air_example 10).map
        (fun x => x.vias) = some [(8, { junction := 5 })] ∧
    ∀ b', board_vias.expand del_complete rnd_example rnd_air_example 10 = some b' →
      b'.vias = board_vias.vias.filter
        (fun v => (mapAt board_vias.junctions v.2.junction).isSome) ∧
      ∀ v ∈ b'.vias, ∃ ju, mapAt b'.junctions v.2.junction = some ju ∧ ju.has_via = true :=
  ⟨by decide, fun b' h =>
    ⟨(expand_vias del_complete rnd_example rnd_air_example 10 board_vias b' h).1,
      (expand_vias del_complete rnd_example rnd_air_example 10 board_vias b' h).2.1⟩⟩

theorem conn_pad_net_packages (b b' : Board) (h : b'.packages = b.packages) (c : Connection) :
    b'.conn_pad_net c = b.conn_pad_net c := by
  cases c with
  | junc j => rfl
  | pad pk pd => simp only [Board.conn_pad_net, h]

/-- C19. One pass of `propagate_net_segments` resolves the net of every track from
its net segment and then keeps the tracks in order, except that it deletes
exactly the tracks with an endpoint that is a pad with a net different from the
track's net; the pads keep their nets; and it returns `true` if and only if it
has deleted no track. On a cleared board whose track endpoints exist the pass
returns, when the identifiers drawn are not null and the fuel exceeds the size of
the board. -/
theorem propagate_deletes_conflicts (fuel : Nat) (rnd : Nat → UUID) (b : Board) :
    (∀ b' d, b.propagate_net_segments fuel rnd = some (b', d) →
      ∃ ts : List (UUID × Track),
        clear_tracks ts = clear_tracks b.tracks ∧
        (∀ e ∈ ts, e.2.net = (mapAt b'.net_segments e.2.net_segment).getD none) ∧
        b'.tracks = ts.filter (fun e => !b'.track_conflict e.2) ∧
        (∀ e ∈ ts, e ∈ b'.tracks ↔
          ¬ ((b.conn_pad_net e.2.from_ ≠ none ∧ e.2.net ≠ b.conn_pad_net e.2.from_) ∨
            (b.conn_pad_net e.2.to_ ≠ none ∧ e.2.net ≠ b.conn_pad_net e.2.to_))) ∧
        (∀ c, b'.conn_pad_net c = b.conn_pad_net c) ∧
        (d = true ↔ b'.tracks = ts)) ∧
    ((∀ i, rnd i ≠ 0) → tracks_live b b.tracks → b.size < fuel →
      ∃ r, b.clear_nets.propagate_net_segments fuel rnd = some r) := by
  constructor
  · intro b' d h
    obtain ⟨b1, h1, _, hpk, hns, _, _, _, _, ht, hd⟩ := propagate_spec fuel rnd b b' d h
    have hsame := seed_loop_same rnd fuel 0 _ b1 h1
    have hpn : ∀ c, b'.conn_pad_net c = b.conn_pad_net c := by
      intro c
      rw [conn_pad_net_packages b1 b' hpk, conn_pad_net_same _ b1 hsame.1]
      exact conn_pad_net_packages b _ rfl c
    have hcf : ∀ t : Track, b'.track_conflict t = true ↔
        ((b.conn_pad_net t.from_ ≠ none ∧ t.net ≠ b.conn_pad_net t.from_) ∨
          (b.conn_pad_net t.to_ ≠ none ∧ t.net ≠ b.conn_pad_net t.to_)) := by
      intro t
      unfold Board.track_conflict
      rw [hpn, hpn]
      simp only [decide_eq_true_eq]
    refine ⟨b1.tracks.map fun e => (e.1, with_net b1.net_segments e.2), ?_, ?_, ht, ?_, hpn, ?_⟩
    · rw [clear_tracks_with_net]
      exact hsame.2
    · intro e he
      obtain ⟨e0, _, h0⟩ := List.mem_map.1 he
      rw [← h0, hns]
      rfl
    · intro e he
      rw [ht, List.mem_filter, ← hcf]
      constructor
      · rintro ⟨_, h2⟩
        intro h3
        rw [h3] at h2
        simp at h2
      · intro h2
        refine ⟨he, ?_⟩
        cases hx : b'.track_conflict e.2
        · rfl
        · exact absurd hx h2
    · rw [hd, ht, List.filter_eq_self, List.all_eq_true]
  · intro hr hl hf
    obtain ⟨b', d, h⟩ := propagate_total fuel rnd hr b hl hf
    exact ⟨(b', d), h⟩

theorem propagate_deletes_conflicts_witness :
    (board_bridge.expand_prepare.clear_nets.propagate_net_segments 10 (rnd_example 0)).map
        (fun r => (r.1.tracks, r.2)) = some ([], false) ∧
    (∃ r, board_bridge.expand_prepare.clear_nets.clear_nets.propagate_net_segments 10
      (rnd_example 0) = some r) ∧
    ∀ b' d, board_bridge.expand_prepare.clear_nets.propagate_net_segments 10 (rnd_example 0) =
        some (b', d) →
      ∃ ts : List (UUID × Track),
        clear_tracks ts = clear_tracks board_bridge.expand_prepare.clear_nets.tracks ∧
        b'.tracks = ts.filter (fun e => !b'.track_conflict e.2) ∧ (d = true ↔ b'.tracks = ts) :=
  ⟨by decide,
    (propagate_deletes_conflicts 10 (rnd_example 0) board_bridge.expand_prepare.clear_nets).2
      (fun i => Nat.succ_ne_zero i) (by unfold tracks_live; decide) (by decide),
    fun b' d h => by
      obtain ⟨ts, h1, _, h3, _, _, h6⟩ :=
        (propagate_deletes_conflicts 10 (rnd_example 0)
          board_bridge.expand_prepare.clear_nets).1 b' d h
      exact ⟨ts, h1, h3, h6⟩⟩

theorem layerAt_emplace (m : List (Int × String)) (k : Int) (v : String) (l : Int) (s : String)
    (h : layerAt m l = some s) : layerAt (layerEmplace m k v) l = some s := by
  unfold layerEmplace
  split
  · exact h
  · induction m with
    | nil => simp [layerAt] at h
    | cons e r ih =>
      obtain ⟨k', v'⟩ := e
      simp only [List.cons_append, layerAt] at h ⊢
      split
      · rename_i hk
        rw [if_pos hk] at h
        exact h
      · rename_i hk
        rw [if_neg hk] at h
        have : ∀ (r : List (Int × String)), layerAt r l = some s →
            layerAt (r ++ [(k, v)]) l = some s := by
          intro r
          induction r with
          | nil => intro hr; simp [layerAt] at hr
          | cons e2 r2 ih2 =>
            intro hr
            obtain ⟨k2, v2⟩ := e2
            simp only [List.cons_append, layerAt] at hr ⊢
            split
            · rename_i hk2
              rw [if_pos hk2] at hr
              exact hr
            · rename_i hk2
              rw [if_neg hk2] at hr
              exact ih2 hr
        exact this r h

theorem set_n_inner_layers_base (n : Nat) (l : Int) (s : String)
    (h : layerAt base_layers l = some s) : layerAt (set_n_inner_layers n) l = some s := by
  unfold set_n_inner_layers
  have : ∀ (is : List Nat) (m : List (Int × String)), layerAt m l = some s →
      layerAt (is.foldl (fun acc (i : Nat) =>
        layerEmplace acc (-((i : Int) + 1)) ("Inner " ++ toString (i + 1))) m) l = some s := by
    intro is
    induction is with
    | nil => intro m hm; exact hm
    | cons i r ih =>
      intro m hm
      rw [List.foldl_cons]
      exact ih _ (layerAt_emplace m _ _ l s hm)
  exact this _ _ h

/-- C17. For every top layer `L` of `0, 10, ..., 60`, `flip_package_layer` maps `L` to
the bottom layer `-100 - L` and that bottom layer back to `L`, flipping twice gives
the layer back, and in the layer table of `set_n_inner_layers` the two layers have
the same kind ("Top Copper" and "Bottom Copper", ...). -/
theorem flip_package_layer_faces (n : Nat) (L : Int) (hL : L ∈ [0, 10, 20, 30, 40, 50, 60]) :
    flip_package_layer L = -100 - L ∧ flip_package_layer (-100 - L) = L ∧
    flip_package_layer (flip_package_layer L) = L ∧
    flip_package_layer (flip_package_layer (-100 - L)) = -100 - L ∧
    ∃ kind, layerAt (set_n_inner_layers n) L = some ("Top " ++ kind) ∧
      layerAt (set_n_inner_layers n) (-100 - L) = some ("Bottom " ++ kind) := by
  simp only [List.mem_cons, List.mem_singleton, List.not_mem_nil, or_false] at hL
  rcases hL with h | h | h | h | h | h | h <;> subst h
  · exact ⟨by decide, by decide, by decide, by decide, "Copper",
      set_n_inner_layers_base n _ _ rfl, set_n_inner_layers_base n _ _ rfl⟩
  · exact ⟨by decide, by decide, by decide, by decide, "Mask",
      set_n_inner_layers_base n _ _ rfl, set_n_inner_layers_base n _ _ rfl⟩
  · exact ⟨by decide, by decide, by decide, by decide, "Silkscreen",
      set_n_inner_layers_base n _ _ rfl, set_n_inner_layers_base n _ _ rfl⟩
  · exact ⟨by decide, by decide, by decide, by decide, "Paste",
      set_n_inner_layers_base n _ _ rfl, set_n_inner_layers_base n _ _ rfl⟩
  · exact ⟨by decide, by decide, by decide, by decide, "Package",
      set_n_inner_layers_base n _ _ rfl, set_n_inner_layers_base n _ _ rfl⟩
  · exact ⟨by decide, by decide, by decide, by decide, "Assembly",
      set_n_inner_layers_base n _ _ rfl, set_n_inner_layers_base n _ _ rfl⟩
  · exact ⟨by decide, by decide, by decide, by decide, "Courtyard",
      set_n_inner_layers_base n _ _ rfl, set_n_inner_layers_base n _ _ rfl⟩

theorem flip_package_layer_faces_witness :
    flip_package_layer 20 = -100 - 20 ∧ flip_package_layer (-100 - 20) = 20 ∧
    flip_package_layer (flip_package_layer 20) = 20 ∧
    flip_package_layer (flip_package_layer (-100 - 20)) = -100 - 20 ∧
    ∃ kind, layerAt (set_n_inner_layers 2) 20 = some ("Top " ++ kind) ∧
      layerAt (set_n_inner_layers 2) (-100 - 20) = some ("Bottom " ++ kind) :=
  flip_package_layer_faces 2 20 (by decide)

/-- C15, on a package that is not smashed and has one text on the layer `-120`,
"Bottom Silkscreen" in the layer table: `smash_package` tests the layer of a text
against `20` and `120`, creates no board text for this text and leaves the list of
texts of the package empty; a text on the layer `120`, which the layer table
does not have, is smashed. -/
theorem smash_package_bottom_silkscreen :
    layerAt (set_n_inner_layers 0) (-120) = some "Bottom Silkscreen" ∧
    layerAt (set_n_inner_layers 0) 120 = none ∧
    smash_package rnd_air_example [] { pool_texts := [(1, { layer := -120, text := "R1" })] } =
      ([], { smashed := true, pool_texts := [(1, { layer := -120, text := "R1" })] }) ∧
    smash_package rnd_air_example [] { pool_texts := [(1, { layer := 120, text := "R1" })] } =
      ([(100, { layer := 120, text := "R1", from_smash := true, overridden := true })],
        { smashed := true, pool_texts := [(1, { layer := 120, text := "R1" })],
          texts := [100] }) ∧
    smash_package rnd_air_example [] { pool_texts := [(1, { layer := 20, text := "R1" })] } =
      ([(100, { layer := 20, text := "R1", from_smash := true, overridden := true })],
        { smashed := true, pool_texts := [(1, { layer := 20, text := "R1" })],
          texts := [100] }) :=
  ⟨rfl, rfl, by decide, by decide, by decide⟩

theorem track_valid_eq (pkgs : List (UUID × BoardPackage)) (from_ to_ : Connection) :
    track_valid pkgs from_ to_ =
      match to_, from_ with
      | .pad pk pd, _ => (match mapAt pkgs pk with
        | some p => (mapAt p.pad_map pd).isSome
        | none => false)
      | .junc _, .pad pk pd => (match mapAt pkgs pk with
        | some p => (mapAt p.pad_map pd).isSome
        | none => false)
      | .junc _, .junc _ => true := by
  cases to_ <;> cases from_ <;> rfl

/-- C13, on a persisted track from a pad of package 99, which is not loaded, to a pad
of the loaded package 1: the test of the second endpoint overwrites the flag
`valid` of the first, and the track is inserted. With the endpoints exchanged, or
with a junction as second endpoint, the track is dropped. -/
theorem load_tracks_dangling_from :
    mapAt [(1, package_example (some 1) (some 1))] 99 = none ∧
    track_valid [(1, package_example (some 1) (some 1))] (.pad 99 1) (.pad 1 2) = true ∧
    load_tracks [(1, package_example (some 1) (some 1))]
        [(7, { from_ := .pad 99 1, to_ := .pad 1 2 })] =
      [(7, { from_ := .pad 99 1, to_ := .pad 1 2 })] ∧
    load_tracks [(1, package_example (some 1) (some 1))]
        [(7, { from_ := .pad 1 2, to_ := .pad 99 1 })] = [] ∧
    load_tracks [(1, package_example (some 1) (some 1))]
        [(7, { from_ := .pad 99 1, to_ := .junc 5 })] = [] :=
  ⟨by decide, by decide, by decide, by decide, by decide⟩

theorem mapAt_mapEmplace_ne {α : Type} (m : List (UUID × α)) (k x : UUID) (v : α)
    (h : k ≠ x) : mapAt (mapEmplace m k v) x = mapAt m x := by
  unfold mapEmplace
  split
  · rfl
  · rw [mapAt_append]
    cases mapAt m x with
    | some w => rfl
    | none => simp [h]

theorem mapAt_mapEmplace_self {α : Type} (m : List (UUID × α)) (k : UUID) (v : α) :
    ∃ w, mapAt (mapEmplace m k v) k = some w := by
  unfold mapEmplace
  cases h : mapAt m k with
  | some w => exact ⟨w, h⟩
  | none =>
    simp only
    rw [mapAt_append, h]
    exact ⟨v, by simp⟩

theorem disconnect_conn_step (rnd : Nat → UUID) (hinj : Function.Injective rnd) (b : Board)
    (pkg : UUID) (st : DisconnectState) (hI : DInv rnd b pkg st) (c : Connection)
    (hl : ∀ pd, c = .pad pkg pd → (padAt b.packages pkg pd).isSome = true) :
    ∃ c' st', disconnect_conn rnd b.packages pkg c st = some (c', st') ∧ DInv rnd b pkg st' ∧
      (∀ pd j, mapAt st.pad_junctions pd = some j → mapAt st'.pad_junctions pd = some j) ∧
      c' = redirect st'.pad_junctions pkg c ∧
      (∀ pd, c = .pad pkg pd → (mapAt st'.pad_junctions pd).isSome = true) := by
  cases c with
  | junc j =>
    exact ⟨.junc j, st, rfl, hI, fun _ _ h => h, rfl, fun pd h => by simp at h⟩
  | pad pk pd =>
    by_cases hpk : pk = pkg
    · subst hpk
      obtain ⟨p, hp⟩ := Option.isSome_iff_exists.1 (hl pd rfl)
      simp only [disconnect_conn, if_true, hp]
      cases hm : mapAt st.pad_junctions pd with
      | some j =>
        have hr : disconnect_junction rnd pd st = (j, st) := by
          unfold disconnect_junction
          rw [hm]
        rw [hr]
        refine ⟨_, _, rfl, ?_, fun _ _ h => h, ?_, ?_⟩
        · refine ⟨hI.drawn_of, hI.inj, ?_, ?_⟩
          · intro pd2 j2 h2
            obtain ⟨p2, ju2, a1, a2, a3⟩ := hI.pos pd2 j2 h2
            simp only
            rw [mapAt_mapModify, a2]
            by_cases hj : j2 = j
            · have : pd2 = pd := hI.inj pd2 pd j (by rw [← hj]; exact h2) hm
              rw [this] at a1
              rw [hp] at a1
              refine ⟨p2, _, by rw [this, hp, Option.some.inj a1], rfl, ?_⟩
              simp [hj, Option.some.inj a1]
            · refine ⟨p2, _, a1, rfl, ?_⟩
              simp [hj, a3]
          · intro k hk
            obtain ⟨i, _, hji⟩ := hI.drawn_of pd j hm
            have hkj : k ≠ j := by rw [hji]; exact hk i
            simp only
            rw [mapAt_mapModify, ← hI.old k hk]
            cases mapAt st.junctions k with
            | none => rfl
            | some w => simp [hkj]
        · simp only [redirect, if_true, hm]
        · intro pd' hpd'
          simp only [Connection.pad.injEq, true_and] at hpd'
          rw [← hpd', hm]; rfl
      | none =>
        have hr : disconnect_junction rnd pd st = (rnd st.drawn,
            { pad_junctions := st.pad_junctions ++ [(pd, rnd st.drawn)]
              junctions := mapEmplace st.junctions (rnd st.drawn) { position := ⟨0, 0⟩ }
              drawn := st.drawn + 1 }) := by
          unfold disconnect_junction
          rw [hm]
        rw [hr]
        have hnew : ∀ x j, mapAt (st.pad_junctions ++ [(pd, rnd st.drawn)]) x = some j →
            mapAt st.pad_junctions x = some j ∨ (x = pd ∧ j = rnd st.drawn) := by
          intro x j hx
          rw [mapAt_append] at hx
          cases hq : mapAt st.pad_junctions x with
          | some w => rw [hq] at hx; exact Or.inl hx
          | none =>
            rw [hq] at hx
            simp only at hx
            split at hx
            · rename_i hpx
              exact Or.inr ⟨hpx.symm, (Option.some.inj hx).symm⟩
            · simp at hx
        have hne : ∀ x j, mapAt st.pad_junctions x = some j → j ≠ rnd st.drawn := by
          intro x j hx hj
          obtain ⟨i, hi, hji⟩ := hI.drawn_of x j hx
          rw [hji] at hj
          have := hinj hj
          omega
        refine ⟨_, _, rfl, ?_, ?_, ?_, ?_⟩
        · refine ⟨?_, ?_, ?_, ?_⟩
          · intro x j hx
            rcases hnew x j hx with q | ⟨_, q⟩
            · obtain ⟨i, hi, hji⟩ := hI.drawn_of x j q
              exact ⟨i, Nat.lt_succ_of_lt hi, hji⟩
            · exact ⟨st.drawn, Nat.lt_succ_self _, q⟩
          · intro x x' j hx hx'
            rcases hnew x j hx with q | ⟨q1, q2⟩ <;> rcases hnew x' j hx' with q' | ⟨q1', q2'⟩
            · exact hI.inj x x' j q q'
            · exact absurd q2' (hne x j q)
            · exact absurd q2 (hne x' j q')
            · rw [q1, q1']
          · intro x j hx
            simp only
            rw [mapAt_mapModify]
            rcases hnew x j hx with q | ⟨q1, q2⟩
            · obtain ⟨p2, ju2, a1, a2, a3⟩ := hI.pos x j q
              have hj := hne x j q
              rw [mapAt_mapEmplace_ne _ _ _ _ (fun e => hj e.symm), a2]
              exact ⟨p2, _, a1, rfl, by simp [hj, a3]⟩
            · obtain ⟨w, hw⟩ := mapAt_mapEmplace_self st.junctions (rnd st.drawn)
                { position := ⟨0, 0⟩ }
              rw [q2, hw, q1]
              exact ⟨p, _, hp, rfl, by simp⟩
          · intro k hk
            simp only
            rw [mapAt_mapModify, mapAt_mapEmplace_ne _ _ _ _ (fun e => hk st.drawn e.symm),
              ← hI.old k hk]
            cases mapAt st.junctions k with
            | none => rfl
            | some w => simp [hk st.drawn]
        · intro x j hx
          simp only
          rw [mapAt_append, hx]
        · simp only [redirect, if_true]
          rw [mapAt_append, hm]
          simp
        · intro pd' hpd'
          simp only [Connection.pad.injEq, true_and] at hpd'
          simp only
          rw [← hpd', mapAt_append, hm]
          simp
    · refine ⟨.pad pk pd, st, by simp [disconnect_conn, hpk], hI, fun _ _ h => h, ?_, ?_⟩
      · simp [redirect, hpk]
      · intro pd' h
        simp only [Connection.pad.injEq] at h
        exact absurd h.1 hpk

theorem redirect_ext (pj pj' : List (UUID × UUID)) (pkg : UUID) (c : Connection)
    (hext : ∀ pd j, mapAt pj pd = some j → mapAt pj' pd = some j)
    (hin : ∀ pd, c = .pad pkg pd → (mapAt pj pd).isSome = true) :
    redirect pj' pkg c = redirect pj pkg c := by
  cases c with
  | junc j => rfl
  | pad pk pd =>
    by_cases hpk : pk = pkg
    · subst hpk
      obtain ⟨j, hj⟩ := Option.isSome_iff_exists.1 (hin pd rfl)
      simp only [redirect, if_true, hj, hext pd j hj]
    · simp [redirect, hpk]

theorem disconnect_tracks_spec (rnd : Nat → UUID) (hinj : Function.Injective rnd) (b : Board)
    (pkg : UUID) (ts : List (UUID × Track)) (st : DisconnectState) (hI : DInv rnd b pkg st)
    (hl : ∀ e ∈ ts, ∀ c, (c = e.2.from_ ∨ c = e.2.to_) → ∀ pd, c = .pad pkg pd →
      (padAt b.packages pkg pd).isSome = true) :
    ∃ ts' st', disconnect_tracks rnd b.packages pkg ts st = some (ts', st') ∧
      DInv rnd b pkg st' ∧
      (∀ pd j, mapAt st.pad_junctions pd = some j → mapAt st'.pad_junctions pd = some j) ∧
      ts' = ts.map (fun e => (e.1, { e.2 with
        to_ := redirect st'.pad_junctions pkg e.2.to_
        from_ := redirect st'.pad_junctions pkg e.2.from_ })) ∧
      (∀ e ∈ ts, ∀ c, (c = e.2.from_ ∨ c = e.2.to_) → ∀ pd, c = .pad pkg pd →
        (mapAt st'.pad_junctions pd).isSome = true) := by
  induction ts generalizing st with
  | nil => exact ⟨[], st, rfl, hI, fun _ _ h => h, rfl, fun e he => by simp at he⟩
  | cons e r ih =>
    obtain ⟨k, t⟩ := e
    obtain ⟨c1, st1, e1, I1, x1, r1, m1⟩ := disconnect_conn_step rnd hinj b pkg st hI t.to_
      (fun pd h => hl (k, t) (List.mem_cons_self _ _) _ (Or.inr rfl) pd h)
    obtain ⟨c2, st2, e2, I2, x2, r2, m2⟩ := disconnect_conn_step rnd hinj b pkg st1 I1 t.from_
      (fun pd h => hl (k, t) (List.mem_cons_self _ _) _ (Or.inl rfl) pd h)
    obtain ⟨r', st3, e3, I3, x3, r3, m3⟩ := ih st2 I2
      (fun e he => hl e (List.mem_cons_of_mem _ he))
    refine ⟨(k, { t with to_ := c1, from_ := c2 }) :: r', st3, ?_, I3,
      fun pd j h => x3 pd j (x2 pd j (x1 pd j h)), ?_, ?_⟩
    · simp only [disconnect_tracks, disconnect_track, e1, e2, e3]
    · rw [List.map_cons, r3]
      congr 1
      have a1 : redirect st3.pad_junctions pkg t.to_ = c1 := by
        rw [r1]
        exact redirect_ext _ _ pkg _ (fun pd j h => x3 pd j (x2 pd j h)) m1
      have a2 : redirect st3.pad_junctions pkg t.from_ = c2 := by
        rw [r2]
        exact redirect_ext _ _ pkg _ x3 m2
      simp only [a1, a2]
    · intro e he c hc pd hpd
      rcases List.mem_cons.1 he with q | q
      · rw [q] at hc
        rcases hc with hc | hc
        · obtain ⟨j, hj⟩ := Option.isSome_iff_exists.1 (m2 pd (by rw [← hc]; exact hpd))
          rw [x3 pd j hj]; rfl
        · obtain ⟨j, hj⟩ := Option.isSome_iff_exists.1 (m1 pd (by rw [← hc]; exact hpd))
          rw [x3 pd j (x2 pd j hj)]; rfl
      · exact m3 e q c hc pd hpd

theorem redirect_not_pkg (pj : List (UUID × UUID)) (pkg : UUID) (c : Connection)
    (hin : ∀ pd, c = .pad pkg pd → (mapAt pj pd).isSome = true) (pd : UUID) :
    redirect pj pkg c ≠ .pad pkg pd := by
  cases c with
  | junc j => simp [redirect]
  | pad pk pd' =>
    by_cases hpk : pk = pkg
    · subst hpk
      obtain ⟨j, hj⟩ := Option.isSome_iff_exists.1 (hin pd' rfl)
      simp [redirect, hj]
    · simp [redirect, hpk]

/-- C14. When the identifiers drawn are pairwise different and none is the key of a
junction of the board, and the pads of the package `pkg` that tracks point to
exist, `disconnect_package` returns a board with the same packages on which no
endpoint of a track is a pad of `pkg`: there is a map `pj` from pads of `pkg` to
junctions such that every endpoint on a pad of `pkg` is now on the junction of
that pad (so endpoints on one pad share a junction, and different pads have
different junctions), that junction is not a junction of the board before the
call and lies at the position of the pad; every other endpoint and every
junction of the board before the call is unchanged. -/
theorem disconnect_package_endpoints (rnd : Nat → UUID) (hinj : Function.Injective rnd)
    (b : Board) (pkg : UUID) (hfresh : ∀ i, mapAt b.junctions (rnd i) = none)
    (hl : ∀ e ∈ b.tracks, ∀ c, (c = e.2.from_ ∨ c = e.2.to_) → ∀ pd, c = .pad pkg pd →
      (padAt b.packages pkg pd).isSome = true) :
    ∃ b' pj, b.disconnect_package rnd pkg = some b' ∧ b'.packages = b.packages ∧
      b'.tracks = b.tracks.map (fun e => (e.1, { e.2 with
        to_ := redirect pj pkg e.2.to_, from_ := redirect pj pkg e.2.from_ })) ∧
      (∀ e ∈ b'.tracks, ∀ pd, e.2.from_ ≠ .pad pkg pd ∧ e.2.to_ ≠ .pad pkg pd) ∧
      (∀ e ∈ b.tracks, ∀ c, (c = e.2.from_ ∨ c = e.2.to_) → ∀ pd, c = .pad pkg pd →
        ∃ j p ju, redirect pj pkg c = .junc j ∧ mapAt b.junctions j = none ∧
          padAt b.packages pkg pd = some p ∧ mapAt b'.junctions j = some ju ∧
          ju.position = p.position) ∧
      (∀ pd pd' j, mapAt pj pd = some j → mapAt pj pd' = some j → pd = pd') ∧
      (∀ c, (∀ pd, c ≠ .pad pkg pd) → redirect pj pkg c = c) ∧
      (∀ k ju, mapAt b.junctions k = some ju → mapAt b'.junctions k = some ju) := by
  have h0 : DInv rnd b pkg { pad_junctions := [], junctions := b.junctions, drawn := 0 } :=
    ⟨fun pd j h => by simp [mapAt] at h, fun pd pd' j h => by simp [mapAt] at h,
      fun pd j h => by simp [mapAt] at h, fun k _ => rfl⟩
  obtain ⟨ts', st', e1, I1, _, r1, m1⟩ := disconnect_tracks_spec rnd hinj b pkg b.tracks _ h0 hl
  refine ⟨{ b with tracks := ts', junctions := st'.junctions }, st'.pad_junctions, ?_, rfl, r1,
    ?_, ?_, I1.inj, ?_, ?_⟩
  · unfold Board.disconnect_package
    rw [e1]
  · intro e he pd
    simp only at he
    rw [r1] at he
    obtain ⟨e0, h0', h1⟩ := List.mem_map.1 he
    rw [← h1]
    exact ⟨redirect_not_pkg _ pkg _ (fun pd h => m1 e0 h0' _ (Or.inl rfl) pd h) pd,
      redirect_not_pkg _ pkg _ (fun pd h => m1 e0 h0' _ (Or.inr rfl) pd h) pd⟩
  · intro e he c hc pd hpd
    obtain ⟨j, hj⟩ := Option.isSome_iff_exists.1 (m1 e he c hc pd hpd)
    obtain ⟨p, ju, a1, a2, a3⟩ := I1.pos pd j hj
    obtain ⟨i, _, hji⟩ := I1.drawn_of pd j hj
    refine ⟨j, p, ju, ?_, by rw [hji]; exact hfresh i, a1, a2, a3⟩
    rw [hpd]
    simp [redirect, hj]
  · intro c hc
    cases c with
    | junc j => rfl
    | pad pk pd =>
      have : pk ≠ pkg := fun h => hc pd (by rw [h])
      simp [redirect, this]
  · intro k ju hk
    have : ∀ i, k ≠ rnd i := by
      intro i hki
      rw [hki, hfresh i] at hk
      simp at hk
    simp only
    rw [I1.old k this, hk]

theorem disconnect_package_endpoints_witness :
    (board_orphan.disconnect_package rnd_air_example 1).map
        (fun x => x.tracks.map fun e => (e.2.from_, e.2.to_)) =
      some [(.junc 101, .junc 100), (.junc 100, .junc 5)] ∧
    ∃ b' pj, board_orphan.disconnect_package rnd_air_example 1 = some b' ∧
      b'.packages = board_orphan.packages ∧
      b'.tracks = board_orphan.tracks.map (fun e => (e.1, { e.2 with
        to_ := redirect pj 1 e.2.to_, from_ := redirect pj 1 e.2.from_ })) ∧
      (∀ e ∈ b'.tracks, ∀ pd, e.2.from_ ≠ .pad 1 pd ∧ e.2.to_ ≠ .pad 1 pd) ∧
      (∀ e ∈ board_orphan.tracks, ∀ c, (c = e.2.from_ ∨ c = e.2.to_) → ∀ pd, c = .pad 1 pd →
        ∃ j p ju, redirect pj 1 c = .junc j ∧ mapAt board_orphan.junctions j = none ∧
          padAt board_orphan.packages 1 pd = some p ∧ mapAt b'.junctions j = some ju ∧
          ju.position = p.position) ∧
      (∀ pd pd' j, mapAt pj pd = some j → mapAt pj pd' = some j → pd = pd') ∧
      (∀ c, (∀ pd, c ≠ .pad 1 pd) → redirect pj 1 c = c) ∧
      (∀ k ju, mapAt board_orphan.junctions k = some ju → mapAt b'.junctions k = some ju) :=
  ⟨by decide,
    disconnect_package_endpoints rnd_air_example
      (fun a c h => by simpa [rnd_air_example] using h) board_orphan 1
      (fun i => by
        have : (5 : Nat) ≠ i + 100 := by omega
        simp [board_orphan, mapAt, rnd_air_example, this])
      (by
        intro e he c hc pd hpd
        simp only [board_orphan, List.mem_cons, List.mem_singleton, List.not_mem_nil,
          or_false] at he
        rcases he with rfl | rfl
        · rcases hc with rfl | rfl
          · simp only [Connection.pad.injEq, true_and] at hpd
            rw [← hpd]; decide
          · simp only [Connection.pad.injEq, true_and] at hpd
            rw [← hpd]; decide
        · rcases hc with rfl | rfl
          · simp only [Connection.pad.injEq, true_and] at hpd
            rw [← hpd]; decide
          · simp at hpd)⟩

theorem mapModify_map {α : Type} (m : List (UUID × α)) (k : UUID) (g f f' : α → α)
    (h : ∀ v, f' (g v) = g (f v)) :
    mapModify (m.map fun e => (e.1, g e.2)) k f' = (mapModify m k f).map fun e => (e.1, g e.2) := by
  unfold mapModify
  rw [List.map_map, List.map_map]
  apply List.map_congr_left
  intro e _
  simp only [Function.comp]
  split
  · rw [h]
  · rfl

theorem padAt_rename (σ : UUID → UUID) (pkgs : List (UUID × BoardPackage)) (pk pd : UUID) :
    padAt (pkgs.map fun e => (e.1, e.2.rename σ)) pk pd =
      (padAt pkgs pk pd).map (Pad.rename σ) := by
  unfold padAt
  rw [mapAt_map pkgs (BoardPackage.rename σ) pk]
  cases mapAt pkgs pk with
  | none => rfl
  | some p => exact mapAt_map p.pads (Pad.rename σ) pd

theorem junctionAt_rename (σ : UUID → UUID) (js : List (UUID × Junction)) (j : UUID) :
    mapAt (js.map fun e => (e.1, e.2.rename σ)) j = (mapAt js j).map (Junction.rename σ) :=
  mapAt_map js (Junction.rename σ) j

theorem conn_segment_rename (σ : UUID → UUID) (h0 : σ 0 = 0) (b : Board) (c : Connection) :
    (b.rename σ).conn_segment c = σ (b.conn_segment c) := by
  cases c with
  | junc j =>
    simp only [Board.conn_segment, Board.rename, junctionAt_rename]
    cases mapAt b.junctions j with
    | none => exact h0.symm
    | some ju => rfl
  | pad pk pd =>
    simp only [Board.conn_segment, Board.rename, padAt_rename]
    cases padAt b.packages pk pd with
    | none => exact h0.symm
    | some p => rfl

theorem conn_pad_net_rename (σ : UUID → UUID) (b : Board) (c : Connection) :
    (b.rename σ).conn_pad_net c = b.conn_pad_net c := by
  cases c with
  | junc j => rfl
  | pad pk pd =>
    simp only [Board.conn_pad_net, Board.rename, padAt_rename]
    cases padAt b.packages pk pd with
    | none => rfl
    | some p => rfl

theorem set_conn_segment_rename (σ : UUID → UUID) (b : Board) (c : Connection) (s : UUID) :
    (b.rename σ).set_conn_segment c (σ s) = (b.set_conn_segment c s).rename σ := by
  cases c with
  | junc j =>
    simp only [Board.set_conn_segment, Board.rename]
    congr 1
    exact mapModify_map b.junctions j (Junction.rename σ)
      (fun ju => { ju with net_segment := s }) (fun ju => { ju with net_segment := σ s })
      (fun _ => rfl)
  | pad pk pd =>
    simp only [Board.set_conn_segment, Board.rename]
    congr 1
    unfold padModify
    apply mapModify_map b.packages pk (BoardPackage.rename σ)
    intro p
    simp only [BoardPackage.rename]
    congr 1
    exact mapModify_map p.pads pd (Pad.rename σ)
      (fun q => { q with net_segment := s }) (fun q => { q with net_segment := σ s })
      (fun _ => rfl)

theorem propagate_to_rename (σ : UUID → UUID) (hz : ∀ x, σ x = 0 ↔ x = 0) (seg : UUID)
    (c : Connection) (st : Board × Nat) :
    propagate_to (σ seg) c (st.1.rename σ, st.2) =
      ((propagate_to seg c st).1.rename σ, (propagate_to seg c st).2) := by
  unfold propagate_to
  simp only
  rw [conn_segment_rename σ ((hz 0).2 rfl)]
  by_cases h : st.1.conn_segment c = 0
  · rw [if_pos ((hz _).2 h), if_pos h, set_conn_segment_rename]
  · rw [if_neg (fun q => h ((hz _).1 q)), if_neg h]

theorem propagate_from_rename (σ : UUID → UUID) (hz : ∀ x, σ x = 0 ↔ x = 0) (b : Board)
    (c : Connection) (st : Track × Nat) :
    propagate_from (b.rename σ) c (st.1.rename σ, st.2) =
      ((propagate_from b c st).1.rename σ, (propagate_from b c st).2) := by
  unfold propagate_from
  simp only
  rw [conn_segment_rename σ ((hz 0).2 rfl)]
  by_cases h : b.conn_segment c = 0
  · rw [if_neg (fun q => q ((hz _).2 h)), if_neg (fun q => q h)]
  · rw [if_pos (fun q => h ((hz _).1 q)), if_pos h]
    rfl

theorem flood_track_rename (σ : UUID → UUID) (hz : ∀ x, σ x = 0 ↔ x = 0) (t : Track)
    (st : Board × Nat) :
    flood_track (t.rename σ) (st.1.rename σ, st.2) =
      ((flood_track t st).1.rename σ, (flood_track t st).2.1.rename σ,
        (flood_track t st).2.2) := by
  unfold flood_track
  by_cases h : t.net_segment = 0
  · have h' : ¬ (t.rename σ).net_segment ≠ 0 := fun q => q ((hz _).2 h)
    rw [if_neg h', if_neg (fun q => q h)]
    simp only
    have e1 := propagate_from_rename σ hz st.1 t.from_ (t, st.2)
    have e2 := propagate_from_rename σ hz st.1 t.to_ (propagate_from st.1 t.from_ (t, st.2))
    have f1 : (t.rename σ).from_ = t.from_ := rfl
    have f2 : (t.rename σ).to_ = t.to_ := rfl
    rw [f1, f2, e1, e2]
  · have h' : (t.rename σ).net_segment ≠ 0 := fun q => h ((hz _).1 q)
    rw [if_pos h', if_pos h]
    simp only
    have e1 := propagate_to_rename σ hz t.net_segment t.from_ st
    have e2 := propagate_to_rename σ hz t.net_segment t.to_ (propagate_to t.net_segment t.from_ st)
    have f1 : (t.rename σ).from_ = t.from_ := rfl
    have f2 : (t.rename σ).to_ = t.to_ := rfl
    have f3 : (t.rename σ).net_segment = σ t.net_segment := rfl
    rw [f1, f2, f3, e1, e2]

theorem flood_tracks_rename (σ : UUID → UUID) (hz : ∀ x, σ x = 0 ↔ x = 0)
    (ts : List (UUID × Track)) (st : Board × Nat) :
    flood_tracks (rename_tracks σ ts) (st.1.rename σ, st.2) =
      (rename_tracks σ (flood_tracks ts st).1, (flood_tracks ts st).2.1.rename σ,
        (flood_tracks ts st).2.2) := by
  induction ts generalizing st with
  | nil => rfl
  | cons e r ih =>
    obtain ⟨k, t⟩ := e
    simp only [rename_tracks, List.map_cons, flood_tracks]
    rw [flood_track_rename σ hz t st]
    have := ih ((flood_track t st).2.1, (flood_track t st).2.2)
    simp only [rename_tracks] at this
    simp only
    rw [this]

theorem flood_pass_rename (σ : UUID → UUID) (hz : ∀ x, σ x = 0 ↔ x = 0) (b : Board) :
    (b.rename σ).flood_pass = (b.flood_pass.1.rename σ, b.flood_pass.2) := by
  unfold Board.flood_pass
  have := flood_tracks_rename σ hz b.tracks (b, 0)
  have ht : (b.rename σ).tracks = rename_tracks σ b.tracks := rfl
  simp only
  rw [ht, this]
  rfl

theorem flood_rename (σ : UUID → UUID) (hz : ∀ x, σ x = 0 ↔ x = 0) (fuel : Nat) (b : Board) :
    Board.flood fuel (b.rename σ) = (Board.flood fuel b).map (Board.rename σ) := by
  induction fuel generalizing b with
  | zero => rfl
  | succ n ih =>
    simp only [Board.flood]
    rw [flood_pass_rename σ hz]
    simp only
    split
    · rfl
    · exact ih _

theorem seed_pads_rename (σ : UUID → UUID) (hz : ∀ x, σ x = 0 ↔ x = 0) (s : UUID)
    (pads : List (UUID × Pad)) :
    seed_pads (σ s) (pads.map fun e => (e.1, e.2.rename σ)) =
      (seed_pads s pads).map fun r => (r.1.map fun e => (e.1, e.2.rename σ), r.2) := by
  induction pads with
  | nil => rfl
  | cons e r ih =>
    obtain ⟨k, p⟩ := e
    simp only [List.map_cons, seed_pads]
    have hn : (p.rename σ).net = p.net := rfl
    have hs : (p.rename σ).net_segment = σ p.net_segment := rfl
    by_cases h : p.net_segment = 0 ∧ p.net ≠ none
    · have h' : (p.rename σ).net_segment = 0 ∧ (p.rename σ).net ≠ none := by
        rw [hn, hs]; exact ⟨(hz _).2 h.1, h.2⟩
      rw [if_pos h', if_pos h]
      rfl
    · have h' : ¬ ((p.rename σ).net_segment = 0 ∧ (p.rename σ).net ≠ none) := by
        rw [hn, hs]
        exact fun q => h ⟨(hz _).1 q.1, q.2⟩
      rw [if_neg h', if_neg h, ih]
      cases seed_pads s r with
      | none => rfl
      | some x => rfl

theorem seed_packages_rename (σ : UUID → UUID) (hz : ∀ x, σ x = 0 ↔ x = 0) (s : UUID)
    (pkgs : List (UUID × BoardPackage)) :
    seed_packages (σ s) (pkgs.map fun e => (e.1, e.2.rename σ)) =
      (seed_packages s pkgs).map fun r => (r.1.map fun e => (e.1, e.2.rename σ), r.2) := by
  induction pkgs with
  | nil => rfl
  | cons e r ih =>
    obtain ⟨k, p⟩ := e
    simp only [List.map_cons, seed_packages]
    have hp : (p.rename σ).pads = p.pads.map fun e => (e.1, e.2.rename σ) := rfl
    rw [hp, seed_pads_rename σ hz s p.pads]
    cases seed_pads s p.pads with
    | some x => rfl
    | none =>
      simp only [Option.map_none']
      rw [ih]
      cases seed_packages s r with
      | none => rfl
      | some x => rfl

theorem segmentAt_rename (σ : UUID → UUID) (hinj : Function.Injective σ)
    (ns : List (UUID × Option Net)) (s : UUID) :
    mapAt (ns.map fun e => (σ e.1, e.2)) (σ s) = mapAt ns s := by
  induction ns with
  | nil => rfl
  | cons e r ih =>
    obtain ⟨k, v⟩ := e
    simp only [List.map_cons, mapAt]
    by_cases h : k = s
    · rw [if_pos h, if_pos (by rw [h])]
    · rw [if_neg h, if_neg (fun q => h (hinj q))]
      exact ih

theorem mapEmplace_rename (σ : UUID → UUID) (hinj : Function.Injective σ)
    (ns : List (UUID × Option Net)) (s : UUID) (n : Option Net) :
    mapEmplace (ns.map fun e => (σ e.1, e.2)) (σ s) n =
      (mapEmplace ns s n).map fun e => (σ e.1, e.2) := by
  unfold mapEmplace
  rw [segmentAt_rename σ hinj]
  cases mapAt ns s with
  | some w => rfl
  | none => simp

theorem seed_rename (σ : UUID → UUID) (hz : ∀ x, σ x = 0 ↔ x = 0) (hinj : Function.Injective σ)
    (s : UUID) (b : Board) :
    (b.rename σ).seed (σ s) = (b.seed s).map (Board.rename σ) := by
  unfold Board.seed
  have hp : (b.rename σ).packages = b.packages.map fun e => (e.1, e.2.rename σ) := rfl
  rw [hp, seed_packages_rename σ hz s b.packages]
  cases seed_packages s b.packages with
  | none => rfl
  | some x =>
    simp only [Option.map_some']
    congr 1
    simp only [Board.rename]
    congr 1
    exact mapEmplace_rename σ hinj b.net_segments s x.2

theorem seed_loop_rename (σ : UUID → UUID) (hz : ∀ x, σ x = 0 ↔ x = 0)
    (hinj : Function.Injective σ) (c : Nat → UUID) (fuel j : Nat) (b : Board) :
    Board.seed_loop (fun i => σ (c i)) fuel j (b.rename σ) =
      (Board.seed_loop c fuel j b).map (Board.rename σ) := by
  induction fuel generalizing j b with
  | zero => rfl
  | succ n ih =>
    simp only [Board.seed_loop]
    rw [seed_rename σ hz hinj]
    cases b.seed (c j) with
    | none => rfl
    | some b1 =>
      simp only [Option.map_some']
      rw [flood_rename σ hz]
      cases Board.flood (n + 1) b1 with
      | none => rfl
      | some b2 =>
        simp only [Option.map_some']
        exact ih _ _

theorem assign_junction_nets_rename (σ : UUID → UUID) (hinj : Function.Injective σ)
    (ns : List (UUID × Option Net)) (js : List (UUID × Junction)) :
    assign_junction_nets (ns.map fun e => (σ e.1, e.2)) (js.map fun e => (e.1, e.2.rename σ)) =
      (assign_junction_nets ns js).map fun r => r.map fun e => (e.1, e.2.rename σ) := by
  induction js with
  | nil => rfl
  | cons e r ih =>
    obtain ⟨k, ju⟩ := e
    simp only [List.map_cons, assign_junction_nets]
    have hs : (ju.rename σ).net_segment = σ ju.net_segment := rfl
    rw [hs, segmentAt_rename σ hinj, ih]
    cases mapAt ns ju.net_segment with
    | none => rfl
    | some n =>
      cases assign_junction_nets ns r with
      | none => rfl
      | some r' => rfl

theorem track_conflict_rename (σ : UUID → UUID) (b : Board) (t : Track) :
    (b.rename σ).track_conflict (t.rename σ) = b.track_conflict t := by
  unfold Board.track_conflict
  simp only [conn_pad_net_rename]
  rfl

theorem check_tracks_rename (σ : UUID → UUID) (hinj : Function.Injective σ) (b : Board)
    (ts : List (UUID × Track)) :
    (b.rename σ).check_tracks (rename_tracks σ ts) =
      (b.check_tracks ts).map fun r => (rename_tracks σ r.1, r.2) := by
  induction ts with
  | nil => rfl
  | cons e r ih =>
    obtain ⟨k, t⟩ := e
    simp only [rename_tracks, List.map_cons, Board.check_tracks]
    have hs : (t.rename σ).net_segment = σ t.net_segment := rfl
    have hns : (b.rename σ).net_segments = b.net_segments.map fun e => (σ e.1, e.2) := rfl
    have ih' := ih
    simp only [rename_tracks] at ih'
    rw [hs, hns, segmentAt_rename σ hinj, ih']
    cases mapAt b.net_segments t.net_segment with
    | none => rfl
    | some n =>
      cases b.check_tracks r with
      | none => rfl
      | some x =>
        obtain ⟨r', d⟩ := x
        simp only [Option.map_some']
        have hc : (b.rename σ).track_conflict { t.rename σ with net := n } =
            b.track_conflict { t with net := n } :=
          track_conflict_rename σ b { t with net := n }
        split
        · rename_i h1
          have h2 : b.track_conflict { t with net := n } = true := hc.symm.trans h1
          rw [if_pos h2]
          rfl
        · rename_i h1
          have h2 : ¬ b.track_conflict { t with net := n } = true := fun q => h1 (hc.trans q)
          rw [if_neg h2]
          rfl

theorem propagate_rename (σ : UUID → UUID) (hz : ∀ x, σ x = 0 ↔ x = 0)
    (hinj : Function.Injective σ) (c : Nat → UUID) (fuel : Nat) (b : Board) :
    (b.rename σ).propagate_net_segments fuel (fun i => σ (c i)) =
      (b.propagate_net_segments fuel c).map fun r => (r.1.rename σ, r.2) := by
  unfold Board.propagate_net_segments
  have h0 : ({ b.rename σ with net_segments := mapEmplace [] 0 none } : Board) =
      ({ b with net_segments := mapEmplace [] 0 none } : Board).rename σ := by
    simp only [Board.rename]
    congr 1
    simp [mapEmplace, mapAt, (hz 0).2 rfl]
  rw [h0, seed_loop_rename σ hz hinj]
  cases Board.seed_loop c fuel 0 { b with net_segments := mapEmplace [] 0 none } with
  | none => rfl
  | some b1 =>
    simp only [Option.map_some']
    have hj : (b1.rename σ).junctions = b1.junctions.map fun e => (e.1, e.2.rename σ) := rfl
    have hn : (b1.rename σ).net_segments = b1.net_segments.map fun e => (σ e.1, e.2) := rfl
    rw [hj, hn, assign_junction_nets_rename σ hinj]
    cases assign_junction_nets b1.net_segments b1.junctions with
    | none => rfl
    | some js =>
      simp only [Option.map_some']
      have key : ∀ X : Board, X = ({ b1 with junctions := js } : Board).rename σ →
          (match X.check_tracks X.tracks with
            | none => none
            | some (ts, d) => some (({ X with tracks := ts } : Board), d)) =
          Option.map (fun r : Board × Bool => (r.1.rename σ, r.2))
            (match ({ b1 with junctions := js } : Board).check_tracks
                ({ b1 with junctions := js } : Board).tracks with
              | none => none
              | some (ts, d) =>
                some (({ ({ b1 with junctions := js } : Board) with tracks := ts } : Board), d)) := by
        intro X hX
        subst hX
        have ht : (({ b1 with junctions := js } : Board).rename σ).tracks =
            rename_tracks σ ({ b1 with junctions := js } : Board).tracks := rfl
        rw [ht, check_tracks_rename σ hinj]
        cases ({ b1 with junctions := js } : Board).check_tracks
            ({ b1 with junctions := js } : Board).tracks with
        | none => rfl
        | some x => rfl
      exact key _ rfl

theorem forget_segments_rename (σ : UUID → UUID) (b : Board) :
    (b.rename σ).forget_segments = b.forget_segments := by
  simp only [Board.forget_segments, Board.rename, rename_tracks, List.map_map]
  congr 1
  apply List.map_congr_left
  intro e _
  simp only [Function.comp, BoardPackage.rename, List.map_map]
  rfl

theorem rename_cleared (σ : UUID → UUID) (h0 : σ 0 = 0) (b : Board) :
    ({ b.clear_nets with net_segments := [] } : Board).rename σ =
      { b.clear_nets with net_segments := [] } := by
  simp only [Board.rename, Board.clear_nets, clear_packages, clear_tracks, clear_junctions,
    rename_tracks, List.map_map, List.map_nil]
  congr 1
  · apply List.map_congr_left
    intro e _
    simp only [Function.comp, BoardPackage.rename, List.map_map]
    congr 2
    apply List.map_congr_left
    intro p _
    simp only [Function.comp, Pad.rename, h0]
  · apply List.map_congr_left
    intro e _
    simp only [Function.comp, Junction.rename, h0]
  · apply List.map_congr_left
    intro e _
    simp only [Function.comp, Track.rename, h0]

theorem rename_to_zero (rnd : Nat → UUID) (h0 : ∀ i, rnd i ≠ 0) (x : UUID) :
    rename_to rnd x = 0 ↔ x = 0 := by
  unfold rename_to
  constructor
  · intro h
    by_contra hx
    rw [if_neg hx] at h
    exact h0 _ h
  · intro h
    rw [if_pos h]

theorem rename_to_injective (rnd : Nat → UUID) (hr : Function.Injective rnd)
    (h0 : ∀ i, rnd i ≠ 0) : Function.Injective (rename_to rnd) := by
  intro x y h
  unfold rename_to at h
  by_cases hx : x = 0
  · by_cases hy : y = 0
    · rw [hx, hy]
    · rw [if_pos hx, if_neg hy] at h
      exact absurd h.symm (h0 _)
  · by_cases hy : y = 0
    · rw [if_neg hx, if_pos hy] at h
      exact absurd h (h0 _)
    · rw [if_neg hx, if_neg hy] at h
      have key : ∀ a c : Nat, a ≠ 0 → c ≠ 0 → a - 1 = c - 1 → a = c := by
        intro a c h1 h2 h3
        omega
      exact key x y hx hy (hr h)

theorem propagate_canonical (fuel : Nat) (rnd : Nat → UUID) (hr : Function.Injective rnd)
    (h0 : ∀ i, rnd i ≠ 0) (b : Board) :
    b.clear_nets.propagate_net_segments fuel rnd =
      (b.clear_nets.propagate_net_segments fuel (fun i => i + 1)).map
        fun r => (r.1.rename (rename_to rnd), r.2) := by
  have h1 : b.clear_nets.propagate_net_segments fuel rnd =
      (({ b.clear_nets with net_segments := [] } : Board).rename
        (rename_to rnd)).propagate_net_segments fuel
          (fun i => rename_to rnd ((fun i => i + 1) i)) := by
    rw [rename_cleared _ ((rename_to_zero rnd h0 0).2 rfl)]
    have : (fun i => rename_to rnd ((fun i => i + 1) i)) = rnd := by
      funext i
      simp [rename_to]
    rw [this]
    rfl
  rw [h1, propagate_rename _ (rename_to_zero rnd h0) (rename_to_injective rnd hr h0)]
  rfl

/-- C16. For two supplies of pairwise different, non-null segment identifiers,
`propagate_net_segments` on the same cleared board gives the same result up to the
identifiers: both runs return or none does, they return the same flag and boards
that are equal once the net segment identifiers are forgotten; so they keep the
same tracks and give the same net to every track and every junction. The run
returns when the endpoints of the tracks exist and the fuel exceeds the size of
the board. -/
theorem propagate_independent_of_identifiers (fuel : Nat) (rnd rnd' : Nat → UUID)
    (hr : Function.Injective rnd) (h0 : ∀ i, rnd i ≠ 0) (hr' : Function.Injective rnd')
    (h0' : ∀ i, rnd' i ≠ 0) (b : Board) :
    ((b.clear_nets.propagate_net_segments fuel rnd).map (fun r => (r.1.forget_segments, r.2)) =
      (b.clear_nets.propagate_net_segments fuel rnd').map
        (fun r => (r.1.forget_segments, r.2))) ∧
    (∀ x d x' d', b.clear_nets.propagate_net_segments fuel rnd = some (x, d) →
      b.clear_nets.propagate_net_segments fuel rnd' = some (x', d') →
      d = d' ∧
      x.tracks.map (fun e => (e.1, e.2.from_, e.2.to_, e.2.net)) =
        x'.tracks.map (fun e => (e.1, e.2.from_, e.2.to_, e.2.net)) ∧
      x.junctions.map (fun e => (e.1, e.2.net)) = x'.junctions.map (fun e => (e.1, e.2.net))) ∧
    (tracks_live b b.tracks → b.size < fuel →
      ∃ r, b.clear_nets.propagate_net_segments fuel rnd = some r) := by
  have hmain : (b.clear_nets.propagate_net_segments fuel rnd).map
        (fun r => (r.1.forget_segments, r.2)) =
      (b.clear_nets.propagate_net_segments fuel rnd').map
        (fun r => (r.1.forget_segments, r.2)) := by
    rw [propagate_canonical fuel rnd hr h0 b, propagate_canonical fuel rnd' hr' h0' b,
      Option.map_map, Option.map_map]
    congr 1
    funext r
    simp only [Function.comp, forget_segments_rename]
  refine ⟨hmain, ?_, ?_⟩
  · intro x d x' d' h1 h2
    rw [h1, h2] at hmain
    simp only [Option.map_some', Option.some.injEq, Prod.mk.injEq] at hmain
    obtain ⟨hf, hd⟩ := hmain
    refine ⟨hd, ?_, ?_⟩
    · have := congrArg (fun y : Board =>
        y.tracks.map (fun e => (e.1, e.2.from_, e.2.to_, e.2.net))) hf
      simp only [Board.forget_segments, Board.rename, rename_tracks, List.map_map] at this
      exact this
    · have := congrArg (fun y : Board => y.junctions.map (fun e => (e.1, e.2.net))) hf
      simp only [Board.forget_segments, Board.rename, List.map_map] at this
      exact this
  · intro hl hf
    obtain ⟨b', d, h⟩ := propagate_total fuel rnd h0 b hl hf
    exact ⟨(b', d), h⟩

theorem propagate_independent_of_identifiers_witness :
    (board_orphan.expand_prepare.clear_nets.propagate_net_segments 10 (rnd_example 0)).map
        (fun r => (r.1.forget_segments, r.2)) =
      (board_orphan.expand_prepare.clear_nets.propagate_net_segments 10 rnd_other).map
        (fun r => (r.1.forget_segments, r.2)) ∧
    ∃ r, board_orphan.expand_prepare.clear_nets.propagate_net_segments 10 (rnd_example 0) =
      some r :=
  ⟨(propagate_independent_of_identifiers 10 (rnd_example 0) rnd_other
      (fun a c h => by simpa [rnd_example] using h) (fun i => Nat.succ_ne_zero i)
      (fun a c h => by simpa [rnd_other] using h) (fun i => by simp [rnd_other])
      board_orphan.expand_prepare).1,
    (propagate_independent_of_identifiers 10 (rnd_example 0) rnd_other
      (fun a c h => by simpa [rnd_example] using h) (fun i => Nat.succ_ne_zero i)
      (fun a c h => by simpa [rnd_other] using h) (fun i => by simp [rnd_other])
      board_orphan.expand_prepare).2.2 (by unfold tracks_live; decide) (by decide)⟩

theorem linked_refl (ts : List (UUID × Track)) (c : Connection) : Linked ts c c :=
  Relation.EqvGen.refl c

theorem linked_symm {ts : List (UUID × Track)} {a c : Connection} (h : Linked ts a c) :
    Linked ts c a := Relation.EqvGen.symm _ _ h

theorem linked_trans {ts : List (UUID × Track)} {a c d : Connection} (h1 : Linked ts a c)
    (h2 : Linked ts c d) : Linked ts a d := Relation.EqvGen.trans _ _ _ h1 h2

theorem linked_track {ts : List (UUID × Track)} (e : UUID × Track) (he : e ∈ ts) :
    Linked ts e.2.from_ e.2.to_ := Relation.EqvGen.rel _ _ ⟨e, he, rfl, rfl⟩

theorem linked_induct {ts : List (UUID × Track)} (R : Connection → Connection → Prop)
    (hr : ∀ a, R a a) (hs : ∀ a c, R a c → R c a) (ht : ∀ a c d, R a c → R c d → R a d)
    (he : ∀ e ∈ ts, R e.2.from_ e.2.to_) {a c : Connection} (h : Linked ts a c) : R a c := by
  induction h with
  | rel x y hxy =>
    obtain ⟨e, h1, h2, h3⟩ := hxy
    rw [← h2, ← h3]
    exact he e h1
  | refl x => exact hr x
  | symm x y _ ih => exact hs x y ih
  | trans x y z _ _ ih1 ih2 => exact ht x y z ih1 ih2

theorem reach_link (ts : List (UUID × Track)) (pn : Connection → Option Net)
    (ns : List (UUID × Option Net)) (c c' : Connection) (s : UUID) (h : reach ts pn ns c s)
    (hl : Linked ts c' c) : reach ts pn ns c' s := by
  obtain ⟨P, n, h1, h2, h3⟩ := h
  exact ⟨P, n, linked_trans hl h1, h2, h3⟩

theorem mapAt_mapEmplace_some {α : Type} (m : List (UUID × α)) (k x : UUID) (w v : α)
    (h : mapAt m x = some v) : mapAt (mapEmplace m k w) x = some v := by
  unfold mapEmplace
  split
  · exact h
  · rw [mapAt_append, h]

theorem mapAt_mapEmplace_new {α : Type} (m : List (UUID × α)) (k : UUID) (w : α)
    (h : mapAt m k = none) : mapAt (mapEmplace m k w) k = some w := by
  unfold mapEmplace
  rw [h]
  simp only
  rw [mapAt_append, h]
  simp

theorem reach_emplace (ts : List (UUID × Track)) (pn : Connection → Option Net)
    (ns : List (UUID × Option Net)) (k : UUID) (w : Option Net) (c : Connection) (s : UUID)
    (h : reach ts pn ns c s) : reach ts pn (mapEmplace ns k w) c s := by
  obtain ⟨P, n, h1, h2, h3⟩ := h
  exact ⟨P, n, h1, h2, mapAt_mapEmplace_some ns k s w _ h3⟩

theorem seed_pads_net_at (s : UUID) (pads pads' : List (UUID × Pad)) (n : Option Net)
    (h : seed_pads s pads = some (pads', n)) (k : UUID) :
    n ≠ none ∧ (mapAt pads' k = mapAt pads k ∨
      ∃ p, mapAt pads k = some p ∧ p.net_segment = 0 ∧ p.net = n ∧
        mapAt pads' k = some { p with net_segment := s }) := by
  induction pads generalizing pads' with
  | nil => simp [seed_pads] at h
  | cons e r ih =>
    obtain ⟨a, p⟩ := e
    simp only [seed_pads] at h
    by_cases hc : p.net_segment = 0 ∧ p.net ≠ none
    · rw [if_pos hc] at h
      simp only [Option.some.injEq, Prod.mk.injEq] at h
      rw [← h.1, ← h.2]
      refine ⟨hc.2, ?_⟩
      by_cases hk : a = k
      · right
        exact ⟨p, by simp [mapAt, hk], hc.1, rfl, by simp [mapAt, hk]⟩
      · left
        simp [mapAt, hk]
    · rw [if_neg hc] at h
      cases hr : seed_pads s r with
      | none => rw [hr] at h; simp at h
      | some x =>
        obtain ⟨r', n'⟩ := x
        rw [hr] at h
        simp only [Option.some.injEq, Prod.mk.injEq] at h
        have := ih r' (by rw [hr, h.2])
        refine ⟨this.1, ?_⟩
        rw [← h.1]
        by_cases hk : a = k
        · left
          simp [mapAt, hk]
        · simp only [mapAt, hk, if_false]
          exact this.2

theorem seed_packages_net_at (s : UUID) (pkgs pkgs' : List (UUID × BoardPackage))
    (n : Option Net) (h : seed_packages s pkgs = some (pkgs', n)) (pk pd : UUID) :
    n ≠ none ∧ (padAt pkgs' pk pd = padAt pkgs pk pd ∨
      ∃ p, padAt pkgs pk pd = some p ∧ p.net_segment = 0 ∧ p.net = n ∧
        padAt pkgs' pk pd = some { p with net_segment := s }) := by
  induction pkgs generalizing pkgs' with
  | nil => simp [seed_packages] at h
  | cons e r ih =>
    obtain ⟨a, p⟩ := e
    simp only [seed_packages] at h
    cases hp : seed_pads s p.pads with
    | some x =>
      obtain ⟨pads', n'⟩ := x
      rw [hp] at h
      simp only [Option.some.injEq, Prod.mk.injEq] at h
      have := seed_pads_net_at s p.pads pads' n' hp pd
      rw [← h.1, ← h.2]
      refine ⟨this.1, ?_⟩
      by_cases hk : a = pk
      · simp only [padAt, mapAt, hk, if_true]
        exact this.2
      · left
        simp [padAt, mapAt, hk]
    | none =>
      rw [hp] at h
      simp only at h
      cases hr : seed_packages s r with
      | none => rw [hr] at h; simp at h
      | some x =>
        obtain ⟨r', n'⟩ := x
        rw [hr] at h
        simp only [Option.some.injEq, Prod.mk.injEq] at h
        have := ih r' (by rw [hr, h.2])
        refine ⟨this.1, ?_⟩
        rw [← h.1]
        by_cases hk : a = pk
        · left
          simp [padAt, mapAt, hk]
        · have h2 := this.2
          simpa [padAt, mapAt, hk] using h2

theorem seed_conn_net (b b1 : Board) (s : UUID) (h : b.seed s = some b1) :
    ∃ n, n ≠ none ∧ b1.net_segments = mapEmplace b.net_segments s n ∧
      ∀ c, b1.conn_segment c = b.conn_segment c ∨
        (b.conn_segment c = 0 ∧ b1.conn_segment c = s ∧ b.conn_pad_net c = n) := by
  unfold Board.seed at h
  cases hp : seed_packages s b.packages with
  | none => rw [hp] at h; simp at h
  | some x =>
    obtain ⟨pkgs', n⟩ := x
    rw [hp] at h
    simp only [Option.some.injEq] at h
    refine ⟨n, (seed_packages_net_at s b.packages pkgs' n hp 0 0).1, by rw [← h], ?_⟩
    intro c
    rw [← h]
    cases c with
    | junc j => left; rfl
    | pad pk pd =>
      simp only [Board.conn_segment, Board.conn_pad_net]
      rcases (seed_packages_net_at s b.packages pkgs' n hp pk pd).2 with h1 | ⟨p, h1, h2, h3, h4⟩
      · left; rw [h1]
      · right; rw [h1, h4]; exact ⟨h2, rfl, h3⟩

theorem set_conn_segment_net_segments (b : Board) (c : Connection) (s : UUID) :
    (b.set_conn_segment c s).net_segments = b.net_segments := by
  cases c <;> rfl

theorem board_reach_set (ts : List (UUID × Track)) (pn : Connection → Option Net)
    (ns : List (UUID × Option Net)) (b : Board) (c : Connection) (s : UUID)
    (h : board_reach ts pn ns b) (hr : reach ts pn ns c s) :
    board_reach ts pn ns (b.set_conn_segment c s) := by
  refine ⟨by rw [set_conn_segment_net_segments]; exact h.1, ?_, ?_⟩
  · intro c'
    rw [conn_pad_net_set]
    exact h.2.1 c'
  · intro c' hc'
    rw [conn_segment_set] at hc' ⊢
    by_cases hx : c' = c ∧ b.conn_live c = true
    · rw [if_pos hx]
      rw [hx.1]
      exact hr
    · rw [if_neg hx] at hc' ⊢
      exact h.2.2 c' hc'

theorem propagate_to_reach (ts : List (UUID × Track)) (pn : Connection → Option Net)
    (ns : List (UUID × Option Net)) (seg : UUID) (c : Connection) (st : Board × Nat)
    (h : board_reach ts pn ns st.1) (hr : reach ts pn ns c seg) :
    board_reach ts pn ns (propagate_to seg c st).1 := by
  unfold propagate_to
  split
  · exact board_reach_set ts pn ns st.1 c seg h hr
  · exact h

theorem propagate_from_reach (ts : List (UUID × Track)) (pn : Connection → Option Net)
    (ns : List (UUID × Option Net)) (b : Board) (c : Connection) (st : Track × Nat)
    (h : board_reach ts pn ns b) (ht : track_reach ts pn ns st.1)
    (hl : Linked ts st.1.from_ c) : track_reach ts pn ns (propagate_from b c st).1 := by
  unfold propagate_from
  split
  · rename_i hc
    refine ⟨ht.1, ?_⟩
    intro _
    exact reach_link ts pn ns c _ _ (h.2.2 c hc) hl
  · exact ht

theorem flood_track_reach (ts : List (UUID × Track)) (pn : Connection → Option Net)
    (ns : List (UUID × Option Net)) (t : Track) (st : Board × Nat)
    (ht : track_reach ts pn ns t) (h : board_reach ts pn ns st.1) :
    track_reach ts pn ns (flood_track t st).1 ∧ board_reach ts pn ns (flood_track t st).2.1 := by
  obtain ⟨e0, he0, hf, hto⟩ := ht.1
  have hlink : Linked ts t.from_ t.to_ := by
    rw [← hf, ← hto]
    exact linked_track e0 he0
  unfold flood_track
  by_cases hs : t.net_segment ≠ 0
  · rw [if_pos hs]
    simp only
    have r1 := ht.2 hs
    have r2 := reach_link ts pn ns _ t.to_ _ r1 (linked_symm hlink)
    exact ⟨ht, propagate_to_reach ts pn ns _ _ _ (propagate_to_reach ts pn ns _ _ st h r1) r2⟩
  · rw [if_neg hs]
    simp only
    have a1 := propagate_from_reach ts pn ns st.1 t.from_ (t, st.2) h ht (linked_refl _ _)
    have f1 := propagate_from_fields st.1 t.from_ (t, st.2)
    have a2 := propagate_from_reach ts pn ns st.1 t.to_ (propagate_from st.1 t.from_ (t, st.2))
      h a1 (by rw [f1.1]; exact hlink)
    exact ⟨a2, h⟩

theorem flood_pass_island (ts : List (UUID × Track)) (pn : Connection → Option Net) (b : Board)
    (h : island_inv ts pn b) : island_inv ts pn b.flood_pass.1 := by
  have := flood_pass_pres (track_reach ts pn b.net_segments) (board_reach ts pn b.net_segments)
    (fun t st h1 h2 => flood_track_reach ts pn b.net_segments t st h1 h2)
    (fun x _ hx => hx) b h
  unfold island_inv
  rw [flood_pass_net_segments]
  exact this

theorem seed_island (rnd : Nat → UUID) (hinj : Function.Injective rnd) (h0 : ∀ i, rnd i ≠ 0)
    (ts : List (UUID × Track)) (pn : Connection → Option Net) (j : Nat) (b b1 : Board)
    (h : island_inv ts pn b) (hk : keys_drawn rnd j b) (hs : b.seed (rnd j) = some b1) :
    island_inv ts pn b1 ∧ keys_drawn rnd (j + 1) b1 := by
  obtain ⟨n, hn, hns, hc⟩ := seed_conn_net b b1 (rnd j) hs
  have hfresh : mapAt b.net_segments (rnd j) = none := by
    cases hm : mapAt b.net_segments (rnd j) with
    | none => rfl
    | some v =>
      exfalso
      rcases hk.1 _ (mapAt_mem _ _ _ hm) with q | ⟨i, hi, q⟩
      · exact h0 j q
      · have := hinj q
        omega
  have hnew := mapAt_mapEmplace_new b.net_segments (rnd j) n hfresh
  obtain ⟨N, hN⟩ := Option.ne_none_iff_exists'.1 hn
  have hpn : ∀ c, b1.conn_pad_net c = pn c := by
    intro c
    rw [conn_pad_net_same b b1 (same_store_seed b b1 _ hs)]
    exact h.2.2.1 c
  refine ⟨⟨?_, ?_, hpn, ?_⟩, ?_, ?_⟩
  · intro e he
    rw [(seed_fields b b1 _ hs).1] at he
    have := h.1 e he
    rw [hns]
    exact ⟨this.1, fun hz => reach_emplace ts pn _ _ _ _ _ (this.2 hz)⟩
  · rfl
  · intro c hcz
    rw [hns]
    rcases hc c with q | ⟨q1, q2, q3⟩
    · rw [q] at hcz ⊢
      exact reach_emplace ts pn _ _ _ _ _ (h.2.2.2 c hcz)
    · rw [q2]
      refine ⟨c, N, linked_refl _ _, ?_, ?_⟩
      · rw [← h.2.2.1 c, q3, hN]
      · rw [hnew, hN]
  · intro kv hkv
    rw [hns] at hkv
    rcases mem_mapEmplace _ _ _ _ hkv with q | q
    · rcases hk.1 kv q with q | ⟨i, hi, q⟩
      · exact Or.inl q
      · exact Or.inr ⟨i, Nat.lt_succ_of_lt hi, q⟩
    · exact Or.inr ⟨j, Nat.lt_succ_self _, by rw [q]⟩
  · rw [hns]
    exact mapAt_mapEmplace_some _ _ _ _ _ hk.2

theorem seed_loop_island (rnd : Nat → UUID) (hinj : Function.Injective rnd) (h0 : ∀ i, rnd i ≠ 0)
    (ts : List (UUID × Track)) (pn : Connection → Option Net) (fuel j : Nat) (b b' : Board)
    (h : island_inv ts pn b) (hk : keys_drawn rnd j b)
    (hs : Board.seed_loop rnd fuel j b = some b') :
    island_inv ts pn b' ∧ mapAt b'.net_segments 0 = some none ∧
      ∃ j', b'.seed (rnd j') = none := by
  have h1 : ∀ (j : Nat) (x x1 : Board), (island_inv ts pn x ∧ keys_drawn rnd j x) →
      x.seed (rnd j) = some x1 → (island_inv ts pn x1 ∧ keys_drawn rnd (j + 1) x1) :=
    fun j x x1 hx hs => seed_island rnd hinj h0 ts pn j x x1 hx.1 hx.2 hs
  have h2 : ∀ (j : Nat) (x : Board), (island_inv ts pn x ∧ keys_drawn rnd (j + 1) x) →
      (island_inv ts pn x.flood_pass.1 ∧ keys_drawn rnd (j + 1) x.flood_pass.1) := by
    intro j x hx
    refine ⟨flood_pass_island ts pn x hx.1, ?_⟩
    unfold keys_drawn
    rw [flood_pass_net_segments]
    exact hx.2
  obtain ⟨j', hI, hnone⟩ := seed_loop_induct rnd
    (fun j x => island_inv ts pn x ∧ keys_drawn rnd j x)
    (fun j x => island_inv ts pn x ∧ keys_drawn rnd (j + 1) x) h1 h2
    (fun _ _ hx _ => hx) fuel j b b' ⟨h, hk⟩ hs
  exact ⟨hI.1, hI.2.2, j', hnone⟩

theorem seed_pads_none (s : UUID) (pads : List (UUID × Pad)) (h : seed_pads s pads = none) :
    ∀ e ∈ pads, ¬ (e.2.net_segment = 0 ∧ e.2.net ≠ none) := by
  induction pads with
  | nil => intro e he; simp at he
  | cons e r ih =>
    obtain ⟨a, p⟩ := e
    simp only [seed_pads] at h
    by_cases hc : p.net_segment = 0 ∧ p.net ≠ none
    · rw [if_pos hc] at h
      simp at h
    · rw [if_neg hc] at h
      cases hr : seed_pads s r with
      | some x => rw [hr] at h; simp at h
      | none =>
        intro e he
        rcases List.mem_cons.1 he with q | q
        · rw [q]; exact hc
        · exact ih hr e q

theorem seed_packages_none (s : UUID) (pkgs : List (UUID × BoardPackage))
    (h : seed_packages s pkgs = none) :
    ∀ pk ∈ pkgs, ∀ e ∈ pk.2.pads, ¬ (e.2.net_segment = 0 ∧ e.2.net ≠ none) := by
  induction pkgs with
  | nil => intro pk hpk; simp at hpk
  | cons e r ih =>
    obtain ⟨a, p⟩ := e
    simp only [seed_packages] at h
    cases hp : seed_pads s p.pads with
    | some x => rw [hp] at h; simp at h
    | none =>
      rw [hp] at h
      simp only at h
      cases hr : seed_packages s r with
      | some x => rw [hr] at h; simp at h
      | none =>
        intro pk hpk
        rcases List.mem_cons.1 hpk with q | q
        · rw [q]; exact seed_pads_none s p.pads hp
        · exact ih hr pk q

theorem seed_none_labelled (b : Board) (s : UUID) (h : b.seed s = none) (c : Connection) (N : Net)
    (hc : b.conn_pad_net c = some N) : b.conn_segment c ≠ 0 := by
  have hp : seed_packages s b.packages = none := by
    unfold Board.seed at h
    cases hq : seed_packages s b.packages with
    | none => rfl
    | some x => rw [hq] at h; simp at h
  cases c with
  | junc j => simp [Board.conn_pad_net] at hc
  | pad pk pd =>
    simp only [Board.conn_pad_net, Board.conn_segment] at hc ⊢
    cases hpad : padAt b.packages pk pd with
    | none => rw [hpad] at hc; simp at hc
    | some p =>
      rw [hpad] at hc
      simp only at hc ⊢
      unfold padAt at hpad
      cases hpkg : mapAt b.packages pk with
      | none => rw [hpkg] at hpad; simp at hpad
      | some P =>
        rw [hpkg] at hpad
        simp only at hpad
        have := seed_packages_none s b.packages hp (pk, P) (mapAt_mem _ _ _ hpkg) (pd, p)
          (mapAt_mem _ _ _ hpad)
        intro hz
        exact this ⟨hz, by rw [hc]; simp⟩

theorem conn_segment_assign (b1 b' : Board)
    (hj : assign_junction_nets b1.net_segments b1.junctions = some b'.junctions)
    (hp : b'.packages = b1.packages) (c : Connection) :
    b'.conn_segment c = b1.conn_segment c := by
  cases c with
  | junc j =>
    simp only [Board.conn_segment]
    rcases assign_junction_nets_at _ _ _ hj j with ⟨x1, x2⟩ | ⟨ju, n, x1, _, x3⟩
    · rw [x1, x2]
    · rw [x1, x3]
  | pad pk pd => simp only [Board.conn_segment, hp]

theorem resolve_junction (b1 b' : Board)
    (hj : assign_junction_nets b1.net_segments b1.junctions = some b'.junctions)
    (j : UUID) (ju : Junction) (h : mapAt b'.junctions j = some ju) :
    mapAt b1.net_segments (b1.conn_segment (.junc j)) = some ju.net := by
  rcases assign_junction_nets_at _ _ _ hj j with ⟨_, x2⟩ | ⟨ju0, n, x1, x2, x3⟩
  · rw [x2] at h; simp at h
  · rw [x3] at h
    simp only [Option.some.injEq] at h
    simp only [Board.conn_segment, x1]
    rw [x2, ← h]

theorem linked_of_skeleton (ts ts' : List (UUID × Track))
    (h : clear_tracks ts' = clear_tracks ts) (e : UUID × Track) (he : e ∈ ts) :
    ∃ e' ∈ ts', e'.2.from_ = e.2.from_ ∧ e'.2.to_ = e.2.to_ := by
  have h1 : (e.1, ({ e.2 with net := none, net_segment := 0 } : Track)) ∈ clear_tracks ts :=
    List.mem_map.2 ⟨e, he, rfl⟩
  rw [← h] at h1
  obtain ⟨e', he', heq⟩ := List.mem_map.1 h1
  have h2 := congrArg (fun x : UUID × Track => x.2.from_) heq
  have h3 := congrArg (fun x : UUID × Track => x.2.to_) heq
  exact ⟨e', he', h2, h3⟩

theorem pass_island_facts (fuel : Nat) (rnd : Nat → UUID) (hinj : Function.Injective rnd)
    (h0 : ∀ i, rnd i ≠ 0) (b b' : Board) (d : Bool)
    (h : b.clear_nets.propagate_net_segments fuel rnd = some (b', d)) :
    ∃ b1 : Board, (∀ c, b'.conn_segment c = b1.conn_segment c) ∧ b1.agree ∧
      clear_tracks b1.tracks = clear_tracks b.tracks ∧
      island_inv b.tracks b.conn_pad_net b1 ∧ mapAt b1.net_segments 0 = some none ∧
      (∀ c N, b.conn_pad_net c = some N → b1.conn_segment c ≠ 0) ∧
      b'.net_segments = b1.net_segments ∧
      (∀ j ju, mapAt b'.junctions j = some ju →
        mapAt b1.net_segments (b1.conn_segment (.junc j)) = some ju.net) ∧
      (∀ e ∈ b'.tracks, ∃ e1 ∈ b1.tracks, e.2.from_ = e1.2.from_ ∧ e.2.to_ = e1.2.to_ ∧
        e.2.net_segment = e1.2.net_segment ∧
        e.2.net = (mapAt b1.net_segments e1.2.net_segment).getD none) := by
  obtain ⟨b1, h1, h2, h3, h4, _, _, _, _, h5, _⟩ := propagate_spec fuel rnd _ b' d h
  have hag := (seed_loop_agree rnd fuel 0 _ b1 (clear_agree b _) h1).1
  have hsame := seed_loop_same rnd fuel 0 _ b1 h1
  have hinit : island_inv b.tracks b.conn_pad_net
      { b.clear_nets with net_segments := mapEmplace [] 0 none } := by
    refine ⟨?_, rfl, ?_, ?_⟩
    · intro e he
      obtain ⟨e0, he0, heq⟩ := List.mem_map.1 (show e ∈ clear_tracks b.tracks from he)
      rw [← heq]
      exact ⟨⟨e0, he0, rfl, rfl⟩, fun hz => absurd rfl hz⟩
    · intro c
      exact conn_pad_net_same b _ (same_store_clear b _) c
    · intro c hc
      exact absurd (conn_segment_clear b c) hc
  have hkeys : keys_drawn rnd 0 { b.clear_nets with net_segments := mapEmplace [] 0 none } := by
    refine ⟨?_, rfl⟩
    intro kv hkv
    left
    have : kv = (0, none) := by simpa [mapEmplace, mapAt] using hkv
    rw [this]
  obtain ⟨hI, hz, j', hnone⟩ := seed_loop_island rnd hinj h0 b.tracks b.conn_pad_net fuel 0 _ b1
    hinit hkeys h1
  refine ⟨b1, conn_segment_assign b1 b' h2 h3, hag, ?_, hI, hz, ?_, h4,
    resolve_junction b1 b' h2, ?_⟩
  · rw [hsame.2]
    exact clear_tracks_idem _
  · intro c N hc
    exact seed_none_labelled b1 _ hnone c N (by rw [hI.2.2.1 c]; exact hc)
  · intro e he
    rw [h5] at he
    obtain ⟨e0, he0, heq⟩ := List.mem_map.1 (List.mem_filter.1 he).1
    refine ⟨e0, he0, ?_, ?_, ?_, ?_⟩ <;> rw [← heq] <;> rfl

/-- C20. After one pass of `propagate_net_segments` on the cleared board, with
pairwise different, non-null identifiers: two junctions or pads that a chain of
tracks joins carry the same net segment, and so does every remaining track with
its endpoints; on an island with a pad that has a net the segment is not null and
is bound to the net of a pad of the island that has a net, so when all such pads
of the island have the net `N`, every junction and track of the island resolves
to `N`; on an island without such a pad the segment is null and every junction and
track resolves to no net. The pass returns when the endpoints of the tracks exist
and the fuel exceeds the size of the board. -/
theorem islands_labelled (fuel : Nat) (rnd : Nat → UUID) (hinj : Function.Injective rnd)
    (h0 : ∀ i, rnd i ≠ 0) (b : Board) :
    (∀ b' d, b.clear_nets.propagate_net_segments fuel rnd = some (b', d) →
      (∀ c1 c2, Linked b.tracks c1 c2 → b'.conn_segment c1 = b'.conn_segment c2) ∧
      (∀ e ∈ b'.tracks, b'.conn_segment e.2.from_ = e.2.net_segment ∧
        b'.conn_segment e.2.to_ = e.2.net_segment ∧ Linked b.tracks e.2.from_ e.2.to_) ∧
      (∀ c P N, Linked b.tracks c P → b.conn_pad_net P = some N →
        b'.conn_segment c ≠ 0 ∧
        ∃ P' N', Linked b.tracks c P' ∧ b.conn_pad_net P' = some N' ∧
          mapAt b'.net_segments (b'.conn_segment c) = some (some N')) ∧
      (∀ c P N, Linked b.tracks c P → b.conn_pad_net P = some N →
        (∀ P' N', Linked b.tracks c P' → b.conn_pad_net P' = some N' → N' = N) →
        (∀ j ju, c = .junc j → mapAt b'.junctions j = some ju → ju.net = some N) ∧
        (∀ e ∈ b'.tracks, Linked b.tracks c e.2.from_ → e.2.net = some N)) ∧
      (∀ c, (∀ P, Linked b.tracks c P → b.conn_pad_net P = none) →
        b'.conn_segment c = 0 ∧
        (∀ j ju, c = .junc j → mapAt b'.junctions j = some ju → ju.net = none) ∧
        (∀ e ∈ b'.tracks, Linked b.tracks c e.2.from_ → e.2.net = none))) ∧
    (tracks_live b b.tracks → b.size < fuel →
      ∃ r, b.clear_nets.propagate_net_segments fuel rnd = some r) := by
  constructor
  · intro b' d h
    obtain ⟨b1, f1, f2, f3, f4, f5, f6, f7, f8, f9⟩ :=
      pass_island_facts fuel rnd hinj h0 b b' d h
    have hsame : ∀ c1 c2, Linked b.tracks c1 c2 → b1.conn_segment c1 = b1.conn_segment c2 := by
      intro c1 c2 hl
      refine linked_induct (fun a c => b1.conn_segment a = b1.conn_segment c)
        (fun _ => rfl) (fun _ _ q => q.symm) (fun _ _ _ q1 q2 => q1.trans q2) ?_ hl
      intro e he
      obtain ⟨e1, he1, q1, q2⟩ := linked_of_skeleton b.tracks b1.tracks f3 e he
      rw [← q1, ← q2, (f2 e1 he1).1, (f2 e1 he1).2]
    have hnetted : ∀ c P N, Linked b.tracks c P → b.conn_pad_net P = some N →
        b1.conn_segment c ≠ 0 ∧
        ∃ P' N', Linked b.tracks c P' ∧ b.conn_pad_net P' = some N' ∧
          mapAt b1.net_segments (b1.conn_segment c) = some (some N') := by
      intro c P N hl hP
      have hz : b1.conn_segment c ≠ 0 := by
        rw [hsame c P hl]
        exact f6 P N hP
      obtain ⟨P', N', r1, r2, r3⟩ := f4.2.2.2 c hz
      exact ⟨hz, P', N', r1, r2, r3⟩
    have hfloat : ∀ c, (∀ P, Linked b.tracks c P → b.conn_pad_net P = none) →
        b1.conn_segment c = 0 := by
      intro c hc
      by_contra hz
      obtain ⟨P', N', r1, r2, _⟩ := f4.2.2.2 c hz
      rw [hc P' r1] at r2
      simp at r2
    have htrack : ∀ e ∈ b'.tracks, b1.conn_segment e.2.from_ = e.2.net_segment ∧
        b1.conn_segment e.2.to_ = e.2.net_segment ∧ Linked b.tracks e.2.from_ e.2.to_ ∧
        e.2.net = (mapAt b1.net_segments (b1.conn_segment e.2.from_)).getD none := by
      intro e he
      obtain ⟨e1, he1, q1, q2, q3, q4⟩ := f9 e he
      obtain ⟨e0, he0, p1, p2⟩ := (f4.1 e1 he1).1
      refine ⟨?_, ?_, ?_, ?_⟩
      · rw [q1, q3]; exact (f2 e1 he1).1
      · rw [q2, q3]; exact (f2 e1 he1).2
      · rw [q1, q2, ← p1, ← p2]; exact linked_track e0 he0
      · rw [q4, q1, (f2 e1 he1).1]
    refine ⟨?_, ?_, ?_, ?_, ?_⟩
    · intro c1 c2 hl
      rw [f1, f1]
      exact hsame c1 c2 hl
    · intro e he
      rw [f1, f1]
      exact ⟨(htrack e he).1, (htrack e he).2.1, (htrack e he).2.2.1⟩
    · intro c P N hl hP
      rw [f1, f7]
      exact hnetted c P N hl hP
    · intro c P N hl hP hall
      obtain ⟨hz, P', N', r1, r2, r3⟩ := hnetted c P N hl hP
      have hN : N' = N := hall P' N' r1 r2
      rw [hN] at r3
      constructor
      · intro j ju hj hju
        have := f8 j ju hju
        rw [← hj, r3] at this
        exact (Option.some.inj this).symm
      · intro e he hle
        rw [(htrack e he).2.2.2, ← hsame c _ hle, r3]
        rfl
    · intro c hc
      have hz := hfloat c hc
      refine ⟨by rw [f1]; exact hz, ?_, ?_⟩
      · intro j ju hj hju
        have := f8 j ju hju
        rw [← hj, hz, f5] at this
        exact (Option.some.inj this).symm
      · intro e he hle
        rw [(htrack e he).2.2.2, ← hsame c _ hle, hz, f5]
        rfl
  · intro hl hf
    obtain ⟨b', d, h⟩ := propagate_total fuel rnd h0 b hl hf
    exact ⟨(b', d), h⟩

theorem islands_labelled_witness :
    (board_one_track.expand_prepare.clear_nets.propagate_net_segments 10 (rnd_example 0)).map
        (fun r => (r.1.junctions.map (fun e => (e.1, e.2.net, e.2.net_segment)),
          r.1.tracks.map (fun e => (e.1, e.2.net, e.2.net_segment)))) =
      some ([(5, some 1, 1)], [(7, some 1, 1)]) ∧
    ∃ r, board_one_track.expand_prepare.clear_nets.propagate_net_segments 10 (rnd_example 0) =
      some r :=
  ⟨by decide,
    (islands_labelled 10 (rnd_example 0) (fun a c h => by simpa [rnd_example] using h)
      (fun i => Nat.succ_ne_zero i) board_one_track.expand_prepare).2
      (by unfold tracks_live; decide) (by decide)⟩

theorem seed_loop_keys (rnd : Nat → UUID) (fuel j : Nat) (b b' : Board) (hb : keys_of rnd b)
    (h : Board.seed_loop rnd fuel j b = some b') : keys_of rnd b' := by
  have h1 : ∀ (j : Nat) (x x1 : Board), keys_of rnd x → x.seed (rnd j) = some x1 →
      keys_of rnd x1 := by
    intro j x x1 hx hs
    obtain ⟨n, hn⟩ := seed_net_segments x x1 _ hs
    intro kv hkv
    rw [hn] at hkv
    rcases mem_mapEmplace _ _ _ _ hkv with q | q
    · exact hx kv q
    · exact Or.inr ⟨j, by rw [q]⟩
  have h2 : ∀ (j : Nat) (x : Board), keys_of rnd x → keys_of rnd x.flood_pass.1 := by
    intro j x hx
    unfold keys_of
    rw [flood_pass_net_segments]
    exact hx
  obtain ⟨_, hI, _⟩ := seed_loop_induct rnd (fun _ x => keys_of rnd x)
    (fun _ x => keys_of rnd x) h1 h2 (fun _ _ hx _ => hx) fuel j b b' hb h
  exact hI

theorem key_of_bound (rnd : Nat → UUID) (b : Board) (hk : keys_of rnd b) (s : UUID)
    (hs : bound_in b.net_segments s) : s = 0 ∨ ∃ i, s = rnd i := by
  unfold bound_in at hs
  obtain ⟨v, hv⟩ := Option.isSome_iff_exists.1 hs
  exact hk (s, v) (mapAt_mem _ _ _ hv)

/-- C26. On a board whose net segments `expand` has cleared, at the end of the flood
of `propagate_net_segments` the net segment of every junction and of every track
is the null identifier or an identifier drawn for a pad in this call, and it is a
key of `net_segments`; so every lookup `net_segments.at` succeeds and the call
returns when the flood has ended. The flood ends when the endpoints of the tracks
exist, the identifiers drawn are not null and the fuel exceeds the size of the
board. -/
theorem segment_lookups_succeed (fuel : Nat) (rnd : Nat → UUID) (b : Board) :
    (∀ b1, Board.seed_loop rnd fuel 0
        { b.clear_nets with net_segments := mapEmplace [] 0 none } = some b1 →
      (∀ e ∈ b1.junctions, (e.2.net_segment = 0 ∨ ∃ i, e.2.net_segment = rnd i) ∧
        (mapAt b1.net_segments e.2.net_segment).isSome = true) ∧
      (∀ e ∈ b1.tracks, (e.2.net_segment = 0 ∨ ∃ i, e.2.net_segment = rnd i) ∧
        (mapAt b1.net_segments e.2.net_segment).isSome = true) ∧
      ∃ r, b.clear_nets.propagate_net_segments fuel rnd = some r) ∧
    ((∀ i, rnd i ≠ 0) → tracks_live b b.tracks → b.size < fuel →
      ∃ r, b.clear_nets.propagate_net_segments fuel rnd = some r) := by
  constructor
  · intro b1 h1
    have hb := seed_loop_bound rnd fuel 0 _ b1 (clear_bound b) h1
    have hk : keys_of rnd b1 := seed_loop_keys rnd fuel 0 _ b1 (by
      intro kv hkv
      left
      have : kv = (0, none) := by simpa [mapEmplace, mapAt] using hkv
      rw [this]) h1
    refine ⟨fun e he => ⟨key_of_bound rnd b1 hk _ (hb.2.2.1 e he), hb.2.2.1 e he⟩,
      fun e he => ⟨key_of_bound rnd b1 hk _ (hb.1 e he), hb.1 e he⟩, ?_⟩
    obtain ⟨js, h2⟩ := assign_junction_nets_total b1.net_segments b1.junctions hb.2.2.1
    obtain ⟨r, h3⟩ := check_tracks_total { b1 with junctions := js } b1.tracks hb.1
    refine ⟨({ b1 with junctions := js, tracks := r.1 }, r.2), ?_⟩
    unfold Board.propagate_net_segments
    have e1 : Board.seed_loop rnd fuel 0
        { b.clear_nets with net_segments := mapEmplace [] 0 none } = some b1 := h1
    rw [e1]
    simp only
    rw [h2]
    simp only
    rw [h3]
  · intro hr hl hf
    obtain ⟨b', d, h⟩ := propagate_total fuel rnd hr b hl hf
    exact ⟨(b', d), h⟩

theorem segment_lookups_succeed_witness :
    (∃ r, board_one_track.expand_prepare.clear_nets.propagate_net_segments 10 (rnd_example 0) =
      some r) ∧
    ∀ b1, Board.seed_loop (rnd_example 0) 10 0
        { board_one_track.expand_prepare.clear_nets with
          net_segments := mapEmplace [] 0 none } = some b1 →
      (∀ e ∈ b1.junctions, (e.2.net_segment = 0 ∨ ∃ i, e.2.net_segment = rnd_example 0 i) ∧
        (mapAt b1.net_segments e.2.net_segment).isSome = true) ∧
      (∀ e ∈ b1.tracks, (e.2.net_segment = 0 ∨ ∃ i, e.2.net_segment = rnd_example 0 i) ∧
        (mapAt b1.net_segments e.2.net_segment).isSome = true) :=
  ⟨(segment_lookups_succeed 10 (rnd_example 0) board_one_track.expand_prepare).2
      (fun i => Nat.succ_ne_zero i) (by unfold tracks_live; decide) (by decide),
    fun b1 h =>
      ⟨((segment_lookups_succeed 10 (rnd_example 0) board_one_track.expand_prepare).1 b1 h).1,
        ((segment_lookups_succeed 10 (rnd_example 0)
          board_one_track.expand_prepare).1 b1 h).2.1⟩⟩

/-- C24, on the board `board_unnetted_pad` (a track from a pad on net 1 to a pad
without net): at the end of the propagation loop the track is still there, with
net 1; the terminals of net 1 are the first pad only, the lookup of the second
pad in the terminal index map fails, and `update_airwires` does not return. -/
theorem update_airwires_lookup_fails :
    ∃ b1 n, board_unnetted_pad.expand_prepare.propagate_loop rnd_example 10 10 0 =
        some (b1, n) ∧
      b1.tracks.map (fun e => (e.2.from_, e.2.to_, e.2.net)) =
        [(.pad 1 1, .pad 1 2, some 1)] ∧
      b1.terminals 1 = [(.pad 1 1, ⟨0, 0⟩)] ∧
      connmap_at (b1.terminals 1) (.pad 1 1) = some 0 ∧
      connmap_at (b1.terminals 1) (.pad 1 2) = none ∧
      collect_track_edges (b1.terminals 1) 1 b1.tracks [] = none ∧
      b1.update_airwires del_complete rnd_air_example = none :=
  ⟨_, _, rfl, by decide, by decide, by decide, by decide, by decide, by decide⟩

/-- C22, on the board `board_joined` (two pads of net 1 and a track that joins
them): the track is stored in `edges` as the pair `(1, 0)`, the candidate edge of
the two terminals is tested as the pair `(0, 1)` and is added too, so the list
handed to `kruskalMST` has two edges between the terminals 0 and 1. -/
theorem edges_for_mst_track_duplicate :
    ∃ b1 n, board_joined.expand_prepare.propagate_loop rnd_example 10 10 0 = some (b1, n) ∧
      collect_track_edges (b1.terminals 1) 1 b1.tracks [] = some [(1, 0)] ∧
      edges_for_mst del_complete (make_points (b1.terminals 1)) [(1, 0)] =
        [Edge.mk ⟨3, 4, 1⟩ ⟨0, 0, 0⟩ (-1), Edge.mk ⟨0, 0, 0⟩ ⟨3, 4, 1⟩ 25] ∧
      ((edges_for_mst del_complete (make_points (b1.terminals 1)) [(1, 0)]).filter
        (fun e => tri_pair e = (0, 1))).length = 2 :=
  ⟨_, _, rfl, by decide, by decide, by decide⟩

/-- C25, as stated, fails: the layer `100`, "Outline", is in the layer table, and
`flip_package_layer` takes it to `-200`, which is not. -/
theorem flip_outline_not_in_table :
    layerAt (set_n_inner_layers 0) 100 = some "Outline" ∧
    flip_package_layer 100 = -200 ∧
    layerAt (set_n_inner_layers 0) (flip_package_layer 100) = none :=
  ⟨rfl, by decide, rfl⟩

/-- With two inner layers, the inner layer `-2` is in the layer table and
`flip_package_layer` takes it to `-98`, which is not; only the layer `-1` is left
in place. -/
theorem flip_inner_not_in_table :
    (layerAt (set_n_inner_layers 2) (-2)).isSome = true ∧
    flip_package_layer (-2) = -98 ∧
    layerAt (set_n_inner_layers 2) (flip_package_layer (-2)) = none ∧
    flip_package_layer (-1) = -1 :=
  ⟨by decide, by decide, by decide, by decide⟩

/-- C25, amended. For every number of inner layers `n`, `flip_package_layer` takes
each of the seven top layers `0, ..., 60`, each of the seven bottom layers
`-100, ..., -160`, and the layer `-1` when the table has it, to a layer of the
layer table. -/
theorem flip_face_layer_in_table (n : Nat) (L : Int)
    (hL : L ∈ [0, 10, 20, 30, 40, 50, 60, -100, -110, -120, -130, -140, -150, -160, -1])
    (h : (layerAt (set_n_inner_layers n) L).isSome = true) :
    (layerAt (set_n_inner_layers n) (flip_package_layer L)).isSome = true := by
  have base : ∀ (l : Int) (s : String), layerAt base_layers l = some s →
      (layerAt (set_n_inner_layers n) l).isSome = true := by
    intro l s hs
    rw [set_n_inner_layers_base n l s hs]
    rfl
  simp only [List.mem_cons, List.mem_singleton, List.not_mem_nil, or_false] at hL
  rcases hL with q | q | q | q | q | q | q | q | q | q | q | q | q | q | q <;> subst q
  · exact base (-100) "Bottom Copper" (by decide)
  · exact base (-110) "Bottom Mask" (by decide)
  · exact base (-120) "Bottom Silkscreen" (by decide)
  · exact base (-130) "Bottom Paste" (by decide)
  · exact base (-140) "Bottom Package" (by decide)
  · exact base (-150) "Bottom Assembly" (by decide)
  · exact base (-160) "Bottom Courtyard" (by decide)
  · exact base 0 "Top Copper" rfl
  · exact base 10 "Top Mask" rfl
  · exact base 20 "Top Silkscreen" rfl
  · exact base 30 "Top Paste" rfl
  · exact base 40 "Top Package" rfl
  · exact base 50 "Top Assembly" rfl
  · exact base 60 "Top Courtyard" rfl
  · exact h

theorem flip_face_layer_in_table_witness :
    (layerAt (set_n_inner_layers 1) (flip_package_layer (-1))).isSome = true ∧
    (layerAt (set_n_inner_layers 1) (flip_package_layer 20)).isSome = true :=
  ⟨flip_face_layer_in_table 1 (-1) (by decide) (by decide),
    flip_face_layer_in_table 1 20 (by decide) (by decide)⟩

/-- The three outcomes of one round of the loop of `kruskalMST` for an edge that
joins two components. -/
theorem kruskal_step_merge (nodes : List Vector2) (dt : Edge) (s : MstState)
    (hm : s.tags dt.p1.id ≠ s.tags dt.p2.id) :
    ((s.ratsnestLines = true ∨ 0 ≤ dt.weight) →
      (kruskal_step nodes dt s).mst = s.mst ++ [dt] ∧
      (kruskal_step nodes dt s).mstSize = s.mstSize + 1 ∧
      (kruskal_step nodes dt s).mstExpectedSize = s.mstExpectedSize ∧
      (kruskal_step nodes dt s).ratsnestLines = true) ∧
    ((s.ratsnestLines = false ∧ dt.weight < 0) →
      (kruskal_step nodes dt s).mst = s.mst ∧
      (kruskal_step nodes dt s).mstSize = s.mstSize ∧
      (kruskal_step nodes dt s).mstExpectedSize = s.mstExpectedSize - 1 ∧
      (kruskal_step nodes dt s).ratsnestLines = false) := by
  constructor
  · intro h
    have hrl : (s.ratsnestLines || decide (0 ≤ dt.weight)) = true := by
      rcases h with h | h
      · rw [h]; rfl
      · rw [decide_eq_true h, Bool.or_true]
    unfold kruskal_step
    simp only
    rw [if_pos hm, hrl]
    simp only [if_true]
    exact ⟨trivial, trivial, trivial, trivial⟩
  · rintro ⟨h1, h2⟩
    have hrl : (s.ratsnestLines || decide (0 ≤ dt.weight)) = false := by
      rw [h1]
      simp only [Bool.false_or, decide_eq_false_iff_not]
      omega
    unfold kruskal_step
    simp only
    rw [if_pos hm, hrl]
    simp only [Bool.false_eq_true, if_false]
    exact ⟨trivial, trivial, trivial, trivial⟩

/-- A round of the loop for an edge that joins nothing leaves the state as it is. -/
theorem kruskal_step_same (nodes : List Vector2) (dt : Edge) (s : MstState)
    (hm : s.tags dt.p1.id = s.tags dt.p2.id) : kruskal_step nodes dt s = s := by
  unfold kruskal_step
  simp only
  rw [if_neg (not_not.2 hm)]

/-- Along a run over edges sorted by weight, the emitted edges have non-negative
weight, and once `ratsnestLines` is set the edges still to come have non-negative
weight. -/
theorem kruskal_run_sorted (nodes : List Vector2) (pr rest : List Edge) (s : MstState)
    (hs : (pr ++ rest).Pairwise (fun a b => a.weight ≤ b.weight))
    (h1 : ∀ e ∈ s.mst, 0 ≤ e.weight)
    (h2 : s.ratsnestLines = true → ∀ e ∈ pr ++ rest, 0 ≤ e.weight) :
    (∀ e ∈ (kruskal_run nodes pr s).mst, 0 ≤ e.weight) ∧
    ((kruskal_run nodes pr s).ratsnestLines = true → ∀ e ∈ rest, 0 ≤ e.weight) := by
  induction pr generalizing s with
  | nil => exact ⟨h1, h2⟩
  | cons dt r ih =>
    rw [kruskal_run_cons]
    rw [List.cons_append, List.pairwise_cons] at hs
    by_cases hm : s.tags dt.p1.id = s.tags dt.p2.id
    · rw [kruskal_step_same nodes dt s hm]
      exact ih s hs.2 h1 (fun h e he => h2 h e (List.mem_cons_of_mem _ he))
    · by_cases hc : s.ratsnestLines = true ∨ 0 ≤ dt.weight
      · obtain ⟨e1, _, _, _⟩ := (kruskal_step_merge nodes dt s hm).1 hc
        have hdt : 0 ≤ dt.weight := by
          rcases hc with hc | hc
          · exact h2 hc dt (List.mem_cons_self _ _)
          · exact hc
        apply ih _ hs.2
        · intro e he
          rw [e1] at he
          rcases List.mem_append.1 he with he | he
          · exact h1 e he
          · rw [List.mem_singleton.1 he]; exact hdt
        · intro _ e he
          exact le_trans hdt (hs.1 e he)
      · have hc' : s.ratsnestLines = false ∧ dt.weight < 0 := by
          constructor
          · cases hr : s.ratsnestLines
            · rfl
            · exact absurd (Or.inl hr) hc
          · by_contra hq
            exact hc (Or.inr (by omega))
        obtain ⟨e1, _, _, e4⟩ := (kruskal_step_merge nodes dt s hm).2 hc'
        apply ih _ hs.2
        · intro e he
          rw [e1] at he
          exact h1 e he
        · intro h
          rw [e4] at h
          exact absurd h (by decide)

/-- C23, as stated, fails: for two nodes at the same position and the one candidate
edge between them, of weight zero, the edge joins two components, the expected size
stays as it is, and `kruskalMST` returns the edge. -/
theorem kruskalMST_zero_weight_emitted :
    (kruskal_init [⟨0, 0, 0⟩, ⟨0, 0, 1⟩]).tags 0 ≠ (kruskal_init [⟨0, 0, 0⟩, ⟨0, 0, 1⟩]).tags 1 ∧
    (kruskal_step [⟨0, 0, 0⟩, ⟨0, 0, 1⟩] (Edge.mk ⟨0, 0, 0⟩ ⟨0, 0, 1⟩ 0)
      (kruskal_init [⟨0, 0, 0⟩, ⟨0, 0, 1⟩])).mstExpectedSize =
        (kruskal_init [⟨0, 0, 0⟩, ⟨0, 0, 1⟩]).mstExpectedSize ∧
    kruskalMST [Edge.mk ⟨0, 0, 0⟩ ⟨0, 0, 1⟩ 0] [⟨0, 0, 0⟩, ⟨0, 0, 1⟩] =
      [Edge.mk ⟨0, 0, 0⟩ ⟨0, 0, 1⟩ 0] :=
  ⟨by decide, by decide, kruskal_single 0 0 0 0 0 (le_refl 0)⟩

/-- C23, amended. Let the loop of `kruskalMST` reach the edge `dt` of the sorted
edges after the edges `K1`, and let `dt` join two distinct components. Then `dt`
is emitted if and only if its weight is not negative: with a weight of zero or
more it is appended to the result, `mstSize` grows by one and the expected size
stays; with a negative weight (a track edge, `-1`) the result stays, and the
expected size is reduced by one. No edge of negative weight is in the result of
`kruskalMST`. -/
theorem merging_edge_emitted (nodes : List Vector2) (es K1 K2 : List Edge) (dt : Edge)
    (hsplit : sort_edges es = K1 ++ dt :: K2)
    (hm : (kruskal_run nodes K1 (kruskal_init nodes)).tags dt.p1.id ≠
      (kruskal_run nodes K1 (kruskal_init nodes)).tags dt.p2.id) :
    ((kruskal_step nodes dt (kruskal_run nodes K1 (kruskal_init nodes))).mst =
        (kruskal_run nodes K1 (kruskal_init nodes)).mst ++ [dt] ↔ 0 ≤ dt.weight) ∧
    (0 ≤ dt.weight →
      (kruskal_step nodes dt (kruskal_run nodes K1 (kruskal_init nodes))).mstSize =
        (kruskal_run nodes K1 (kruskal_init nodes)).mstSize + 1 ∧
      (kruskal_step nodes dt (kruskal_run nodes K1 (kruskal_init nodes))).mstExpectedSize =
        (kruskal_run nodes K1 (kruskal_init nodes)).mstExpectedSize) ∧
    (dt.weight < 0 →
      (kruskal_step nodes dt (kruskal_run nodes K1 (kruskal_init nodes))).mst =
        (kruskal_run nodes K1 (kruskal_init nodes)).mst ∧
      (kruskal_step nodes dt (kruskal_run nodes K1 (kruskal_init nodes))).mstSize =
        (kruskal_run nodes K1 (kruskal_init nodes)).mstSize ∧
      (kruskal_step nodes dt (kruskal_run nodes K1 (kruskal_init nodes))).mstExpectedSize =
        (kruskal_run nodes K1 (kruskal_init nodes)).mstExpectedSize - 1) ∧
    (∀ e ∈ kruskalMST es nodes, 0 ≤ e.weight) := by
  have hsorted := sort_edges_sorted es
  have hrun := kruskal_run_sorted nodes K1 (dt :: K2) (kruskal_init nodes)
    (by rw [← hsplit]; exact hsorted) (fun e he => absurd he (List.not_mem_nil e))
    (fun h => absurd h Bool.false_ne_true)
  have hstep := kruskal_step_merge nodes dt (kruskal_run nodes K1 (kruskal_init nodes)) hm
  have hneg : dt.weight < 0 → (kruskal_run nodes K1 (kruskal_init nodes)).ratsnestLines = false := by
    intro hw
    cases hr : (kruskal_run nodes K1 (kruskal_init nodes)).ratsnestLines
    · rfl
    · have := hrun.2 hr dt (List.mem_cons_self _ _)
      omega
  refine ⟨⟨?_, fun hw => ((hstep.1 (Or.inr hw)).1)⟩, ?_, ?_, ?_⟩
  · intro h
    by_contra hw
    have hw' : dt.weight < 0 := by omega
    have h3 := (hstep.2 ⟨hneg hw', hw'⟩).1
    rw [h3] at h
    have := congrArg List.length h
    simp at this
  · intro hw
    exact ⟨(hstep.1 (Or.inr hw)).2.1, (hstep.1 (Or.inr hw)).2.2.1⟩
  · intro hw
    obtain ⟨a, b, c, _⟩ := hstep.2 ⟨hneg hw, hw⟩
    exact ⟨a, b, c⟩
  · intro e he
    obtain ⟨pr, rest, h4, h5, _⟩ := kruskal_loop_run nodes (sort_edges es) (kruskal_init nodes)
    have h6 := (kruskal_run_sorted nodes pr rest (kruskal_init nodes)
      (by rw [← h4]; exact hsorted) (fun e he => absurd he (List.not_mem_nil e))
      (fun h => absurd h Bool.false_ne_true)).1
    unfold kruskalMST at he
    simp only at he
    rw [h5] at he
    exact h6 e (List.mem_of_mem_take he)

theorem merging_edge_emitted_witness :
    ((kruskal_step nodes_example (Edge.mk ⟨10, 0, 1⟩ ⟨0, 0, 0⟩ (-1))
        (kruskal_run nodes_example [] (kruskal_init nodes_example))).mst =
        (kruskal_run nodes_example [] (kruskal_init nodes_example)).mst ++
          [Edge.mk ⟨10, 0, 1⟩ ⟨0, 0, 0⟩ (-1)] ↔
      0 ≤ (Edge.mk ⟨10, 0, 1⟩ ⟨0, 0, 0⟩ (-1)).weight) ∧
    (∀ e ∈ kruskalMST edges_example nodes_example, 0 ≤ e.weight) :=
  have h := merging_edge_emitted nodes_example edges_example []
    [Edge.mk ⟨0, 0, 0⟩ ⟨10, 0, 1⟩ 100, Edge.mk ⟨10, 0, 1⟩ ⟨20, 0, 2⟩ 100,
      Edge.mk ⟨0, 0, 0⟩ ⟨20, 0, 2⟩ 400]
    (Edge.mk ⟨10, 0, 1⟩ ⟨0, 0, 0⟩ (-1)) (by decide) (by decide)
  ⟨h.1, h.2.2.2⟩

theorem touch_conn_junctions (x : Board) (l : Int) (c : Connection) :
    (x.touch_conn l c).junctions =
      x.junctions.map fun e => (e.1, if c = .junc e.1 then touch_junction l e.2 else e.2) := by
  cases c with
  | junc k =>
    show mapModify x.junctions k (touch_junction l) = _
    unfold mapModify
    apply List.map_congr_left
    intro e _
    by_cases h : e.1 = k
    · rw [if_pos h, if_pos (by rw [h])]
    · rw [if_neg h, if_neg (fun q => h (Connection.junc.inj q).symm)]
  | pad p q =>
    show x.junctions = _
    have : ∀ e : UUID × Junction,
        (e.1, if Connection.pad p q = .junc e.1 then touch_junction l e.2 else e.2) = e := by
      intro e
      rw [if_neg (by intro h; cases h)]
    rw [List.map_congr_left (fun e _ => this e)]
    exact (List.map_id _).symm

theorem touch_all_append (a c : List Int) (ju : Junction) :
    touch_all (a ++ c) ju = touch_all c (touch_all a ju) := by
  unfold touch_all
  rw [List.foldl_append]

theorem scan_track_touch (x : Board) (t : Track) :
    (x.scan_track t).junctions =
      x.junctions.map fun e => (e.1, touch_all (track_touches t e.1) e.2) := by
  rw [scan_track_junctions, touch_conn_junctions, touch_conn_junctions, List.map_map]
  apply List.map_congr_left
  intro e _
  simp only [Function.comp, track_touches]
  by_cases h1 : t.from_ = .junc e.1 <;> by_cases h2 : t.to_ = .junc e.1
  · rw [if_pos h1, if_pos h2, if_pos h1, if_pos h2]; rfl
  · rw [if_pos h1, if_neg h2, if_pos h1, if_neg h2]; rfl
  · rw [if_neg h1, if_pos h2, if_neg h1, if_pos h2]; rfl
  · rw [if_neg h1, if_neg h2, if_neg h1, if_neg h2]; rfl

theorem scan_tracks_touch (ts : List (UUID × Track)) (x : Board) :
    (ts.foldl (fun acc e => acc.scan_track e.2) x).junctions =
      x.junctions.map fun e => (e.1, touch_all (touch_layers ts e.1) e.2) := by
  induction ts generalizing x with
  | nil =>
    have : ∀ e : UUID × Junction, (e.1, touch_all (touch_layers [] e.1) e.2) = e := fun e => rfl
    rw [List.foldl_nil, List.map_congr_left (fun e _ => this e)]
    exact (List.map_id _).symm
  | cons t r ih =>
    rw [List.foldl_cons, ih, scan_track_touch, List.map_map]
    apply List.map_congr_left
    intro e _
    simp only [Function.comp, touch_layers]
    rw [touch_all_append]

theorem expand_scanned_junctions (b : Board) :
    b.expand_scanned.junctions =
      b.junctions.map fun e =>
        (e.1, touch_all (touch_layers b.tracks e.1) (reset_junction e.2)) := by
  unfold Board.expand_scanned
  simp only
  rw [scan_tracks_touch]
  show (b.junctions.map _).map _ = _
  rw [List.map_map]
  apply List.map_congr_left
  intro e _
  rfl

theorem mem_track_touches (t : Track) (j : UUID) (l : Int) :
    l ∈ track_touches t j ↔ l = t.layer ∧ touches t j := by
  unfold track_touches touches
  by_cases h1 : t.from_ = .junc j <;> by_cases h2 : t.to_ = .junc j <;>
    simp [h1, h2]

theorem mem_touch_layers (ts : List (UUID × Track)) (j : UUID) (l : Int) :
    l ∈ touch_layers ts j ↔ ∃ e ∈ ts, e.2.layer = l ∧ touches e.2 j := by
  induction ts with
  | nil => simp [touch_layers]
  | cons t r ih =>
    simp only [touch_layers, List.mem_append, mem_track_touches, ih, List.mem_cons,
      exists_eq_or_imp]
    constructor
    · rintro (⟨h1, h2⟩ | h)
      · exact Or.inl ⟨h1.symm, h2⟩
      · exact Or.inr h
    · rintro (⟨h1, h2⟩ | h)
      · exact Or.inl ⟨h1.symm, h2⟩
      · exact Or.inr h

theorem touch_unassigned (l : Int) (ju : Junction) (h : ju.layer = 10000) :
    (touch_junction l ju).layer = l ∧ (touch_junction l ju).needs_via = ju.needs_via := by
  unfold touch_junction
  simp only
  rw [if_pos h]
  exact ⟨rfl, rfl⟩

theorem touch_conflicting (l : Int) (ju : Junction) (h : ju.layer = 10001) :
    (touch_junction l ju).layer = 10001 ∧ (touch_junction l ju).needs_via = ju.needs_via := by
  unfold touch_junction
  simp only
  rw [if_neg (by rw [h]; decide), if_pos h]
  exact ⟨h, rfl⟩

theorem touch_same (l : Int) (ju : Junction) (h0 : ju.layer ≠ 10000) (h1 : ju.layer ≠ 10001)
    (h : ju.layer = l) :
    (touch_junction l ju).layer = l ∧ (touch_junction l ju).needs_via = ju.needs_via := by
  unfold touch_junction
  simp only
  rw [if_neg h0, if_neg h1, if_neg (not_not.2 h)]
  exact ⟨h, rfl⟩

theorem touch_other (l : Int) (ju : Junction) (h0 : ju.layer ≠ 10000) (h1 : ju.layer ≠ 10001)
    (h : ju.layer ≠ l) :
    (touch_junction l ju).layer = 10001 ∧ (touch_junction l ju).needs_via = true := by
  unfold touch_junction
  simp only
  rw [if_neg h0, if_neg h1, if_pos h]
  exact ⟨rfl, rfl⟩

/-- A list of layers is empty, or all its entries are one layer, or two of its
entries differ. -/
theorem layers_cases (ls : List Int) :
    ls = [] ∨ (ls ≠ [] ∧ ∃ L, L ∈ ls ∧ ∀ l ∈ ls, l = L) ∨ (∃ l1 ∈ ls, ∃ l2 ∈ ls, l1 ≠ l2) := by
  cases ls with
  | nil => exact Or.inl rfl
  | cons a r =>
    right
    by_cases h : ∀ l ∈ a :: r, l = a
    · exact Or.inl ⟨List.cons_ne_nil _ _, a, List.mem_cons_self _ _, h⟩
    · push_neg at h
      obtain ⟨l, hl, hne⟩ := h
      exact Or.inr ⟨l, hl, a, List.mem_cons_self _ _, hne⟩

theorem resolved_reset (ju : Junction) : Resolved [] (reset_junction ju) :=
  { untouched := fun _ => ⟨rfl, rfl⟩
    single := fun _ h _ => absurd rfl h
    mixed := fun ⟨_, h, _⟩ => absurd h (List.not_mem_nil _) }

theorem resolved_step (ls : List Int) (ju : Junction) (l : Int) (h : Resolved ls ju)
    (hls : ∀ x ∈ ls, x ≠ 10000 ∧ x ≠ 10001) :
    Resolved (ls ++ [l]) (touch_junction l ju) := by
  have hmem : ∀ x, x ∈ ls ++ [l] ↔ x ∈ ls ∨ x = l := by
    intro x
    rw [List.mem_append, List.mem_singleton]
  rcases layers_cases ls with h0 | ⟨hne, L0, hL0, hall⟩ | hmix
  · subst h0
    obtain ⟨e1, e2⟩ := h.untouched rfl
    obtain ⟨t1, t2⟩ := touch_unassigned l ju e1
    refine ⟨fun q => absurd q (by simp), ?_, ?_⟩
    · intro L _ hL
      have := hL l (by simp)
      rw [t1, t2, e2]
      exact ⟨this, rfl⟩
    · rintro ⟨l1, h1, l2, h2, hne⟩
      simp only [List.nil_append, List.mem_singleton] at h1 h2
      exact absurd (h1.trans h2.symm) hne
  · obtain ⟨e1, e2⟩ := h.single L0 hne hall
    have r0 := hls L0 hL0
    by_cases hq : L0 = l
    · obtain ⟨t1, t2⟩ := touch_same l ju (by rw [e1]; exact r0.1) (by rw [e1]; exact r0.2)
        (e1.trans hq)
      refine ⟨fun q => absurd q (by simp), ?_, ?_⟩
      · intro L _ hL
        have := hL l ((hmem l).2 (Or.inr rfl))
        rw [t1, t2, e2]
        exact ⟨this, rfl⟩
      · rintro ⟨l1, h1, l2, h2, hne⟩
        have a1 : l1 = l := by
          rcases (hmem l1).1 h1 with q | q
          · exact (hall l1 q).trans hq
          · exact q
        have a2 : l2 = l := by
          rcases (hmem l2).1 h2 with q | q
          · exact (hall l2 q).trans hq
          · exact q
        exact absurd (a1.trans a2.symm) hne
    · obtain ⟨t1, t2⟩ := touch_other l ju (by rw [e1]; exact r0.1) (by rw [e1]; exact r0.2)
        (by rw [e1]; exact hq)
      refine ⟨fun q => absurd q (by simp), ?_, ?_⟩
      · intro L _ hL
        have a1 := hL L0 ((hmem L0).2 (Or.inl hL0))
        have a2 := hL l ((hmem l).2 (Or.inr rfl))
        exact absurd (a1.trans a2.symm) hq
      · intro _
        exact ⟨t1, t2⟩
  · obtain ⟨e1, e2⟩ := h.mixed hmix
    obtain ⟨t1, t2⟩ := touch_conflicting l ju e1
    refine ⟨fun q => absurd q (by simp), ?_, ?_⟩
    · intro L _ hL
      obtain ⟨l1, h1, l2, h2, hne⟩ := hmix
      have a1 := hL l1 ((hmem l1).2 (Or.inl h1))
      have a2 := hL l2 ((hmem l2).2 (Or.inl h2))
      exact absurd (a1.trans a2.symm) hne
    · intro _
      rw [t2, e2]
      exact ⟨t1, rfl⟩

theorem resolved_all (ls pre : List Int) (ju : Junction) (h : Resolved pre ju)
    (hr : ∀ x ∈ pre ++ ls, x ≠ 10000 ∧ x ≠ 10001) :
    Resolved (pre ++ ls) (touch_all ls ju) := by
  induction ls generalizing pre ju with
  | nil =>
    rw [List.append_nil]
    exact h
  | cons l r ih =>
    have e : pre ++ l :: r = (pre ++ [l]) ++ r := by simp
    rw [e] at hr ⊢
    show Resolved _ (touch_all r (touch_junction l ju))
    apply ih _ _ _ hr
    apply resolved_step _ _ _ h
    intro x hx
    exact hr x (List.mem_append_left _ (List.mem_append_left _ hx))

/-- The state of a junction read off the layers that were handed to it. -/
theorem resolved_iff (ls : List Int) (ju : Junction) (h : Resolved ls ju)
    (hr : ∀ x ∈ ls, x ≠ 10000 ∧ x ≠ 10001) :
    (ju.layer = 10000 ↔ ls = []) ∧
    (∀ L : Int, L ≠ 10000 → L ≠ 10001 → (ju.layer = L ↔ ls ≠ [] ∧ ∀ l ∈ ls, l = L)) ∧
    (ju.layer = 10001 ↔ ∃ l1 ∈ ls, ∃ l2 ∈ ls, l1 ≠ l2) ∧
    (ju.needs_via = true ↔ ∃ l1 ∈ ls, ∃ l2 ∈ ls, l1 ≠ l2) := by
  rcases layers_cases ls with h0 | ⟨hne, L0, hL0, hall⟩ | hmix
  · obtain ⟨e1, e2⟩ := h.untouched h0
    subst h0
    refine ⟨⟨fun _ => rfl, fun _ => e1⟩, ?_, ?_, ?_⟩
    · intro L h1 _
      exact ⟨fun q => absurd (e1.symm.trans q).symm h1, fun q => absurd rfl q.1⟩
    · exact ⟨fun q => absurd (e1.symm.trans q) (by decide),
        fun ⟨_, q, _⟩ => absurd q (List.not_mem_nil _)⟩
    · exact ⟨fun q => absurd (e2.symm.trans q) (by decide),
        fun ⟨_, q, _⟩ => absurd q (List.not_mem_nil _)⟩
  · obtain ⟨e1, e2⟩ := h.single L0 hne hall
    have r0 := hr L0 hL0
    have nomix : ¬ ∃ l1 ∈ ls, ∃ l2 ∈ ls, l1 ≠ l2 := by
      rintro ⟨l1, h1, l2, h2, hq⟩
      exact hq ((hall l1 h1).trans (hall l2 h2).symm)
    refine ⟨⟨fun q => absurd (e1.symm.trans q) r0.1, fun q => absurd q hne⟩, ?_, ?_, ?_⟩
    · intro L _ _
      constructor
      · intro q
        have : L0 = L := e1.symm.trans q
        exact ⟨hne, fun l hl => (hall l hl).trans this⟩
      · rintro ⟨_, q⟩
        exact e1.trans (q L0 hL0)
    · exact ⟨fun q => absurd (e1.symm.trans q) r0.2, fun q => absurd q nomix⟩
    · exact ⟨fun q => absurd (e2.symm.trans q) (by decide), fun q => absurd q nomix⟩
  · obtain ⟨e1, e2⟩ := h.mixed hmix
    have hne : ls ≠ [] := by
      obtain ⟨l1, h1, _⟩ := hmix
      exact List.ne_nil_of_mem h1
    refine ⟨⟨fun q => absurd (e1.symm.trans q) (by decide), fun q => absurd q hne⟩, ?_, ?_, ?_⟩
    · intro L _ h2
      constructor
      · intro q
        exact absurd (e1.symm.trans q).symm h2
      · rintro ⟨_, q⟩
        obtain ⟨l1, h1, l2, h2, hq⟩ := hmix
        exact absurd ((q l1 h1).trans (q l2 h2).symm) hq
    · exact ⟨fun _ => hmix, fun _ => e1⟩
    · exact ⟨fun _ => hmix, fun _ => e2⟩

theorem mapModify_layers (m : List (UUID × Junction)) (k : UUID) (f : Junction → Junction)
    (hf : ∀ ju, (f ju).layer = ju.layer ∧ (f ju).needs_via = ju.needs_via) :
    (mapModify m k f).map (fun e => (e.1, e.2.layer, e.2.needs_via)) =
      m.map (fun e => (e.1, e.2.layer, e.2.needs_via)) := by
  unfold mapModify
  rw [List.map_map]
  apply List.map_congr_left
  intro e _
  simp only [Function.comp]
  split
  · rw [(hf e.2).1, (hf e.2).2]
  · rfl

theorem scan_via_layers (x : Board) (v : Via) :
    (x.scan_via v).junctions.map (fun e => (e.1, e.2.layer, e.2.needs_via)) =
      x.junctions.map (fun e => (e.1, e.2.layer, e.2.needs_via)) :=
  mapModify_layers x.junctions v.junction (fun ju => { ju with has_via := true })
    (fun _ => ⟨rfl, rfl⟩)

theorem scan_line_layers (x : Board) (l : Line) :
    (x.scan_line l).junctions.map (fun e => (e.1, e.2.layer, e.2.needs_via)) =
      x.junctions.map (fun e => (e.1, e.2.layer, e.2.needs_via)) :=
  (mapModify_layers _ l.to_
    (fun ju => { ju with connection_count := ju.connection_count + 1 })
    (fun _ => ⟨rfl, rfl⟩)).trans
    (mapModify_layers x.junctions l.from_
      (fun ju => { ju with connection_count := ju.connection_count + 1 })
      (fun _ => ⟨rfl, rfl⟩))

theorem expand_marked_layers (b : Board) :
    b.expand_marked.junctions.map (fun e => (e.1, e.2.layer, e.2.needs_via)) =
      b.expand_scanned.junctions.map (fun e => (e.1, e.2.layer, e.2.needs_via)) := by
  have h1 : b.expand_counted =
      b.expand_scanned.lines.foldl (fun acc e => acc.scan_line e.2) b.expand_scanned := rfl
  unfold Board.expand_marked
  rw [h1]
  apply foldl_junctions_inv
    (fun js => js.map (fun e => (e.1, e.2.layer, e.2.needs_via)) =
      b.expand_scanned.junctions.map (fun e => (e.1, e.2.layer, e.2.needs_via)))
  · intro x a hx
    exact (scan_via_layers x a.2).trans hx
  · apply foldl_junctions_inv
      (fun js => js.map (fun e => (e.1, e.2.layer, e.2.needs_via)) =
        b.expand_scanned.junctions.map (fun e => (e.1, e.2.layer, e.2.needs_via)))
    · intro x a hx
      exact (scan_line_layers x a.2).trans hx
    · rfl

/-- C21. Let every track be on a real layer (not `10000`, not `10001`). After the
loop of `expand` over the tracks the junctions are the junctions of the board, and
for every junction: its layer is `10000` if and only if no track touches it; its
layer is the real layer `L` if and only if a track touches it and every track that
touches it is on `L`; its layer is `10001` if and only if two tracks that touch it
are on different layers, and `needs_via` is set in exactly that case. The loops
over the lines and over the vias leave the layer and `needs_via` of every junction
as they are. -/
theorem junction_layer_resolved (b : Board)
    (hreal : ∀ e ∈ b.tracks, e.2.layer ≠ 10000 ∧ e.2.layer ≠ 10001) :
    b.expand_scanned.junctions.map Prod.fst = b.junctions.map Prod.fst ∧
    (∀ e ∈ b.expand_scanned.junctions,
      (e.2.layer = 10000 ↔ ∀ t ∈ b.tracks, ¬ touches t.2 e.1) ∧
      (∀ L : Int, L ≠ 10000 → L ≠ 10001 →
        (e.2.layer = L ↔ (∃ t ∈ b.tracks, touches t.2 e.1) ∧
          ∀ t ∈ b.tracks, touches t.2 e.1 → t.2.layer = L)) ∧
      (e.2.layer = 10001 ↔ ∃ t1 ∈ b.tracks, ∃ t2 ∈ b.tracks,
        touches t1.2 e.1 ∧ touches t2.2 e.1 ∧ t1.2.layer ≠ t2.2.layer) ∧
      (e.2.needs_via = true ↔ ∃ t1 ∈ b.tracks, ∃ t2 ∈ b.tracks,
        touches t1.2 e.1 ∧ touches t2.2 e.1 ∧ t1.2.layer ≠ t2.2.layer)) ∧
    b.expand_marked.junctions.map (fun e => (e.1, e.2.layer, e.2.needs_via)) =
      b.expand_scanned.junctions.map (fun e => (e.1, e.2.layer, e.2.needs_via)) := by
  refine ⟨?_, ?_, expand_marked_layers b⟩
  · rw [expand_scanned_junctions, List.map_map]
    rfl
  · intro e he
    rw [expand_scanned_junctions] at he
    obtain ⟨e0, _, rfl⟩ := List.mem_map.1 he
    have hr : ∀ x ∈ touch_layers b.tracks e0.1, x ≠ 10000 ∧ x ≠ 10001 := by
      intro x hx
      obtain ⟨t, ht, h1, _⟩ := (mem_touch_layers _ _ _).1 hx
      rw [← h1]
      exact hreal t ht
    have hres := resolved_all (touch_layers b.tracks e0.1) [] _ (resolved_reset e0.2)
      (by simpa using hr)
    rw [List.nil_append] at hres
    obtain ⟨r1, r2, r3, r4⟩ := resolved_iff _ _ hres hr
    have hnil : touch_layers b.tracks e0.1 = [] ↔ ∀ t ∈ b.tracks, ¬ touches t.2 e0.1 := by
      constructor
      · intro q t ht htouch
        have : t.2.layer ∈ touch_layers b.tracks e0.1 :=
          (mem_touch_layers _ _ _).2 ⟨t, ht, rfl, htouch⟩
        rw [q] at this
        exact absurd this (List.not_mem_nil _)
      · intro q
        apply List.eq_nil_iff_forall_not_mem.2
        intro l hl
        obtain ⟨t, ht, _, h2⟩ := (mem_touch_layers _ _ _).1 hl
        exact q t ht h2
    have hmix : (∃ l1 ∈ touch_layers b.tracks e0.1, ∃ l2 ∈ touch_layers b.tracks e0.1, l1 ≠ l2) ↔
        ∃ t1 ∈ b.tracks, ∃ t2 ∈ b.tracks,
          touches t1.2 e0.1 ∧ touches t2.2 e0.1 ∧ t1.2.layer ≠ t2.2.layer := by
      constructor
      · rintro ⟨l1, h1, l2, h2, hne⟩
        obtain ⟨t1, a1, a2, a3⟩ := (mem_touch_layers _ _ _).1 h1
        obtain ⟨t2, c1, c2, c3⟩ := (mem_touch_layers _ _ _).1 h2
        exact ⟨t1, a1, t2, c1, a3, c3, by rw [a2, c2]; exact hne⟩
      · rintro ⟨t1, a1, t2, c1, a3, c3, hne⟩
        exact ⟨t1.2.layer, (mem_touch_layers _ _ _).2 ⟨t1, a1, rfl, a3⟩,
          t2.2.layer, (mem_touch_layers _ _ _).2 ⟨t2, c1, rfl, c3⟩, hne⟩
    refine ⟨r1.trans hnil, ?_, r3.trans hmix, r4.trans hmix⟩
    intro L h1 h2
    refine (r2 L h1 h2).trans ?_
    constructor
    · rintro ⟨q1, q2⟩
      constructor
      · by_contra hq
        push_neg at hq
        exact q1 (hnil.2 hq)
      · intro t ht htouch
        exact q2 _ ((mem_touch_layers _ _ _).2 ⟨t, ht, rfl, htouch⟩)
    · rintro ⟨⟨t, ht, htouch⟩, q2⟩
      constructor
      · intro q
        exact hnil.1 q t ht htouch
      · intro l hl
        obtain ⟨t', a1, a2, a3⟩ := (mem_touch_layers _ _ _).1 hl
        rw [← a2]
        exact q2 t' a1 a3

theorem junction_layer_resolved_witness :
    (∀ e ∈ board_warn.tracks, e.2.layer ≠ 10000 ∧ e.2.layer ≠ 10001) ∧
    board_warn.expand_scanned.junctions.map (fun e => (e.1, e.2.layer, e.2.needs_via)) =
      [(5, 10001, true)] ∧
    (∃ t1 ∈ board_warn.tracks, ∃ t2 ∈ board_warn.tracks,
      touches t1.2 5 ∧ touches t2.2 5 ∧ t1.2.layer ≠ t2.2.layer) ∧
    board_warn.expand_marked.junctions.map (fun e => (e.1, e.2.layer, e.2.needs_via)) =
      board_warn.expand_scanned.junctions.map (fun e => (e.1, e.2.layer, e.2.needs_via)) := by
  have h := junction_layer_resolved board_warn (by decide)
  have hm : ∃ e ∈ board_warn.expand_scanned.junctions, e.1 = 5 ∧ e.2.needs_via = true := by
    decide
  obtain ⟨e, he, h5, hv⟩ := hm
  refine ⟨by decide, by decide, ?_, h.2.2⟩
  have h2 := ((h.2.1 e he).2.2.2).1 hv
  rw [h5] at h2
  exact h2

theorem mapAt_none_of_keys {α : Type} (m : List (UUID × α)) (k : UUID)
    (h : ∀ e ∈ m, e.1 ≠ k) : mapAt m k = none := by
  induction m with
  | nil => rfl
  | cons e r ih =>
    obtain ⟨k', v⟩ := e
    simp only [mapAt]
    rw [if_neg (h (k', v) (List.mem_cons_self _ _))]
    exact ih (fun e he => h e (List.mem_cons_of_mem _ he))

theorem mapModify_of_keys {α : Type} (m : List (UUID × α)) (k : UUID) (f : α → α)
    (h : ∀ e ∈ m, e.1 ≠ k) : mapModify m k f = m := by
  unfold mapModify
  have : ∀ e ∈ m, (e.1, if e.1 = k then f e.2 else e.2) = e := by
    intro e he
    rw [if_neg (h e he)]
  rw [List.map_congr_left this]
  exact List.map_id _

/-- One round of the last loop of `update_airwires`, for fresh identifiers. -/
theorem emit_airwires_stored (rnd : Nat → UUID) (hr : Function.Injective rnd)
    (terms : List (Connection × Coordi)) (net : Net) (mst : List Edge)
    (st st' : List (UUID × Track) × Nat)
    (hk : st.1.map Prod.fst = (List.range st.2).map rnd)
    (h : emit_airwires rnd terms net mst st = some st') :
    st'.1.map Prod.fst = (List.range st'.2).map rnd ∧
    st'.1.map Prod.snd = st.1.map Prod.snd ++ mst.map (airwire_track terms net) := by
  induction mst generalizing st with
  | nil =>
    simp only [emit_airwires, Option.some.injEq] at h
    rw [← h]
    exact ⟨hk, by simp⟩
  | cons e r ih =>
    simp only [emit_airwires] at h
    cases ha : terms.get? e.p1.id with
    | none => rw [ha] at h; simp at h
    | some a =>
      cases hc : terms.get? e.p2.id with
      | none => rw [ha, hc] at h; simp at h
      | some c =>
        rw [ha, hc] at h
        simp only at h
        have hfresh : ∀ x ∈ st.1, x.1 ≠ rnd st.2 := by
          intro x hx hq
          have : x.1 ∈ st.1.map Prod.fst := List.mem_map.2 ⟨x, hx, rfl⟩
          rw [hk] at this
          obtain ⟨i, hi, hi2⟩ := List.mem_map.1 this
          rw [hq] at hi2
          have := hr hi2
          rw [List.mem_range] at hi
          omega
        have hnone := mapAt_none_of_keys st.1 (rnd st.2) hfresh
        have hem : mapEmplace st.1 (rnd st.2) ({ from_ := .junc 0, to_ := .junc 0 } : Track) =
            st.1 ++ [(rnd st.2, { from_ := .junc 0, to_ := .junc 0 })] := by
          unfold mapEmplace
          rw [hnone]
        rw [hem] at h
        have hmod : mapModify (st.1 ++ [(rnd st.2, ({ from_ := .junc 0, to_ := .junc 0 } : Track))])
            (rnd st.2)
            (fun aw => { aw with from_ := a.1, to_ := c.1, net := some net, is_air := true }) =
            st.1 ++ [(rnd st.2, airwire_track terms net e)] := by
          have h1 := mapModify_of_keys st.1 (rnd st.2)
            (fun aw : Track => { aw with from_ := a.1, to_ := c.1, net := some net, is_air := true })
            hfresh
          unfold mapModify at h1 ⊢
          rw [List.map_append, h1]
          simp only [List.map_cons, List.map_nil, if_true, airwire_track, end_of, ha, hc]
        rw [hmod] at h
        obtain ⟨e1, e2⟩ := ih (st.1 ++ [(rnd st.2, airwire_track terms net e)], st.2 + 1)
          (by
            simp only [List.map_append, List.map_cons, List.map_nil, List.range_succ]
            rw [hk]) h
        refine ⟨e1, ?_⟩
        rw [e2]
        simp

theorem airwires_loop_stored (del : List Vector2 → List Edge) (rnd : Nat → UUID)
    (hr : Function.Injective rnd) (b : Board) (nets : List Net)
    (st st' : List (UUID × Track) × Nat)
    (hk : st.1.map Prod.fst = (List.range st.2).map rnd)
    (h : b.airwires_loop del rnd nets st = some st') :
    st'.1.map Prod.fst = (List.range st'.2).map rnd ∧
    st'.1.map Prod.snd = st.1.map Prod.snd ++ nets.flatMap (net_airwires del b) := by
  induction nets generalizing st with
  | nil =>
    simp only [Board.airwires_loop, Option.some.injEq] at h
    rw [← h]
    exact ⟨hk, by simp⟩
  | cons n r ih =>
    simp only [Board.airwires_loop] at h
    cases hm : b.net_mst del n with
    | none => rw [hm] at h; simp at h
    | some mst =>
      rw [hm] at h
      simp only at h
      cases he : emit_airwires rnd (b.terminals n) n mst st with
      | none => rw [he] at h; simp at h
      | some st1 =>
        rw [he] at h
        simp only at h
        obtain ⟨k1, k2⟩ := emit_airwires_stored rnd hr _ _ _ _ _ hk he
        obtain ⟨e1, e2⟩ := ih st1 k1 h
        refine ⟨e1, ?_⟩
        rw [e2, k2]
        simp only [List.flatMap_cons, net_airwires, hm, List.append_assoc]

theorem update_airwires_stored (del : List Vector2 → List Edge) (rnd : Nat → UUID)
    (hr : Function.Injective rnd) (b b' : Board)
    (h : b.update_airwires del rnd = some b') :
    b'.airwires.map Prod.snd = b.collect_nets.flatMap (net_airwires del b) := by
  unfold Board.update_airwires at h
  cases hl : b.airwires_loop del rnd b.collect_nets ([], 0) with
  | none => rw [hl] at h; simp at h
  | some st =>
    rw [hl] at h
    simp only [Option.some.injEq] at h
    rw [← h]
    have := (airwires_loop_stored del rnd hr b b.collect_nets ([], 0) st rfl hl).2
    simpa using this

theorem net_airwires_net (del : List Vector2 → List Edge) (b : Board) (net : Net) :
    ∀ a ∈ net_airwires del b net, a.net = some net := by
  intro a ha
  unfold net_airwires at ha
  split at ha
  · obtain ⟨e, _, he⟩ := List.mem_map.1 ha
    rw [← he]
    rfl
  · simp at ha

theorem net_insert_sorted (n : Net) (l : List Net) (h : l.Pairwise (fun a c => a < c)) :
    (net_insert n l).Pairwise (fun a c => a < c) := by
  induction l with
  | nil => simp [net_insert]
  | cons m r ih =>
    simp only [net_insert]
    rw [List.pairwise_cons] at h
    split
    · rename_i hlt
      rw [List.pairwise_cons]
      refine ⟨?_, List.pairwise_cons.2 h⟩
      intro x hx
      rcases List.mem_cons.1 hx with q | q
      · rw [q]; exact hlt
      · exact lt_trans hlt (h.1 x q)
    · split
      · exact List.pairwise_cons.2 h
      · rename_i h1 h2
        rw [List.pairwise_cons]
        refine ⟨?_, ih h.2⟩
        intro x hx
        rcases (net_insert_mem n x r).1 hx with q | q
        · rw [q]
          have key : ∀ a c : Nat, ¬ a < c → a ≠ c → c < a := by
            intro a c k1 k2
            omega
          exact key n m h1 h2
        · exact h.1 x q

theorem collect_nets_nodup (b : Board) : b.collect_nets.Nodup := by
  have key : ∀ (l : List (Connection × Pad)) (acc : List Net),
      acc.Pairwise (fun a c => a < c) →
      (l.foldl insert_pad_net acc).Pairwise (fun a c => a < c) := by
    intro l
    induction l with
    | nil => intro acc h; exact h
    | cons cp r ih =>
      intro acc h
      rw [List.foldl_cons]
      apply ih
      unfold insert_pad_net
      split
      · exact net_insert_sorted _ _ h
      · exact h
  have := key b.all_pads [] List.Pairwise.nil
  exact this.imp (fun h => Nat.ne_of_lt h)

theorem filter_flatMap_net (del : List Vector2 → List Edge) (b : Board) (net : Net)
    (nets : List Net) (hnd : nets.Nodup) :
    (nets.flatMap (net_airwires del b)).filter (fun a => a.net = some net) =
      if net ∈ nets then net_airwires del b net else [] := by
  induction nets with
  | nil => simp
  | cons n r ih =>
    rw [List.nodup_cons] at hnd
    rw [List.flatMap_cons, List.filter_append, ih hnd.2]
    by_cases hn : n = net
    · subst hn
      have h1 : (net_airwires del b n).filter (fun a => a.net = some n) = net_airwires del b n := by
        apply List.filter_eq_self.2
        intro a ha
        simp only [decide_eq_true_eq]
        exact net_airwires_net del b n a ha
      rw [h1, if_neg hnd.1, if_pos (List.mem_cons_self _ _), List.append_nil]
    · have h1 : (net_airwires del b n).filter (fun a => a.net = some net) = [] := by
        apply List.filter_eq_nil_iff.2
        intro a ha
        simp only [decide_eq_true_eq]
        rw [net_airwires_net del b n a ha]
        intro q
        exact hn (Option.some.inj q)
      rw [h1, List.nil_append]
      by_cases hm : net ∈ r
      · rw [if_pos hm, if_pos (List.mem_cons_of_mem _ hm)]
      · rw [if_neg hm, if_neg]
        intro q
        rcases List.mem_cons.1 q with q | q
        · exact hn q.symm
        · exact hm q

/-- The airwires of a net on the board after `update_airwires`, for fresh
identifiers: one for each edge of the spanning tree of the net, in its order. -/
theorem airwires_of_net (del : List Vector2 → List Edge) (rnd : Nat → UUID)
    (hr : Function.Injective rnd) (b b' : Board) (net : Net) (hnet : net ∈ b.collect_nets)
    (h : b.update_airwires del rnd = some b') :
    b'.airwires_of net = net_airwires del b net := by
  unfold Board.airwires_of
  have h1 : (b'.airwires.filter fun e => e.2.net = some net).map Prod.snd =
      (b'.airwires.map Prod.snd).filter (fun a => a.net = some net) := by
    rw [List.filter_map]
    rfl
  rw [h1, update_airwires_stored del rnd hr b b' h,
    filter_flatMap_net del b net _ (collect_nets_nodup b), if_pos hnet]

theorem eqvGen_of_imp {α : Type} {R S : α → α → Prop}
    (h : ∀ x y, R x y → Relation.EqvGen S x y) {x y : α} (hxy : Relation.EqvGen R x y) :
    Relation.EqvGen S x y := by
  induction hxy with
  | rel x y hr => exact h x y hr
  | refl x => exact Relation.EqvGen.refl x
  | symm x y _ ih => exact Relation.EqvGen.symm _ _ ih
  | trans x y z _ _ ih1 ih2 => exact Relation.EqvGen.trans _ _ _ ih1 ih2

theorem end_of_get (terms : List (Connection × Coordi)) (i : Nat) (t : Connection × Coordi)
    (h : terms.get? i = some t) : end_of terms i = t.1 := by
  unfold end_of
  rw [h]

theorem end_of_mem (terms : List (Connection × Coordi)) (i : Nat) (hi : i < terms.length) :
    ∃ t, terms.get? i = some t ∧ end_of terms i = t.1 := by
  have : ∃ t, terms.get? i = some t := by
    rw [List.get?_eq_get hi]; exact ⟨_, rfl⟩
  obtain ⟨t, ht⟩ := this
  exact ⟨t, ht, end_of_get terms i t ht⟩

theorem end_of_inj (terms : List (Connection × Coordi)) (hnd : (terms.map Prod.fst).Nodup)
    (i j : Nat) (hi : i < terms.length) (hj : j < terms.length)
    (h : end_of terms i = end_of terms j) : i = j := by
  obtain ⟨t, ht, e1⟩ := end_of_mem terms i hi
  obtain ⟨u, hu, e2⟩ := end_of_mem terms j hj
  have c1 := connmap_at_get terms hnd i t ht
  have c2 := connmap_at_get terms hnd j u hu
  rw [← e1, h, e2, c2] at c1
  exact (Option.some.inj c1).symm

theorem mem_terms_index (terms : List (Connection × Coordi)) (x : Connection)
    (h : x ∈ terms.map Prod.fst) : ∃ i, i < terms.length ∧ end_of terms i = x := by
  obtain ⟨t, ht, hx⟩ := List.mem_map.1 h
  obtain ⟨i, hi⟩ := List.get?_of_mem ht
  have hlt : i < terms.length := by
    by_contra hq
    rw [List.get?_eq_none.2 (by omega)] at hi
    simp at hi
  exact ⟨i, hlt, by rw [end_of_get terms i t hi, hx]⟩

theorem link_of_append (terms : List (Connection × Coordi)) (A B : List (Nat × Nat))
    (x y : Connection) :
    link_of terms (A ++ B) x y ↔ link_of terms A x y ∨ link_of terms B x y := by
  unfold link_of
  constructor
  · rintro ⟨p, hp, h⟩
    rcases List.mem_append.1 hp with q | q
    · exact Or.inl ⟨p, q, h⟩
    · exact Or.inr ⟨p, q, h⟩
  · rintro (⟨p, hp, h⟩ | ⟨p, hp, h⟩)
    · exact ⟨p, List.mem_append_left _ hp, h⟩
    · exact ⟨p, List.mem_append_right _ hp, h⟩

/-- A path of index pairs is a path of links between the connections. -/
theorem conn_to_links (terms : List (Connection × Coordi)) (E : List (Nat × Nat))
    (hE : pairs_ok terms.length E) (i j : Nat) (h : Conn E i j) :
    Relation.EqvGen (link_of terms E) (end_of terms i) (end_of terms j) := by
  refine Conn.induct
    (fun a c => Relation.EqvGen (link_of terms E) (end_of terms a) (end_of terms c))
    (fun a => Relation.EqvGen.refl _) (fun a c q => Relation.EqvGen.symm _ _ q)
    (fun a c d q1 q2 => Relation.EqvGen.trans _ _ _ q1 q2) ?_ h
  intro a c hac
  exact Relation.EqvGen.rel _ _ ⟨(a, c), hac, (hE _ hac).1, (hE _ hac).2, rfl, rfl⟩

/-- A path of links between two terminals is a path of index pairs. -/
theorem links_to_conn (terms : List (Connection × Coordi)) (hnd : (terms.map Prod.fst).Nodup)
    (E : List (Nat × Nat)) (x y : Connection) (h : Relation.EqvGen (link_of terms E) x y) :
    ((∃ i, i < terms.length ∧ end_of terms i = x) ↔
      (∃ j, j < terms.length ∧ end_of terms j = y)) ∧
    ∀ i j, i < terms.length → j < terms.length → end_of terms i = x → end_of terms j = y →
      Conn E i j := by
  induction h with
  | rel x y hr =>
    obtain ⟨p, hp, h1, h2, h3, h4⟩ := hr
    refine ⟨⟨fun _ => ⟨p.2, h2, h4⟩, fun _ => ⟨p.1, h1, h3⟩⟩, ?_⟩
    intro i j hi hj ei ej
    have a1 := end_of_inj terms hnd i p.1 hi h1 (ei.trans h3.symm)
    have a2 := end_of_inj terms hnd j p.2 hj h2 (ej.trans h4.symm)
    rw [a1, a2]
    exact Conn.edge hp
  | refl x =>
    refine ⟨Iff.rfl, ?_⟩
    intro i j hi hj ei ej
    rw [end_of_inj terms hnd i j hi hj (ei.trans ej.symm)]
    exact Conn.refl _ _
  | symm x y _ ih =>
    refine ⟨ih.1.symm, ?_⟩
    intro i j hi hj ei ej
    exact (ih.2 j i hj hi ej ei).symm
  | trans x y z _ _ ih1 ih2 =>
    refine ⟨ih1.1.trans ih2.1, ?_⟩
    intro i j hi hj ei ej
    obtain ⟨m, hm, em⟩ := ih1.1.1 ⟨i, hi, ei⟩
    exact (ih1.2 i m hi hm ei em).trans (ih2.2 m j hm hj em ej)

/-- The pairs that the loop over the tracks collects are the tracks of the net,
in one direction or the other. -/
theorem link_of_tracks (b : Board) (net : Net) (et : List (Nat × Nat))
    (hct : collect_track_edges (b.terminals net) net b.tracks [] = some et)
    (x y : Connection) :
    (link_of (b.terminals net) et x y → track_step b net x y ∨ track_step b net y x) ∧
    (track_step b net x y → link_of (b.terminals net) et x y ∨ link_of (b.terminals net) et y x) := by
  have hspec := collect_track_edges_spec (b.terminals net) net b.tracks [] et hct
  constructor
  · rintro ⟨p, hp, h1, h2, h3, h4⟩
    rcases (hspec.1 p).1 hp with q | ⟨e, he, hn, i, j, ci, cj, hpair⟩
    · simp at q
    · obtain ⟨_, ti, gi, fi⟩ := connmap_at_some _ _ i ci
      obtain ⟨_, tj, gj, fj⟩ := connmap_at_some _ _ j cj
      have ei := end_of_get _ i ti gi
      have ej := end_of_get _ j tj gj
      unfold track_pair at hpair
      split at hpair
      · rw [hpair] at h3 h4
        simp only at h3 h4
        left
        exact ⟨e, he, hn, by rw [← fi, ← ei, h3], by rw [← fj, ← ej, h4]⟩
      · rw [hpair] at h3 h4
        simp only at h3 h4
        right
        exact ⟨e, he, hn, by rw [← fi, ← ei, h4], by rw [← fj, ← ej, h3]⟩
  · rintro ⟨t, ht, hn, hf, hto⟩
    obtain ⟨i, j, ci, cj⟩ := hspec.2 t ht hn
    obtain ⟨li, ti, gi, fi⟩ := connmap_at_some _ _ i ci
    obtain ⟨lj, tj, gj, fj⟩ := connmap_at_some _ _ j cj
    have ei := end_of_get _ i ti gi
    have ej := end_of_get _ j tj gj
    have hmem : track_pair i j ∈ et :=
      (hspec.1 _).2 (Or.inr ⟨t, ht, hn, i, j, ci, cj, rfl⟩)
    unfold track_pair at hmem
    split at hmem
    · left
      exact ⟨_, hmem, li, lj, by rw [ei, fi, hf], by rw [ej, fj, hto]⟩
    · right
      exact ⟨_, hmem, lj, li, by rw [ej, fj, hto], by rw [ei, fi, hf]⟩

theorem link_of_cands (del : List Vector2 → List Edge) (terms : List (Connection × Coordi))
    (x y : Connection) :
    link_of terms (edge_pairs (tri_edges del (make_points terms))) x y ↔
      cand_step del terms x y := by
  unfold link_of cand_step edge_pairs
  constructor
  · rintro ⟨p, hp, h⟩
    obtain ⟨e, he, rfl⟩ := List.mem_map.1 hp
    exact ⟨e, he, h⟩
  · rintro ⟨e, he, h⟩
    exact ⟨_, List.mem_map.2 ⟨e, he, rfl⟩, h⟩

theorem link_of_airwires (terms : List (Connection × Coordi)) (net : Net) (mst : List Edge)
    (hm : ∀ e ∈ mst, e.p1.id < terms.length ∧ e.p2.id < terms.length) (x y : Connection) :
    link_of terms (edge_pairs mst) x y ↔ air_step (mst.map (airwire_track terms net)) x y := by
  unfold link_of air_step edge_pairs
  constructor
  · rintro ⟨p, hp, _, _, h3, h4⟩
    obtain ⟨e, he, rfl⟩ := List.mem_map.1 hp
    exact ⟨_, List.mem_map.2 ⟨e, he, rfl⟩, h3, h4⟩
  · rintro ⟨a, ha, h3, h4⟩
    obtain ⟨e, he, rfl⟩ := List.mem_map.1 ha
    exact ⟨_, List.mem_map.2 ⟨e, he, rfl⟩, (hm e he).1, (hm e he).2, h3, h4⟩

/-- Paths of tracks between terminals, read on the indices. -/
theorem track_path_iff (b : Board) (net : Net) (et : List (Nat × Nat))
    (hct : collect_track_edges (b.terminals net) net b.tracks [] = some et)
    (hnd : ((b.terminals net).map Prod.fst).Nodup) (X : List (Nat × Nat))
    (hX : pairs_ok (b.terminals net).length X)
    (S : Connection → Connection → Prop)
    (hS : ∀ x y, link_of (b.terminals net) X x y ↔ S x y)
    (i j : Nat) (hi : i < (b.terminals net).length) (hj : j < (b.terminals net).length) :
    Conn (et ++ X) i j ↔
      Relation.EqvGen (fun u v => track_step b net u v ∨ S u v)
        (end_of (b.terminals net) i) (end_of (b.terminals net) j) := by
  have het : pairs_ok (b.terminals net).length et := collect_track_edges_lt _ _ _ _ hct
  constructor
  · intro h
    have h1 := conn_to_links (b.terminals net) (et ++ X) (pairs_ok_append _ _ _ het hX) i j h
    refine eqvGen_of_imp ?_ h1
    intro x y hxy
    rcases (link_of_append _ _ _ _ _).1 hxy with q | q
    · rcases (link_of_tracks b net et hct x y).1 q with r | r
      · exact Relation.EqvGen.rel _ _ (Or.inl r)
      · exact Relation.EqvGen.symm _ _ (Relation.EqvGen.rel _ _ (Or.inl r))
    · exact Relation.EqvGen.rel _ _ (Or.inr ((hS x y).1 q))
  · intro h
    have h1 : Relation.EqvGen (link_of (b.terminals net) (et ++ X))
        (end_of (b.terminals net) i) (end_of (b.terminals net) j) := by
      refine eqvGen_of_imp ?_ h
      intro x y hxy
      rcases hxy with q | q
      · rcases (link_of_tracks b net et hct x y).2 q with r | r
        · exact Relation.EqvGen.rel _ _ ((link_of_append _ _ _ _ _).2 (Or.inl r))
        · exact Relation.EqvGen.symm _ _
            (Relation.EqvGen.rel _ _ ((link_of_append _ _ _ _ _).2 (Or.inl r)))
      · exact Relation.EqvGen.rel _ _ ((link_of_append _ _ _ _ _).2 (Or.inr ((hS x y).2 q)))
    exact (links_to_conn _ hnd _ _ _ h1).2 i j hi hj rfl rfl

theorem link_of_nil (terms : List (Connection × Coordi)) (x y : Connection) :
    link_of terms [] x y ↔ False := by
  unfold link_of
  simp

theorem track_only_iff (b : Board) (net : Net) (et : List (Nat × Nat))
    (hct : collect_track_edges (b.terminals net) net b.tracks [] = some et)
    (hnd : ((b.terminals net).map Prod.fst).Nodup)
    (i j : Nat) (hi : i < (b.terminals net).length) (hj : j < (b.terminals net).length) :
    Conn et i j ↔
      Relation.EqvGen (track_step b net)
        (end_of (b.terminals net) i) (end_of (b.terminals net) j) := by
  have h := track_path_iff b net et hct hnd [] (fun x hx => absurd hx (List.not_mem_nil _))
    (fun _ _ => False) (link_of_nil _) i j hi hj
  rw [List.append_nil] at h
  rw [h]
  constructor
  · intro q
    refine eqvGen_of_imp ?_ q
    intro x y hxy
    rcases hxy with r | r
    · exact Relation.EqvGen.rel _ _ r
    · exact absurd r id
  · intro q
    refine eqvGen_of_imp ?_ q
    intro x y hxy
    exact Relation.EqvGen.rel _ _ (Or.inl hxy)

theorem update_airwires_net (del : List Vector2 → List Edge) (rnd : Nat → UUID)
    (hr : Function.Injective rnd) (b b' : Board) (net : Net) (hnet : net ∈ b.collect_nets)
    (h : b.update_airwires del rnd = some b') :
    ∃ et mst, collect_track_edges (b.terminals net) net b.tracks [] = some et ∧
      b.net_mst del net = some mst ∧
      b'.airwires_of net = mst.map (airwire_track (b.terminals net) net) := by
  have hof := airwires_of_net del rnd hr b b' net hnet h
  unfold Board.update_airwires at h
  cases hl : b.airwires_loop del rnd b.collect_nets ([], 0) with
  | none => rw [hl] at h; simp at h
  | some st =>
    obtain ⟨et, het⟩ := airwires_loop_some del rnd b _ _ _ hl net hnet
    have hm := net_mst_eq del b net et het
    refine ⟨et, _, het, hm, ?_⟩
    rw [hof]
    unfold net_airwires
    rw [hm]

theorem tri_pairs_ok (del : List Vector2 → List Edge) (terms : List (Connection × Coordi))
    (hd : del_ok del (make_points terms)) :
    pairs_ok terms.length (edge_pairs (tri_edges del (make_points terms))) := by
  apply pairs_ok_of_edges_ok
  intro e he
  have := tri_edges_mem del _ hd e he
  have h1 := (mem_points _ (make_points_ok terms) e.p1 this.1).1
  have h2 := (mem_points _ (make_points_ok terms) e.p2 this.2).1
  rw [make_points_length] at h1 h2
  exact ⟨h1, h2⟩

/-- The hypothesis that tracks and candidate edges connect the terminals, read on
the indices. -/
theorem conn_of_paths (del : List Vector2 → List Edge) (b : Board) (net : Net)
    (et : List (Nat × Nat))
    (hct : collect_track_edges (b.terminals net) net b.tracks [] = some et)
    (hnd : ((b.terminals net).map Prod.fst).Nodup)
    (hd : del_ok del (make_points (b.terminals net)))
    (hconn : ∀ x ∈ (b.terminals net).map Prod.fst, ∀ y ∈ (b.terminals net).map Prod.fst,
      Relation.EqvGen
        (fun u v => track_step b net u v ∨ cand_step del (b.terminals net) u v) x y) :
    ∀ i j, i < (b.terminals net).length → j < (b.terminals net).length →
      Conn (et ++ edge_pairs (tri_edges del (make_points (b.terminals net)))) i j := by
  intro i j hi hj
  rw [track_path_iff b net et hct hnd _ (tri_pairs_ok del _ hd) _
    (link_of_cands del (b.terminals net)) i j hi hj]
  obtain ⟨t, ht, e1⟩ := end_of_mem _ i hi
  obtain ⟨u, hu, e2⟩ := end_of_mem _ j hj
  apply hconn
  · rw [e1]; exact List.mem_map.2 ⟨t, List.get?_mem ht, rfl⟩
  · rw [e2]; exact List.mem_map.2 ⟨u, List.get?_mem hu, rfl⟩

theorem airwire_track_ends (terms : List (Connection × Coordi)) (net : Net) (e : Edge)
    (h1 : e.p1.id < terms.length) (h2 : e.p2.id < terms.length) :
    (airwire_track terms net e).from_ ∈ terms.map Prod.fst ∧
    (airwire_track terms net e).to_ ∈ terms.map Prod.fst := by
  obtain ⟨t, ht, e1⟩ := end_of_mem _ _ h1
  obtain ⟨u, hu, e2⟩ := end_of_mem _ _ h2
  constructor
  · show end_of terms e.p1.id ∈ _
    rw [e1]; exact List.mem_map.2 ⟨t, List.get?_mem ht, rfl⟩
  · show end_of terms e.p2.id ∈ _
    rw [e2]; exact List.mem_map.2 ⟨u, List.get?_mem hu, rfl⟩

/-- C6. Let the terminals of a net of the board be distinct connections, and let
the tracks of the net and the candidate edges together connect all its terminals.
After `update_airwires` (with fresh identifiers) the airwires of the net that are
stored on the board run between terminals of the net, and they form a spanning
tree over the components of the tracks: tracks and airwires together connect all
terminals of the net, no airwire joins two terminals that a path of tracks of the
net connects, and no airwire joins two terminals that the tracks and the other
airwires connect (there is no cycle). -/
theorem airwires_spanning_tree (del : List Vector2 → List Edge) (rnd : Nat → UUID)
    (hr : Function.Injective rnd) (b : Board) (net : Net) (hnet : net ∈ b.collect_nets)
    (hnd : ((b.terminals net).map Prod.fst).Nodup)
    (h32 : (b.terminals net).length < 4294967296)
    (hd : del_ok del (make_points (b.terminals net)))
    (hconn : ∀ x ∈ (b.terminals net).map Prod.fst, ∀ y ∈ (b.terminals net).map Prod.fst,
      Relation.EqvGen
        (fun u v => track_step b net u v ∨ cand_step del (b.terminals net) u v) x y)
    (b' : Board) (h : b.update_airwires del rnd = some b') :
    b'.tracks = b.tracks ∧
    (∀ a ∈ b'.airwires_of net, a.is_air = true ∧
      a.from_ ∈ (b.terminals net).map Prod.fst ∧ a.to_ ∈ (b.terminals net).map Prod.fst) ∧
    (∀ x ∈ (b.terminals net).map Prod.fst, ∀ y ∈ (b.terminals net).map Prod.fst,
      Relation.EqvGen
        (fun u v => track_step b net u v ∨ air_step (b'.airwires_of net) u v) x y) ∧
    (∀ a ∈ b'.airwires_of net, ¬ Relation.EqvGen (track_step b net) a.from_ a.to_) ∧
    (∀ A1 a A2, b'.airwires_of net = A1 ++ a :: A2 →
      ¬ Relation.EqvGen (fun u v => track_step b net u v ∨ air_step (A1 ++ A2) u v)
        a.from_ a.to_) := by
  obtain ⟨et, mst, hct, hm, hair⟩ := update_airwires_net del rnd hr b b' net hnet h
  have h0 := terminals_pos b net hnet
  have hidx := conn_of_paths del b net et hct hnd hd hconn
  obtain ⟨mst1, g1, _, g3, _, _, _, _⟩ := net_mst_facts del b net h0 h32 hd et hct
  obtain ⟨mst2, k1, k2, k3, k4⟩ := net_mst_tree del b net hnet h32 hd et hct hidx
  have q1 : mst1 = mst := Option.some.inj (g1.symm.trans hm)
  have q2 : mst2 = mst := Option.some.inj (k1.symm.trans hm)
  rw [q1] at g3
  rw [q2] at k2 k3 k4
  have hsub : ∀ K : List Edge, (∀ e ∈ K, e ∈ mst) →
      pairs_ok (b.terminals net).length (edge_pairs K) := by
    intro K hK
    apply pairs_ok_of_edges_ok
    intro e he
    exact g3 e (hK e he)
  refine ⟨(update_airwires_fields del rnd b b' h).1, ?_, ?_, ?_, ?_⟩
  · intro a ha
    rw [hair] at ha
    obtain ⟨e, he, rfl⟩ := List.mem_map.1 ha
    exact ⟨rfl, airwire_track_ends _ net e (g3 e he).1 (g3 e he).2⟩
  · intro x hx y hy
    obtain ⟨i, hi, rfl⟩ := mem_terms_index _ x hx
    obtain ⟨j, hj, rfl⟩ := mem_terms_index _ y hy
    rw [hair]
    exact (track_path_iff b net et hct hnd _ (hsub mst (fun _ q => q)) _
      (link_of_airwires (b.terminals net) net mst g3) i j hi hj).1 (k2 i j hi hj)
  · intro a ha hpath
    rw [hair] at ha
    obtain ⟨e, he, rfl⟩ := List.mem_map.1 ha
    exact k3 e he ((track_only_iff b net et hct hnd _ _ (g3 e he).1 (g3 e he).2).2 hpath)
  · intro A1 a A2 hsplit hpath
    rw [hair] at hsplit
    obtain ⟨K1, K2', hK, hA1, hrest⟩ := List.map_eq_append_iff.1 hsplit
    obtain ⟨e, K2, hK2, hea, hA2⟩ := List.map_eq_cons_iff.1 hrest
    subst hK2
    have hmem : ∀ x ∈ K1 ++ K2, x ∈ mst := by
      intro x hx
      rw [hK]
      rcases List.mem_append.1 hx with q | q
      · exact List.mem_append_left _ q
      · exact List.mem_append_right _ (List.mem_cons_of_mem _ q)
    have he : e ∈ mst := by
      rw [hK]
      exact List.mem_append_right _ (List.mem_cons_self _ _)
    have hA : A1 ++ A2 = (K1 ++ K2).map (airwire_track (b.terminals net) net) := by
      rw [List.map_append, hA1, hA2]
    rw [hA, ← hea] at hpath
    exact k4 K1 e K2 hK
      ((track_path_iff b net et hct hnd _ (hsub _ hmem) _
        (link_of_airwires (b.terminals net) net (K1 ++ K2) (fun x hx => g3 x (hmem x hx)))
        _ _ (g3 e he).1 (g3 e he).2).2 hpath)

theorem eqvGen_of_hub {α : Type} (R : α → α → Prop) (L : List α) (hub : α)
    (h : ∀ x ∈ L, Relation.EqvGen R hub x) :
    ∀ x ∈ L, ∀ y ∈ L, Relation.EqvGen R x y :=
  fun x hx y hy => Relation.EqvGen.trans _ _ _ (Relation.EqvGen.symm _ _ (h x hx)) (h y hy)

theorem eqvGen_label {α : Type} (R : α → α → Prop) (f : α → Nat)
    (hf : ∀ x y, R x y → f x = f y) {x y : α} (h : Relation.EqvGen R x y) : f x = f y := by
  induction h with
  | rel x y hr => exact hf x y hr
  | refl x => rfl
  | symm x y _ ih => exact ih.symm
  | trans x y z _ _ ih1 ih2 => exact ih1.trans ih2

theorem rnd_air_example_injective : Function.Injective rnd_air_example := by
  intro a c h
  unfold rnd_air_example at h
  have key : ∀ x y : Nat, x + 100 = y + 100 → x = y := by
    intro x y q
    omega
  exact key a c h

/-- The three pads of `board_three_routed` are joined by its track and the
candidate edges of `del_complete`. -/
theorem board_three_paths :
    ∀ x ∈ (board_three_routed.terminals 1).map Prod.fst,
      ∀ y ∈ (board_three_routed.terminals 1).map Prod.fst,
        Relation.EqvGen (fun u v => track_step board_three_routed 1 u v ∨
          cand_step del_complete (board_three_routed.terminals 1) u v) x y := by
  apply eqvGen_of_hub _ _ (.pad 1 1)
  intro x hx
  have e : (board_three_routed.terminals 1).map Prod.fst =
      [Connection.pad 1 1, Connection.pad 1 2, Connection.pad 1 3] := by decide
  rw [e] at hx
  simp only [List.mem_cons, List.mem_singleton, List.not_mem_nil, or_false] at hx
  rcases hx with rfl | rfl | rfl
  · exact Relation.EqvGen.refl _
  · exact Relation.EqvGen.rel _ _ (Or.inl (by decide))
  · exact Relation.EqvGen.rel _ _ (Or.inr (by decide))

theorem airwires_spanning_tree_witness :
    (board_three_routed.update_airwires del_complete rnd_air_example).isSome = true ∧
    ∀ b', board_three_routed.update_airwires del_complete rnd_air_example = some b' →
      b'.tracks = board_three_routed.tracks ∧
      (∀ x ∈ (board_three_routed.terminals 1).map Prod.fst,
        ∀ y ∈ (board_three_routed.terminals 1).map Prod.fst,
          Relation.EqvGen (fun u v => track_step board_three_routed 1 u v ∨
            air_step (b'.airwires_of 1) u v) x y) ∧
      (∀ a ∈ b'.airwires_of 1,
        ¬ Relation.EqvGen (track_step board_three_routed 1) a.from_ a.to_) :=
  ⟨by decide, fun b' h =>
    have t := airwires_spanning_tree del_complete rnd_air_example rnd_air_example_injective
      board_three_routed 1 (by decide) (by decide) (by decide) (by unfold del_ok; decide)
      board_three_paths b' h
    ⟨t.1, t.2.2.1, t.2.2.2.1⟩⟩

/-- C5, amended. Let the terminals of a net of the board be distinct connections,
let `comp` label them by the components that the tracks of the net form (two
terminals have the same label if and only if a path of tracks of the net joins
them), so that `c = ncomp k comp` is the number of these components among the `k`
terminals, and let the tracks and the candidate edges together connect all
terminals. After `update_airwires` (with fresh identifiers) the board stores
exactly `c - 1` airwires of the net, and none when `c = 1`. -/
theorem airwire_count (del : List Vector2 → List Edge) (rnd : Nat → UUID)
    (hr : Function.Injective rnd) (b : Board) (net : Net) (hnet : net ∈ b.collect_nets)
    (hnd : ((b.terminals net).map Prod.fst).Nodup)
    (h32 : (b.terminals net).length < 4294967296)
    (hd : del_ok del (make_points (b.terminals net)))
    (comp : Nat → Nat)
    (hcomp : ∀ i j, i < (b.terminals net).length → j < (b.terminals net).length →
      (comp i = comp j ↔ Relation.EqvGen (track_step b net)
        (end_of (b.terminals net) i) (end_of (b.terminals net) j)))
    (hconn : ∀ x ∈ (b.terminals net).map Prod.fst, ∀ y ∈ (b.terminals net).map Prod.fst,
      Relation.EqvGen
        (fun u v => track_step b net u v ∨ cand_step del (b.terminals net) u v) x y)
    (b' : Board) (h : b.update_airwires del rnd = some b') :
    (b'.airwires_of net).length + 1 = ncomp (b.terminals net).length comp ∧
    (ncomp (b.terminals net).length comp = 1 → b'.airwires_of net = []) ∧
    ∀ a ∈ b'.airwires_of net, a.is_air = true ∧ a.net = some net ∧
      a.from_ ∈ (b.terminals net).map Prod.fst ∧ a.to_ ∈ (b.terminals net).map Prod.fst := by
  obtain ⟨et, mst, hct, hm, hair⟩ := update_airwires_net del rnd hr b b' net hnet h
  have h0 := terminals_pos b net hnet
  have hidx := conn_of_paths del b net et hct hnd hd hconn
  obtain ⟨mst1, g1, _, g3, _, _, _, g7⟩ := net_mst_facts del b net h0 h32 hd et hct
  have q1 : mst1 = mst := Option.some.inj (g1.symm.trans hm)
  rw [q1] at g3 g7
  have htag : tagging (b.terminals net).length et comp := by
    intro i j hi hj
    rw [hcomp i j hi hj, track_only_iff b net et hct hnd i j hi hj]
  have hcount := g7 comp htag hidx
  have hlen : (b'.airwires_of net).length = mst.length := by
    rw [hair, List.length_map]
  refine ⟨by rw [hlen]; exact hcount, ?_, ?_⟩
  · intro hc
    apply List.eq_nil_of_length_eq_zero
    omega
  · intro a ha
    rw [hair] at ha
    obtain ⟨e, he, rfl⟩ := List.mem_map.1 ha
    exact ⟨rfl, rfl, airwire_track_ends _ net e (g3 e he).1 (g3 e he).2⟩

theorem board_three_labels :
    ∀ i j, i < (board_three_routed.terminals 1).length →
      j < (board_three_routed.terminals 1).length →
      (label_three (end_of (board_three_routed.terminals 1) i) =
          label_three (end_of (board_three_routed.terminals 1) j) ↔
        Relation.EqvGen (track_step board_three_routed 1)
          (end_of (board_three_routed.terminals 1) i)
          (end_of (board_three_routed.terminals 1) j)) := by
  have hlen : (board_three_routed.terminals 1).length = 3 := by decide
  have hinv : ∀ x y, track_step board_three_routed 1 x y → label_three x = label_three y := by
    intro x y hxy
    obtain ⟨t, ht, _, rfl, rfl⟩ := hxy
    have hall : ∀ t ∈ board_three_routed.tracks,
        label_three t.2.from_ = label_three t.2.to_ := by decide
    exact hall t ht
  have h01 : Relation.EqvGen (track_step board_three_routed 1)
      (end_of (board_three_routed.terminals 1) 0)
      (end_of (board_three_routed.terminals 1) 1) :=
    Relation.EqvGen.rel _ _ (by decide)
  intro i j hi hj
  rw [hlen] at hi hj
  constructor
  · intro hl
    interval_cases i <;> interval_cases j
    · exact Relation.EqvGen.refl _
    · exact h01
    · exact absurd hl (by decide)
    · exact Relation.EqvGen.symm _ _ h01
    · exact Relation.EqvGen.refl _
    · exact absurd hl (by decide)
    · exact absurd hl (by decide)
    · exact absurd hl (by decide)
    · exact Relation.EqvGen.refl _
  · intro hp
    exact eqvGen_label _ label_three hinv hp

theorem airwire_count_witness :
    (board_three_routed.update_airwires del_complete rnd_air_example).isSome = true ∧
    board_three_routed.tracks.length = 1 ∧
    ncomp (board_three_routed.terminals 1).length
      (fun i => label_three (end_of (board_three_routed.terminals 1) i)) = 2 ∧
    ∀ b', board_three_routed.update_airwires del_complete rnd_air_example = some b' →
      (b'.airwires_of 1).length + 1 = ncomp (board_three_routed.terminals 1).length
        (fun i => label_three (end_of (board_three_routed.terminals 1) i)) :=
  ⟨by decide, by decide, by decide, fun b' h =>
    (airwire_count del_complete rnd_air_example rnd_air_example_injective
      board_three_routed 1 (by decide) (by decide) (by decide) (by unfold del_ok; decide)
      (fun i => label_three (end_of (board_three_routed.terminals 1) i))
      board_three_labels board_three_paths b' h).1⟩

theorem natAbs_lt_of_bounds (n : Int) (B : Nat) (h0 : 0 ≤ n) (h1 : n < (B : Int)) :
    n.natAbs < B := by
  omega

theorem natAbs_lt_of_sq (n : Int) (B : Nat) (h : n * n < (B : Int)) : n.natAbs < B := by
  have h1 := Int.natAbs_le_self_sq n
  rw [pow_two] at h1
  omega

/-- Below `2 ^ 53` the computed squared distance is the squared distance. -/
theorem dist2_double_exact (p q : Coordi) (hpx : p.x.natAbs < 9007199254740992)
    (hpy : p.y.natAbs < 9007199254740992) (hqx : q.x.natAbs < 9007199254740992)
    (hqy : q.y.natAbs < 9007199254740992) (hd : p.dist2 q < 9007199254740992) :
    p.dist2_double q = p.dist2 q := by
  unfold Coordi.dist2 at hd
  have sx : 0 ≤ (p.x - q.x) * (p.x - q.x) := mul_self_nonneg _
  have sy : 0 ≤ (p.y - q.y) * (p.y - q.y) := mul_self_nonneg _
  have bx : (p.x - q.x) * (p.x - q.x) < ((9007199254740992 : Nat) : Int) := by
    push_cast
    omega
  have by_ : (p.y - q.y) * (p.y - q.y) < ((9007199254740992 : Nat) : Int) := by
    push_cast
    omega
  have bs : (p.x - q.x) * (p.x - q.x) + (p.y - q.y) * (p.y - q.y) <
      ((9007199254740992 : Nat) : Int) := by
    push_cast
    omega
  unfold Coordi.dist2_double Vector2.dist2 Coordi.dist2
  simp only
  rw [round_double_small _ hpx, round_double_small _ hpy, round_double_small _ hqx,
    round_double_small _ hqy, round_double_small _ (natAbs_lt_of_sq _ _ bx),
    round_double_small _ (natAbs_lt_of_sq _ _ by_),
    round_double_small _ (natAbs_lt_of_bounds _ _ sx bx),
    round_double_small _ (natAbs_lt_of_bounds _ _ sy by_),
    round_double_small _ (natAbs_lt_of_bounds _ _ (add_nonneg sx sy) bs)]

/-- C8, as stated, fails in the weight: for two pads of one net at `(0,0)` and
`(100000001,0)` without a track, `expand` stores one airwire between the pads, and
the edge of the spanning tree behind it has the weight `10000000200000000`, which
is the `double` next to the squared distance `10000000200000001`. -/
theorem two_terminals_weight_rounded :
    ∃ b', board_far.expand del_complete rnd_example rnd_air_example 10 = some b' ∧
      b'.terminals 1 = [(.pad 1 1, ⟨0, 0⟩), (.pad 1 2, ⟨100000001, 0⟩)] ∧
      b'.tracks = [] ∧
      b'.airwires_of 1 = [{ from_ := .pad 1 1, to_ := .pad 1 2, net := some 1, is_air := true }] ∧
      b'.net_mst del_complete 1 =
        some [Edge.mk ⟨0, 0, 0⟩ ⟨100000001, 0, 1⟩ 10000000200000000] ∧
      Coordi.dist2 ⟨0, 0⟩ ⟨100000001, 0⟩ = 10000000200000001 :=
  ⟨_, rfl, by decide, by decide, by decide, by decide, by decide⟩

/-- With two terminals and no track between them, the edges that the loop over the
tracks collects join a terminal to itself. -/
theorem two_terminals_loops (b : Board) (net : Net) (c0 c1 : Connection) (p q : Coordi)
    (hterms : b.terminals net = [(c0, p), (c1, q)])
    (hno : ∀ t ∈ b.tracks, t.2.net = some net →
      ¬ ((t.2.from_ = c0 ∧ t.2.to_ = c1) ∨ (t.2.from_ = c1 ∧ t.2.to_ = c0)))
    (et : List (Nat × Nat))
    (hct : collect_track_edges (b.terminals net) net b.tracks [] = some et) :
    ∀ x ∈ et, x.1 = x.2 := by
  intro x hx
  rcases ((collect_track_edges_spec _ net b.tracks [] et hct).1 x).1 hx with
    h | ⟨e, he, hn, i, j, ci, cj, hpair⟩
  · simp at h
  · obtain ⟨li, ti, gi, fi⟩ := connmap_at_some _ _ i ci
    obtain ⟨lj, tj, gj, fj⟩ := connmap_at_some _ _ j cj
    rw [hterms] at li lj gi gj
    have hij : i = j := by
      by_contra hne
      simp only [List.length_cons, List.length_nil] at li lj
      have hcase : (i = 0 ∧ j = 1) ∨ (i = 1 ∧ j = 0) := by omega
      rcases hcase with ⟨rfl, rfl⟩ | ⟨rfl, rfl⟩
      · simp only [List.get?_cons_zero, List.get?_cons_succ, Option.some.injEq] at gi gj
        exact hno e he hn (Or.inl ⟨by rw [← fi, ← gi], by rw [← fj, ← gj]⟩)
      · simp only [List.get?_cons_zero, List.get?_cons_succ, Option.some.injEq] at gi gj
        exact hno e he hn (Or.inr ⟨by rw [← fi, ← gi], by rw [← fj, ← gj]⟩)
    rw [hpair, hij]
    unfold track_pair
    split <;> rfl

/-- The spanning tree of a net with two terminals and no track between them: the
one candidate edge, weighted with the computed squared distance. -/
theorem two_terminals_mst (del : List Vector2 → List Edge) (b : Board) (net : Net)
    (c0 c1 : Connection) (p q : Coordi)
    (hterms : b.terminals net = [(c0, p), (c1, q)])
    (hno : ∀ t ∈ b.tracks, t.2.net = some net →
      ¬ ((t.2.from_ = c0 ∧ t.2.to_ = c1) ∨ (t.2.from_ = c1 ∧ t.2.to_ = c0)))
    (et : List (Nat × Nat))
    (hct : collect_track_edges (b.terminals net) net b.tracks [] = some et) :
    b.net_mst del net = some [Edge.mk ⟨round_double p.x, round_double p.y, 0⟩
      ⟨round_double q.x, round_double q.y, 1⟩ (p.dist2_double q)] := by
  have hloops := two_terminals_loops b net c0 c1 p q hterms hno et hct
  have hlen : (b.terminals net).length = 2 := by rw [hterms]; rfl
  have hpts : make_points (b.terminals net) =
      [⟨round_double p.x, round_double p.y, 0⟩, ⟨round_double q.x, round_double q.y, 1⟩] := by
    rw [hterms]; rfl
  have htri : ∀ d : List Vector2 → List Edge, tri_edges d (make_points (b.terminals net)) =
      [Edge.mk ⟨round_double p.x, round_double p.y, 0⟩
        ⟨round_double q.x, round_double q.y, 1⟩ (-1)] := by
    intro d
    rw [hpts]
    rfl
  have hsame : b.net_mst del net = b.net_mst (fun _ => []) net := by
    unfold Board.net_mst edges_for_mst
    simp only [htri]
  have hd : del_ok (fun _ => []) (make_points (b.terminals net)) := by
    intro e he
    simp at he
  obtain ⟨mst, g1, _, _, g4, _, _, g7⟩ := net_mst_facts (fun _ => []) b net
    (by rw [hlen]; decide) (by rw [hlen]; decide) hd et hct
  have htag : tagging (b.terminals net).length et (fun i => i) := by
    intro i j _ _
    constructor
    · intro h
      have h' : i = j := h
      rw [h']
      exact Conn.refl _ _
    · intro h
      exact Conn.induct (fun a c => a = c) (fun _ => rfl) (fun _ _ h => h.symm)
        (fun _ _ _ h1 h2 => h1.trans h2) (fun a c hac => hloops (a, c) hac) h
  have hconn : ∀ i j, i < (b.terminals net).length → j < (b.terminals net).length →
      Conn (et ++ edge_pairs (tri_edges (fun _ => []) (make_points (b.terminals net)))) i j := by
    intro i j hi hj
    rw [hlen] at hi hj
    apply conn_two_of_edge _ _ i j hi hj
    rw [htri]
    exact List.mem_append_right _ (List.mem_singleton.2 rfl)
  have hcount := g7 (fun i => i) htag hconn
  rw [hlen, ncomp_id 2 (fun i => i) (fun _ _ => rfl)] at hcount
  rw [hsame, g1]
  have hone : ∃ e, mst = [e] := by
    match mst, hcount with
    | [e], _ => exact ⟨e, rfl⟩
  obtain ⟨e, he⟩ := hone
  obtain ⟨_, _, _, e0, h0, hre⟩ := g4 e (by rw [he]; exact List.mem_singleton.2 rfl)
  rw [htri] at h0
  rw [he, hre, List.mem_singleton.1 h0]
  rfl

/-- C8, amended. For a net of the board with exactly two terminals, at `p` and
`q`, and no track between them, `update_airwires` (with fresh identifiers) stores
exactly one airwire of that net, and it joins the two terminals. The edge of the
spanning tree behind it has as weight the squared distance computed in `double`;
when the coordinates and the squared distance `(px-qx)²+(py-qy)²` are below
`2 ^ 53`, this is the squared distance. -/
theorem two_terminals_one_airwire (del : List Vector2 → List Edge) (rnd : Nat → UUID)
    (hr : Function.Injective rnd) (b : Board) (net : Net) (hnet : net ∈ b.collect_nets)
    (c0 c1 : Connection) (p q : Coordi)
    (hterms : b.terminals net = [(c0, p), (c1, q)])
    (hno : ∀ t ∈ b.tracks, t.2.net = some net →
      ¬ ((t.2.from_ = c0 ∧ t.2.to_ = c1) ∨ (t.2.from_ = c1 ∧ t.2.to_ = c0)))
    (b' : Board) (h : b.update_airwires del rnd = some b') :
    b'.airwires_of net = [{ from_ := c0, to_ := c1, net := some net, is_air := true }] ∧
    b.net_mst del net = some [Edge.mk ⟨round_double p.x, round_double p.y, 0⟩
      ⟨round_double q.x, round_double q.y, 1⟩ (p.dist2_double q)] ∧
    (p.x.natAbs < 9007199254740992 → p.y.natAbs < 9007199254740992 →
      q.x.natAbs < 9007199254740992 → q.y.natAbs < 9007199254740992 →
      (p.x - q.x) * (p.x - q.x) + (p.y - q.y) * (p.y - q.y) < 9007199254740992 →
      p.dist2_double q = (p.x - q.x) * (p.x - q.x) + (p.y - q.y) * (p.y - q.y)) := by
  obtain ⟨et, mst, hct, hm, hair⟩ := update_airwires_net del rnd hr b b' net hnet h
  have hmst := two_terminals_mst del b net c0 c1 p q hterms hno et hct
  refine ⟨?_, hmst, fun h1 h2 h3 h4 h5 => dist2_double_exact p q h1 h2 h3 h4 h5⟩
  rw [hair, Option.some.inj (hm.symm.trans hmst), hterms]
  rfl

theorem two_terminals_one_airwire_witness :
    (board_two_pads.expand_prepare.update_airwires del_complete rnd_air_example).isSome = true ∧
    Coordi.dist2_double ⟨0, 0⟩ ⟨3, 4⟩ = 25 ∧
    ∀ b', board_two_pads.expand_prepare.update_airwires del_complete rnd_air_example = some b' →
      b'.airwires_of 1 =
        [{ from_ := .pad 1 1, to_ := .pad 1 2, net := some 1, is_air := true }] ∧
      board_two_pads.expand_prepare.net_mst del_complete 1 =
        some [Edge.mk ⟨round_double 0, round_double 0, 0⟩ ⟨round_double 3, round_double 4, 1⟩
          (Coordi.dist2_double ⟨0, 0⟩ ⟨3, 4⟩)] :=
  ⟨by decide, by decide, fun b' h =>
    have t := two_terminals_one_airwire del_complete rnd_air_example rnd_air_example_injective
      board_two_pads.expand_prepare 1 (by decide) (.pad 1 1) (.pad 1 2) ⟨0, 0⟩ ⟨3, 4⟩
      (by decide) (by decide) b' h
    ⟨t.1, t.2.1⟩⟩

/-- C9, as stated, fails: pad 3 at `(0,0)` is nearer to pad 2 at `(200000000,0)`
than to pad 1 at `(200000000,1)`, the two candidate edges get the same computed
weight, and with the track between pads 1 and 2 `expand` stores one airwire, which
joins pad 3 to pad 1, the farther one. -/
theorem third_terminal_farther :
    (board_far_three.expand del_complete rnd_example rnd_air_example 10).isSome = true ∧
    (board_far_three.expand del_complete rnd_example rnd_air_example 10).map
        (fun b' => b'.terminals 1) =
      some [(.pad 1 1, ⟨200000000, 1⟩), (.pad 1 2, ⟨200000000, 0⟩), (.pad 1 3, ⟨0, 0⟩)] ∧
    (board_far_three.expand del_complete rnd_example rnd_air_example 10).map
        (fun b' => b'.tracks.map (fun e => (e.2.from_, e.2.to_, e.2.net))) =
      some [(.pad 1 1, .pad 1 2, some 1)] ∧
    (board_far_three.expand del_complete rnd_example rnd_air_example 10).map
        (fun b' => b'.airwires_of 1) =
      some [{ from_ := .pad 1 1, to_ := .pad 1 3, net := some 1, is_air := true }] ∧
    Coordi.dist2 ⟨0, 0⟩ ⟨200000000, 1⟩ = 40000000000000001 ∧
    Coordi.dist2 ⟨0, 0⟩ ⟨200000000, 0⟩ = 40000000000000000 ∧
    Coordi.dist2_double ⟨0, 0⟩ ⟨200000000, 1⟩ = 40000000000000000 ∧
    Coordi.dist2_double ⟨0, 0⟩ ⟨200000000, 0⟩ = 40000000000000000 :=
  ⟨by decide!, by decide!, by decide!, by decide!, by decide, by decide, by decide, by decide⟩

/-- C9, amended. For a net of the board with exactly three terminals `a`, `b`, `c`
(three different connections), where every track of the net runs between `a` and
`b`, at least one of them joins `a` to `b`, and the candidate edges contain all
three pairs of terminals, `update_airwires` (with fresh identifiers) stores exactly
one airwire of that net. It joins `c` to `a` or to `b`, to one whose squared
distance from `c`, computed in `double`, is not greater than that of the other;
when the coordinates and the two squared distances are below `2 ^ 53`, it joins
`c` to the nearer of `a` and `b`. -/
theorem third_terminal_airwire (del : List Vector2 → List Edge) (rnd : Nat → UUID)
    (hr : Function.Injective rnd) (b : Board) (net : Net) (hnet : net ∈ b.collect_nets)
    (ta tb tc : Connection × Coordi) (ia ib ic : Nat)
    (hlen : (b.terminals net).length = 3)
    (hnd : ((b.terminals net).map Prod.fst).Nodup)
    (ha : (b.terminals net).get? ia = some ta)
    (hb : (b.terminals net).get? ib = some tb)
    (hc : (b.terminals net).get? ic = some tc)
    (hab : ia ≠ ib) (hac : ia ≠ ic) (hbc : ib ≠ ic)
    (htracks : ∀ e ∈ b.tracks, e.2.net = some net →
      (e.2.from_ = ta.1 ∨ e.2.from_ = tb.1) ∧ (e.2.to_ = ta.1 ∨ e.2.to_ = tb.1))
    (hjoin : ∃ e ∈ b.tracks, e.2.net = some net ∧
      ((e.2.from_ = ta.1 ∧ e.2.to_ = tb.1) ∨ (e.2.from_ = tb.1 ∧ e.2.to_ = ta.1)))
    (hd : del_ok del (make_points (b.terminals net)))
    (hall : ∀ i j, i < j → j < 3 →
      ∃ e ∈ del (make_points (b.terminals net)), tri_pair e = (i, j))
    (b' : Board) (h : b.update_airwires del rnd = some b') :
    ∃ tx, (tx = ta ∨ tx = tb) ∧
      (b'.airwires_of net =
          [{ from_ := tc.1, to_ := tx.1, net := some net, is_air := true }] ∨
        b'.airwires_of net =
          [{ from_ := tx.1, to_ := tc.1, net := some net, is_air := true }]) ∧
      tc.2.dist2_double tx.2 ≤ tc.2.dist2_double ta.2 ∧
      tc.2.dist2_double tx.2 ≤ tc.2.dist2_double tb.2 ∧
      ((∀ t, t = ta ∨ t = tb ∨ t = tc →
          t.2.x.natAbs < 9007199254740992 ∧ t.2.y.natAbs < 9007199254740992) →
        tc.2.dist2 ta.2 < 9007199254740992 → tc.2.dist2 tb.2 < 9007199254740992 →
        tc.2.dist2 tx.2 ≤ tc.2.dist2 ta.2 ∧ tc.2.dist2 tx.2 ≤ tc.2.dist2 tb.2) := by
  obtain ⟨et, mst, hct, hm, hair⟩ := update_airwires_net del rnd hr b b' net hnet h
  obtain ⟨e, tx, g1, g2, g3, _, g5, g6, _⟩ := third_terminal_mst del b net ta tb tc ia ib ic
    hlen hnd ha hb hc hab hac hbc htracks hjoin hd hall
  have hmst : mst = [e] := Option.some.inj (hm.symm.trans g1)
  refine ⟨tx, g2, ?_, g5, g6, ?_⟩
  · rw [hair, hmst]
    rcases g3 with ⟨q1, q2⟩ | ⟨q1, q2⟩
    · left
      simp only [List.map_cons, List.map_nil, airwire_track, end_of, q1, q2]
    · right
      simp only [List.map_cons, List.map_nil, airwire_track, end_of, q1, q2]
  · intro hsmall hda hdb
    have sa := hsmall ta (Or.inl rfl)
    have sb := hsmall tb (Or.inr (Or.inl rfl))
    have sc := hsmall tc (Or.inr (Or.inr rfl))
    have ea := dist2_double_exact tc.2 ta.2 sc.1 sc.2 sa.1 sa.2 hda
    have eb := dist2_double_exact tc.2 tb.2 sc.1 sc.2 sb.1 sb.2 hdb
    rcases g2 with rfl | rfl
    · rw [ea, eb] at g6
      exact ⟨le_refl _, g6⟩
    · rw [ea, eb] at g5
      exact ⟨g5, le_refl _⟩

theorem third_terminal_airwire_witness :
    (board_three_routed.update_airwires del_complete rnd_air_example).isSome = true ∧
    ∀ b', board_three_routed.update_airwires del_complete rnd_air_example = some b' →
      ∃ tx, (tx = (.pad 1 1, ⟨0, 0⟩) ∨ tx = (.pad 1 2, ⟨10, 0⟩)) ∧
        (b'.airwires_of 1 =
            [{ from_ := .pad 1 3, to_ := tx.1, net := some 1, is_air := true }] ∨
          b'.airwires_of 1 =
            [{ from_ := tx.1, to_ := .pad 1 3, net := some 1, is_air := true }]) ∧
        Coordi.dist2_double ⟨20, 0⟩ tx.2 ≤ Coordi.dist2_double ⟨20, 0⟩ ⟨0, 0⟩ ∧
        Coordi.dist2_double ⟨20, 0⟩ tx.2 ≤ Coordi.dist2_double ⟨20, 0⟩ ⟨10, 0⟩ :=
  ⟨by decide, fun b' h =>
    have t := third_terminal_airwire del_complete rnd_air_example rnd_air_example_injective
      board_three_routed 1 (by decide) (.pad 1 1, ⟨0, 0⟩) (.pad 1 2, ⟨10, 0⟩)
      (.pad 1 3, ⟨20, 0⟩) 0 1 2 (by decide) (by decide) (by decide) (by decide) (by decide)
      (by decide) (by decide) (by decide) (by decide) (by decide) (by unfold del_ok; decide)
      (by
        intro i j hij hj
        interval_cases j <;> interval_cases i <;> decide) b' h
    match t with
    | ⟨tx, h1, h2, h3, h4, _⟩ => ⟨tx, h1, h2, h3, h4⟩⟩

end Horizon
